import Mathlib

/-! # versus: LCS / SES by Myers's edit graph with Ukkonen's band and Hunt's chained candidates

Shallow embedding of `src/versus.c` (function `ab` and its two entry points `lcs`, `ses`)
and a verification of the properties stated about it.

Conventions of the embedding

* Items are values of an arbitrary type `α`; the equality test `eq(a[x], b[y])` of the
  source is an arbitrary total function `eq : α → α → Bool`.
* The two Python lists are Lean lists `A`, `B`; `n = A.length`, `m = B.length`.
* `uint32_t` values are natural numbers; every place where the C arithmetic can leave the
  range `[0, 2^32)` is reduced explicitly with `u32`.
* The scratch vectors `v`, `w` (pointers into `v_`, `w_` shifted by `m + 1`) are total maps
  from the signed diagonal `k` to `uint32_t`; the node store `c` is a total map from the
  node index.  All three start zero-filled (`calloc`).
* Every loop is a structural recursion on a counter which bounds the number of iterations
  of the C loop; the loop test of the source is still evaluated on every round.
-/

namespace Versus

/-! ## Machine constants and conversions -/

/-- `UINT_MAX`, that is `2^32 - 1`. -/
def UINT_MAX : Nat := 4294967295

/-- `USHRT_MAX`, that is `2^16 - 1`. -/
def USHRT_MAX : Nat := 65535

/-- Conversion of a signed 64-bit value to `uint32_t` (reduction modulo `2^32`). -/
def u32 (t : Int) : Nat := (t % 4294967296).toNat

/-- The macro `POS(n)`, that is `((n > 0) * (n))`. -/
def POS (t : Int) : Int := (if t > 0 then 1 else 0) * t

/-! ## Data model -/

/-- The C `struct _` (typedef `node`): fields `x`, `y`, `z` and the back-link, which the
source names `_`. -/
structure node where
  x : Nat
  y : Nat
  z : Nat
  back : Nat
deriving DecidableEq, Repr

/-- One tuple of the result list: `run` is built by `Py_BuildValue("I, I, I", n, m, z)`,
`edit` by `Py_BuildValue("I, I, I, i", x, y, range, f)`. -/
inductive record where
  | run (a b len : Nat)
  | edit (a b range : Nat) (flag : Int)
deriving DecidableEq, Repr

/-- The three error messages raised by `ab`. -/
inductive Error where
  | badInputType
  | badInputSize
  | lackOfMemory
deriving DecidableEq, Repr

/-- What a successful call hands back: the list `O`, and whether the warning
"Too many edges" was issued on the way. -/
structure Output where
  warning : Bool
  records : List record
deriving DecidableEq, Repr

/-- The scratch memory of one call: vectors `v`, `w`, node store `c` and cursor `j`. -/
structure Scratch where
  v : Int → Nat
  w : Int → Nat
  c : Nat → node
  j : Nat

/-- How the forward traversal left its loops: through the end-point test (`found`),
through the `j == UINT_MAX` test (`capacity`), or by running the `d` loop to its end. -/
inductive Exit where
  | found
  | capacity
  | exhausted
deriving DecidableEq, Repr

/-- Assignment `t[k] = val` on a vector indexed by diagonals. -/
def setVec (t : Int → Nat) (k : Int) (val : Nat) : Int → Nat :=
  fun q => if q = k then val else t q

/-- Assignment `c[j] = nd` on the node store. -/
def setNode (c : Nat → node) (j : Nat) (nd : node) : Nat → node :=
  fun q => if q = j then nd else c q

/-- Zero-filled scratch, as produced by `calloc`, with `j = 0`. -/
def Scratch.init : Scratch :=
  { v := fun _ => 0, w := fun _ => 0, c := fun _ => ⟨0, 0, 0, 0⟩, j := 0 }

/-- The test `eq(a[x], b[y])`; it is only evaluated under `x < n && y < m`. -/
def itemEq {α : Type} (eq : α → α → Bool) (A B : List α) (x y : Nat) : Bool :=
  match A[x]?, B[y]? with
  | some a, some b => eq a b
  | _, _ => false

/-! ## Forward traversal -/

/-- The inner loop
`while (x < n && y < m && eq(a[x], b[y])) { j += !z; c[j] = {++x, ++y, ++z, j - w[i]}; w[k] = j; if (j == UINT_MAX) goto _; }`.
The first component of the result tells whether the loop was left through `goto _`. -/
def snake {α : Type} (eq : α → α → Bool) (A B : List α) (k i : Int) :
    Nat → Nat → Nat → Nat → Scratch → Bool × Nat × Nat × Nat × Scratch
  | 0, x, y, z, s => (false, x, y, z, s)
  | fuel + 1, x, y, z, s =>
    if x < A.length && y < B.length && itemEq eq A B x y then
      let j := s.j + (if z = 0 then 1 else 0)
      let s1 : Scratch :=
        { v := s.v
          w := setVec s.w k j
          c := setNode s.c j ⟨x + 1, y + 1, z + 1, u32 ((j : Int) - (s.w i : Int))⟩
          j := j }
      if j = UINT_MAX then (true, x + 1, y + 1, z + 1, s1)
      else snake eq A B k i fuel (x + 1) (y + 1) (z + 1) s1
    else (false, x, y, z, s)

/-- The body of the `k` loop for one diagonal.  Returns `some e` when the body leaves both
loops through `goto _`. -/
def diagonal {α : Type} (eq : α → α → Bool) (A B : List α) (d k : Int) (s : Scratch) :
    Option Exit × Scratch :=
  let down : Bool := k == -d || (k != d && decide (s.v (k - 1) < s.v (k + 1)))
  let i : Int := if down then k + 1 else k - 1
  let x : Nat := if down then s.v i else u32 ((s.v i : Int) + 1)
  let y : Nat := u32 ((x : Int) - k)
  let s1 : Scratch := { s with w := setVec s.w k (s.w i) }
  match snake eq A B k i A.length x y 0 s1 with
  | (true, _, _, _, s2) => (some Exit.capacity, s2)
  | (false, x2, y2, _, s2) =>
    if x2 ≥ A.length && y2 ≥ B.length then (some Exit.found, { s2 with j := s2.w k })
    else (none, { s2 with v := setVec s2.v k x2 })

/-- The loop `for (k = ...; k <= hi; k += 2)`, started at `k`. -/
def kLoop {α : Type} (eq : α → α → Bool) (A B : List α) (d hi : Int) :
    Nat → Int → Scratch → Option Exit × Scratch
  | 0, _, s => (none, s)
  | fuel + 1, k, s =>
    if k ≤ hi then
      match diagonal eq A B d k s with
      | (some e, s1) => (some e, s1)
      | (none, s1) => kLoop eq A B d hi fuel (k + 2) s1
    else (none, s)

/-- First diagonal of the band at edit distance `d`: `-(d - (POS(d - m) * 2))`. -/
def bandLo (m d : Int) : Int := -(d - POS (d - m) * 2)

/-- Last diagonal of the band at edit distance `d`: `d - (POS(d - n) * 2)`. -/
def bandHi (n d : Int) : Int := d - POS (d - n) * 2

/-- The loop `for (d = 0; d <= r; d++)`, started at `d`. -/
def dLoop {α : Type} (eq : α → α → Bool) (A B : List α) :
    Nat → Int → Scratch → Exit × Scratch
  | 0, _, s => (Exit.exhausted, s)
  | fuel + 1, d, s =>
    if d ≤ (A.length : Int) + (B.length : Int) then
      match kLoop eq A B d (bandHi A.length d) (d.toNat + 1) (bandLo B.length d) s with
      | (some e, s1) => (e, s1)
      | (none, s1) => dLoop eq A B fuel (d + 1) s1
    else (Exit.exhausted, s)

/-- The whole forward traversal on zero-filled scratch. -/
def traverse {α : Type} (eq : α → α → Bool) (A B : List α) : Exit × Scratch :=
  dLoop eq A B (A.length + B.length + 1) 0 Scratch.init

/-! ## Backtrack -/

/-- The two `PyList_Insert(O, 0, ...)` of the SES branch for a node `(x, y)` against the
cursors `n`, `m`: first the insertion (flag `++f`), then, in front of it, the deletion
(flag `--f`). -/
def sesEmit (x y n m : Nat) (O : List record) : List record :=
  let f0 : Int := 0
  let f1 : Int := if y < m then f0 + 1 else f0
  let O1 : List record := if y < m then record.edit x y (m - y) f1 :: O else O
  if x < n then record.edit x y (n - x) (f1 - 1) :: O1 else O1

/-- The loop `do { ... } while (z);`. -/
def backtrack (u : Bool) (c : Nat → node) :
    Nat → Nat → Nat → Nat → List record → List record
  | 0, _, _, _, O => O
  | fuel + 1, j, n, m, O =>
    let x := (c j).x
    let y := (c j).y
    let z := (c j).z
    let j1 := u32 ((j : Int) - ((c j).back : Int))
    let O1 := if u then sesEmit x y n m O else O
    let m1 := u32 ((y : Int) - (z : Int))
    let n1 := u32 ((x : Int) - (z : Int))
    let O2 := if !u && z != 0 then record.run n1 m1 z :: O1 else O1
    if z != 0 then backtrack u c fuel j1 n1 m1 O2 else O2

/-! ## Entry points -/

/-- The function `ab` on two list arguments. -/
def ab {α : Type} (eq : α → α → Bool) (A B : List α) (u : Bool) : Except Error Output :=
  if A.length = 0 || B.length = 0 || A.length > UINT_MAX || B.length > UINT_MAX then
    Except.error Error.badInputSize
  else
    match traverse eq A B with
    | (e, s) =>
      Except.ok
        { warning := e == Exit.capacity
          records := backtrack u s.c (s.j + 1) s.j A.length B.length [] }

/-- Entry point `lcs`: `ab(self, args, 0)`. -/
def lcs {α : Type} (eq : α → α → Bool) (A B : List α) : Except Error Output :=
  ab eq A B false

/-- Entry point `ses`: `ab(self, args, 1)`. -/
def ses {α : Type} (eq : α → α → Bool) (A B : List α) : Except Error Output :=
  ab eq A B true

/-! ## Specification-side notions -/

/-- Sum of the flags of a list of tuples (a `run` counts for `0`). -/
def flagSum : List record → Int
  | [] => 0
  | record.run _ _ _ :: rest => flagSum rest
  | record.edit _ _ _ f :: rest => f + flagSum rest

/-! ## Auxiliary notions used in the proofs -/

/-- Number of consecutive matching cells `(x, y), (x+1, y+1), ...` inside the grid,
counted up to `fuel`. -/
def matchLen {α : Type} (eq : α → α → Bool) (A B : List α) : Nat → Nat → Nat → Nat
  | 0, _, _ => 0
  | fuel + 1, x, y =>
    if x < A.length && y < B.length && itemEq eq A B x y then
      matchLen eq A B fuel (x + 1) (y + 1) + 1
    else 0

/-- One row of the dynamic programme for the longest common subsequence: `rest` is the
solution for the tail of `A`; the head `a` of `A` is matched against the items of `B`. -/
def lcsRow {α : Type} (eq : α → α → Bool) (a : α) (rest : List α → Nat) : List α → Nat
  | [] => 0
  | b :: bs =>
    max (if eq a b then rest bs + 1 else 0) (max (rest (b :: bs)) (lcsRow eq a rest bs))

/-- Length of a longest common subsequence of `A` and `B` under `eq`: it is `0` when one
side is empty, and for `a :: as`, `b :: bs` the best of (i) one more than the value for
`as`, `bs` when `eq a b`, (ii) the value for `as`, `b :: bs`, (iii) the value for
`a :: as`, `bs`. -/
def lcsLength {α : Type} (eq : α → α → Bool) : List α → List α → Nat
  | [], _ => 0
  | a :: as, B => lcsRow eq a (lcsLength eq as) B

/-- The longest-common-subsequence length of the suffixes `A[x..]`, `B[y..]`. -/
def lcsFrom {α : Type} (eq : α → α → Bool) (A B : List α) (x y : Nat) : Nat :=
  lcsLength eq (A.drop x) (B.drop y)

/-- `Reach eq A B d x y`: the cell `(x, y)` of the edit graph is the end of a path from
`(0, 0)` with exactly `d` horizontal or vertical edges; diagonal edges are taken only on
matching cells. -/
inductive Reach {α : Type} (eq : α → α → Bool) (A B : List α) : Nat → Nat → Nat → Prop
  | origin : Reach eq A B 0 0 0
  | right {d x y : Nat} : Reach eq A B d x y → x < A.length → Reach eq A B (d + 1) (x + 1) y
  | down {d x y : Nat} : Reach eq A B d x y → y < B.length → Reach eq A B (d + 1) x (y + 1)
  | diag {d x y : Nat} : Reach eq A B d x y → itemEq eq A B x y = true →
      Reach eq A B d (x + 1) (y + 1)

/-- `Chain c j l`: following the back-links of the store `c` from index `j` visits exactly
the nodes `l` (most recent first) and stops at an index whose `z` is `0`. -/
inductive Chain (c : Nat → node) : Nat → List node → Prop
  | stop {j : Nat} : (c j).x = 0 → (c j).y = 0 → (c j).z = 0 → Chain c j []
  | link {j : Nat} {l : List node} : (c j).z ≠ 0 → 1 ≤ (c j).back → (c j).back ≤ j →
      Chain c (j - (c j).back) l → Chain c j (c j :: l)

/-- Sum of the snake lengths `z` of a list of nodes. -/
def zsum : List node → Nat
  | [] => 0
  | nd :: l => nd.z + zsum l

/-- A node describes a non-empty run of matching cells ending at `(x, y)`. -/
def RunOK {α : Type} (eq : α → α → Bool) (A B : List α) (nd : node) : Prop :=
  1 ≤ nd.z ∧ nd.z ≤ nd.x ∧ nd.z ≤ nd.y ∧
    ∀ e, e < nd.z → itemEq eq A B (nd.x - nd.z + e) (nd.y - nd.z + e) = true

/-- The most recent node of `l`, if any, ends at or before `(x, y)`. -/
def Below (l : List node) (x y : Nat) : Prop :=
  match l with
  | [] => True
  | nd :: _ => nd.x ≤ x ∧ nd.y ≤ y

/-- The most recent node of `l`, if any, ends at or before `(x, y)` and strictly before it
in one of the two coordinates. -/
def StrictBelow (l : List node) (x y : Nat) : Prop :=
  match l with
  | [] => True
  | nd :: _ => nd.x ≤ x ∧ nd.y ≤ y ∧ (nd.x < x ∨ nd.y < y)

/-- A list of nodes (most recent first) is a sequence of runs of matching cells, each one
starting after the end of the one before it. -/
def ValidRuns {α : Type} (eq : α → α → Bool) (A B : List α) : List node → Prop
  | [] => True
  | nd :: l => RunOK eq A B nd ∧ StrictBelow l (nd.x - nd.z) (nd.y - nd.z) ∧ ValidRuns eq A B l

/-- The tuples `lcs` emits for a chain of nodes (most recent first): one `run` per node,
oldest first. -/
def runsOf : List node → List record
  | [] => []
  | nd :: l => runsOf l ++ [record.run (nd.x - nd.z) (nd.y - nd.z) nd.z]

/-- The tuples `ses` emits for a chain of nodes (most recent first) against the cursors
`(n, m)`: the gap in front of the oldest node first, the gap behind the most recent node
last. -/
def editsOf : List node → Nat → Nat → List record
  | [], n, m => sesEmit 0 0 n m []
  | nd :: l, n, m => editsOf l (nd.x - nd.z) (nd.y - nd.z) ++ sesEmit nd.x nd.y n m []

/-- Third component of a tuple: the `length` of a `run`, the `range` of an `edit`. -/
def record.size : record → Nat
  | record.run _ _ len => len
  | record.edit _ _ range _ => range

/-- Sum of the third components of a list of tuples. -/
def sizeSum : List record → Nat
  | [] => 0
  | r :: l => r.size + sizeSum l

/-- An item of a patched sequence: kept from `A`, or inserted from `B`. -/
inductive Patched (α : Type) where
  | kept (a : α)
  | inserted (b : α)

/-- Applying an edit script to `A`, reading `A` from position `pos` on: the items of `A`
in front of a tuple's `a_pos` are copied; a tuple with flag `+1` inserts
`B[b_pos : b_pos + range]`; any other tuple deletes `A[a_pos : a_pos + range]`; after the
last tuple the rest of `A` is copied. -/
def applyFrom {α : Type} (A B : List α) : Nat → List record → List (Patched α)
  | pos, [] => (A.drop pos).map Patched.kept
  | pos, record.run _ _ _ :: rest => applyFrom A B pos rest
  | pos, record.edit a b r f :: rest =>
    ((A.drop pos).take (a - pos)).map Patched.kept ++
      (if f = 1 then ((B.drop b).take r).map Patched.inserted ++ applyFrom A B (max pos a) rest
       else applyFrom A B (a + r) rest)

/-- Applying an edit script to the whole of `A`. -/
def applySes {α : Type} (A B : List α) (script : List record) : List (Patched α) :=
  applyFrom A B 0 script

/-- A patched item agrees with an item `b` of `B`: a kept item is `eq` to `b`, an inserted
item is `b` itself. -/
def Patched.agrees {α : Type} (eq : α → α → Bool) : Patched α → α → Prop
  | Patched.kept a, b => eq a b = true
  | Patched.inserted b1, b => b1 = b

/-- Two consecutive tuples of an `lcs` result: the first run ends at or before the start of
the second in both sequences, and strictly before it in one of them. -/
def record.Before : record → record → Prop
  | record.run a b len, record.run a1 b1 _ =>
    a + len ≤ a1 ∧ b + len ≤ b1 ∧ (a + len < a1 ∨ b + len < b1)
  | _, _ => False

/-- A tuple of an `lcs` result describes a non-empty run of matching items inside `A`
and `B`. -/
def record.IsMatch {α : Type} (eq : α → α → Bool) (A B : List α) : record → Prop
  | record.run a b len =>
    1 ≤ len ∧ a + len ≤ A.length ∧ b + len ≤ B.length ∧
      ∀ i, i < len → itemEq eq A B (a + i) (b + i) = true
  | record.edit _ _ _ _ => False

/-- The predecessor test of the `k` loop:
`k == -d || (k != d && v[k - 1] < v[k + 1])`. -/
def goesDown (d k : Int) (s : Scratch) : Bool :=
  k == -d || (k != d && decide (s.v (k - 1) < s.v (k + 1)))

/-- The source diagonal `i` chosen by the `k` loop: `k + 1` when the step comes from above,
`k - 1` otherwise. -/
def srcDiag (d k : Int) (s : Scratch) : Int :=
  if goesDown d k s then k + 1 else k - 1

/-- The value of `x` before the snake: `v[k + 1]`, or `v[k - 1] + 1` in `uint32_t`. -/
def startX (d k : Int) (s : Scratch) : Nat :=
  if goesDown d k s then s.v (srcDiag d k s) else u32 ((s.v (srcDiag d k s) : Int) + 1)

/-- The value of `y` before the snake: `(uint32_t)(x - k)`. -/
def startY (d k : Int) (s : Scratch) : Nat :=
  u32 ((startX d k s : Int) - k)

/-- The scratch after a snake of `len ≥ 1` cells on diagonal `k`: one new node at index
`j + 1`, linked to the tail of the source diagonal, and `w[k]` pointing to it. -/
def afterSnake (d k : Int) (s : Scratch) (len : Nat) : Scratch :=
  { v := s.v
    w := setVec s.w k (s.j + 1)
    c := setNode s.c (s.j + 1)
      ⟨startX d k s + len, startY d k s + len, len,
        u32 (((s.j + 1 : Nat) : Int) - (s.w (srcDiag d k s) : Int))⟩
    j := s.j + 1 }

/-- No node has been recorded: `j = 0`, `w` and `c` are still zero-filled. -/
def NoNode (s : Scratch) : Prop :=
  s.j = 0 ∧ (∀ q, s.w q = 0) ∧ (∀ q, s.c q = ⟨0, 0, 0, 0⟩)

/-! ## Invariants of the forward traversal

A cell of the traversal is a pair `(p, q)`: the diagonal `k = p - q` visited at edit
distance `d = p + q`, that is after `p` horizontal and `q` vertical edges.  The band of the
`k` loop at distance `d` consists of the cells with `p ≤ n` and `q ≤ m`. -/

/-- Bookkeeping attached to the value `v[k]`, `w[k]` of a cell: `t`, `u` count how often
the `uint32_t` values `x`, `y` have wrapped around on the way; `y` is the current value of
`y`; `gx`, `gy` count the diagonal edges since the last wrap of `x`, of `y`; the chain of
`w[k]` splits into the nodes recorded since the last wrap (`recent`) and the others. -/
structure Ghost where
  t : Nat
  u : Nat
  y : Nat
  gx : Nat
  gy : Nat
  recent : List node
  old : List node

/-- The counting invariant of a cell `(p, q)` holding `v[k] = x`, `w[k] = jw`. -/
structure GhostInv {α : Type} (eq : α → α → Bool) (A B : List α) (c : Nat → node)
    (p q x jw : Nat) (gh : Ghost) : Prop where
  chain : Chain c jw (gh.recent ++ gh.old)
  xeq : p + zsum (gh.recent ++ gh.old) = x + gh.t * 4294967296
  xle : x ≤ UINT_MAX
  yeq : q + zsum (gh.recent ++ gh.old) = gh.y + gh.u * 4294967296
  yle : gh.y ≤ UINT_MAX
  gx_le_x : gh.gx ≤ x
  gx_le_n : gh.gx ≤ A.length
  gy_le_y : gh.gy ≤ gh.y
  gy_le_m : gh.gy ≤ B.length
  gx_eq : gh.t = 0 → gh.gx = zsum (gh.recent ++ gh.old)
  gy_eq : gh.u = 0 → gh.gy = zsum (gh.recent ++ gh.old)
  recent_sum : zsum gh.recent = min gh.gx gh.gy
  valid : ValidRuns eq A B gh.recent
  below : Below gh.recent x gh.y
  bound : gh.t + gh.u ≠ 0 →
    2 * zsum (gh.recent ++ gh.old) + UINT_MAX ≤
      gh.gx + gh.gy + lcsLength eq A B + (gh.t + gh.u) * UINT_MAX
  nowrap : A.length + B.length ≤ UINT_MAX → p ≤ A.length → q ≤ B.length →
    gh.t = 0 ∧ gh.u = 0

/-- A cell `(p, q)` is dead when the last column of the edit graph has already been reached
on a lower diagonal, or the last row on a higher diagonal, at a smaller edit distance: no
shortest path to `(n, m)` goes through it any more. -/
def Dead {α : Type} (eq : α → α → Bool) (A B : List α) (p q : Nat) : Prop :=
  (∃ d1 y1, d1 < p + q ∧ Reach eq A B d1 A.length y1 ∧ A.length + q < p + y1) ∨
  (∃ d1 x1, d1 < p + q ∧ Reach eq A B d1 x1 B.length ∧ p + B.length < x1 + q)

/-- The furthest-reaching invariant of a cell `(p, q)` that is not dead: `x` is the largest
abscissa of the diagonal reached by a path with `p + q` non-diagonal edges. -/
def AliveInv {α : Type} (eq : α → α → Bool) (A B : List α) (p q x : Nat) : Prop :=
  ¬ Dead eq A B p q →
    ∃ y, x + q = y + p ∧ Reach eq A B (p + q) x y ∧
      ∀ x1 y1, Reach eq A B (p + q) x1 y1 → x1 + q = y1 + p → x1 ≤ x

/-- The invariants of a cell whose value has been stored in `v`: the counting invariant,
the furthest-reaching invariant, and the failure of the end-point test. -/
def CellOK {α : Type} (eq : α → α → Bool) (A B : List α) (c : Nat → node)
    (p q x jw : Nat) : Prop :=
  (∃ gh, GhostInv eq A B c p q x jw gh) ∧ AliveInv eq A B p q x ∧
    ¬ (A.length ≤ x ∧ B.length ≤ u32 ((x : Int) - ((p : Int) - (q : Int))))

/-- What holds at a cell `(p, q)` before its snake, for the start value `x0` and the
inherited tail `jw`. -/
def PreOK {α : Type} (eq : α → α → Bool) (A B : List α) (c : Nat → node)
    (p q x0 jw : Nat) : Prop :=
  ∃ gh, GhostInv eq A B c p q x0 jw gh ∧ StrictBelow gh.recent x0 gh.y ∧
    (¬ Dead eq A B p q →
      x0 + q = gh.y + p ∧ Reach eq A B (p + q) x0 gh.y ∧
        ∀ x1 y1, Reach eq A B (p + q) x1 y1 → x1 + q = y1 + p →
          ∀ a, x0 + a < x1 → itemEq eq A B (x0 + a) (gh.y + a) = true)

/-- The cursor is below the capacity limit, every entry of `w` is an index already in use,
and entry `0` of the store is untouched. -/
def StoreOK (s : Scratch) : Prop :=
  s.j < UINT_MAX ∧ (∀ k, s.w k ≤ s.j) ∧ (s.c 0).x = 0 ∧ (s.c 0).y = 0 ∧ (s.c 0).z = 0

/-- State of the traversal inside the `k` loop at distance `d`, before the cell with
abscissa count `pc` is visited: the cells of distance `d - 1` and the cells of distance `d`
already visited satisfy their invariants. -/
def KInv {α : Type} (eq : α → α → Bool) (A B : List α) (d pc : Nat) (s : Scratch) : Prop :=
  StoreOK s ∧
  (∀ p q, p + q + 1 = d → p ≤ A.length → q ≤ B.length →
    CellOK eq A B s.c p q (s.v ((p : Int) - (q : Int))) (s.w ((p : Int) - (q : Int)))) ∧
  (∀ p q, p + q = d → p ≤ A.length → q ≤ B.length → p < pc →
    CellOK eq A B s.c p q (s.v ((p : Int) - (q : Int))) (s.w ((p : Int) - (q : Int))))

/-- The traversal has ended on an optimal path: the chain of `j` is a sequence of runs of
matching cells inside the grid whose total length is the longest-common-subsequence
length. -/
def Final {α : Type} (eq : α → α → Bool) (A B : List α) (s : Scratch) : Prop :=
  s.j ≤ UINT_MAX ∧
  ∃ l, Chain s.c s.j l ∧ ValidRuns eq A B l ∧ Below l A.length B.length ∧
    zsum l = lcsLength eq A B

/-- The traversal has stopped on a chain of runs of matching cells inside the grid, each one
starting after the end of the one before it. -/
def Partial {α : Type} (eq : α → α → Bool) (A B : List α) (s : Scratch) : Prop :=
  s.j ≤ UINT_MAX ∧
  ∃ l, Chain s.c s.j l ∧ ValidRuns eq A B l ∧ Below l A.length B.length

/-- What one round of the `k` loop at cell `(p, q)` achieves, according to the way it ends. -/
def CellPost {α : Type} (eq : α → α → Bool) (A B : List α) (p q : Nat) (s : Scratch) :
    Option Exit × Scratch → Prop
  | (none, s1) =>
    StoreOK s1 ∧
    CellOK eq A B s1.c p q (s1.v ((p : Int) - (q : Int))) (s1.w ((p : Int) - (q : Int))) ∧
    (∀ k1, k1 ≠ (p : Int) - (q : Int) → s1.v k1 = s.v k1 ∧ s1.w k1 = s.w k1) ∧
    (∀ i, i ≤ s.j → s1.c i = s.c i) ∧ s.j ≤ s1.j
  | (some Exit.found, s1) => Final eq A B s1
  | (some Exit.capacity, s1) =>
    A.length + B.length ≤ UINT_MAX → p ≤ A.length → q ≤ B.length → Partial eq A B s1
  | (some Exit.exhausted, _) => False

/-- What the `k` loop at distance `d` achieves, according to the way it ends. -/
def KPost {α : Type} (eq : α → α → Bool) (A B : List α) (d : Nat) :
    Option Exit × Scratch → Prop
  | (none, s1) => KInv eq A B d (min d A.length + 1) s1
  | (some Exit.found, s1) => Final eq A B s1
  | (some Exit.capacity, s1) => A.length + B.length ≤ UINT_MAX → Partial eq A B s1
  | (some Exit.exhausted, _) => False

/-- What the `d` loop achieves, according to the way it ends. -/
def DPost {α : Type} (eq : α → α → Bool) (A B : List α) : Exit × Scratch → Prop
  | (Exit.found, s1) => Final eq A B s1
  | (Exit.capacity, s1) => A.length + B.length ≤ UINT_MAX → Partial eq A B s1
  | (Exit.exhausted, _) => False

/-- State of the traversal of a proper prefix `A` of `B` inside the `k` loop at distance
`d`: the only node is `(n, n, n)`, and every cell `(p, q)` visited so far holds `x = n + p`
and points to that node. -/
def PrefInv (n d pc : Nat) (s : Scratch) : Prop :=
  s.j = 1 ∧ s.c 1 = ⟨n, n, n, 1⟩ ∧ s.c 0 = ⟨0, 0, 0, 0⟩ ∧
  (∀ p q, p + q + 1 = d → p ≤ n →
    s.v ((p : Int) - (q : Int)) = n + p ∧ s.w ((p : Int) - (q : Int)) = 1) ∧
  (∀ p q, p + q = d → p ≤ n → p < pc →
    s.v ((p : Int) - (q : Int)) = n + p ∧ s.w ((p : Int) - (q : Int)) = 1)

/-- The traversal of a proper prefix has ended on the node `(n, n, n)`. -/
def PrefFinal (n : Nat) (r : Option Exit × Scratch) : Prop :=
  r.1 = some Exit.found ∧ r.2.j = 1 ∧ r.2.c 1 = ⟨n, n, n, 1⟩ ∧ r.2.c 0 = ⟨0, 0, 0, 0⟩

/-- Every node recorded so far is a non-empty run of matching cells whose back-link points
to an earlier entry of the store, and entry `0` is untouched. -/
def NodesOK {α : Type} (eq : α → α → Bool) (A B : List α) (s : Scratch) : Prop :=
  s.j ≤ UINT_MAX ∧ s.c 0 = ⟨0, 0, 0, 0⟩ ∧
    ∀ i, 1 ≤ i → i ≤ s.j →
      RunOK eq A B (s.c i) ∧ 1 ≤ (s.c i).back ∧ (s.c i).back ≤ i

/-- The store is well formed while the traversal runs: the nodes are runs of matching
cells, the cursor is below the capacity limit and every entry of `w` is an index in use. -/
def WfStore {α : Type} (eq : α → α → Bool) (A B : List α) (s : Scratch) : Prop :=
  NodesOK eq A B s ∧ s.j < UINT_MAX ∧ ∀ k, s.w k ≤ s.j

/-- What a round of the traversal leaves behind: a well-formed store when the traversal
goes on, well-formed nodes up to the final cursor when it ends. -/
def WfPost {α : Type} (eq : α → α → Bool) (A B : List α) : Option Exit × Scratch → Prop
  | (none, s1) => WfStore eq A B s1
  | (some _, s1) => NodesOK eq A B s1

/-- The number of cells of the edit distances `0, ..., d - 1`: `d * (d + 1) / 2`. -/
def tri : Nat → Nat
  | 0 => 0
  | d + 1 => tri d + (d + 1)

/-- Index of the node of cell `(p, q)` in a traversal in which every cell records exactly
one node. -/
def cellIdx (p q : Nat) : Nat := tri (p + q) + p + 1

/-- The chain of the node of cell `(p, 0)` in such a traversal whose first snake has `P`
cells and whose other snakes have one: the nodes of `(p, 0), ..., (1, 0), (0, 0)`. -/
def regRow (P : Nat) : Nat → List node
  | 0 => [⟨P, P, P, 1⟩]
  | p + 1 =>
    ⟨P + 2 * (p + 1), P + (p + 1), 1, cellIdx (p + 1) 0 - cellIdx p 0⟩ :: regRow P p

/-- The chain of the node of cell `(p, q)` in such a traversal: the nodes of
`(p, q), ..., (p, 1)`, then the chain of `(p, 0)`. -/
def regChain (P p : Nat) : Nat → List node
  | 0 => regRow P p
  | q + 1 =>
    ⟨P + 2 * p + (q + 1), P + p + 2 * (q + 1), 1, cellIdx p (q + 1) - cellIdx p q⟩ ::
      regChain P p q

/-- Cell `(p, q)` of a regular traversal: `v[k]` is `P + 2p + q`, `w[k]` is the index of the
cell's own node, and the chain of that node is `regChain P p q`. -/
def RegCell (P : Nat) (s : Scratch) (p q : Nat) : Prop :=
  s.v ((p : Int) - (q : Int)) = P + 2 * p + q ∧ s.w ((p : Int) - (q : Int)) = cellIdx p q ∧
    Chain s.c (cellIdx p q) (regChain P p q)

/-- State of a regular traversal inside the `k` loop at distance `d`, before the cell with
abscissa count `pc`: one node per cell visited so far. -/
def RegInv (P d pc : Nat) (s : Scratch) : Prop :=
  s.j = tri d + pc ∧
  (∀ p q, p + q + 1 = d → RegCell P s p q) ∧
  (∀ p q, p + q = d → p < pc → RegCell P s p q)

/-- Cell `(p, q)` is regular for the inputs: the snake that starts at
`(P + 2p + q - 1, P + p + 2q - 1)` has exactly one cell and does not end the traversal. -/
def RegStep {α : Type} (eq : α → α → Bool) (A B : List α) (P p q : Nat) : Prop :=
  matchLen eq A B A.length (P + 2 * p + q - 1) (P + p + 2 * q - 1) = 1 ∧
    ¬ (P + 2 * p + q ≥ A.length ∧ P + p + 2 * q ≥ B.length)

/-- Length of the two sequences of the pathological example. -/
def abcLen : Nat := 300000

/-- The sequence `A, B, C, A, B, C, ...` (as `0, 1, 2, 0, 1, 2, ...`) of `abcLen` items. -/
def abcA : List Nat := (List.range abcLen).map (fun x => x % 3)

/-- The sequence `C, B, A, C, B, A, ...` read with `A = 0`, `C = 1`, `B = 2`, that is
`0, 2, 1, 0, 2, 1, ...`, of `abcLen` items: item `y` is `2 * y % 3`. -/
def abcB : List Nat := (List.range abcLen).map (fun y => 2 * y % 3)

/-- State of the traversal inside the `k` loop at distance `d` once the cells stop
recording nodes: the cursor stays at `J`, the cells of distance `d - 1` and the cell
`(0, d)` are regular. -/
def ThinInv (P d J : Nat) (s : Scratch) : Prop :=
  s.j = J ∧ cellIdx 0 d ≤ J ∧ (∀ p q, p + q + 1 = d → RegCell P s p q) ∧ RegCell P s 0 d

/-- Cell `(p, q)` records nothing: no matching cell at `(P + 2p + q - 1, P + p + 2q - 1)`,
which is not the end point either. -/
def ThinStep {α : Type} (eq : α → α → Bool) (A B : List α) (P p q : Nat) : Prop :=
  matchLen eq A B A.length (P + 2 * p + q - 1) (P + p + 2 * q - 1) = 0 ∧
    ¬ (P + 2 * p + q - 1 ≥ A.length ∧ P + p + 2 * q - 1 ≥ B.length)

/-- Length of the two sequences of the wrap-around example: `UINT_MAX`. -/
def wrapLen : Nat := 4294967295

/-- The sequence `a_0, a_1, ...` of the wrap-around example; `a_x` is the number `2 * x`. -/
def wrapA : List Nat := (List.range wrapLen).map (fun x => 2 * x)

/-- The sequence `b_0, b_1, ...` of the wrap-around example; `b_y` is the number
`2 * y + 1`. -/
def wrapB : List Nat := (List.range wrapLen).map (fun y => 2 * y + 1)

/-- The equality oracle of the wrap-around example, on the items `a_x = 2x` and
`b_y = 2y + 1`: `a_x` and `b_y` are equal when `x = y < 4294781933`; or when both are
`≥ 4294781933` and the sum `t` of their offsets from `4294781933` has `t % 3 = 1` and
either `t ≤ 278038`, or `t = 278041` and the offset of `x` is below `129753`; or when
`x = 4294874614` and `y = 0`. -/
def wrapEq (a b : Nat) : Bool :=
  decide ((a / 2 = b / 2 ∧ a / 2 < 4294781933) ∨
    (4294781933 ≤ a / 2 ∧ 4294781933 ≤ b / 2 ∧
      (a / 2 - 4294781933 + (b / 2 - 4294781933)) % 3 = 1 ∧
      (a / 2 - 4294781933 + (b / 2 - 4294781933) ≤ 278038 ∨
        (a / 2 - 4294781933 + (b / 2 - 4294781933) = 278041 ∧
          a / 2 - 4294781933 + 1 < 129754))) ∨
    (a / 2 = 4294874614 ∧ b / 2 = 0))

/-- The chain on which the traversal of the wrap-around example stops: the node recorded
at the wrapped cell, linked to the chain of the cell `(0, 92681)`. -/
def wrapChain : List node :=
  ⟨4294874615, 1, 1, UINT_MAX - cellIdx 0 92681⟩ :: regChain 4294781933 0 92681

/-- Number of items inserted by an edit script into a sequence, `m` being the length of
`B`. -/
def insCount (m : Nat) : List record → Nat
  | [] => 0
  | record.run _ _ _ :: rest => insCount m rest
  | record.edit _ b r f :: rest => (if f = 1 then min r (m - b) else 0) + insCount m rest

/-- The size of the node store as `ab` computes it in `uint32_t` arithmetic:
`s = l > USHRT_MAX ? UINT_MAX : (l * l) + (l == 1) + 1`, where `l` is the smaller of the
two lengths. -/
def storeSize (l : Nat) : Nat :=
  if l > USHRT_MAX then UINT_MAX
  else u32 ((u32 ((u32 ((l : Int) * (l : Int)) : Int) + (if l = 1 then 1 else 0)) : Int) + 1)

/-- The scratch of the call on `A = [1, 2]`, `B = [3, 1]` when the `k` loop of `d = 2`
reaches `k = 0`: the rounds `d = 0` and `d = 1` and the cell `k = -2` are done. -/
def tieScratch : Scratch :=
  (kLoop (fun a b : Nat => a == b) [1, 2] [3, 1] 2 (bandHi 2 2) 1 (bandLo 2 2)
    (dLoop (fun a b : Nat => a == b) [1, 2] [3, 1] 2 0 Scratch.init).2).2

/-- What a tuple of a `ses` result says, leaving the flag aside: position in `A`, position
in `B`, range, and whether it is an insertion (flag `+1`) or a deletion (any other flag). -/
def record.shape : record → Option (Nat × Nat × Nat × Bool)
  | record.edit a b r f => some (a, b, r, decide (f = 1))
  | record.run _ _ _ => none

/-- The gap between a run ending at `(xe, ye)` and a run starting at `(xs, ys)`, in the
words of the specification: a deletion `(xe, ye, xs - xe)` if `xs > xe`, immediately
followed by an insertion `(xe, ye, ys - ye)` if `ys > ye`. -/
def specGap (xe ye xs ys : Nat) : List (Nat × Nat × Nat × Bool) :=
  (if xs > xe then [(xe, ye, xs - xe, false)] else []) ++
    (if ys > ye then [(xe, ye, ys - ye, true)] else [])

/-- The gaps between the records of an `lcs` result, in the words of the specification:
the records in order, preceded by a virtual run ending at `(xe, ye)` (initially `(0, 0)`)
and followed by a virtual run starting at `(n, m)`. -/
def specGaps (n m : Nat) : Nat → Nat → List record → List (Nat × Nat × Nat × Bool)
  | xe, ye, [] => specGap xe ye n m
  | xe, ye, record.run a b len :: rest =>
    specGap xe ye a b ++ specGaps n m (a + len) (b + len) rest
  | xe, ye, record.edit _ _ _ _ :: rest => specGaps n m xe ye rest

/-- The scratch in the middle of one round of the `k` loop: the body of the loop up to its
inner loop, with the inner loop cut after `steps` rounds (the end-point test and the
assignment `v[k] = x` are still to come). -/
def snakeMoment {α : Type} (eq : α → α → Bool) (A B : List α) (d k : Int) (s : Scratch)
    (steps : Nat) : Scratch :=
  let down : Bool := k == -d || (k != d && decide (s.v (k - 1) < s.v (k + 1)))
  let i : Int := if down then k + 1 else k - 1
  let x : Nat := if down then s.v i else u32 ((s.v i : Int) + 1)
  let y : Nat := u32 ((x : Int) - k)
  let s1 : Scratch := { s with w := setVec s.w k (s.w i) }
  (snake eq A B k i steps x y 0 s1).2.2.2.2

/-- The scratch at a moment of the forward traversal: after `rounds` complete rounds of the
`d` loop, `cells` complete rounds of the `k` loop of the next distance, and `steps` rounds
of the inner loop of the next cell. -/
def moment {α : Type} (eq : α → α → Bool) (A B : List α) (rounds cells steps : Nat) :
    Scratch :=
  snakeMoment eq A B (rounds : Int) (bandLo B.length rounds + 2 * (cells : Int))
    (kLoop eq A B (rounds : Int) (bandHi A.length rounds) cells (bandLo B.length rounds)
      (dLoop eq A B rounds 0 Scratch.init).2).2 steps

/-- The store holds recorded nodes exactly at the indices `1 .. top`: each of them is a run
of matching cells with a back-link between `1` and its own index, entry `0` and the entries
above `top` are still zero-filled, and the cursor does not exceed `top`. -/
def Recorded {α : Type} (eq : α → α → Bool) (A B : List α) (s : Scratch) (top : Nat) : Prop :=
  s.j ≤ top ∧ top ≤ UINT_MAX ∧ s.c 0 = ⟨0, 0, 0, 0⟩ ∧
  (∀ i, 1 ≤ i → i ≤ top →
    RunOK eq A B (s.c i) ∧ 1 ≤ (s.c i).back ∧ (s.c i).back ≤ i) ∧
  (∀ i, top < i → s.c i = ⟨0, 0, 0, 0⟩)

/-- The indices of the store read by the loop `do { ... } while (z);`, started at `j`. -/
def visited (c : Nat → node) : Nat → Nat → List Nat
  | 0, _ => []
  | fuel + 1, j =>
    j :: (if (c j).z != 0 then visited c fuel (u32 ((j : Int) - ((c j).back : Int))) else [])

/-- The records of one gap, between a run ending at `(xe, ye)` and the next run starting at
`(xs, ys)`: a deletion `(xe, ye, xs - xe)` if `xs > xe`, flagged `0` when an insertion is
emitted for the same gap (`ys > ye`, a substitution) and `-1` when none is, immediately
followed by the insertion `(xe, ye, ys - ye)` flagged `+1` if `ys > ye`. -/
def flaggedGap (xe ye xs ys : Nat) : List record :=
  (if xs > xe then [record.edit xe ye (xs - xe) (if ys > ye then 0 else -1)] else []) ++
    (if ys > ye then [record.edit xe ye (ys - ye) 1] else [])

/-- The flagged records of all the gaps of an `lcs` result: the records in order, preceded
by a virtual run ending at `(xe, ye)` (initially `(0, 0)`) and followed by a virtual run
starting at `(n, m)`. -/
def flaggedGaps (n m : Nat) : Nat → Nat → List record → List record
  | xe, ye, [] => flaggedGap xe ye n m
  | xe, ye, record.run a b len :: rest =>
    flaggedGap xe ye a b ++ flaggedGaps n m (a + len) (b + len) rest
  | xe, ye, record.edit _ _ _ _ :: rest => flaggedGaps n m xe ye rest

/-- Sum `f 0 + ... + f (N - 1)`. -/
def sumTo (f : Nat → Nat) : Nat → Nat
  | 0 => 0
  | N + 1 => sumTo f N + f N

/-- The counts `f` with `a` more at index `p`. -/
def bump (f : Nat → Nat) (p a : Nat) : Nat → Nat :=
  fun i => if i = p then f i + a else f i

/-- One round of the `k` loop keeps a family `I d pc` of invariants (`pc` is the column of
the next cell of distance `d`) and the cursor below `T`: at every moment of the inner loop
the cursor is at most `T`, the round does not leave through the capacity test, a round
that leaves through the end-point test leaves a cursor of at most `T`, and a round that
goes on establishes the invariant of the next cell. -/
def CellStep {α : Type} (eq : α → α → Bool) (A B : List α) (I : Nat → Nat → Scratch → Prop)
    (T : Nat) : Prop :=
  ∀ p q s, I (p + q) p s → (∀ k, s.w k ≤ s.j) → p ≤ A.length → q ≤ B.length →
    (∀ steps,
      (snakeMoment eq A B ((p + q : Nat) : Int) ((p : Int) - (q : Int)) s steps).j ≤ T) ∧
    (∀ e s1, diagonal eq A B ((p + q : Nat) : Int) ((p : Int) - (q : Int)) s = (some e, s1) →
      e ≠ Exit.capacity ∧ s1.j ≤ T) ∧
    ∀ s1, diagonal eq A B ((p + q : Nat) : Int) ((p : Int) - (q : Int)) s = (none, s1) →
      I (p + q) (p + 1) s1

/-- The invariant at the end of the band of distance `d` is the invariant at the start of
the band of distance `d + 1`. -/
def RoundStep (n m : Nat) (I : Nat → Nat → Scratch → Prop) : Prop :=
  ∀ d s, I d (min d n + 1) s → I (d + 1) (d + 1 - min (d + 1) m) s

/-- The invariant that counts the recorded nodes by columns, for `n ≤ USHRT_MAX`: `U p` is
the number of nodes recorded in the cells of column `p` (the cells `(p, q)`, on diagonal
`p - q` at distance `p + q`).  The value of `v` at a cell of column `p` lies in
`[p, n + p]` and is at least `U p + p` at the latest cell of the column, because the start
of a snake is at least the value at the cell above and a non-empty snake starts below `n`
and adds at least one. -/
def ColInv (n m d pc : Nat) (s : Scratch) : Prop :=
  ∃ U : Nat → Nat,
    sumTo U (n + 1) = s.j ∧
    (∀ p, p ≤ n → U p + p ≤ n) ∧
    (∀ p, pc ≤ p → d ≤ p → U p = 0) ∧
    (d = 0 → s.v 1 = 0) ∧
    (∀ p q, p + q + 1 = d → p ≤ n → q ≤ m →
      p ≤ s.v ((p : Int) - (q : Int)) ∧ s.v ((p : Int) - (q : Int)) ≤ n + p ∧
      (pc ≤ p → U p + p ≤ s.v ((p : Int) - (q : Int)))) ∧
    (∀ p q, p + q = d → p ≤ n → q ≤ m → p < pc →
      p ≤ s.v ((p : Int) - (q : Int)) ∧ s.v ((p : Int) - (q : Int)) ≤ n + p ∧
      U p + p ≤ s.v ((p : Int) - (q : Int)))

/-- Facts on the value `x` of `v` at cell `(p, q)` when `m ≤ USHRT_MAX`: `x` is a
`uint32_t`; either it has not wrapped and lies in `[p, p + m]`, or it has wrapped around
once, and then `x + 2^32` lies in `[p, p + m]`; and a stored value `x ≥ n` comes with
`y = x - p + q < m`, since the end-point test has failed. -/
def CellB (n m p q x : Nat) : Prop :=
  x ≤ UINT_MAX ∧
  ((p ≤ x ∧ x ≤ p + m) ∨ (x < p ∧ x + UINT_MAX + 1 ≤ p + m)) ∧
  (n ≤ x → x + q < m + p)

/-- The count `u` of the nodes recorded in row `q`, whose latest cell is `(p, q)`, is
covered: either the value `x` at the latest cell is below `n` and has not wrapped, and
`u + q ≤ y = x - p + q`; or there is a cell `(p1, r)` of the same distance, in a row
`r ≥ q`, with a value `x ≥ n` and `u + q ≤ y`. -/
def RowOK (n m : Nat) (v : Int → Nat) (u q p : Nat) : Prop :=
  (p ≤ v ((p : Int) - (q : Int)) ∧ v ((p : Int) - (q : Int)) < n ∧
    u + p ≤ v ((p : Int) - (q : Int))) ∨
  ∃ p1 r, p1 + r = p + q ∧ q ≤ r ∧ r ≤ m ∧ p1 ≤ n ∧ n ≤ v ((p1 : Int) - (r : Int)) ∧
    u + q + p1 ≤ v ((p1 : Int) - (r : Int)) + r

/-- Below a cell `(p, r)` with a value `x ≥ n` there is, at the next distance, a cell
`(p1, r1)` in a row `r1 > r` with a value `x ≥ n` and a larger `y`. -/
def DeadNext (n m : Nat) (v : Int → Nat) (p r : Nat) : Prop :=
  ∃ p1 r1, p1 + r1 = p + r + 1 ∧ r < r1 ∧ r1 ≤ m ∧ p1 ≤ n ∧ n ≤ v ((p1 : Int) - (r1 : Int)) ∧
    v ((p : Int) - (r : Int)) + r + 1 + p1 ≤ v ((p1 : Int) - (r1 : Int)) + r1 + p

/-- The invariant that counts the recorded nodes by rows, for `m ≤ USHRT_MAX`: `U q` is
the number of nodes recorded in the cells of row `q`. -/
def RowInv (n m d pc : Nat) (s : Scratch) : Prop :=
  ∃ U : Nat → Nat,
    sumTo U (m + 1) = s.j ∧
    (∀ q, q ≤ m → U q + q ≤ m) ∧
    (∀ q, d < q ∨ (d = q ∧ pc = 0) → U q = 0) ∧
    (d = 0 → s.v 1 = 0) ∧
    (∀ p q, p + q + 1 = d → p ≤ n → q ≤ m →
      CellB n m p q (s.v ((p : Int) - (q : Int))) ∧
      (pc ≤ p + 1 → RowOK n m s.v (U q) q p) ∧
      (n ≤ s.v ((p : Int) - (q : Int)) → p < pc → DeadNext n m s.v p q)) ∧
    (∀ p q, p + q = d → p ≤ n → q ≤ m → p < pc →
      CellB n m p q (s.v ((p : Int) - (q : Int))) ∧ RowOK n m s.v (U q) q p)

/-! ## Theorems -/

/-! ### Argument validation -/

/-- C10. For two list arguments the shared entry point fails with the input-size error
exactly when `n = 0` or `m = 0` or `n > UINT_MAX` or `m > UINT_MAX`; in that case it returns
no result list at all, and this holds whatever the traversal would compute (the test is
made before the scratch is set up: the value does not depend on `traverse`). -/
theorem ab_badInputSize_iff {α : Type} (eq : α → α → Bool) (A B : List α) (u : Bool) :
    (ab eq A B u = Except.error Error.badInputSize ↔
      (A.length = 0 ∨ B.length = 0 ∨ A.length > UINT_MAX ∨ B.length > UINT_MAX)) ∧
    ((A.length = 0 ∨ B.length = 0 ∨ A.length > UINT_MAX ∨ B.length > UINT_MAX) →
      ∀ out : Output, ab eq A B u ≠ Except.ok out) ∧
    (¬ (A.length = 0 ∨ B.length = 0 ∨ A.length > UINT_MAX ∨ B.length > UINT_MAX) →
      ab eq A B u = Except.ok
        { warning := (traverse eq A B).1 == Exit.capacity
          records := backtrack u (traverse eq A B).2.c ((traverse eq A B).2.j + 1)
            (traverse eq A B).2.j A.length B.length [] }) := by
  by_cases h : (A.length = 0 ∨ B.length = 0 ∨ A.length > UINT_MAX ∨ B.length > UINT_MAX)
  · have hc : (decide (A.length = 0) || decide (B.length = 0) || decide (A.length > UINT_MAX)
        || decide (B.length > UINT_MAX)) = true := by
      simpa [or_assoc] using h
    refine ⟨⟨fun _ => h, fun _ => ?_⟩, fun _ out => ?_, fun hn => absurd h hn⟩
    · unfold ab; rw [if_pos hc]
    · unfold ab; rw [if_pos hc]; intro hcontra; cases hcontra
  · have hc : ¬ ((decide (A.length = 0) || decide (B.length = 0) || decide (A.length > UINT_MAX)
        || decide (B.length > UINT_MAX)) = true) := by
      simpa [or_assoc] using h
    refine ⟨⟨fun he => ?_, fun h2 => absurd h2 h⟩, fun h2 => absurd h2 h, fun _ => ?_⟩
    · unfold ab at he; rw [if_neg hc] at he; cases he
    · unfold ab; rw [if_neg hc]

/-! ### Flags of the edit script -/

theorem sesEmit_eq (x y n m : Nat) (O : List record) :
    sesEmit x y n m O =
      (if x < n then [record.edit x y (n - x) (if y < m then 0 else -1)] else []) ++
      ((if y < m then [record.edit x y (m - y) 1] else []) ++ O) := by
  unfold sesEmit
  by_cases hy : y < m <;> by_cases hx : x < n <;> simp [hx, hy]

/-- C5 as stated fails: on `A = [a,b,c]`, `B = [a,x,c]` the deletion of the substitution
carries flag `0`, not `-1`, so the result is not `[(1,1,1,-1), (1,1,1,+1)]` and the two
flags sum to `1`; on `A = [1,2,3]`, `B = [4,5,6]` the flags sum to `1` as well. -/
theorem ses_flags_counterexample :
    ses (fun a b : Nat => a == b) [1, 2, 3] [1, 7, 3] =
        Except.ok ⟨false, [record.edit 1 1 1 0, record.edit 1 1 1 1]⟩ ∧
    ses (fun a b : Nat => a == b) [1, 2, 3] [1, 7, 3] ≠
        Except.ok ⟨false, [record.edit 1 1 1 (-1), record.edit 1 1 1 1]⟩ ∧
    flagSum [record.edit 1 1 1 0, record.edit 1 1 1 1] = 1 ∧
    ses (fun a b : Nat => a == b) [1, 2, 3] [4, 5, 6] =
        Except.ok ⟨false, [record.edit 0 0 3 0, record.edit 0 0 3 1]⟩ ∧
    flagSum [record.edit 0 0 3 0, record.edit 0 0 3 1] = 1 := by
  refine ⟨rfl, ?_, by decide, rfl, by decide⟩
  intro h
  have h2 : ses (fun a b : Nat => a == b) [1, 2, 3] [1, 7, 3] =
      Except.ok ⟨false, [record.edit 1 1 1 0, record.edit 1 1 1 1]⟩ := rfl
  rw [h2] at h
  have h3 := Except.ok.inj h
  have h4 : ([record.edit 1 1 1 0, record.edit 1 1 1 1] : List record) =
      [record.edit 1 1 1 (-1), record.edit 1 1 1 1] := congrArg Output.records h3
  exact absurd h4 (by decide)

/-! ### Elementary facts on the machine arithmetic and on the scratch -/

theorem u32_natCast {t : Nat} (h : t ≤ UINT_MAX) : u32 (t : Int) = t := by
  unfold u32
  unfold UINT_MAX at h
  omega

theorem u32_sub {a b : Nat} (hb : b ≤ a) (ha : a ≤ UINT_MAX) :
    u32 ((a : Int) - (b : Int)) = a - b := by
  unfold u32
  unfold UINT_MAX at ha
  omega

theorem u32_lt (t : Int) : u32 t ≤ UINT_MAX := by
  unfold u32 UINT_MAX
  omega

@[simp] theorem setVec_same (t : Int → Nat) (k : Int) (val : Nat) : setVec t k val k = val := by
  simp [setVec]

theorem setVec_ne (t : Int → Nat) {k q : Int} (val : Nat) (h : q ≠ k) :
    setVec t k val q = t q := by
  simp [setVec, h]

@[simp] theorem setNode_same (c : Nat → node) (j : Nat) (nd : node) : setNode c j nd j = nd := by
  simp [setNode]

theorem setNode_ne (c : Nat → node) {j q : Nat} (nd : node) (h : q ≠ j) :
    setNode c j nd q = c q := by
  simp [setNode, h]

@[simp] theorem setNode_setNode (c : Nat → node) (j : Nat) (a b : node) :
    setNode (setNode c j a) j b = setNode c j b := by
  funext q
  by_cases h : q = j <;> simp [setNode, h]

@[simp] theorem setVec_setVec (t : Int → Nat) (k : Int) (a b : Nat) :
    setVec (setVec t k a) k b = setVec t k b := by
  funext q
  by_cases h : q = k <;> simp [setVec, h]

theorem itemEq_lt {α : Type} {eq : α → α → Bool} {A B : List α} {x y : Nat}
    (h : itemEq eq A B x y = true) : x < A.length ∧ y < B.length := by
  unfold itemEq at h
  constructor
  · by_contra hx
    rw [List.getElem?_eq_none (Nat.le_of_not_lt hx)] at h
    simp at h
  · by_contra hy
    rw [List.getElem?_eq_none (Nat.le_of_not_lt hy)] at h
    cases hA : A[x]? <;> simp [hA] at h

/-! ### The snake loop in closed form -/

theorem matchLen_le_fuel {α : Type} (eq : α → α → Bool) (A B : List α) (fuel x y : Nat) :
    matchLen eq A B fuel x y ≤ fuel := by
  induction fuel generalizing x y with
  | zero => simp [matchLen]
  | succ fuel ih =>
    unfold matchLen
    split
    · have := ih (x + 1) (y + 1); omega
    · omega

theorem matchLen_bound {α : Type} (eq : α → α → Bool) (A B : List α) (fuel x y : Nat) :
    x + matchLen eq A B fuel x y ≤ max x A.length ∧
    y + matchLen eq A B fuel x y ≤ max y B.length := by
  induction fuel generalizing x y with
  | zero => simp [matchLen]
  | succ fuel ih =>
    unfold matchLen
    split
    · rename_i h
      simp only [Bool.and_eq_true, decide_eq_true_eq] at h
      have := ih (x + 1) (y + 1)
      omega
    · simp

theorem matchLen_match {α : Type} (eq : α → α → Bool) (A B : List α) (fuel x y e : Nat)
    (he : e < matchLen eq A B fuel x y) : itemEq eq A B (x + e) (y + e) = true := by
  induction fuel generalizing x y e with
  | zero => simp [matchLen] at he
  | succ fuel ih =>
    unfold matchLen at he
    split at he
    · rename_i h
      simp only [Bool.and_eq_true, decide_eq_true_eq] at h
      cases e with
      | zero => simpa using h.2
      | succ e =>
        have := ih (x + 1) (y + 1) e (by omega)
        rw [show x + (e + 1) = x + 1 + e by omega, show y + (e + 1) = y + 1 + e by omega]
        exact this
    · omega

/-- With enough fuel the run found by `matchLen` is maximal: the cell after it does not
satisfy the loop test. -/
theorem matchLen_stop {α : Type} (eq : α → α → Bool) (A B : List α) (fuel x y : Nat)
    (hf : A.length ≤ x + fuel) :
    ¬ (x + matchLen eq A B fuel x y < A.length ∧ y + matchLen eq A B fuel x y < B.length ∧
        itemEq eq A B (x + matchLen eq A B fuel x y) (y + matchLen eq A B fuel x y) = true) := by
  induction fuel generalizing x y with
  | zero => simp [matchLen]; omega
  | succ fuel ih =>
    unfold matchLen
    split
    · have := ih (x + 1) (y + 1) (by omega)
      rw [show x + (matchLen eq A B fuel (x + 1) (y + 1) + 1) =
            x + 1 + matchLen eq A B fuel (x + 1) (y + 1) by omega,
          show y + (matchLen eq A B fuel (x + 1) (y + 1) + 1) =
            y + 1 + matchLen eq A B fuel (x + 1) (y + 1) by omega]
      exact this
    · rename_i h
      simp only [Bool.and_eq_true, decide_eq_true_eq] at h
      simpa [and_assoc] using h

/-- The state after a snake of `len ≥ 1` cells recorded at node index `j`. -/
theorem snake_cont {α : Type} (eq : α → α → Bool) (A B : List α) (k i : Int) (hik : i ≠ k)
    (fuel x y z : Nat) (s : Scratch) (hz : z ≠ 0) (hj : s.j ≠ UINT_MAX) :
    snake eq A B k i fuel x y z s =
      (false, x + matchLen eq A B fuel x y, y + matchLen eq A B fuel x y,
        z + matchLen eq A B fuel x y,
        if matchLen eq A B fuel x y = 0 then s
        else
          { v := s.v
            w := setVec s.w k s.j
            c := setNode s.c s.j
              ⟨x + matchLen eq A B fuel x y, y + matchLen eq A B fuel x y,
                z + matchLen eq A B fuel x y, u32 ((s.j : Int) - (s.w i : Int))⟩
            j := s.j }) := by
  induction fuel generalizing x y z s with
  | zero => simp [snake, matchLen]
  | succ fuel ih =>
    unfold snake matchLen
    by_cases hc : (decide (x < A.length) && decide (y < B.length) && itemEq eq A B x y) = true
    · rw [if_pos hc, if_pos hc]
      simp only [hz, if_false, Nat.add_zero, if_neg hj]
      rw [ih (x + 1) (y + 1) (z + 1)
        { v := s.v, w := setVec s.w k s.j,
          c := setNode s.c s.j ⟨x + 1, y + 1, z + 1, u32 ((s.j : Int) - (s.w i : Int))⟩,
          j := s.j } (by omega) hj]
      by_cases hl : matchLen eq A B fuel (x + 1) (y + 1) = 0
      · simp [hl]
      · simp only [hl, if_false, Nat.add_eq_zero, one_ne_zero, and_false]
        simp only [setVec_setVec, setNode_setNode, setVec_ne _ _ hik, Nat.add_assoc,
          Nat.add_comm 1 _]
    · rw [if_neg hc, if_neg hc]
      simp

/-- The snake loop started with `z = 0`, in closed form. -/
theorem snake_eq {α : Type} (eq : α → α → Bool) (A B : List α) (k i : Int) (hik : i ≠ k)
    (fuel x y : Nat) (s : Scratch) :
    snake eq A B k i fuel x y 0 s =
      if matchLen eq A B fuel x y = 0 then (false, x, y, 0, s)
      else if s.j + 1 = UINT_MAX then
        (true, x + 1, y + 1, 1,
          { v := s.v
            w := setVec s.w k (s.j + 1)
            c := setNode s.c (s.j + 1) ⟨x + 1, y + 1, 1, u32 (((s.j + 1 : Nat) : Int) - (s.w i : Int))⟩
            j := s.j + 1 })
      else
        (false, x + matchLen eq A B fuel x y, y + matchLen eq A B fuel x y,
          matchLen eq A B fuel x y,
          { v := s.v
            w := setVec s.w k (s.j + 1)
            c := setNode s.c (s.j + 1)
              ⟨x + matchLen eq A B fuel x y, y + matchLen eq A B fuel x y,
                matchLen eq A B fuel x y, u32 (((s.j + 1 : Nat) : Int) - (s.w i : Int))⟩
            j := s.j + 1 }) := by
  cases fuel with
  | zero => simp [snake, matchLen]
  | succ fuel =>
    unfold snake matchLen
    by_cases hc : (decide (x < A.length) && decide (y < B.length) && itemEq eq A B x y) = true
    · rw [if_pos hc, if_pos hc]
      simp only [if_true, Nat.add_eq_zero, one_ne_zero, and_false, if_false, Nat.zero_add]
      by_cases hj : s.j + 1 = UINT_MAX
      · simp [hj]
      · rw [if_neg hj, if_neg hj]
        rw [snake_cont eq A B k i hik fuel (x + 1) (y + 1) 1
          { v := s.v, w := setVec s.w k (s.j + 1),
            c := setNode s.c (s.j + 1)
              ⟨x + 1, y + 1, 1, u32 (((s.j + 1 : Nat) : Int) - (s.w i : Int))⟩,
            j := s.j + 1 } (by omega) hj]
        by_cases hl : matchLen eq A B fuel (x + 1) (y + 1) = 0
        · simp [hl]
        · simp only [hl, if_false]
          simp only [setVec_setVec, setNode_setNode, setVec_ne _ _ hik, Nat.add_assoc,
            Nat.add_comm 1 _]
    · rw [if_neg hc, if_neg hc]
      simp

/-! ### The longest common subsequence on suffixes -/

theorem lcsLength_nil_right {α : Type} (eq : α → α → Bool) (A : List α) :
    lcsLength eq A [] = 0 := by
  cases A <;> simp [lcsLength, lcsRow]

theorem lcsLength_cons_cons {α : Type} (eq : α → α → Bool) (a b : α) (as bs : List α) :
    lcsLength eq (a :: as) (b :: bs) =
      max (if eq a b then lcsLength eq as bs + 1 else 0)
        (max (lcsLength eq as (b :: bs)) (lcsLength eq (a :: as) bs)) := by
  simp [lcsLength, lcsRow]

theorem lcsFrom_zero {α : Type} (eq : α → α → Bool) (A B : List α) :
    lcsFrom eq A B 0 0 = lcsLength eq A B := by
  simp [lcsFrom]

theorem lcsFrom_end_left {α : Type} (eq : α → α → Bool) (A B : List α) {x : Nat} (y : Nat)
    (h : A.length ≤ x) : lcsFrom eq A B x y = 0 := by
  simp [lcsFrom, List.drop_eq_nil_of_le h, lcsLength]

theorem lcsFrom_end_right {α : Type} (eq : α → α → Bool) (A B : List α) (x : Nat) {y : Nat}
    (h : B.length ≤ y) : lcsFrom eq A B x y = 0 := by
  simp [lcsFrom, List.drop_eq_nil_of_le h, lcsLength_nil_right]

theorem itemEq_eq {α : Type} (eq : α → α → Bool) (A B : List α) {x y : Nat}
    (hx : x < A.length) (hy : y < B.length) : itemEq eq A B x y = eq A[x] B[y] := by
  simp [itemEq, List.getElem?_eq_getElem hx, List.getElem?_eq_getElem hy]

theorem lcsFrom_step {α : Type} (eq : α → α → Bool) (A B : List α) {x y : Nat}
    (hx : x < A.length) (hy : y < B.length) :
    lcsFrom eq A B x y =
      max (if itemEq eq A B x y then lcsFrom eq A B (x + 1) (y + 1) + 1 else 0)
        (max (lcsFrom eq A B (x + 1) y) (lcsFrom eq A B x (y + 1))) := by
  unfold lcsFrom
  rw [itemEq_eq eq A B hx hy]
  have hA : A.drop x = A[x] :: A.drop (x + 1) := List.drop_eq_getElem_cons hx
  have hB : B.drop y = B[y] :: B.drop (y + 1) := List.drop_eq_getElem_cons hy
  rw [hA, hB, lcsLength_cons_cons]

theorem lcsFrom_right {α : Type} (eq : α → α → Bool) (A B : List α) (x y : Nat) :
    lcsFrom eq A B (x + 1) y ≤ lcsFrom eq A B x y := by
  by_cases hx : x < A.length
  · by_cases hy : y < B.length
    · rw [lcsFrom_step eq A B hx hy]; omega
    · rw [lcsFrom_end_right eq A B _ (Nat.le_of_not_lt hy)]; omega
  · rw [lcsFrom_end_left eq A B _ (by omega : A.length ≤ x + 1)]; omega

theorem lcsFrom_down {α : Type} (eq : α → α → Bool) (A B : List α) (x y : Nat) :
    lcsFrom eq A B x (y + 1) ≤ lcsFrom eq A B x y := by
  by_cases hx : x < A.length
  · by_cases hy : y < B.length
    · rw [lcsFrom_step eq A B hx hy]; omega
    · rw [lcsFrom_end_right eq A B _ (by omega : B.length ≤ y + 1)]; omega
  · rw [lcsFrom_end_left eq A B _ (Nat.le_of_not_lt hx)]; omega

theorem lcsFrom_diag {α : Type} (eq : α → α → Bool) (A B : List α) {x y : Nat}
    (h : itemEq eq A B x y = true) :
    lcsFrom eq A B (x + 1) (y + 1) + 1 ≤ lcsFrom eq A B x y := by
  obtain ⟨hx, hy⟩ := itemEq_lt h
  rw [lcsFrom_step eq A B hx hy, h]
  simp

theorem lcsFrom_mono {α : Type} (eq : α → α → Bool) (A B : List α) {x y x1 y1 : Nat}
    (hx : x ≤ x1) (hy : y ≤ y1) : lcsFrom eq A B x1 y1 ≤ lcsFrom eq A B x y := by
  obtain ⟨a, rfl⟩ := Nat.exists_eq_add_of_le hx
  obtain ⟨b, rfl⟩ := Nat.exists_eq_add_of_le hy
  clear hx hy
  induction a with
  | zero =>
    induction b with
    | zero => simp
    | succ b ih => exact le_trans (lcsFrom_down eq A B x (y + b)) ih
  | succ a ih => exact le_trans (lcsFrom_right eq A B (x + a) (y + b)) ih

theorem lcsFrom_run {α : Type} (eq : α → α → Bool) (A B : List α) (x y r : Nat)
    (h : ∀ e, e < r → itemEq eq A B (x + e) (y + e) = true) :
    lcsFrom eq A B (x + r) (y + r) + r ≤ lcsFrom eq A B x y := by
  induction r with
  | zero => simp
  | succ r ih =>
    have h1 := ih (fun e he => h e (by omega))
    have h2 := lcsFrom_diag eq A B (h r (by omega))
    rw [show x + (r + 1) = x + r + 1 by omega, show y + (r + 1) = y + r + 1 by omega]
    omega

theorem lcsFrom_le {α : Type} (eq : α → α → Bool) (A B : List α) (x y : Nat) :
    lcsFrom eq A B x y + x ≤ max x A.length ∧ lcsFrom eq A B x y + y ≤ max y B.length := by
  generalize hk : (A.length - x) + (B.length - y) = k
  induction k using Nat.strong_induction_on generalizing x y with
  | _ k ih =>
    by_cases hx : x < A.length
    · by_cases hy : y < B.length
      · rw [lcsFrom_step eq A B hx hy]
        have h1 := ih _ (by omega) (x + 1) (y + 1) rfl
        have h2 := ih _ (by omega) (x + 1) y rfl
        have h3 := ih _ (by omega) x (y + 1) rfl
        split <;> omega
      · rw [lcsFrom_end_right eq A B _ (Nat.le_of_not_lt hy)]; omega
    · rw [lcsFrom_end_left eq A B _ (Nat.le_of_not_lt hx)]; omega

/-! ### Paths in the edit graph -/

theorem reach_le {α : Type} {eq : α → α → Bool} {A B : List α} {d x y : Nat}
    (h : Reach eq A B d x y) : x ≤ A.length ∧ y ≤ B.length := by
  induction h with
  | origin => simp
  | right _ hx ih => omega
  | down _ hy ih => omega
  | diag _ hm ih => have := itemEq_lt hm; omega

theorem reach_cell {α : Type} {eq : α → α → Bool} {A B : List α} {d x y : Nat}
    (h : Reach eq A B d x y) : ∃ p q g, p + q = d ∧ x = p + g ∧ y = q + g := by
  induction h with
  | origin => exact ⟨0, 0, 0, rfl, rfl, rfl⟩
  | right _ _ ih =>
    obtain ⟨p, q, g, h1, h2, h3⟩ := ih
    exact ⟨p + 1, q, g, by omega, by omega, h3⟩
  | down _ _ ih =>
    obtain ⟨p, q, g, h1, h2, h3⟩ := ih
    exact ⟨p, q + 1, g, by omega, h2, by omega⟩
  | diag _ _ ih =>
    obtain ⟨p, q, g, h1, h2, h3⟩ := ih
    exact ⟨p, q, g + 1, h1, by omega, by omega⟩

theorem reach_cost {α : Type} {eq : α → α → Bool} {A B : List α} {d x y : Nat}
    (h : Reach eq A B d x y) :
    x + y + 2 * lcsFrom eq A B x y ≤ d + 2 * lcsFrom eq A B 0 0 := by
  induction h with
  | origin => simp
  | @right d x y _ _ ih => have := lcsFrom_right eq A B x y; omega
  | @down d x y _ _ ih => have := lcsFrom_down eq A B x y; omega
  | @diag d x y _ hm ih => have := lcsFrom_diag eq A B hm; omega

theorem reach_run {α : Type} {eq : α → α → Bool} {A B : List α} {d x y : Nat} (r : Nat)
    (h : Reach eq A B d x y) (hr : ∀ e, e < r → itemEq eq A B (x + e) (y + e) = true) :
    Reach eq A B d (x + r) (y + r) := by
  induction r with
  | zero => simpa using h
  | succ r ih =>
    have := Reach.diag (ih (fun e he => hr e (by omega))) (hr r (by omega))
    simpa [Nat.add_assoc] using this

theorem reach_finish {α : Type} {eq : α → α → Bool} {A B : List α} {d x y : Nat}
    (h : Reach eq A B d x y) :
    Reach eq A B (d + (A.length - x) + (B.length - y) - 2 * lcsFrom eq A B x y)
      A.length B.length := by
  generalize hk : (A.length - x) + (B.length - y) = k
  induction k using Nat.strong_induction_on generalizing d x y with
  | _ k ih =>
    have hle := reach_le h
    by_cases hx : x < A.length
    · by_cases hy : y < B.length
      · have hs := lcsFrom_step eq A B hx hy
        have b1 := lcsFrom_le eq A B (x + 1) (y + 1)
        have b2 := lcsFrom_le eq A B (x + 1) y
        have b3 := lcsFrom_le eq A B x (y + 1)
        by_cases hm : itemEq eq A B x y = true
        · rw [hm] at hs
          simp only [if_true] at hs
          rcases Nat.lt_or_ge (lcsFrom eq A B (x + 1) (y + 1) + 1)
              (max (lcsFrom eq A B (x + 1) y) (lcsFrom eq A B x (y + 1))) with hlt | hge
          · rcases Nat.lt_or_ge (lcsFrom eq A B (x + 1) y) (lcsFrom eq A B x (y + 1)) with h1 | h1
            · have := ih _ (by omega) (Reach.down h hy) rfl
              have e : d + 1 + (A.length - x) + (B.length - (y + 1)) - 2 * lcsFrom eq A B x (y + 1)
                  = d + (A.length - x) + (B.length - y) - 2 * lcsFrom eq A B x y := by omega
              rwa [e] at this
            · have := ih _ (by omega) (Reach.right h hx) rfl
              have e : d + 1 + (A.length - (x + 1)) + (B.length - y) - 2 * lcsFrom eq A B (x + 1) y
                  = d + (A.length - x) + (B.length - y) - 2 * lcsFrom eq A B x y := by omega
              rwa [e] at this
          · have := ih _ (by omega) (Reach.diag h hm) rfl
            have e : d + (A.length - (x + 1)) + (B.length - (y + 1))
                  - 2 * lcsFrom eq A B (x + 1) (y + 1)
                = d + (A.length - x) + (B.length - y) - 2 * lcsFrom eq A B x y := by omega
            rwa [e] at this
        · simp only [hm, Bool.false_eq_true, if_false] at hs
          rcases Nat.lt_or_ge (lcsFrom eq A B (x + 1) y) (lcsFrom eq A B x (y + 1)) with h1 | h1
          · have := ih _ (by omega) (Reach.down h hy) rfl
            have e : d + 1 + (A.length - x) + (B.length - (y + 1)) - 2 * lcsFrom eq A B x (y + 1)
                = d + (A.length - x) + (B.length - y) - 2 * lcsFrom eq A B x y := by omega
            rwa [e] at this
          · have := ih _ (by omega) (Reach.right h hx) rfl
            have e : d + 1 + (A.length - (x + 1)) + (B.length - y) - 2 * lcsFrom eq A B (x + 1) y
                = d + (A.length - x) + (B.length - y) - 2 * lcsFrom eq A B x y := by omega
            rwa [e] at this
      · have hy' : y = B.length := by omega
        have hz := lcsFrom_end_right eq A B x (Nat.le_of_not_lt hy)
        have h0 := lcsFrom_end_right eq A B (x + 1) (Nat.le_of_not_lt hy)
        have := ih _ (by omega) (Reach.right h hx) rfl
        have e : d + 1 + (A.length - (x + 1)) + (B.length - y) - 2 * lcsFrom eq A B (x + 1) y
            = d + (A.length - x) + (B.length - y) - 2 * lcsFrom eq A B x y := by omega
        rwa [e] at this
    · have hx' : x = A.length := by omega
      have hz := lcsFrom_end_left eq A B y (Nat.le_of_not_lt hx)
      by_cases hy : y < B.length
      · have h0 := lcsFrom_end_left eq A B (y + 1) (Nat.le_of_not_lt hx)
        have := ih _ (by omega) (Reach.down h hy) rfl
        have e : d + 1 + (A.length - x) + (B.length - (y + 1)) - 2 * lcsFrom eq A B x (y + 1)
            = d + (A.length - x) + (B.length - y) - 2 * lcsFrom eq A B x y := by omega
        rwa [e] at this
      · have hy' : y = B.length := by omega
        subst hx' hy'
        simpa [hz] using h

/-! ### Chains of nodes and the backtrack loop -/

theorem Chain.congr_store {c c1 : Nat → node} {j : Nat} {l : List node} (h : Chain c j l)
    (hc : ∀ q, q ≤ j → c1 q = c q) : Chain c1 j l := by
  induction h with
  | stop hx hy hz =>
    exact Chain.stop (by rw [hc _ le_rfl]; exact hx) (by rw [hc _ le_rfl]; exact hy)
      (by rw [hc _ le_rfl]; exact hz)
  | @link j l hz h1 h2 _ ih =>
    have e := hc j le_rfl
    have := Chain.link (c := c1) (j := j) (l := l) (by rw [e]; exact hz) (by rw [e]; exact h1)
      (by rw [e]; exact h2) (by rw [e]; exact ih (fun q hq => hc q (by omega)))
    rwa [e] at this

theorem Chain.length_le {c : Nat → node} {j : Nat} {l : List node} (h : Chain c j l) :
    l.length ≤ j := by
  induction h with
  | stop _ _ _ => simp
  | link _ h1 h2 _ ih => simp only [List.length_cons]; omega

theorem Chain.z_pos {c : Nat → node} {j : Nat} {l : List node} (h : Chain c j l) :
    ∀ nd ∈ l, 1 ≤ nd.z := by
  induction h with
  | stop _ _ _ => simp
  | link hz _ _ _ ih =>
    intro nd hnd
    rcases List.mem_cons.1 hnd with rfl | h
    · omega
    · exact ih nd h

theorem zsum_append (l1 l2 : List node) : zsum (l1 ++ l2) = zsum l1 + zsum l2 := by
  induction l1 with
  | nil => simp [zsum]
  | cons nd l ih => simp [zsum, ih]; omega

theorem zsum_eq_zero_of_pos {l : List node} (hp : ∀ nd ∈ l, 1 ≤ nd.z) (h : zsum l = 0) :
    l = [] := by
  cases l with
  | nil => rfl
  | cons nd l =>
    have := hp nd (by simp)
    simp [zsum] at h
    omega

/-- The LCS branch of the backtrack loop emits one `run` per node of the chain. -/
theorem backtrack_lcs {c : Nat → node} {j : Nat} {l : List node} (h : Chain c j l)
    (hj : j ≤ UINT_MAX)
    (hl : ∀ nd ∈ l, nd.z ≤ nd.x ∧ nd.z ≤ nd.y ∧ nd.x ≤ UINT_MAX ∧ nd.y ≤ UINT_MAX)
    (fuel n m : Nat) (O : List record) (hf : l.length < fuel) :
    backtrack false c fuel j n m O = runsOf l ++ O := by
  induction h generalizing fuel n m O with
  | stop hx hy hz =>
    cases fuel with
    | zero => simp at hf
    | succ fuel => simp [backtrack, hz, runsOf]
  | @link j l hz h1 h2 _ ih =>
    cases fuel with
    | zero => simp at hf
    | succ fuel =>
      obtain ⟨a1, a2, a3, a4⟩ := hl (c j) (by simp)
      simp only [backtrack, hz, Bool.not_false, bne_iff_ne, ne_eq, not_false_eq_true,
        decide_True, Bool.and_self, if_true, Bool.false_eq_true, if_false]
      rw [u32_sub h2 hj, u32_sub a1 a3, u32_sub a2 a4]
      rw [ih (by omega) (fun nd hnd => hl nd (List.mem_cons_of_mem _ hnd)) fuel _ _ _
        (by simp only [List.length_cons] at hf; omega)]
      simp [runsOf]
      exact hz

/-- The SES branch of the backtrack loop emits the gaps between the nodes of the chain. -/
theorem backtrack_ses {c : Nat → node} {j : Nat} {l : List node} (h : Chain c j l)
    (hj : j ≤ UINT_MAX)
    (hl : ∀ nd ∈ l, nd.z ≤ nd.x ∧ nd.z ≤ nd.y ∧ nd.x ≤ UINT_MAX ∧ nd.y ≤ UINT_MAX)
    (fuel n m : Nat) (O : List record) (hf : l.length < fuel) :
    backtrack true c fuel j n m O = editsOf l n m ++ O := by
  induction h generalizing fuel n m O with
  | stop hx hy hz =>
    cases fuel with
    | zero => simp at hf
    | succ fuel =>
      simp only [backtrack, hz, hx, hy, if_true, editsOf]
      simp [sesEmit_eq]
  | @link j l hz h1 h2 _ ih =>
    cases fuel with
    | zero => simp at hf
    | succ fuel =>
      obtain ⟨a1, a2, a3, a4⟩ := hl (c j) (by simp)
      simp only [backtrack, hz, bne_iff_ne, ne_eq, not_false_eq_true, if_true, Bool.not_true,
        Bool.false_and, Bool.false_eq_true, if_false, decide_True]
      rw [u32_sub h2 hj, u32_sub a1 a3, u32_sub a2 a4]
      rw [ih (by omega) (fun nd hnd => hl nd (List.mem_cons_of_mem _ hnd)) fuel _ _ _
        (by simp only [List.length_cons] at hf; omega)]
      simp only [editsOf, List.append_assoc]
      congr 1
      rw [sesEmit_eq, sesEmit_eq]
      simp

/-! ### What a valid chain of runs gives -/

theorem StrictBelow.below {l : List node} {x y : Nat} (h : StrictBelow l x y) : Below l x y := by
  cases l with
  | nil => trivial
  | cons nd l => exact ⟨h.1, h.2.1⟩

theorem Below.mono {l : List node} {x y x1 y1 : Nat} (h : Below l x y) (hx : x ≤ x1)
    (hy : y ≤ y1) : Below l x1 y1 := by
  cases l with
  | nil => trivial
  | cons nd l => exact ⟨le_trans h.1 hx, le_trans h.2 hy⟩

theorem RunOK.bounds {α : Type} {eq : α → α → Bool} {A B : List α} {nd : node}
    (h : RunOK eq A B nd) : nd.x ≤ A.length ∧ nd.y ≤ B.length := by
  obtain ⟨h1, h2, h3, h4⟩ := h
  have := itemEq_lt (h4 (nd.z - 1) (by omega))
  omega

theorem validRuns_bound {α : Type} {eq : α → α → Bool} {A B : List α} {l : List node}
    (h : ValidRuns eq A B l) {x y : Nat} (hb : Below l x y) :
    zsum l + lcsFrom eq A B x y ≤ lcsFrom eq A B 0 0 := by
  induction l generalizing x y with
  | nil => simpa [zsum] using lcsFrom_mono eq A B (Nat.zero_le x) (Nat.zero_le y)
  | cons nd l ih =>
    obtain ⟨hr, hs, hv⟩ := h
    have h1 := ih hv hs.below
    obtain ⟨r1, r2, r3, r4⟩ := hr
    have h2 := lcsFrom_run eq A B (nd.x - nd.z) (nd.y - nd.z) nd.z r4
    rw [show nd.x - nd.z + nd.z = nd.x by omega, show nd.y - nd.z + nd.z = nd.y by omega] at h2
    have h3 := lcsFrom_mono eq A B hb.1 hb.2
    simp only [zsum]
    omega

theorem validRuns_zsum_le {α : Type} {eq : α → α → Bool} {A B : List α} {l : List node}
    (h : ValidRuns eq A B l) : zsum l ≤ lcsLength eq A B := by
  have hb : Below l (max A.length (l.headD ⟨0, 0, 0, 0⟩).x) (max B.length (l.headD ⟨0, 0, 0, 0⟩).y) := by
    cases l with
    | nil => trivial
    | cons nd l => exact ⟨le_max_right _ _, le_max_right _ _⟩
  have := validRuns_bound h hb
  rw [lcsFrom_zero] at this
  omega

theorem validRuns_mem {α : Type} {eq : α → α → Bool} {A B : List α} {l : List node}
    (h : ValidRuns eq A B l) : ∀ nd ∈ l, RunOK eq A B nd := by
  induction l with
  | nil => simp
  | cons nd l ih =>
    intro nd1 h1
    rcases List.mem_cons.1 h1 with rfl | h2
    · exact h.1
    · exact ih h.2.2 nd1 h2

theorem sizeSum_append (l1 l2 : List record) : sizeSum (l1 ++ l2) = sizeSum l1 + sizeSum l2 := by
  induction l1 with
  | nil => simp [sizeSum]
  | cons r l ih => simp [sizeSum, ih]; omega

theorem sizeSum_runsOf (l : List node) : sizeSum (runsOf l) = zsum l := by
  induction l with
  | nil => rfl
  | cons nd l ih => simp [runsOf, sizeSum_append, ih, sizeSum, zsum, record.size]; omega

theorem runsOf_isMatch {α : Type} {eq : α → α → Bool} {A B : List α} {l : List node}
    (h : ValidRuns eq A B l) : ∀ r ∈ runsOf l, r.IsMatch eq A B := by
  induction l with
  | nil => simp [runsOf]
  | cons nd l ih =>
    intro r hr
    simp only [runsOf, List.mem_append, List.mem_singleton] at hr
    rcases hr with hr | rfl
    · exact ih h.2.2 r hr
    · have hb := h.1.bounds
      obtain ⟨r1, r2, r3, r4⟩ := h.1
      exact ⟨r1, by omega, by omega, r4⟩

theorem runsOf_getLast (nd : node) (l : List node) :
    (runsOf (nd :: l)).getLast? = some (record.run (nd.x - nd.z) (nd.y - nd.z) nd.z) := by
  simp [runsOf]

theorem runsOf_chain {α : Type} {eq : α → α → Bool} {A B : List α} {l : List node}
    (h : ValidRuns eq A B l) : List.Chain' record.Before (runsOf l) := by
  induction l with
  | nil => simp [runsOf]
  | cons nd l ih =>
    obtain ⟨hr, hs, hv⟩ := h
    simp only [runsOf]
    refine List.Chain'.append (ih hv) (List.chain'_singleton _) ?_
    intro r hr1 r1 hr2
    simp only [List.head?_cons, Option.mem_def, Option.some.injEq] at hr2
    subst hr2
    cases l with
    | nil => simp [runsOf] at hr1
    | cons nd0 l0 =>
      rw [runsOf_getLast] at hr1
      simp only [Option.mem_def, Option.some.injEq] at hr1
      subst hr1
      obtain ⟨q1, q2, q3, q4⟩ := hv.1
      obtain ⟨s1, s2, s3⟩ := hs
      simp only [record.Before]
      omega

theorem sizeSum_sesEmit (x y n m : Nat) (hx : x ≤ n) (hy : y ≤ m) :
    sizeSum (sesEmit x y n m []) + x + y = n + m := by
  rw [sesEmit_eq]
  by_cases h1 : x < n <;> by_cases h2 : y < m <;>
    simp [h1, h2, sizeSum, record.size] <;> omega

theorem sizeSum_editsOf {α : Type} {eq : α → α → Bool} {A B : List α} {l : List node}
    (h : ValidRuns eq A B l) {n m : Nat} (hb : Below l n m) :
    sizeSum (editsOf l n m) + 2 * zsum l = n + m := by
  induction l generalizing n m with
  | nil => simpa [editsOf, zsum] using sizeSum_sesEmit 0 0 n m (Nat.zero_le _) (Nat.zero_le _)
  | cons nd l ih =>
    obtain ⟨hr, hs, hv⟩ := h
    have h1 := ih hv hs.below
    have h2 := sizeSum_sesEmit nd.x nd.y n m hb.1 hb.2
    obtain ⟨r1, r2, r3, r4⟩ := hr
    simp only [editsOf, sizeSum_append, zsum]
    omega

/-! ### Applying the edit script of a valid chain -/

theorem drop_take_append {α : Type} (A : List α) {a b c : Nat} (hab : a ≤ b) (hbc : b ≤ c) :
    (A.drop a).take (b - a) ++ (A.drop b).take (c - b) = (A.drop a).take (c - a) := by
  have e1 : c - a = (b - a) + (c - b) := by omega
  rw [e1, List.take_add, List.drop_drop]
  congr 3
  omega

theorem forall₂_run {α : Type} (eq : α → α → Bool) (A B : List α) (z hx hy : Nat)
    (h : ∀ e, e < z → itemEq eq A B (hx + e) (hy + e) = true) :
    List.Forall₂ (Patched.agrees eq) (((A.drop hx).take z).map Patched.kept)
      ((B.drop hy).take z) := by
  induction z generalizing hx hy with
  | zero => simp
  | succ z ih =>
    have h0 := h 0 (by omega)
    simp only [Nat.add_zero] at h0
    obtain ⟨lx, ly⟩ := itemEq_lt h0
    rw [List.drop_eq_getElem_cons lx, List.drop_eq_getElem_cons ly]
    simp only [List.take_succ_cons, List.map_cons]
    refine List.Forall₂.cons ?_ ?_
    · simpa [Patched.agrees, itemEq_eq eq A B lx ly] using h0
    · exact ih (hx + 1) (hy + 1) (fun e he => by
        have := h (e + 1) (by omega)
        simpa [Nat.add_assoc, Nat.add_comm 1 e] using this)

theorem forall₂_inserted {α : Type} (eq : α → α → Bool) (l : List α) :
    List.Forall₂ (Patched.agrees eq) (l.map Patched.inserted) l := by
  induction l with
  | nil => simp
  | cons b l ih => exact List.Forall₂.cons rfl ih

/-- Effect of the tuples emitted for one gap, read from a cursor `pos ≤ x`. -/
theorem applyFrom_sesEmit {α : Type} (A B : List α) (x y n m pos : Nat)
    (hx : x ≤ n) (hy : y ≤ m) (hp : pos ≤ x) :
    ∃ (pre : List (Patched α)) (pos1 : Nat), pos1 ≤ n ∧
      (∀ rest, applyFrom A B pos (sesEmit x y n m [] ++ rest) = pre ++ applyFrom A B pos1 rest) ∧
      pre ++ ((A.drop pos1).take (n - pos1)).map Patched.kept =
        ((A.drop pos).take (x - pos)).map Patched.kept ++
          ((B.drop y).take (m - y)).map Patched.inserted := by
  rw [sesEmit_eq]
  by_cases h1 : x < n <;> by_cases h2 : y < m
  · refine ⟨((A.drop pos).take (x - pos)).map Patched.kept ++
      ((B.drop y).take (m - y)).map Patched.inserted, n, le_rfl, fun rest => ?_, by simp⟩
    have e1 : x + (n - x) = n := by omega
    have e2 : x - n = 0 := by omega
    have e3 : max n x = n := by omega
    simp [h1, h2, applyFrom, e1, e2, e3]
  · refine ⟨((A.drop pos).take (x - pos)).map Patched.kept, n, le_rfl, fun rest => ?_, ?_⟩
    · have e1 : x + (n - x) = n := by omega
      simp [h1, h2, applyFrom, e1]
    · have e4 : m - y = 0 := by omega
      simp [e4]
  · have e0 : x = n := by omega
    subst e0
    refine ⟨((A.drop pos).take (x - pos)).map Patched.kept ++
      ((B.drop y).take (m - y)).map Patched.inserted, x, le_rfl, fun rest => ?_, by simp⟩
    have e3 : max pos x = x := by omega
    simp [h1, h2, applyFrom, e3]
  · have e4 : m - y = 0 := by omega
    have e0 : x = n := by omega
    subst e0
    refine ⟨[], pos, hp, fun rest => ?_, ?_⟩
    · simp [h1, h2]
    · simp [e4]

theorem applyFrom_editsOf {α : Type} {eq : α → α → Bool} {A B : List α} {l : List node}
    (h : ValidRuns eq A B l) {n m : Nat} (hb : Below l n m) :
    ∃ (pre : List (Patched α)) (pos : Nat), pos ≤ n ∧
      (∀ rest, applyFrom A B 0 (editsOf l n m ++ rest) = pre ++ applyFrom A B pos rest) ∧
      List.Forall₂ (Patched.agrees eq)
        (pre ++ ((A.drop pos).take (n - pos)).map Patched.kept) (B.take m) := by
  induction l generalizing n m with
  | nil =>
    obtain ⟨pre, pos1, h1, h2, h3⟩ :=
      applyFrom_sesEmit A B 0 0 n m 0 (Nat.zero_le _) (Nat.zero_le _) le_rfl
    refine ⟨pre, pos1, h1, fun rest => by simpa [editsOf] using h2 rest, ?_⟩
    rw [h3]
    simpa using forall₂_inserted eq (B.take m)
  | cons nd l ih =>
    obtain ⟨hr, hs, hv⟩ := h
    obtain ⟨pre0, pos0, p1, p2, p3⟩ := ih hv hs.below
    obtain ⟨r1, r2, r3, r4⟩ := hr
    obtain ⟨pre1, pos1, q1, q2, q3⟩ :=
      applyFrom_sesEmit A B nd.x nd.y n m pos0 hb.1 hb.2 (by omega)
    refine ⟨pre0 ++ pre1, pos1, q1, fun rest => ?_, ?_⟩
    · simp only [editsOf, List.append_assoc]
      rw [p2, q2]
    · rw [List.append_assoc, q3]
      have e1 := drop_take_append A (a := pos0) (b := nd.x - nd.z) (c := nd.x) p1 (by omega)
      have e2 : nd.x - (nd.x - nd.z) = nd.z := by omega
      rw [e2] at e1
      rw [← e1, List.map_append, ← List.append_assoc, ← List.append_assoc]
      have f1 : B.take m = (B.take (nd.y - nd.z) ++ (B.drop (nd.y - nd.z)).take nd.z) ++
          (B.drop nd.y).take (m - nd.y) := by
        have g1 := drop_take_append B (a := 0) (b := nd.y - nd.z) (c := nd.y) (Nat.zero_le _)
          (by omega)
        have g2 := drop_take_append B (a := 0) (b := nd.y) (c := m) (Nat.zero_le _) hb.2
        simp only [List.drop_zero, Nat.sub_zero] at g1 g2
        rw [show nd.y - (nd.y - nd.z) = nd.z by omega] at g1
        rw [g1, g2]
      rw [f1]
      refine List.rel_append (List.rel_append p3 (forall₂_run eq A B nd.z _ _ r4)) ?_
      exact forall₂_inserted eq _

/-! ### One round of the `k` loop in closed form -/

theorem srcDiag_ne (d k : Int) (s : Scratch) : srcDiag d k s ≠ k := by
  unfold srcDiag
  split <;> omega

theorem diagonal_eq {α : Type} (eq : α → α → Bool) (A B : List α) (d k : Int) (s : Scratch) :
    diagonal eq A B d k s =
      if matchLen eq A B A.length (startX d k s) (startY d k s) = 0 then
        if startX d k s ≥ A.length ∧ startY d k s ≥ B.length then
          (some Exit.found,
            { v := s.v, w := setVec s.w k (s.w (srcDiag d k s)), c := s.c,
              j := s.w (srcDiag d k s) })
        else
          (none,
            { v := setVec s.v k (startX d k s), w := setVec s.w k (s.w (srcDiag d k s)),
              c := s.c, j := s.j })
      else if s.j + 1 = UINT_MAX then (some Exit.capacity, afterSnake d k s 1)
      else if startX d k s + matchLen eq A B A.length (startX d k s) (startY d k s) ≥ A.length ∧
          startY d k s + matchLen eq A B A.length (startX d k s) (startY d k s) ≥ B.length then
        (some Exit.found,
          afterSnake d k s (matchLen eq A B A.length (startX d k s) (startY d k s)))
      else
        (none,
          { afterSnake d k s (matchLen eq A B A.length (startX d k s) (startY d k s)) with
            v := setVec s.v k
              (startX d k s + matchLen eq A B A.length (startX d k s) (startY d k s)) }) := by
  have hik := srcDiag_ne d k s
  have e : diagonal eq A B d k s =
      match snake eq A B k (srcDiag d k s) A.length (startX d k s) (startY d k s) 0
          { s with w := setVec s.w k (s.w (srcDiag d k s)) } with
      | (true, _, _, _, s2) => (some Exit.capacity, s2)
      | (false, x2, y2, _, s2) =>
        if x2 ≥ A.length && y2 ≥ B.length then (some Exit.found, { s2 with j := s2.w k })
        else (none, { s2 with v := setVec s2.v k x2 }) := by
    unfold diagonal startY startX srcDiag goesDown
    rfl
  rw [e, snake_eq eq A B k (srcDiag d k s) hik]
  by_cases h0 : matchLen eq A B A.length (startX d k s) (startY d k s) = 0
  · simp only [h0, if_true]
    by_cases h1 : startX d k s ≥ A.length ∧ startY d k s ≥ B.length
    · simp [h1]
    · rw [if_neg h1]
      have : ¬ ((decide (startX d k s ≥ A.length) && decide (startY d k s ≥ B.length)) = true) := by
        simpa using h1
      simp only [this]
      simp
  · simp only [h0, if_false]
    by_cases h2 : s.j + 1 = UINT_MAX
    · simp only [h2, if_true, afterSnake, setVec_setVec, setVec_ne _ _ hik]
    · simp only [h2, if_false]
      by_cases h1 : startX d k s + matchLen eq A B A.length (startX d k s) (startY d k s)
          ≥ A.length ∧
          startY d k s + matchLen eq A B A.length (startX d k s) (startY d k s) ≥ B.length
      · rw [if_pos h1]
        have : (decide (startX d k s + matchLen eq A B A.length (startX d k s) (startY d k s)
            ≥ A.length) &&
          decide (startY d k s + matchLen eq A B A.length (startX d k s) (startY d k s)
            ≥ B.length)) = true := by simpa using h1
        simp only [this, if_true, afterSnake, setVec_setVec, setVec_ne _ _ hik, setVec_same]
      · rw [if_neg h1]
        have : ¬ ((decide (startX d k s + matchLen eq A B A.length (startX d k s) (startY d k s)
            ≥ A.length) &&
          decide (startY d k s + matchLen eq A B A.length (startX d k s) (startY d k s)
            ≥ B.length)) = true) := by simpa using h1
        simp only [this, afterSnake, setVec_setVec, setVec_ne _ _ hik]
        simp

/-! ### Sequences without any common item -/

theorem itemEq_false_of_disjoint {α : Type} {eq : α → α → Bool} {A B : List α}
    (h : ∀ a ∈ A, ∀ b ∈ B, eq a b = false) (x y : Nat) : itemEq eq A B x y = false := by
  unfold itemEq
  cases hA : A[x]? with
  | none => rfl
  | some a =>
    cases hB : B[y]? with
    | none => rfl
    | some b =>
      simp only
      obtain ⟨hx, rfl⟩ := List.getElem?_eq_some_iff.1 hA
      obtain ⟨hy, rfl⟩ := List.getElem?_eq_some_iff.1 hB
      exact h _ (List.getElem_mem _) _ (List.getElem_mem _)

theorem matchLen_eq_zero_of_disjoint {α : Type} {eq : α → α → Bool} {A B : List α}
    (h : ∀ a ∈ A, ∀ b ∈ B, eq a b = false) (fuel x y : Nat) : matchLen eq A B fuel x y = 0 := by
  cases fuel with
  | zero => rfl
  | succ fuel => simp [matchLen, itemEq_false_of_disjoint h]

theorem diagonal_noNode {α : Type} {eq : α → α → Bool} {A B : List α}
    (h : ∀ a ∈ A, ∀ b ∈ B, eq a b = false) (d k : Int) (s : Scratch) (hs : NoNode s) :
    (diagonal eq A B d k s).1 ≠ some Exit.capacity ∧ NoNode (diagonal eq A B d k s).2 := by
  obtain ⟨h1, h2, h3⟩ := hs
  rw [diagonal_eq, matchLen_eq_zero_of_disjoint h]
  simp only [if_true]
  split
  · refine ⟨by simp, h2 _, fun q => ?_, h3⟩
    by_cases hq : q = k <;> simp [setVec, hq, h2]
  · refine ⟨by simp, h1, fun q => ?_, h3⟩
    by_cases hq : q = k <;> simp [setVec, hq, h2]

theorem kLoop_noNode {α : Type} {eq : α → α → Bool} {A B : List α}
    (h : ∀ a ∈ A, ∀ b ∈ B, eq a b = false) (d hi : Int) (fuel : Nat) (k : Int) (s : Scratch)
    (hs : NoNode s) :
    (kLoop eq A B d hi fuel k s).1 ≠ some Exit.capacity ∧ NoNode (kLoop eq A B d hi fuel k s).2 := by
  induction fuel generalizing k s with
  | zero => exact ⟨by simp [kLoop], hs⟩
  | succ fuel ih =>
    unfold kLoop
    split
    · have hd := diagonal_noNode h d k s hs
      split
      · rename_i e s1 he
        rw [he] at hd
        exact ⟨hd.1, hd.2⟩
      · rename_i s1 he
        rw [he] at hd
        exact ih _ _ hd.2
    · exact ⟨by simp, hs⟩

theorem dLoop_noNode {α : Type} {eq : α → α → Bool} {A B : List α}
    (h : ∀ a ∈ A, ∀ b ∈ B, eq a b = false) (fuel : Nat) (d : Int) (s : Scratch)
    (hs : NoNode s) :
    (dLoop eq A B fuel d s).1 ≠ Exit.capacity ∧ NoNode (dLoop eq A B fuel d s).2 := by
  induction fuel generalizing d s with
  | zero => exact ⟨by simp [dLoop], hs⟩
  | succ fuel ih =>
    unfold dLoop
    split
    · have hk := kLoop_noNode h d (bandHi A.length d) (d.toNat + 1) (bandLo B.length d) s hs
      split
      · rename_i e s1 he
        rw [he] at hk
        exact ⟨by simpa using hk.1, hk.2⟩
      · rename_i s1 he
        rw [he] at hk
        exact ih _ _ hk.2
    · exact ⟨by simp, hs⟩

/-- On accepted sizes `ab` returns the backtrack of the traversal. -/
theorem ab_ok {α : Type} (eq : α → α → Bool) (A B : List α) (u : Bool)
    (hA : A ≠ []) (hB : B ≠ []) (hn : A.length ≤ UINT_MAX) (hm : B.length ≤ UINT_MAX) :
    ab eq A B u = Except.ok
      { warning := (traverse eq A B).1 == Exit.capacity
        records := backtrack u (traverse eq A B).2.c ((traverse eq A B).2.j + 1)
          (traverse eq A B).2.j A.length B.length [] } := by
  have hA' : 0 < A.length := List.length_pos.2 hA
  have hB' : 0 < B.length := List.length_pos.2 hB
  have hc : ¬ ((decide (A.length = 0) || decide (B.length = 0) || decide (A.length > UINT_MAX)
      || decide (B.length > UINT_MAX)) = true) := by
    simp only [Bool.or_eq_true, decide_eq_true_eq, not_or, not_lt]
    omega
  unfold ab
  rw [if_neg hc]

/-- C8. When no item of `A` is `eq` to an item of `B`, `lcs(A, B)` is the empty list and
`ses(A, B)` is exactly a deletion of range `n` followed by an insertion of range `m`, both
at position `(0, 0)` (the deletion carries flag `0`, the insertion flag `+1`). -/
theorem no_common_item {α : Type} (eq : α → α → Bool) (A B : List α)
    (hA : A ≠ []) (hB : B ≠ []) (hn : A.length ≤ UINT_MAX) (hm : B.length ≤ UINT_MAX)
    (h : ∀ a ∈ A, ∀ b ∈ B, eq a b = false) :
    lcs eq A B = Except.ok ⟨false, []⟩ ∧
    ses eq A B =
      Except.ok ⟨false, [record.edit 0 0 A.length 0, record.edit 0 0 B.length 1]⟩ := by
  have hA' : 0 < A.length := List.length_pos.2 hA
  have hB' : 0 < B.length := List.length_pos.2 hB
  have ht := dLoop_noNode h (A.length + B.length + 1) 0 Scratch.init
    ⟨rfl, fun _ => rfl, fun _ => rfl⟩
  obtain ⟨t1, t2, t3, t4⟩ := ht
  have hw : ((traverse eq A B).1 == Exit.capacity) = false := by
    unfold traverse
    cases hh : (dLoop eq A B (A.length + B.length + 1) 0 Scratch.init).1 <;> simp_all
  have hj : (traverse eq A B).2.j = 0 := t2
  have hc0 : (traverse eq A B).2.c 0 = ⟨0, 0, 0, 0⟩ := t4 0
  constructor
  · unfold lcs
    rw [ab_ok eq A B false hA hB hn hm]
    simp only [hw, hj]
    simp [backtrack, hc0]
  · unfold ses
    rw [ab_ok eq A B true hA hB hn hm]
    simp only [hw, hj]
    simp [backtrack, hc0, sesEmit, hA', hB']

/-- Instances of `no_common_item`: `[x]` against `[y]`, and `[1,2,3]` against `[4,5,6]`. -/
theorem no_common_item_witness :
    (lcs (fun a b : Nat => a == b) [1] [2] = Except.ok ⟨false, []⟩ ∧
      ses (fun a b : Nat => a == b) [1] [2] =
        Except.ok ⟨false, [record.edit 0 0 1 0, record.edit 0 0 1 1]⟩) ∧
    (lcs (fun a b : Nat => a == b) [1, 2, 3] [4, 5, 6] = Except.ok ⟨false, []⟩ ∧
      ses (fun a b : Nat => a == b) [1, 2, 3] [4, 5, 6] =
        Except.ok ⟨false, [record.edit 0 0 3 0, record.edit 0 0 3 1]⟩) :=
  ⟨no_common_item (fun a b : Nat => a == b) [1] [2] (by decide) (by decide) (by decide)
      (by decide) (by decide),
   no_common_item (fun a b : Nat => a == b) [1, 2, 3] [4, 5, 6] (by decide) (by decide)
      (by decide) (by decide) (by decide)⟩

/-! ### A sequence against itself -/

theorem itemEq_self {α : Type} {eq : α → α → Bool} {A : List α}
    (h : ∀ a ∈ A, eq a a = true) {x : Nat} (hx : x < A.length) : itemEq eq A A x x = true := by
  rw [itemEq_eq eq A A hx hx]
  exact h _ (List.getElem_mem _)

theorem matchLen_self {α : Type} {eq : α → α → Bool} {A : List α}
    (h : ∀ a ∈ A, eq a a = true) (fuel x : Nat) :
    matchLen eq A A fuel x x = min fuel (A.length - x) := by
  induction fuel generalizing x with
  | zero => simp [matchLen]
  | succ fuel ih =>
    unfold matchLen
    by_cases hx : x < A.length
    · simp only [hx, decide_True, Bool.and_self, itemEq_self h hx, if_true, ih]
      omega
    · simp only [hx, decide_False, Bool.false_and, Bool.false_eq_true, if_false]
      omega

theorem bandLo_zero (m : Nat) : bandLo (m : Int) 0 = 0 := by
  unfold bandLo POS
  split <;> omega

theorem bandHi_zero (n : Nat) : bandHi (n : Int) 0 = 0 := by
  unfold bandHi POS
  split <;> omega

theorem traverse_self {α : Type} {eq : α → α → Bool} {A : List α} (hA : A ≠ [])
    (h : ∀ a ∈ A, eq a a = true) :
    traverse eq A A =
      (Exit.found,
        { v := fun _ => 0
          w := setVec (fun _ => 0) 0 1
          c := setNode (fun _ => ⟨0, 0, 0, 0⟩) 1 ⟨A.length, A.length, A.length, 1⟩
          j := 1 }) := by
  have hA' : 0 < A.length := List.length_pos.2 hA
  have hx : startX 0 0 Scratch.init = 0 := by
    simp [startX, goesDown, srcDiag, Scratch.init]
  have hy : startY 0 0 Scratch.init = 0 := by
    simp [startY, hx, u32]
  have hl : matchLen eq A A A.length (startX 0 0 Scratch.init) (startY 0 0 Scratch.init)
      = A.length := by
    rw [hx, hy, matchLen_self h]; simp
  have hd : diagonal eq A A 0 0 Scratch.init =
      (some Exit.found,
        { v := fun _ => 0
          w := setVec (fun _ => 0) 0 1
          c := setNode (fun _ => ⟨0, 0, 0, 0⟩) 1 ⟨A.length, A.length, A.length, 1⟩
          j := 1 }) := by
    rw [diagonal_eq, hl]
    have h0 : A.length ≠ 0 := by omega
    have h1 : ¬ (Scratch.init.j + 1 = UINT_MAX) := by simp [Scratch.init, UINT_MAX]
    simp only [h0, if_false, h1, hx, hy, Nat.zero_add, ge_iff_le, le_refl, and_self, if_true,
      afterSnake, hl]
    simp [Scratch.init, srcDiag, goesDown, u32]
  unfold traverse dLoop
  have h2 : (0 : Int) ≤ (A.length : Int) + (A.length : Int) := by omega
  rw [if_pos h2, bandLo_zero, bandHi_zero]
  simp only [Int.toNat_zero, Nat.zero_add, kLoop, le_refl, if_true, hd]

/-- C6. For a non-empty `A` whose items are all `eq` to themselves, `lcs(A, A)` is the single
tuple `(0, 0, |A|)` and `ses(A, A)` is the empty list. -/
theorem lcs_ses_self {α : Type} (eq : α → α → Bool) (A : List α)
    (hA : A ≠ []) (hn : A.length ≤ UINT_MAX) (h : ∀ a ∈ A, eq a a = true) :
    lcs eq A A = Except.ok ⟨false, [record.run 0 0 A.length]⟩ ∧
    ses eq A A = Except.ok ⟨false, []⟩ := by
  have hA' : 0 < A.length := List.length_pos.2 hA
  have h0 : A.length ≠ 0 := by omega
  constructor
  · unfold lcs
    rw [ab_ok eq A A false hA hA hn hn, traverse_self hA h]
    simp [backtrack, setNode, h0, u32]
  · unfold ses
    rw [ab_ok eq A A true hA hA hn hn, traverse_self hA h]
    simp [backtrack, setNode, h0, u32, sesEmit]

/-- Instances of `lcs_ses_self`: `[1,2,3]` against itself and `[x]` against itself. -/
theorem lcs_ses_self_witness :
    (lcs (fun a b : Nat => a == b) [1, 2, 3] [1, 2, 3] =
        Except.ok ⟨false, [record.run 0 0 3]⟩ ∧
      ses (fun a b : Nat => a == b) [1, 2, 3] [1, 2, 3] = Except.ok ⟨false, []⟩) ∧
    (lcs (fun a b : Nat => a == b) [7] [7] = Except.ok ⟨false, [record.run 0 0 1]⟩ ∧
      ses (fun a b : Nat => a == b) [7] [7] = Except.ok ⟨false, []⟩) :=
  ⟨lcs_ses_self (fun a b : Nat => a == b) [1, 2, 3] (by decide) (by decide) (by decide),
   lcs_ses_self (fun a b : Nat => a == b) [7] (by decide) (by decide) (by decide)⟩

/-! ### The counting invariant along the edges of the edit graph -/

theorem GhostInv.congr_ghost {α : Type} {eq : α → α → Bool} {A B : List α} {c c1 : Nat → node}
    {p q x jw : Nat} {gh : Ghost} (h : GhostInv eq A B c p q x jw gh)
    (hc : ∀ i, i ≤ jw → c1 i = c i) : GhostInv eq A B c1 p q x jw gh :=
  { h with chain := h.chain.congr_store hc }

/-- The value `(uint32_t)(x - k)` computed by the code is the `y` of the bookkeeping. -/
theorem GhostInv.y_eq {α : Type} {eq : α → α → Bool} {A B : List α} {c : Nat → node}
    {p q x jw : Nat} {gh : Ghost} (h : GhostInv eq A B c p q x jw gh) :
    u32 ((x : Int) - ((p : Int) - (q : Int))) = gh.y := by
  have h1 := h.xeq
  have h2 := h.yeq
  have h3 := h.yle
  unfold u32
  unfold UINT_MAX at h3
  omega

theorem ghost_init {α : Type} (eq : α → α → Bool) (A B : List α) {c : Nat → node}
    (hx : (c 0).x = 0) (hy : (c 0).y = 0) (hz : (c 0).z = 0) :
    GhostInv eq A B c 0 0 0 0 ⟨0, 0, 0, 0, 0, [], []⟩ :=
  { chain := Chain.stop hx hy hz
    xeq := by simp [zsum]
    xle := by simp [UINT_MAX]
    yeq := by simp [zsum]
    yle := by simp [UINT_MAX]
    gx_le_x := le_rfl
    gx_le_n := Nat.zero_le _
    gy_le_y := le_rfl
    gy_le_m := Nat.zero_le _
    gx_eq := fun _ => by simp [zsum]
    gy_eq := fun _ => by simp [zsum]
    recent_sum := by simp [zsum]
    valid := trivial
    below := trivial
    bound := fun h => absurd rfl h
    nowrap := fun _ _ _ => ⟨rfl, rfl⟩ }

theorem below_strict_right {l : List node} {x y : Nat} (h : Below l x y) :
    StrictBelow l (x + 1) y := by
  cases l with
  | nil => trivial
  | cons nd l => exact ⟨by have := h.1; omega, h.2, Or.inl (by have := h.1; omega)⟩

theorem below_strict_down {l : List node} {x y : Nat} (h : Below l x y) :
    StrictBelow l x (y + 1) := by
  cases l with
  | nil => trivial
  | cons nd l => exact ⟨h.1, by have := h.2; omega, Or.inr (by have := h.2; omega)⟩

/-- A horizontal edge: from cell `(p, q)` with `v = x` to cell `(p + 1, q)` with
`x = v + 1` in `uint32_t`. -/
theorem ghost_right {α : Type} {eq : α → α → Bool} {A B : List α} {c : Nat → node}
    {p q x jw : Nat} {gh : Ghost} (h : GhostInv eq A B c p q x jw gh)
    (hn : A.length ≤ UINT_MAX) :
    ∃ gh1, GhostInv eq A B c (p + 1) q (u32 ((x : Int) + 1)) jw gh1 ∧
      StrictBelow gh1.recent (u32 ((x : Int) + 1)) gh1.y := by
  have hxle := h.xle
  by_cases hw : x < UINT_MAX
  · have e : u32 ((x : Int) + 1) = x + 1 := by
      unfold u32; unfold UINT_MAX at hw; omega
    rw [e]
    refine ⟨gh, ?_, below_strict_right h.below⟩
    exact
      { h with
        xeq := by have := h.xeq; omega
        xle := by omega
        gx_le_x := by have := h.gx_le_x; omega
        below := h.below.mono (by omega) le_rfl
        nowrap := fun a b c => h.nowrap a (by omega) c }
  · have hx : x = UINT_MAX := by omega
    have e : u32 ((x : Int) + 1) = 0 := by
      unfold u32; rw [hx]; unfold UINT_MAX; omega
    rw [e]
    refine ⟨⟨gh.t + 1, gh.u, gh.y, 0, gh.gy, [], gh.recent ++ gh.old⟩, ?_, trivial⟩
    have hL := validRuns_zsum_le h.valid
    exact
      { chain := by simpa using h.chain
        xeq := by
          have := h.xeq
          simp only [List.nil_append]
          unfold UINT_MAX at hx
          omega
        xle := Nat.zero_le _
        yeq := by simpa using h.yeq
        yle := h.yle
        gx_le_x := le_rfl
        gx_le_n := Nat.zero_le _
        gy_le_y := h.gy_le_y
        gy_le_m := h.gy_le_m
        gx_eq := fun h0 => by simp at h0
        gy_eq := fun h0 => by simpa using h.gy_eq h0
        recent_sum := by simp [zsum]
        valid := trivial
        below := trivial
        bound := fun _ => by
          simp only [List.nil_append]
          have b1 := h.bound
          have b2 := h.gx_le_n
          have b3 := h.gx_eq
          have b4 := h.gy_eq
          have b5 := h.recent_sum
          have b6 := zsum_append gh.recent gh.old
          by_cases h0 : gh.t + gh.u = 0
          · have t0 : gh.t = 0 := by omega
            have u0 : gh.u = 0 := by omega
            have := b3 t0
            have := b4 u0
            simp only [t0, u0]
            omega
          · have := b1 h0
            have e1 : (gh.t + 1 + gh.u) * UINT_MAX = (gh.t + gh.u) * UINT_MAX + UINT_MAX := by ring
            rw [e1]
            omega
        nowrap := fun a b c => by
          exfalso
          obtain ⟨t0, u0⟩ := h.nowrap a (by omega) c
          have b1 := h.xeq
          have b2 := h.gy_eq u0
          have b3 := h.gy_le_m
          rw [t0] at b1
          omega }

/-- A vertical edge: from cell `(p, q)` to cell `(p, q + 1)`, `x` unchanged. -/
theorem ghost_down {α : Type} {eq : α → α → Bool} {A B : List α} {c : Nat → node}
    {p q x jw : Nat} {gh : Ghost} (h : GhostInv eq A B c p q x jw gh)
    (hm : B.length ≤ UINT_MAX) :
    ∃ gh1, GhostInv eq A B c p (q + 1) x jw gh1 ∧ StrictBelow gh1.recent x gh1.y := by
  have hyle := h.yle
  by_cases hw : gh.y < UINT_MAX
  · refine ⟨{ gh with y := gh.y + 1 }, ?_, below_strict_down h.below⟩
    exact
      { h with
        yeq := by have := h.yeq; simp only; omega
        yle := by simp only; omega
        gy_le_y := by have := h.gy_le_y; simp only; omega
        below := h.below.mono le_rfl (by simp only; omega)
        nowrap := fun a b c => h.nowrap a b (by omega) }
  · have hy : gh.y = UINT_MAX := by omega
    refine ⟨⟨gh.t, gh.u + 1, 0, gh.gx, 0, [], gh.recent ++ gh.old⟩, ?_, trivial⟩
    have hL := validRuns_zsum_le h.valid
    exact
      { chain := by simpa using h.chain
        xeq := by simpa using h.xeq
        xle := h.xle
        yeq := by
          have := h.yeq
          simp only [List.nil_append]
          unfold UINT_MAX at hy
          omega
        yle := Nat.zero_le _
        gx_le_x := h.gx_le_x
        gx_le_n := h.gx_le_n
        gy_le_y := le_rfl
        gy_le_m := Nat.zero_le _
        gx_eq := fun h0 => by simpa using h.gx_eq h0
        gy_eq := fun h0 => by simp at h0
        recent_sum := by simp [zsum]
        valid := trivial
        below := trivial
        bound := fun _ => by
          simp only [List.nil_append]
          have b1 := h.bound
          have b2 := h.gy_le_m
          have b3 := h.gx_eq
          have b4 := h.gy_eq
          have b5 := h.recent_sum
          have b6 := zsum_append gh.recent gh.old
          by_cases h0 : gh.t + gh.u = 0
          · have t0 : gh.t = 0 := by omega
            have u0 : gh.u = 0 := by omega
            have := b3 t0
            have := b4 u0
            simp only [t0, u0]
            omega
          · have := b1 h0
            have e1 : (gh.t + (gh.u + 1)) * UINT_MAX = (gh.t + gh.u) * UINT_MAX + UINT_MAX := by
              ring
            rw [e1]
            omega
        nowrap := fun a b c => by
          exfalso
          obtain ⟨t0, u0⟩ := h.nowrap a b (by omega)
          have b1 := h.yeq
          have b2 := h.gx_eq t0
          have b3 := h.gx_le_n
          rw [u0] at b1
          omega }

theorem zsum_cons (nd : node) (l : List node) : zsum (nd :: l) = nd.z + zsum l := rfl

/-- A snake of `len ≥ 1` matching cells, recorded as a new node at index `j + 1`. -/
theorem ghost_snake {α : Type} {eq : α → α → Bool} {A B : List α} {c : Nat → node}
    {p q x jw : Nat} {gh : Ghost} (h : GhostInv eq A B c p q x jw gh)
    (hs : StrictBelow gh.recent x gh.y) {len j : Nat} (hlen : 1 ≤ len)
    (hmatch : ∀ e, e < len → itemEq eq A B (x + e) (gh.y + e) = true)
    (hjw : jw ≤ j) (hj : j < UINT_MAX) (hn : A.length ≤ UINT_MAX) (hm : B.length ≤ UINT_MAX) :
    GhostInv eq A B
      (setNode c (j + 1) ⟨x + len, gh.y + len, len, u32 (((j + 1 : Nat) : Int) - (jw : Int))⟩)
      p q (x + len) (j + 1)
      ⟨gh.t, gh.u, gh.y + len, gh.gx + len, gh.gy + len,
        ⟨x + len, gh.y + len, len, u32 (((j + 1 : Nat) : Int) - (jw : Int))⟩ :: gh.recent,
        gh.old⟩ := by
  have hlast := itemEq_lt (hmatch (len - 1) (by omega))
  have hback : u32 (((j + 1 : Nat) : Int) - (jw : Int)) = j + 1 - jw := by
    unfold u32; unfold UINT_MAX at hj; omega
  rw [hback]
  have hch : Chain (setNode c (j + 1) ⟨x + len, gh.y + len, len, j + 1 - jw⟩) jw
      (gh.recent ++ gh.old) :=
    h.chain.congr_store (fun i hi => setNode_ne _ _ (by omega))
  have hlink := Chain.link (c := setNode c (j + 1) ⟨x + len, gh.y + len, len, j + 1 - jw⟩)
      (j := j + 1) (l := gh.recent ++ gh.old)
      (by rw [setNode_same]; show len ≠ 0; omega)
      (by rw [setNode_same]; show 1 ≤ j + 1 - jw; omega)
      (by rw [setNode_same]; show j + 1 - jw ≤ j + 1; omega)
      (by
        rw [setNode_same]
        show Chain _ (j + 1 - (j + 1 - jw)) _
        rw [show j + 1 - (j + 1 - jw) = jw by omega]
        exact hch)
  rw [setNode_same] at hlink
  have hxeq := h.xeq
  have hyeq := h.yeq
  have hgx := h.gx_le_x
  have hgy := h.gy_le_y
  have hrs := h.recent_sum
  have hxle := h.xle
  have hyle := h.yle
  exact
    { chain := hlink
      xeq := by
        show p + zsum (_ :: (gh.recent ++ gh.old)) = x + len + gh.t * 4294967296
        rw [zsum_cons]; show p + (len + _) = _; omega
      xle := by show x + len ≤ UINT_MAX; unfold UINT_MAX at *; omega
      yeq := by
        show q + zsum (_ :: (gh.recent ++ gh.old)) = gh.y + len + gh.u * 4294967296
        rw [zsum_cons]; show q + (len + _) = _; omega
      yle := by show gh.y + len ≤ UINT_MAX; unfold UINT_MAX at *; omega
      gx_le_x := by show gh.gx + len ≤ x + len; omega
      gx_le_n := by show gh.gx + len ≤ A.length; omega
      gy_le_y := by show gh.gy + len ≤ gh.y + len; omega
      gy_le_m := by show gh.gy + len ≤ B.length; omega
      gx_eq := fun h0 => by
        have := h.gx_eq h0
        show gh.gx + len = zsum (_ :: (gh.recent ++ gh.old))
        rw [zsum_cons]; show _ = len + _; omega
      gy_eq := fun h0 => by
        have := h.gy_eq h0
        show gh.gy + len = zsum (_ :: (gh.recent ++ gh.old))
        rw [zsum_cons]; show _ = len + _; omega
      recent_sum := by
        show zsum (_ :: gh.recent) = min (gh.gx + len) (gh.gy + len)
        rw [zsum_cons]; show len + _ = _; omega
      valid := by
        refine ⟨⟨hlen, ?_, ?_, fun e he => ?_⟩, ?_, h.valid⟩
        · show len ≤ x + len; omega
        · show len ≤ gh.y + len; omega
        · show itemEq eq A B (x + len - len + e) (gh.y + len - len + e) = true
          rw [show x + len - len = x by omega, show gh.y + len - len = gh.y by omega]
          exact hmatch e he
        · show StrictBelow gh.recent (x + len - len) (gh.y + len - len)
          rw [show x + len - len = x by omega, show gh.y + len - len = gh.y by omega]
          exact hs
      below := ⟨le_rfl, le_rfl⟩
      bound := fun h0 => by
        have := h.bound h0
        show 2 * zsum (_ :: (gh.recent ++ gh.old)) + UINT_MAX ≤
          gh.gx + len + (gh.gy + len) + lcsLength eq A B + (gh.t + gh.u) * UINT_MAX
        rw [zsum_cons]; show 2 * (len + _) + _ ≤ _; omega
      nowrap := h.nowrap }

/-- At a cell where nothing has wrapped, the whole chain is a sequence of runs of matching
cells inside the grid. -/
theorem ghost_partial {α : Type} {eq : α → α → Bool} {A B : List α} {c : Nat → node}
    {p q x jw : Nat} {gh : Ghost} (h : GhostInv eq A B c p q x jw gh)
    (htu : gh.t = 0 ∧ gh.u = 0) :
    Chain c jw gh.recent ∧ ValidRuns eq A B gh.recent ∧ Below gh.recent A.length B.length := by
  obtain ⟨t0, u0⟩ := htu
  have b3 := h.gx_eq t0
  have b4 := h.gy_eq u0
  have b5 := h.recent_sum
  have b6 := zsum_append gh.recent gh.old
  have hz : zsum gh.old = 0 := by omega
  have hold : gh.old = [] :=
    zsum_eq_zero_of_pos (fun nd hnd => h.chain.z_pos nd (List.mem_append_right _ hnd)) hz
  have hch := h.chain
  rw [hold, List.append_nil] at hch
  refine ⟨hch, h.valid, ?_⟩
  cases hr : gh.recent with
  | nil => trivial
  | cons nd l =>
    have hv := h.valid
    rw [hr] at hv
    have hb := hv.1.bounds
    exact hb

/-- When the end-point test succeeds at a cell whose edit distance does not exceed the
optimum, nothing has wrapped, the cell is `(n, m)` and the chain is optimal. -/
theorem ghost_final {α : Type} {eq : α → α → Bool} {A B : List α} {c : Nat → node}
    {p q x jw : Nat} {gh : Ghost} (h : GhostInv eq A B c p q x jw gh)
    (hx : A.length ≤ x) (hy : B.length ≤ gh.y)
    (hd : p + q + 2 * lcsLength eq A B ≤ A.length + B.length)
    (hn : A.length ≤ UINT_MAX) (hm : B.length ≤ UINT_MAX) :
    Chain c jw gh.recent ∧ ValidRuns eq A B gh.recent ∧ Below gh.recent A.length B.length ∧
      zsum gh.recent = lcsLength eq A B := by
  have hL := validRuns_zsum_le h.valid
  have b1 := h.xeq
  have b2 := h.yeq
  have b3 := h.gx_eq
  have b4 := h.gy_eq
  have b5 := h.recent_sum
  have b6 := zsum_append gh.recent gh.old
  have b7 := h.gx_le_n
  have b8 := h.gy_le_m
  have b9 := h.bound
  have htu : gh.t + gh.u = 0 := by
    by_contra h0
    have := b9 h0
    unfold UINT_MAX at this hn hm
    omega
  have t0 : gh.t = 0 := by omega
  have u0 : gh.u = 0 := by omega
  have := b3 t0
  have := b4 u0
  simp only [t0, u0, Nat.zero_mul, Nat.add_zero] at b1 b2
  have hz : zsum gh.old = 0 := by omega
  have hold : gh.old = [] :=
    zsum_eq_zero_of_pos (fun nd hnd => h.chain.z_pos nd (List.mem_append_right _ hnd)) hz
  have hch := h.chain
  rw [hold, List.append_nil] at hch
  have hxe : x = A.length := by omega
  have hye : gh.y = B.length := by omega
  refine ⟨hch, h.valid, ?_, by omega⟩
  have := h.below
  rwa [hxe, hye] at this

/-! ### Furthest-reaching paths -/

/-- Every path ends with a snake that starts at the origin or right after a horizontal or
vertical edge. -/
theorem reach_entry {α : Type} {eq : α → α → Bool} {A B : List α} {d x y : Nat}
    (h : Reach eq A B d x y) :
    ∃ e f r, x = e + r ∧ y = f + r ∧ (∀ a, a < r → itemEq eq A B (e + a) (f + a) = true) ∧
      ((d = 0 ∧ e = 0 ∧ f = 0) ∨
       (∃ d0 e0, d = d0 + 1 ∧ e = e0 + 1 ∧ Reach eq A B d0 e0 f) ∨
       (∃ d0 f0, d = d0 + 1 ∧ f = f0 + 1 ∧ Reach eq A B d0 e f0)) := by
  induction h with
  | origin => exact ⟨0, 0, 0, rfl, rfl, fun a ha => by omega, Or.inl ⟨rfl, rfl, rfl⟩⟩
  | @right d x y h _ _ =>
    exact ⟨x + 1, y, 0, rfl, rfl, fun a ha => by omega, Or.inr (Or.inl ⟨d, x, rfl, rfl, h⟩)⟩
  | @down d x y h _ _ =>
    exact ⟨x, y + 1, 0, rfl, rfl, fun a ha => by omega, Or.inr (Or.inr ⟨d, y, rfl, rfl, h⟩)⟩
  | @diag d x y _ hm ih =>
    obtain ⟨e, f, r, h1, h2, h3, h4⟩ := ih
    refine ⟨e, f, r + 1, by omega, by omega, fun a ha => ?_, h4⟩
    by_cases har : a < r
    · exact h3 a har
    · have : a = r := by omega
      subst this
      rw [← h1, ← h2]
      exact hm

theorem not_dead_left {α : Type} {eq : α → α → Bool} {A B : List α} {p q : Nat}
    (h : ¬ Dead eq A B (p + 1) q)
    (hopt : ∀ d1, d1 < p + 1 + q → ¬ Reach eq A B d1 A.length B.length) :
    ¬ Dead eq A B p q := by
  intro hd
  apply h
  rcases hd with ⟨d1, y1, h1, h2, h3⟩ | ⟨d1, x1, h1, h2, h3⟩
  · exact Or.inl ⟨d1, y1, by omega, h2, by omega⟩
  · by_cases hlt : p + 1 + B.length < x1 + q
    · exact Or.inr ⟨d1, x1, by omega, h2, hlt⟩
    · have hx := (reach_le h2).1
      by_cases hxn : x1 < A.length
      · exact Or.inr ⟨d1 + 1, x1 + 1, by omega, Reach.right h2 hxn, by omega⟩
      · have : x1 = A.length := by omega
        subst this
        exact absurd h2 (hopt d1 (by omega))

theorem not_dead_up {α : Type} {eq : α → α → Bool} {A B : List α} {p q : Nat}
    (h : ¬ Dead eq A B p (q + 1))
    (hopt : ∀ d1, d1 < p + (q + 1) → ¬ Reach eq A B d1 A.length B.length) :
    ¬ Dead eq A B p q := by
  intro hd
  apply h
  rcases hd with ⟨d1, y1, h1, h2, h3⟩ | ⟨d1, x1, h1, h2, h3⟩
  · by_cases hlt : A.length + (q + 1) < p + y1
    · exact Or.inl ⟨d1, y1, by omega, h2, hlt⟩
    · have hy := (reach_le h2).2
      by_cases hym : y1 < B.length
      · exact Or.inl ⟨d1 + 1, y1 + 1, by omega, Reach.down h2 hym, by omega⟩
      · have : y1 = B.length := by omega
        subst this
        exact absurd h2 (hopt d1 (by omega))
  · exact Or.inr ⟨d1, x1, by omega, h2, by omega⟩

theorem alive_left_lt {α : Type} {eq : α → α → Bool} {A B : List α} {p q x y : Nat}
    (h : ¬ Dead eq A B (p + 1) q) (hr : Reach eq A B (p + q) x y) (hk : x + q = y + p) :
    x < A.length := by
  have hx := (reach_le hr).1
  by_contra hc
  have : x = A.length := by omega
  subst this
  exact h (Or.inl ⟨p + q, y, by omega, hr, by omega⟩)

theorem alive_up_lt {α : Type} {eq : α → α → Bool} {A B : List α} {p q x y : Nat}
    (h : ¬ Dead eq A B p (q + 1)) (hr : Reach eq A B (p + q) x y) (hk : x + q = y + p) :
    y < B.length := by
  have hy := (reach_le hr).2
  by_contra hc
  have : y = B.length := by omega
  subst this
  exact h (Or.inr ⟨p + q, x, by omega, hr, by omega⟩)

/-- The cell `(n - L, m - L)` on the diagonal of the end point is never dead. -/
theorem end_not_dead {α : Type} {eq : α → α → Bool} {A B : List α} {p q : Nat}
    (hk : p + B.length = q + A.length) : ¬ Dead eq A B p q := by
  rintro (⟨d1, y1, h1, h2, h3⟩ | ⟨d1, x1, h1, h2, h3⟩)
  · have := (reach_le h2).2; omega
  · have := (reach_le h2).1; omega

/-- If the start `x0` of the snake dominates the entry points coming from the two
neighbouring cells, every path of the cell runs along matching cells beyond `x0`. -/
theorem alive_pre {α : Type} {eq : α → α → Bool} {A B : List α} {p q x0 y0 : Nat}
    (hd : 1 ≤ p + q) (hk : x0 + q = y0 + p)
    (hR : ∀ p0 e0 f, p = p0 + 1 → Reach eq A B (p0 + q) e0 f → e0 + q = f + p0 → e0 + 1 ≤ x0)
    (hD : ∀ q0 e f0, q = q0 + 1 → Reach eq A B (p + q0) e f0 → e + q0 = f0 + p → e ≤ x0)
    {x1 y1 : Nat} (h1 : Reach eq A B (p + q) x1 y1) (hk1 : x1 + q = y1 + p) :
    ∀ a, x0 + a < x1 → itemEq eq A B (x0 + a) (y0 + a) = true := by
  obtain ⟨e, f, r, e1, e2, e3, e4⟩ := reach_entry h1
  have hex : e ≤ x0 := by
    rcases e4 with ⟨h0, _, _⟩ | ⟨d0, e0, hd0, he0, hr0⟩ | ⟨d0, f0, hd0, hf0, hr0⟩
    · omega
    · obtain ⟨p0, q0, g0, c1, c2, c3⟩ := reach_cell hr0
      have hp : p = p0 + 1 := by omega
      have hq : q = q0 := by omega
      subst hq
      have hd0' : d0 = p0 + q := by omega
      subst hd0'
      have := hR p0 e0 f hp hr0 (by omega)
      omega
    · obtain ⟨p0, q0, g0, c1, c2, c3⟩ := reach_cell hr0
      have hp : p = p0 := by omega
      have hq : q = q0 + 1 := by omega
      subst hp
      have hd0' : d0 = p + q0 := by omega
      subst hd0'
      exact hD q0 e f0 hq hr0 (by omega)
  intro a ha
  have := e3 (x0 + a - e) (by omega)
  rw [show e + (x0 + a - e) = x0 + a by omega, show f + (x0 + a - e) = y0 + a by omega] at this
  exact this

/-- After a maximal snake from a dominating start the cell is furthest reaching. -/
theorem alive_snake {α : Type} {eq : α → α → Bool} {A B : List α} {p q x0 y0 : Nat}
    (hk : x0 + q = y0 + p) (hr : Reach eq A B (p + q) x0 y0)
    (hc : ∀ x1 y1, Reach eq A B (p + q) x1 y1 → x1 + q = y1 + p →
      ∀ a, x0 + a < x1 → itemEq eq A B (x0 + a) (y0 + a) = true) :
    ∃ y, x0 + matchLen eq A B A.length x0 y0 + q = y + p ∧
      y = y0 + matchLen eq A B A.length x0 y0 ∧
      Reach eq A B (p + q) (x0 + matchLen eq A B A.length x0 y0) y ∧
      ∀ x1 y1, Reach eq A B (p + q) x1 y1 → x1 + q = y1 + p →
        x1 ≤ x0 + matchLen eq A B A.length x0 y0 := by
  refine ⟨y0 + matchLen eq A B A.length x0 y0, by omega, rfl,
    reach_run _ hr (fun e he => matchLen_match eq A B _ _ _ e he), fun x1 y1 h1 hk1 => ?_⟩
  by_contra hlt
  have hm := hc x1 y1 h1 hk1 (matchLen eq A B A.length x0 y0) (by omega)
  have hl := itemEq_lt hm
  exact matchLen_stop eq A B A.length x0 y0 (by omega) ⟨hl.1, hl.2, hm⟩

/-! ### One round of the `k` loop preserves the invariants -/

theorem matchLen_pos_lt {α : Type} {eq : α → α → Bool} {A B : List α} {fuel x y : Nat}
    (h : matchLen eq A B fuel x y ≠ 0) :
    x + matchLen eq A B fuel x y ≤ A.length ∧ y + matchLen eq A B fuel x y ≤ B.length := by
  have hm := matchLen_match eq A B fuel x y (matchLen eq A B fuel x y - 1) (by omega)
  have := itemEq_lt hm
  omega

theorem cell_finish {α : Type} {eq : α → α → Bool} {A B : List α} {s : Scratch} {p q : Nat}
    (hpre : PreOK eq A B s.c p q (startX ((p + q : Nat) : Int) ((p : Int) - (q : Int)) s)
      (s.w (srcDiag ((p + q : Nat) : Int) ((p : Int) - (q : Int)) s)))
    (hs : StoreOK s) (hopt : p + q + 2 * lcsLength eq A B ≤ A.length + B.length)
    (hn : A.length ≤ UINT_MAX) (hm : B.length ≤ UINT_MAX) :
    CellPost eq A B p q s
      (diagonal eq A B ((p + q : Nat) : Int) ((p : Int) - (q : Int)) s) := by
  obtain ⟨gh, hg, hsb, halive⟩ := hpre
  obtain ⟨hj, hw, hc0x, hc0y, hc0z⟩ := hs
  have hy0 : startY ((p + q : Nat) : Int) ((p : Int) - (q : Int)) s = gh.y := hg.y_eq
  rw [diagonal_eq]
  generalize hx0 : startX ((p + q : Nat) : Int) ((p : Int) - (q : Int)) s = x0 at *
  generalize hjw : s.w (srcDiag ((p + q : Nat) : Int) ((p : Int) - (q : Int)) s) = jw at *
  have hjwle : jw ≤ s.j := by rw [← hjw]; exact hw _
  rw [hy0]
  -- the furthest-reaching part, common to all cases
  have hal : AliveInv eq A B p q (x0 + matchLen eq A B A.length x0 gh.y) := by
    intro hnd
    obtain ⟨a1, a2, a3⟩ := halive hnd
    obtain ⟨y, b1, b2, b3, b4⟩ := alive_snake a1 a2 a3
    exact ⟨y, b1, b3, b4⟩
  by_cases h0 : matchLen eq A B A.length x0 gh.y = 0
  · rw [if_pos h0]
    rw [h0, Nat.add_zero] at hal
    by_cases h1 : x0 ≥ A.length ∧ gh.y ≥ B.length
    · rw [if_pos h1]
      obtain ⟨f1, f2, f3, f4⟩ := ghost_final hg h1.1 h1.2 hopt hn hm
      exact ⟨by show jw ≤ UINT_MAX; omega, gh.recent, f1, f2, f3, f4⟩
    · rw [if_neg h1]
      refine ⟨⟨hj, fun k1 => ?_, hc0x, hc0y, hc0z⟩, ⟨⟨gh, ?_⟩, ?_, ?_⟩, fun k1 hk1 => ?_,
        fun i _ => rfl, le_rfl⟩
      · show setVec s.w _ jw k1 ≤ s.j
        by_cases hk : k1 = (p : Int) - (q : Int)
        · rw [hk, setVec_same]; exact hjwle
        · rw [setVec_ne _ _ hk]; exact hw _
      · show GhostInv eq A B s.c p q (setVec s.v _ x0 _) (setVec s.w _ jw _) gh
        rw [setVec_same, setVec_same]; exact hg
      · show AliveInv eq A B p q (setVec s.v _ x0 _)
        rw [setVec_same]; exact hal
      · show ¬ (A.length ≤ setVec s.v _ x0 _ ∧ B.length ≤ u32 ((setVec s.v _ x0 _ : Nat) - _))
        rw [setVec_same, hg.y_eq]; exact h1
      · exact ⟨setVec_ne _ _ hk1, setVec_ne _ _ hk1⟩
  · rw [if_neg h0]
    by_cases h2 : s.j + 1 = UINT_MAX
    · rw [if_pos h2]
      intro hnw hp hq
      have h1len : 1 ≤ matchLen eq A B A.length x0 gh.y := by omega
      have hg1 := ghost_snake hg hsb (le_refl 1)
        (fun e he => matchLen_match eq A B _ _ _ e (lt_of_lt_of_le he h1len)) hjwle hj hn hm
      obtain ⟨f1, f2, f3⟩ := ghost_partial hg1 (hg1.nowrap hnw hp hq)
      refine ⟨by show s.j + 1 ≤ UINT_MAX; omega, _, ?_, f2, f3⟩
      simp only [afterSnake, hx0, hjw, hy0]
      exact f1
    · rw [if_neg h2]
      have hlen : 1 ≤ matchLen eq A B A.length x0 gh.y := by omega
      have hg2 := ghost_snake hg hsb hlen
        (fun e he => matchLen_match eq A B _ _ _ e he) hjwle hj hn hm
      by_cases h1 : x0 + matchLen eq A B A.length x0 gh.y ≥ A.length ∧
          gh.y + matchLen eq A B A.length x0 gh.y ≥ B.length
      · rw [if_pos h1]
        obtain ⟨f1, f2, f3, f4⟩ := ghost_final hg2 h1.1 h1.2 hopt hn hm
        refine ⟨by show s.j + 1 ≤ UINT_MAX; omega, _, ?_, f2, f3, f4⟩
        simp only [afterSnake, hx0, hjw, hy0]
        exact f1
      · rw [if_neg h1]
        have hcell : ∃ gh2, GhostInv eq A B
            (afterSnake ((p + q : Nat) : Int) ((p : Int) - (q : Int)) s
              (matchLen eq A B A.length x0 gh.y)).c p q
            (x0 + matchLen eq A B A.length x0 gh.y) (s.j + 1) gh2 :=
          ⟨_, by simp only [afterSnake, hx0, hjw, hy0]; exact hg2⟩
        obtain ⟨gh2, hg2c⟩ := hcell
        have hc2 : ∀ i, i ≤ s.j →
            (afterSnake ((p + q : Nat) : Int) ((p : Int) - (q : Int)) s
              (matchLen eq A B A.length x0 gh.y)).c i = s.c i :=
          fun i hi => setNode_ne _ _ (by omega)
        refine ⟨⟨by show s.j + 1 < UINT_MAX; omega, fun k1 => ?_, ?_, ?_, ?_⟩,
          ⟨⟨gh2, ?_⟩, ?_, ?_⟩, fun k1 hk1 => ?_, fun i hi => ?_, by show s.j ≤ s.j + 1; omega⟩
        · show setVec s.w _ (s.j + 1) k1 ≤ s.j + 1
          by_cases hk : k1 = (p : Int) - (q : Int)
          · rw [hk, setVec_same]
          · rw [setVec_ne _ _ hk]; have := hw k1; omega
        · exact (congrArg node.x (hc2 0 (Nat.zero_le _))).trans hc0x
        · exact (congrArg node.y (hc2 0 (Nat.zero_le _))).trans hc0y
        · exact (congrArg node.z (hc2 0 (Nat.zero_le _))).trans hc0z
        · have e1 : setVec s.v ((p : Int) - (q : Int))
              (x0 + matchLen eq A B A.length x0 gh.y) ((p : Int) - (q : Int)) =
              x0 + matchLen eq A B A.length x0 gh.y := setVec_same _ _ _
          have e2 : setVec s.w ((p : Int) - (q : Int)) (s.j + 1) ((p : Int) - (q : Int)) =
              s.j + 1 := setVec_same _ _ _
          have := hg2c
          rw [← e1, ← e2] at this
          exact this
        · show AliveInv eq A B p q (setVec s.v _ _ _)
          rw [setVec_same]; exact hal
        · show ¬ (A.length ≤ setVec s.v _ _ _ ∧ B.length ≤ u32 ((setVec s.v _ _ _ : Nat) - _))
          rw [setVec_same, hg2.y_eq]; exact h1
        · exact ⟨setVec_ne _ _ hk1, setVec_ne _ _ hk1⟩
        · exact hc2 i hi

/-! ### The start of a snake -/

theorem no_early_reach {α : Type} {eq : α → α → Bool} {A B : List α} {d : Nat}
    (hopt : d + 2 * lcsLength eq A B ≤ A.length + B.length) :
    ∀ d1, d1 < d → ¬ Reach eq A B d1 A.length B.length := by
  intro d1 h1 hr
  have := reach_cost hr
  rw [lcsFrom_zero, lcsFrom_end_left eq A B B.length le_rfl] at this
  omega

theorem u32_alive {x p q y : Nat} (hk : x + q = y + p) (hy : y ≤ UINT_MAX) :
    u32 ((x : Int) - ((p : Int) - (q : Int))) = y := by
  unfold u32
  unfold UINT_MAX at hy
  omega

/-- The very first cell `(0, 0)`. -/
theorem pre_first {α : Type} (eq : α → α → Bool) (A B : List α) :
    PreOK eq A B Scratch.init.c 0 0
      (startX ((0 + 0 : Nat) : Int) (((0 : Nat) : Int) - ((0 : Nat) : Int)) Scratch.init)
      (Scratch.init.w
        (srcDiag ((0 + 0 : Nat) : Int) (((0 : Nat) : Int) - ((0 : Nat) : Int)) Scratch.init)) := by
  have hx : startX ((0 + 0 : Nat) : Int) (((0 : Nat) : Int) - ((0 : Nat) : Int)) Scratch.init
      = 0 := by
    simp [startX, goesDown, srcDiag, Scratch.init]
  rw [hx]
  refine ⟨⟨0, 0, 0, 0, 0, [], []⟩, ghost_init eq A B rfl rfl rfl, trivial, fun _ => ?_⟩
  refine ⟨rfl, Reach.origin, fun x1 y1 h1 hk a ha => ?_⟩
  obtain ⟨e, f, r, e1, e2, e3, e4⟩ := reach_entry h1
  rcases e4 with ⟨_, he, hf⟩ | ⟨d0, e0, hd0, _, _⟩ | ⟨d0, f0, hd0, _, _⟩
  · subst he hf
    have := e3 a (by omega)
    simpa using this
  · omega
  · omega

/-- A cell `(0, q + 1)` on the lowest diagonal: the step comes from above. -/
theorem pre_top {α : Type} {eq : α → α → Bool} {A B : List α} {s : Scratch} {q : Nat}
    (hU : CellOK eq A B s.c 0 q (s.v (((0 : Nat) : Int) - (q : Int)))
      (s.w (((0 : Nat) : Int) - (q : Int))))
    (hopt : 0 + (q + 1) + 2 * lcsLength eq A B ≤ A.length + B.length)
    (hm : B.length ≤ UINT_MAX) :
    PreOK eq A B s.c 0 (q + 1)
      (startX ((0 + (q + 1) : Nat) : Int) (((0 : Nat) : Int) - ((q + 1 : Nat) : Int)) s)
      (s.w (srcDiag ((0 + (q + 1) : Nat) : Int) (((0 : Nat) : Int) - ((q + 1 : Nat) : Int)) s)) := by
  have hg : goesDown ((0 + (q + 1) : Nat) : Int) (((0 : Nat) : Int) - ((q + 1 : Nat) : Int)) s
      = true := by
    unfold goesDown
    have : (((0 : Nat) : Int) - ((q + 1 : Nat) : Int)) = -((0 + (q + 1) : Nat) : Int) := by
      push_cast; ring
    simp [this]
  have hi : srcDiag ((0 + (q + 1) : Nat) : Int) (((0 : Nat) : Int) - ((q + 1 : Nat) : Int)) s
      = ((0 : Nat) : Int) - (q : Int) := by
    unfold srcDiag; rw [hg]; push_cast; simp only [if_true]; ring
  have hx : startX ((0 + (q + 1) : Nat) : Int) (((0 : Nat) : Int) - ((q + 1 : Nat) : Int)) s
      = s.v (((0 : Nat) : Int) - (q : Int)) := by
    unfold startX; rw [hg, hi]; simp
  rw [hx, hi]
  obtain ⟨⟨gh, hgi⟩, hal, _⟩ := hU
  obtain ⟨gh1, hg1, hs1⟩ := ghost_down hgi hm
  refine ⟨gh1, hg1, hs1, fun hnd => ?_⟩
  have hne := no_early_reach hopt
  have hnd0 : ¬ Dead eq A B 0 q := not_dead_up hnd (fun d1 h1 => hne d1 (by omega))
  obtain ⟨y, a1, a2, a3⟩ := hal hnd0
  have hym := alive_up_lt hnd a2 a1
  have hy1 : gh1.y = y + 1 := by
    rw [← hg1.y_eq]
    exact u32_alive (by omega) (by omega)
  rw [hy1]
  refine ⟨by omega, Reach.down a2 hym, fun x1 y1 h1 hk1 => ?_⟩
  exact alive_pre (by omega) (by omega)
    (fun p0 e0 f hp _ _ => by omega)
    (fun q0 e f0 hq hr hk => by
      have : q0 = q := by omega
      subst this
      exact a3 e f0 hr hk) h1 hk1

/-- A cell `(p + 1, 0)` on the highest diagonal: the step comes from the left. -/
theorem pre_left {α : Type} {eq : α → α → Bool} {A B : List α} {s : Scratch} {p : Nat}
    (hL : CellOK eq A B s.c p 0 (s.v ((p : Int) - ((0 : Nat) : Int)))
      (s.w ((p : Int) - ((0 : Nat) : Int))))
    (hopt : p + 1 + 0 + 2 * lcsLength eq A B ≤ A.length + B.length)
    (hn : A.length ≤ UINT_MAX) :
    PreOK eq A B s.c (p + 1) 0
      (startX ((p + 1 + 0 : Nat) : Int) (((p + 1 : Nat) : Int) - ((0 : Nat) : Int)) s)
      (s.w (srcDiag ((p + 1 + 0 : Nat) : Int) (((p + 1 : Nat) : Int) - ((0 : Nat) : Int)) s)) := by
  have hg : goesDown ((p + 1 + 0 : Nat) : Int) (((p + 1 : Nat) : Int) - ((0 : Nat) : Int)) s
      = false := by
    unfold goesDown
    have h1 : ¬ ((((p + 1 : Nat) : Int) - ((0 : Nat) : Int)) = -((p + 1 + 0 : Nat) : Int)) := by
      push_cast; omega
    have h2 : (((p + 1 : Nat) : Int) - ((0 : Nat) : Int)) = ((p + 1 + 0 : Nat) : Int) := by
      push_cast; ring
    have hb1 : ((((p + 1 : Nat) : Int) - ((0 : Nat) : Int)) == -((p + 1 + 0 : Nat) : Int))
        = false := by
      rw [beq_eq_false_iff_ne]; exact h1
    have hb2 : ((((p + 1 : Nat) : Int) - ((0 : Nat) : Int)) != ((p + 1 + 0 : Nat) : Int))
        = false := by
      rw [h2]; simp
    rw [hb1, hb2]; rfl
  have hi : srcDiag ((p + 1 + 0 : Nat) : Int) (((p + 1 : Nat) : Int) - ((0 : Nat) : Int)) s
      = (p : Int) - ((0 : Nat) : Int) := by
    unfold srcDiag; rw [hg]; push_cast; simp
  have hx : startX ((p + 1 + 0 : Nat) : Int) (((p + 1 : Nat) : Int) - ((0 : Nat) : Int)) s
      = u32 ((s.v ((p : Int) - ((0 : Nat) : Int)) : Int) + 1) := by
    unfold startX; rw [hg, hi]; simp
  rw [hx, hi]
  obtain ⟨⟨gh, hgi⟩, hal, _⟩ := hL
  obtain ⟨gh1, hg1, hs1⟩ := ghost_right hgi hn
  refine ⟨gh1, hg1, hs1, fun hnd => ?_⟩
  have hne := no_early_reach hopt
  have hnd0 : ¬ Dead eq A B p 0 := not_dead_left hnd (fun d1 h1 => hne d1 (by omega))
  obtain ⟨y, a1, a2, a3⟩ := hal hnd0
  have hxn := alive_left_lt hnd a2 a1
  have hym := (reach_le a2).2
  have hxe : u32 ((s.v ((p : Int) - ((0 : Nat) : Int)) : Int) + 1)
      = s.v ((p : Int) - ((0 : Nat) : Int)) + 1 := by
    unfold u32; unfold UINT_MAX at hn; omega
  have hy1 : gh1.y = y := by
    rw [← hg1.y_eq, hxe]
    exact u32_alive (by omega) (by omega)
  rw [hy1, hxe]
  refine ⟨by omega, Reach.right a2 hxn, fun x1 y1 h1 hk1 => ?_⟩
  exact alive_pre (by omega) (by omega)
    (fun p0 e0 f hp hr hk => by
      have : p0 = p := by omega
      subst this
      have := a3 e0 f hr hk
      omega)
    (fun q0 e f0 hq _ _ => by omega) h1 hk1

/-- A cell `(p + 1, q + 1)` inside the band: the step comes from above when the diagonal
above reaches strictly further, from the left otherwise. -/
theorem pre_mid {α : Type} {eq : α → α → Bool} {A B : List α} {s : Scratch} {p q : Nat}
    (hL : CellOK eq A B s.c p (q + 1) (s.v ((p : Int) - ((q + 1 : Nat) : Int)))
      (s.w ((p : Int) - ((q + 1 : Nat) : Int))))
    (hU : CellOK eq A B s.c (p + 1) q (s.v (((p + 1 : Nat) : Int) - (q : Int)))
      (s.w (((p + 1 : Nat) : Int) - (q : Int))))
    (hopt : p + 1 + (q + 1) + 2 * lcsLength eq A B ≤ A.length + B.length)
    (hn : A.length ≤ UINT_MAX) (hm : B.length ≤ UINT_MAX) :
    PreOK eq A B s.c (p + 1) (q + 1)
      (startX ((p + 1 + (q + 1) : Nat) : Int) (((p + 1 : Nat) : Int) - ((q + 1 : Nat) : Int)) s)
      (s.w (srcDiag ((p + 1 + (q + 1) : Nat) : Int)
        (((p + 1 : Nat) : Int) - ((q + 1 : Nat) : Int)) s)) := by
  have ek1 : (((p + 1 : Nat) : Int) - ((q + 1 : Nat) : Int)) - 1
      = (p : Int) - ((q + 1 : Nat) : Int) := by push_cast; ring
  have ek2 : (((p + 1 : Nat) : Int) - ((q + 1 : Nat) : Int)) + 1
      = ((p + 1 : Nat) : Int) - (q : Int) := by push_cast; ring
  have h1 : ¬ ((((p + 1 : Nat) : Int) - ((q + 1 : Nat) : Int)) = -((p + 1 + (q + 1) : Nat) : Int)) := by
    push_cast; omega
  have h2 : ¬ ((((p + 1 : Nat) : Int) - ((q + 1 : Nat) : Int)) = ((p + 1 + (q + 1) : Nat) : Int)) := by
    push_cast; omega
  have hb1 : ((((p + 1 : Nat) : Int) - ((q + 1 : Nat) : Int)) == -((p + 1 + (q + 1) : Nat) : Int))
      = false := by
    rw [beq_eq_false_iff_ne]; exact h1
  have hb2 : ((((p + 1 : Nat) : Int) - ((q + 1 : Nat) : Int)) != ((p + 1 + (q + 1) : Nat) : Int))
      = true := by
    rw [bne_iff_ne]; exact h2
  have hg : goesDown ((p + 1 + (q + 1) : Nat) : Int)
      (((p + 1 : Nat) : Int) - ((q + 1 : Nat) : Int)) s =
      decide (s.v ((p : Int) - ((q + 1 : Nat) : Int)) < s.v (((p + 1 : Nat) : Int) - (q : Int))) := by
    unfold goesDown
    rw [hb1, hb2, ek1, ek2]; simp
  have hne := no_early_reach hopt
  obtain ⟨⟨ghL, hgL⟩, halL, _⟩ := hL
  obtain ⟨⟨ghU, hgU⟩, halU, _⟩ := hU
  by_cases hlt : s.v ((p : Int) - ((q + 1 : Nat) : Int)) < s.v (((p + 1 : Nat) : Int) - (q : Int))
  · have hg1 : goesDown ((p + 1 + (q + 1) : Nat) : Int)
        (((p + 1 : Nat) : Int) - ((q + 1 : Nat) : Int)) s = true := by rw [hg]; simpa using hlt
    have hi : srcDiag ((p + 1 + (q + 1) : Nat) : Int)
        (((p + 1 : Nat) : Int) - ((q + 1 : Nat) : Int)) s = ((p + 1 : Nat) : Int) - (q : Int) := by
      unfold srcDiag; rw [hg1, if_pos rfl, ek2]
    have hx : startX ((p + 1 + (q + 1) : Nat) : Int)
        (((p + 1 : Nat) : Int) - ((q + 1 : Nat) : Int)) s
        = s.v (((p + 1 : Nat) : Int) - (q : Int)) := by
      unfold startX; rw [hg1, hi]; simp
    rw [hx, hi]
    obtain ⟨gh1, hg1', hs1⟩ := ghost_down hgU hm
    refine ⟨gh1, hg1', hs1, fun hnd => ?_⟩
    have hndU : ¬ Dead eq A B (p + 1) q := not_dead_up hnd (fun d1 h => hne d1 (by omega))
    have hndL : ¬ Dead eq A B p (q + 1) := not_dead_left hnd (fun d1 h => hne d1 (by omega))
    obtain ⟨yU, a1, a2, a3⟩ := halU hndU
    obtain ⟨yL, b1, b2, b3⟩ := halL hndL
    have hym := alive_up_lt hnd a2 a1
    have hy1 : gh1.y = yU + 1 := by
      rw [← hg1'.y_eq]
      exact u32_alive (by omega) (by omega)
    rw [hy1]
    refine ⟨by omega, Reach.down a2 hym, fun x1 y1 r1 hk1 => ?_⟩
    exact alive_pre (by omega) (by omega)
      (fun p0 e0 f hp hr hk => by
        have : p0 = p := by omega
        subst this
        have := b3 e0 f hr hk
        omega)
      (fun q0 e f0 hq hr hk => by
        have : q0 = q := by omega
        subst this
        exact a3 e f0 hr hk) r1 hk1
  · have hg1 : goesDown ((p + 1 + (q + 1) : Nat) : Int)
        (((p + 1 : Nat) : Int) - ((q + 1 : Nat) : Int)) s = false := by rw [hg]; simpa using hlt
    have hi : srcDiag ((p + 1 + (q + 1) : Nat) : Int)
        (((p + 1 : Nat) : Int) - ((q + 1 : Nat) : Int)) s = (p : Int) - ((q + 1 : Nat) : Int) := by
      unfold srcDiag; rw [hg1]; simp only [Bool.false_eq_true, if_false]; exact ek1
    have hx : startX ((p + 1 + (q + 1) : Nat) : Int)
        (((p + 1 : Nat) : Int) - ((q + 1 : Nat) : Int)) s
        = u32 ((s.v ((p : Int) - ((q + 1 : Nat) : Int)) : Int) + 1) := by
      unfold startX; rw [hg1, hi]; simp
    rw [hx, hi]
    obtain ⟨gh1, hg1', hs1⟩ := ghost_right hgL hn
    refine ⟨gh1, hg1', hs1, fun hnd => ?_⟩
    have hndU : ¬ Dead eq A B (p + 1) q := not_dead_up hnd (fun d1 h => hne d1 (by omega))
    have hndL : ¬ Dead eq A B p (q + 1) := not_dead_left hnd (fun d1 h => hne d1 (by omega))
    obtain ⟨yU, a1, a2, a3⟩ := halU hndU
    obtain ⟨yL, b1, b2, b3⟩ := halL hndL
    have hxn := alive_left_lt hnd b2 b1
    have hyL := (reach_le b2).2
    have hxe : u32 ((s.v ((p : Int) - ((q + 1 : Nat) : Int)) : Int) + 1)
        = s.v ((p : Int) - ((q + 1 : Nat) : Int)) + 1 := by
      unfold u32; unfold UINT_MAX at hn; omega
    have hy1 : gh1.y = yL := by
      rw [← hg1'.y_eq, hxe]
      exact u32_alive (by omega) (by omega)
    rw [hy1, hxe]
    have hreach := Reach.right b2 hxn
    rw [show p + (q + 1) + 1 = p + 1 + (q + 1) by omega] at hreach
    refine ⟨by omega, hreach, fun x1 y1 r1 hk1 => ?_⟩
    exact alive_pre (by omega) (by omega)
      (fun p0 e0 f hp hr hk => by
        have : p0 = p := by omega
        subst this
        have := b3 e0 f hr hk
        omega)
      (fun q0 e f0 hq hr hk => by
        have : q0 = q := by omega
        subst this
        have := a3 e f0 hr hk
        omega) r1 hk1

/-! ### The `k` loop -/

theorem CellOK.congr_cell {α : Type} {eq : α → α → Bool} {A B : List α} {c c1 : Nat → node}
    {p q x jw : Nat} (h : CellOK eq A B c p q x jw) (hc : ∀ i, i ≤ jw → c1 i = c i) :
    CellOK eq A B c1 p q x jw := by
  obtain ⟨⟨gh, hg⟩, h2, h3⟩ := h
  exact ⟨⟨gh, hg.congr_ghost hc⟩, h2, h3⟩

theorem bandHi_eq (n d : Nat) : bandHi (n : Int) (d : Int) = 2 * ((min d n : Nat) : Int) - d := by
  unfold bandHi POS
  split <;> omega

theorem bandLo_eq (m d : Nat) :
    bandLo (m : Int) (d : Int) = 2 * ((d - min d m : Nat) : Int) - d := by
  unfold bandLo POS
  split <;> omega

/-- One round of the `k` loop at a cell of the band, from the state invariant. -/
theorem kinv_cell {α : Type} {eq : α → α → Bool} {A B : List α} {s : Scratch} {p q : Nat}
    (hK : KInv eq A B (p + q) p s) (hd : 1 ≤ p + q) (hp : p ≤ A.length) (hq : q ≤ B.length)
    (hopt : p + q + 2 * lcsLength eq A B ≤ A.length + B.length)
    (hn : A.length ≤ UINT_MAX) (hm : B.length ≤ UINT_MAX) :
    CellPost eq A B p q s
      (diagonal eq A B ((p + q : Nat) : Int) ((p : Int) - (q : Int)) s) := by
  obtain ⟨hs, hprev, _⟩ := hK
  refine cell_finish ?_ hs hopt hn hm
  cases p with
  | zero =>
    cases q with
    | zero => omega
    | succ q => exact pre_top (hprev 0 q (by omega) (by omega) (by omega)) hopt hm
  | succ p =>
    cases q with
    | zero => exact pre_left (hprev p 0 (by omega) (by omega) (by omega)) hopt hn
    | succ q =>
      exact pre_mid (hprev p (q + 1) (by omega) (by omega) (by omega))
        (hprev (p + 1) q (by omega) (by omega) (by omega)) hopt hn hm

/-- After a round that stays in the loop the state invariant holds for the next cell. -/
theorem kinv_next {α : Type} {eq : α → α → Bool} {A B : List α} {s s1 : Scratch} {p q : Nat}
    (hK : KInv eq A B (p + q) p s) (hpost : CellPost eq A B p q s (none, s1)) :
    KInv eq A B (p + q) (p + 1) s1 := by
  obtain ⟨hs, hprev, hcur⟩ := hK
  obtain ⟨hs1, hcell, hframe, hc, hj⟩ := hpost
  refine ⟨hs1, fun p1 q1 h1 h2 h3 => ?_, fun p1 q1 h1 h2 h3 h4 => ?_⟩
  · have hne : (p1 : Int) - (q1 : Int) ≠ (p : Int) - (q : Int) := by omega
    rw [(hframe _ hne).1, (hframe _ hne).2]
    exact (hprev p1 q1 h1 h2 h3).congr_cell (fun i hi => hc i (le_trans hi (hs.2.1 _)))
  · by_cases hp1 : p1 = p
    · subst hp1
      have : q1 = q := by omega
      subst this
      exact hcell
    · have hne : (p1 : Int) - (q1 : Int) ≠ (p : Int) - (q : Int) := by omega
      rw [(hframe _ hne).1, (hframe _ hne).2]
      exact (hcur p1 q1 h1 h2 h3 (by omega)).congr_cell (fun i hi => hc i (le_trans hi (hs.2.1 _)))

theorem kLoop_spec {α : Type} {eq : α → α → Bool} {A B : List α} {d : Nat} (hd : 1 ≤ d)
    (hopt : d + 2 * lcsLength eq A B ≤ A.length + B.length)
    (hn : A.length ≤ UINT_MAX) (hm : B.length ≤ UINT_MAX) (fuel pc : Nat) (s : Scratch)
    (hK : KInv eq A B d pc s) (hq : d ≤ pc + B.length) (hpc : pc ≤ min d A.length + 1)
    (hf : min d A.length + 1 ≤ pc + fuel) :
    KPost eq A B d
      (kLoop eq A B (d : Int) (bandHi (A.length : Int) (d : Int)) fuel
        (2 * (pc : Int) - (d : Int)) s) := by
  induction fuel generalizing pc s with
  | zero =>
    have : pc = min d A.length + 1 := by omega
    subst this
    exact hK
  | succ fuel ih =>
    unfold kLoop
    rw [bandHi_eq]
    by_cases hle : pc ≤ min d A.length
    · have hk : (2 * (pc : Int) - (d : Int)) ≤ 2 * ((min d A.length : Nat) : Int) - (d : Int) := by
        omega
      rw [if_pos hk]
      obtain ⟨q, rfl⟩ : ∃ q, d = pc + q := ⟨d - pc, by omega⟩
      have ek : (2 * (pc : Int) - ((pc + q : Nat) : Int)) = (pc : Int) - (q : Int) := by
        push_cast; ring
      rw [ek]
      have hpost := kinv_cell hK hd (by omega) (by omega) hopt hn hm
      rcases hdiag : diagonal eq A B ((pc + q : Nat) : Int) ((pc : Int) - (q : Int)) s
        with ⟨res, s1⟩
      rw [hdiag] at hpost
      cases res with
      | none =>
        simp only
        have hK1 := kinv_next hK hpost
        have := ih (pc + 1) s1 hK1 (by omega) (by omega) (by omega)
        rw [bandHi_eq] at this
        have ek2 : (2 * ((pc + 1 : Nat) : Int) - ((pc + q : Nat) : Int))
            = (pc : Int) - (q : Int) + 2 := by push_cast; ring
        rw [ek2] at this
        exact this
      | some e =>
        simp only
        cases e with
        | found => exact hpost
        | capacity => exact fun hnw => hpost hnw (by omega) (by omega)
        | exhausted => exact hpost
    · have hk : ¬ ((2 * (pc : Int) - (d : Int)) ≤ 2 * ((min d A.length : Nat) : Int) - (d : Int)) := by
        omega
      rw [if_neg hk]
      have : pc = min d A.length + 1 := by omega
      subst this
      exact hK

/-! ### The `d` loop -/

/-- While every cell of distance `d` has failed the end-point test, `d` is not yet the
edit distance. -/
theorem not_optimal_yet {α : Type} {eq : α → α → Bool} {A B : List α} {d : Nat}
    {c : Nat → node} {v w : Int → Nat}
    (hcells : ∀ p q, p + q = d → p ≤ A.length → q ≤ B.length →
      CellOK eq A B c p q (v ((p : Int) - (q : Int))) (w ((p : Int) - (q : Int))))
    (hopt : d + 2 * lcsLength eq A B ≤ A.length + B.length) (hm : B.length ≤ UINT_MAX) :
    d + 2 * lcsLength eq A B < A.length + B.length := by
  by_contra hcon
  have hfin := reach_finish (Reach.origin : Reach eq A B 0 0 0)
  rw [lcsFrom_zero] at hfin
  have hfin2 : Reach eq A B d A.length B.length := by
    have e : 0 + (A.length - 0) + (B.length - 0) - 2 * lcsLength eq A B = d := by omega
    rwa [e] at hfin
  obtain ⟨p, q, g, c1, c2, c3⟩ := reach_cell hfin2
  obtain ⟨_, hal, hne⟩ := hcells p q c1 (by omega) (by omega)
  obtain ⟨y, a1, a2, a3⟩ := hal (end_not_dead (by omega))
  have h1 := a3 _ _ (c1 ▸ hfin2) (by omega)
  have h2 := (reach_le a2).1
  apply hne
  refine ⟨h1, ?_⟩
  rw [u32_alive a1 (by have := (reach_le a2).2; omega)]
  omega

theorem dLoop_spec {α : Type} {eq : α → α → Bool} {A B : List α}
    (hn : A.length ≤ UINT_MAX) (hm : B.length ≤ UINT_MAX) (fuel d : Nat) (s : Scratch)
    (hd : 1 ≤ d) (hopt : d + 2 * lcsLength eq A B ≤ A.length + B.length)
    (hf : A.length + B.length < d + 2 * lcsLength eq A B + fuel)
    (hK : KInv eq A B d (d - min d B.length) s) :
    DPost eq A B (dLoop eq A B fuel (d : Int) s) := by
  induction fuel generalizing d s with
  | zero => omega
  | succ fuel ih =>
    unfold dLoop
    have hle : (d : Int) ≤ (A.length : Int) + (B.length : Int) := by omega
    rw [if_pos hle, bandLo_eq]
    have hspec := kLoop_spec hd hopt hn hm (d + 1) (d - min d B.length) s hK (by omega)
      (by omega) (by omega)
    have ek : (2 * ((d - min d B.length : Nat) : Int) - (d : Int)) =
        2 * ((d - min d B.length : Nat) : Int) - (d : Int) := rfl
    rw [show ((d : Int)).toNat + 1 = d + 1 by simp]
    rcases hk : kLoop eq A B (d : Int) (bandHi (A.length : Int) (d : Int)) (d + 1)
        (2 * ((d - min d B.length : Nat) : Int) - (d : Int)) s with ⟨res, s1⟩
    rw [hk] at hspec
    cases res with
    | none =>
      simp only
      obtain ⟨hs1, hprev, hcur⟩ := hspec
      have hlt := not_optimal_yet (d := d) (c := s1.c) (v := s1.v) (w := s1.w)
        (fun p q h1 h2 h3 => hcur p q h1 h2 h3 (by omega)) hopt hm
      have := ih (d + 1) s1 (by omega) (by omega) (by omega)
        ⟨hs1, fun p q h1 h2 h3 => hcur p q (by omega) h2 h3 (by omega),
          fun p q h1 h2 h3 h4 => by omega⟩
      simpa using this
    | some e =>
      simp only
      cases e with
      | found => exact hspec
      | capacity => exact hspec
      | exhausted => exact hspec

theorem lcsLength_le {α : Type} (eq : α → α → Bool) (A B : List α) :
    lcsLength eq A B ≤ A.length ∧ lcsLength eq A B ≤ B.length := by
  have := lcsFrom_le eq A B 0 0
  rw [lcsFrom_zero] at this
  omega

/-- The forward traversal either stops on the capacity test or ends through the end-point
test on an optimal chain; it never runs the `d` loop to its end. -/
theorem traverse_spec {α : Type} (eq : α → α → Bool) (A B : List α)
    (hn : A.length ≤ UINT_MAX) (hm : B.length ≤ UINT_MAX) :
    DPost eq A B (traverse eq A B) := by
  have hL := lcsLength_le eq A B
  have hs0 : StoreOK Scratch.init := ⟨by simp [Scratch.init, UINT_MAX], fun _ => le_rfl, rfl, rfl, rfl⟩
  have hpost := cell_finish (pre_first eq A B) hs0 (by omega) hn hm
  simp only [Nat.add_zero, Nat.cast_zero, sub_zero] at hpost
  unfold traverse dLoop
  have h0 : ((0 : Int)) ≤ (A.length : Int) + (B.length : Int) := by omega
  rw [if_pos h0, bandLo_zero, bandHi_zero]
  simp only [Int.toNat_zero, Nat.zero_add]
  unfold kLoop
  rw [if_pos (le_refl (0 : Int))]
  rcases hdiag : diagonal eq A B 0 0 Scratch.init with ⟨res, s1⟩
  rw [hdiag] at hpost
  cases res with
  | none =>
    simp only [kLoop]
    obtain ⟨hs1, hcell, _, _, _⟩ := hpost
    have hcells : ∀ p q, p + q = 0 → p ≤ A.length → q ≤ B.length →
        CellOK eq A B s1.c p q (s1.v ((p : Int) - (q : Int))) (s1.w ((p : Int) - (q : Int))) := by
      intro p q h1 _ _
      have hp : p = 0 := by omega
      have hq : q = 0 := by omega
      subst hp hq
      exact hcell
    have hlt := not_optimal_yet hcells (by omega) hm
    have := dLoop_spec hn hm (A.length + B.length) 1 s1 le_rfl (by omega) (by omega)
      ⟨hs1, fun p q h1 h2 h3 => hcells p q (by omega) h2 h3, fun p q h1 h2 h3 h4 => by omega⟩
    simpa using this
  | some e =>
    simp only
    cases e with
    | found => exact hpost
    | capacity => exact fun hnw => hpost hnw (Nat.zero_le _) (Nat.zero_le _)
    | exhausted => exact hpost

/-! ### The results of `lcs` and `ses` -/

/-- A call that returns without the capacity warning returns the runs, respectively the
gaps, of an optimal chain. -/
theorem ab_complete {α : Type} {eq : α → α → Bool} {A B : List α} {u : Bool} {out : Output}
    (h : ab eq A B u = Except.ok out) (hw : out.warning = false) :
    ∃ l, ValidRuns eq A B l ∧ Below l A.length B.length ∧ zsum l = lcsLength eq A B ∧
      out.records = if u then editsOf l A.length B.length else runsOf l := by
  unfold ab at h
  split at h
  · cases h
  · rename_i hc
    simp only [Bool.or_eq_true, decide_eq_true_eq, not_or, not_lt] at hc
    obtain ⟨⟨⟨_, _⟩, hn⟩, hm⟩ := hc
    have hspec := traverse_spec eq A B hn hm
    rcases ht : traverse eq A B with ⟨e, s⟩
    rw [ht] at hspec h
    simp only at h
    cases h
    simp only at hw
    cases e with
    | capacity => simp at hw
    | exhausted => exact absurd hspec (by simp [DPost])
    | found =>
      obtain ⟨hj, l, hch, hv, hb, hz⟩ := hspec
      have hl : ∀ nd ∈ l, nd.z ≤ nd.x ∧ nd.z ≤ nd.y ∧ nd.x ≤ UINT_MAX ∧ nd.y ≤ UINT_MAX := by
        intro nd hnd
        have hr := validRuns_mem hv nd hnd
        have hbd := hr.bounds
        exact ⟨hr.2.1, hr.2.2.1, by omega, by omega⟩
      have hlen := hch.length_le
      refine ⟨l, hv, hb, hz, ?_⟩
      cases u with
      | false =>
        simp only [Bool.false_eq_true, if_false]
        rw [backtrack_lcs hch hj hl _ _ _ _ (by omega)]
        simp
      | true =>
        simp only [if_true]
        rw [backtrack_ses hch hj hl _ _ _ _ (by omega)]
        simp

/-- A call that returns without the capacity warning, or on inputs with `n + m ≤ UINT_MAX`,
returns the runs, respectively the gaps, of a chain of runs of matching cells. -/
theorem ab_valid {α : Type} {eq : α → α → Bool} {A B : List α} {u : Bool} {out : Output}
    (h : ab eq A B u = Except.ok out)
    (hw : out.warning = false ∨ A.length + B.length ≤ UINT_MAX) :
    ∃ l, ValidRuns eq A B l ∧ Below l A.length B.length ∧
      out.records = if u then editsOf l A.length B.length else runsOf l := by
  unfold ab at h
  split at h
  · cases h
  · rename_i hc
    simp only [Bool.or_eq_true, decide_eq_true_eq, not_or, not_lt] at hc
    obtain ⟨⟨⟨_, _⟩, hn⟩, hm⟩ := hc
    have hspec := traverse_spec eq A B hn hm
    rcases ht : traverse eq A B with ⟨e, s⟩
    rw [ht] at hspec h
    simp only at h
    cases h
    simp only at hw
    have hpart : Partial eq A B s := by
      cases e with
      | capacity =>
        rcases hw with hw | hw
        · simp at hw
        · exact hspec hw
      | exhausted => exact absurd hspec (by simp [DPost])
      | found =>
        obtain ⟨hj, l, hch, hv, hb, _⟩ := hspec
        exact ⟨hj, l, hch, hv, hb⟩
    obtain ⟨hj, l, hch, hv, hb⟩ := hpart
    have hl : ∀ nd ∈ l, nd.z ≤ nd.x ∧ nd.z ≤ nd.y ∧ nd.x ≤ UINT_MAX ∧ nd.y ≤ UINT_MAX := by
      intro nd hnd
      have hr := validRuns_mem hv nd hnd
      have hbd := hr.bounds
      exact ⟨hr.2.1, hr.2.2.1, by omega, by omega⟩
    have hlen := hch.length_le
    refine ⟨l, hv, hb, ?_⟩
    cases u with
    | false =>
      simp only [Bool.false_eq_true, if_false]
      rw [backtrack_lcs hch hj hl _ _ _ _ (by omega)]
      simp
    | true =>
      simp only [if_true]
      rw [backtrack_ses hch hj hl _ _ _ _ (by omega)]
      simp

/-- C1. The `length` fields of the tuples returned by `lcs(A, B)` (a call that ends
without the capacity warning) add up to the length of a longest common subsequence of
`A` and `B` under `eq`. -/
theorem lcs_total_length {α : Type} (eq : α → α → Bool) (A B : List α) (out : Output)
    (h : lcs eq A B = Except.ok out) (hw : out.warning = false) :
    sizeSum out.records = lcsLength eq A B := by
  obtain ⟨l, _, _, hz, hr⟩ := ab_complete h hw
  simp only [Bool.false_eq_true, if_false] at hr
  rw [hr, sizeSum_runsOf, hz]

/-- Instance of `lcs_total_length` on Myers's example: total length `4`. -/
theorem lcs_total_length_witness :
    lcs (fun a b : Nat => a == b) [1, 2, 3, 1, 2, 2, 1] [3, 2, 1, 2, 1, 3] =
        Except.ok ⟨false, [record.run 2 0 1, record.run 3 2 2, record.run 6 4 1]⟩ ∧
    sizeSum [record.run 2 0 1, record.run 3 2 2, record.run 6 4 1] =
        lcsLength (fun a b : Nat => a == b) [1, 2, 3, 1, 2, 2, 1] [3, 2, 1, 2, 1, 3] ∧
    lcsLength (fun a b : Nat => a == b) [1, 2, 3, 1, 2, 2, 1] [3, 2, 1, 2, 1, 3] = 4 :=
  ⟨rfl,
   lcs_total_length (fun a b : Nat => a == b) [1, 2, 3, 1, 2, 2, 1] [3, 2, 1, 2, 1, 3]
     ⟨false, [record.run 2 0 1, record.run 3 2 2, record.run 6 4 1]⟩ rfl rfl,
   by decide⟩

/-- Where `y = (uint32_t)(x - k)` cannot spoil the chain, the property of C3 holds: applying
the tuples of `ses(A, B)` to `A` in output order yields `B` item for item (the kept items
are `eq` to the items of `B` at their place, the inserted items are the items of `B`
themselves), for every call that ends without the capacity warning, and for every call on
inputs with `n + m ≤ UINT_MAX`, with or without the warning. -/
theorem ses_applies {α : Type} (eq : α → α → Bool) (A B : List α) (out : Output)
    (h : ses eq A B = Except.ok out)
    (hw : out.warning = false ∨ A.length + B.length ≤ UINT_MAX) :
    List.Forall₂ (Patched.agrees eq) (applySes A B out.records) B := by
  obtain ⟨l, hv, hb, hr⟩ := ab_valid h hw
  simp only [if_true] at hr
  obtain ⟨pre, pos, h1, h2, h3⟩ := applyFrom_editsOf hv hb
  have := h2 []
  rw [List.append_nil] at this
  unfold applySes
  rw [hr, this]
  simp only [applyFrom]
  have e1 : (A.drop pos).take (A.length - pos) = A.drop pos := by
    rw [List.take_of_length_le]; simp
  rw [e1, List.take_length] at h3
  exact h3

/-- Instance of `ses_applies` on Myers's example. -/
theorem ses_applies_witness :
    ses (fun a b : Nat => a == b) [1, 2, 3, 1, 2, 2, 1] [3, 2, 1, 2, 1, 3] =
        Except.ok ⟨false, [record.edit 0 0 2 (-1), record.edit 3 1 1 1, record.edit 5 4 1 (-1),
          record.edit 7 5 1 1]⟩ ∧
    List.Forall₂ (Patched.agrees (fun a b : Nat => a == b))
      (applySes [1, 2, 3, 1, 2, 2, 1] [3, 2, 1, 2, 1, 3]
        [record.edit 0 0 2 (-1), record.edit 3 1 1 1, record.edit 5 4 1 (-1),
          record.edit 7 5 1 1])
      [3, 2, 1, 2, 1, 3] :=
  ⟨rfl,
   ses_applies (fun a b : Nat => a == b) [1, 2, 3, 1, 2, 2, 1] [3, 2, 1, 2, 1, 3]
     ⟨false, [record.edit 0 0 2 (-1), record.edit 3 1 1 1, record.edit 5 4 1 (-1),
       record.edit 7 5 1 1]⟩ rfl (Or.inl rfl)⟩

/-- C4. The `range` fields of the tuples returned by `ses(A, B)` (a call that ends without
the capacity warning) add up to `n + m - 2 * L`, where `L` is the length of a longest
common subsequence of `A` and `B`. -/
theorem ses_total_range {α : Type} (eq : α → α → Bool) (A B : List α) (out : Output)
    (h : ses eq A B = Except.ok out) (hw : out.warning = false) :
    sizeSum out.records = A.length + B.length - 2 * lcsLength eq A B := by
  obtain ⟨l, hv, hb, hz, hr⟩ := ab_complete h hw
  simp only [if_true] at hr
  have := sizeSum_editsOf hv hb
  rw [hr]
  omega

/-- Instance of `ses_total_range` on Myers's example: `7 + 6 - 2 * 4 = 5`. -/
theorem ses_total_range_witness :
    ses (fun a b : Nat => a == b) [1, 2, 3, 1, 2, 2, 1] [3, 2, 1, 2, 1, 3] =
        Except.ok ⟨false, [record.edit 0 0 2 (-1), record.edit 3 1 1 1, record.edit 5 4 1 (-1),
          record.edit 7 5 1 1]⟩ ∧
    sizeSum [record.edit 0 0 2 (-1), record.edit 3 1 1 1, record.edit 5 4 1 (-1),
        record.edit 7 5 1 1] =
      [1, 2, 3, 1, 2, 2, 1].length + [3, 2, 1, 2, 1, 3].length -
        2 * lcsLength (fun a b : Nat => a == b) [1, 2, 3, 1, 2, 2, 1] [3, 2, 1, 2, 1, 3] ∧
    [1, 2, 3, 1, 2, 2, 1].length + [3, 2, 1, 2, 1, 3].length -
        2 * lcsLength (fun a b : Nat => a == b) [1, 2, 3, 1, 2, 2, 1] [3, 2, 1, 2, 1, 3] = 5 :=
  ⟨rfl,
   ses_total_range (fun a b : Nat => a == b) [1, 2, 3, 1, 2, 2, 1] [3, 2, 1, 2, 1, 3]
     ⟨false, [record.edit 0 0 2 (-1), record.edit 3 1 1 1, record.edit 5 4 1 (-1),
       record.edit 7 5 1 1]⟩ rfl rfl,
   by decide⟩

/-- Where `y = (uint32_t)(x - k)` cannot spoil the chain, the property of C7 holds: the
tuples of `lcs(A, B)` are in forward order and never adjacent (for consecutive tuples
`(a, b, len)`, `(a', b', len')`, `a + len ≤ a'` and `b + len ≤ b'`, and one of the two
inequalities is strict), for every call that ends without the capacity warning, and for
every call on inputs with `n + m ≤ UINT_MAX`, with or without the warning. -/
theorem lcs_records_ordered {α : Type} (eq : α → α → Bool) (A B : List α) (out : Output)
    (h : lcs eq A B = Except.ok out)
    (hw : out.warning = false ∨ A.length + B.length ≤ UINT_MAX) :
    List.Chain' record.Before out.records := by
  obtain ⟨l, hv, _, hr⟩ := ab_valid h hw
  simp only [Bool.false_eq_true, if_false] at hr
  rw [hr]
  exact runsOf_chain hv

/-- Instance of `lcs_records_ordered` on Myers's example. -/
theorem lcs_records_ordered_witness :
    lcs (fun a b : Nat => a == b) [1, 2, 3, 1, 2, 2, 1] [3, 2, 1, 2, 1, 3] =
        Except.ok ⟨false, [record.run 2 0 1, record.run 3 2 2, record.run 6 4 1]⟩ ∧
    List.Chain' record.Before [record.run 2 0 1, record.run 3 2 2, record.run 6 4 1] :=
  ⟨rfl,
   lcs_records_ordered (fun a b : Nat => a == b) [1, 2, 3, 1, 2, 2, 1] [3, 2, 1, 2, 1, 3]
     ⟨false, [record.run 2 0 1, record.run 3 2 2, record.run 6 4 1]⟩ rfl (Or.inl rfl)⟩

/-! ### A proper prefix against the whole sequence -/

theorem matchLen_of_le {α : Type} (eq : α → α → Bool) (A B : List α) (fuel : Nat) {x : Nat}
    (y : Nat) (h : A.length ≤ x) : matchLen eq A B fuel x y = 0 := by
  cases fuel with
  | zero => rfl
  | succ fuel =>
    unfold matchLen
    have : ¬ x < A.length := by omega
    simp [this]

theorem matchLen_diag {α : Type} {eq : α → α → Bool} {A B : List α}
    (h : ∀ i, i < A.length → itemEq eq A B i i = true) (fuel x : Nat) :
    matchLen eq A B fuel x x = min fuel (A.length - x) := by
  induction fuel generalizing x with
  | zero => simp [matchLen]
  | succ fuel ih =>
    unfold matchLen
    by_cases hx : x < A.length
    · have hy := (itemEq_lt (h x hx)).2
      simp only [hx, hy, decide_True, Bool.and_self, h x hx, if_true, ih]
      omega
    · simp only [hx, decide_False, Bool.false_and, Bool.false_eq_true, if_false]
      omega

theorem goesDown_top (q : Nat) (s : Scratch) :
    goesDown ((0 + (q + 1) : Nat) : Int) (((0 : Nat) : Int) - ((q + 1 : Nat) : Int)) s = true := by
  unfold goesDown
  have : (((0 : Nat) : Int) - ((q + 1 : Nat) : Int)) = -((0 + (q + 1) : Nat) : Int) := by
    push_cast; ring
  simp [this]

theorem goesDown_left (p : Nat) (s : Scratch) :
    goesDown ((p + 1 + 0 : Nat) : Int) (((p + 1 : Nat) : Int) - ((0 : Nat) : Int)) s = false := by
  unfold goesDown
  have h1 : ¬ ((((p + 1 : Nat) : Int) - ((0 : Nat) : Int)) = -((p + 1 + 0 : Nat) : Int)) := by
    push_cast; omega
  have h2 : (((p + 1 : Nat) : Int) - ((0 : Nat) : Int)) = ((p + 1 + 0 : Nat) : Int) := by
    push_cast; ring
  have hb1 : ((((p + 1 : Nat) : Int) - ((0 : Nat) : Int)) == -((p + 1 + 0 : Nat) : Int))
      = false := by
    rw [beq_eq_false_iff_ne]; exact h1
  have hb2 : ((((p + 1 : Nat) : Int) - ((0 : Nat) : Int)) != ((p + 1 + 0 : Nat) : Int))
      = false := by
    rw [h2]; simp
  rw [hb1, hb2]; rfl

theorem goesDown_mid (p q : Nat) (s : Scratch) :
    goesDown ((p + 1 + (q + 1) : Nat) : Int) (((p + 1 : Nat) : Int) - ((q + 1 : Nat) : Int)) s =
      decide (s.v ((p : Int) - ((q + 1 : Nat) : Int)) < s.v (((p + 1 : Nat) : Int) - (q : Int))) := by
  have ek1 : (((p + 1 : Nat) : Int) - ((q + 1 : Nat) : Int)) - 1
      = (p : Int) - ((q + 1 : Nat) : Int) := by push_cast; ring
  have ek2 : (((p + 1 : Nat) : Int) - ((q + 1 : Nat) : Int)) + 1
      = ((p + 1 : Nat) : Int) - (q : Int) := by push_cast; ring
  have h1 : ¬ ((((p + 1 : Nat) : Int) - ((q + 1 : Nat) : Int)) = -((p + 1 + (q + 1) : Nat) : Int)) := by
    push_cast; omega
  have h2 : ¬ ((((p + 1 : Nat) : Int) - ((q + 1 : Nat) : Int)) = ((p + 1 + (q + 1) : Nat) : Int)) := by
    push_cast; omega
  have hb1 : ((((p + 1 : Nat) : Int) - ((q + 1 : Nat) : Int)) == -((p + 1 + (q + 1) : Nat) : Int))
      = false := by
    rw [beq_eq_false_iff_ne]; exact h1
  have hb2 : ((((p + 1 : Nat) : Int) - ((q + 1 : Nat) : Int)) != ((p + 1 + (q + 1) : Nat) : Int))
      = true := by
    rw [bne_iff_ne]; exact h2
  unfold goesDown
  rw [hb1, hb2, ek1, ek2]; simp

/-- In the traversal of a proper prefix every cell `(p, q)` starts at `x = n + p`,
`y = n + q`, with the tail of its source diagonal equal to `1`. -/
theorem pref_start {n m pc : Nat} {s : Scratch} {p q : Nat} (hI : PrefInv n (p + q) pc s)
    (hd : 1 ≤ p + q) (hp : p ≤ n) (hdm : n + (p + q) ≤ m) (hm : m ≤ UINT_MAX) :
    startX ((p + q : Nat) : Int) ((p : Int) - (q : Int)) s = n + p ∧
    startY ((p + q : Nat) : Int) ((p : Int) - (q : Int)) s = n + q ∧
    s.w (srcDiag ((p + q : Nat) : Int) ((p : Int) - (q : Int)) s) = 1 := by
  obtain ⟨_, _, _, hprev, _⟩ := hI
  have hy : ∀ x0 : Nat, x0 = n + p → u32 ((x0 : Int) - ((p : Int) - (q : Int))) = n + q := by
    intro x0 hx0
    unfold u32; unfold UINT_MAX at hm; omega
  cases p with
  | zero =>
    cases q with
    | zero => omega
    | succ q =>
      have hg := goesDown_top q s
      have hi : srcDiag ((0 + (q + 1) : Nat) : Int) (((0 : Nat) : Int) - ((q + 1 : Nat) : Int)) s
          = ((0 : Nat) : Int) - (q : Int) := by
        unfold srcDiag; rw [hg]; push_cast; simp only [if_true]; ring
      have hx : startX ((0 + (q + 1) : Nat) : Int) (((0 : Nat) : Int) - ((q + 1 : Nat) : Int)) s
          = n + 0 := by
        unfold startX; rw [hg, hi]; simp only [if_true]
        exact (hprev 0 q (by omega) (by omega)).1
      refine ⟨hx, ?_, ?_⟩
      · unfold startY; rw [hx]; exact hy _ rfl
      · rw [hi]; exact (hprev 0 q (by omega) (by omega)).2
  | succ p =>
    cases q with
    | zero =>
      have hg := goesDown_left p s
      have hi : srcDiag ((p + 1 + 0 : Nat) : Int) (((p + 1 : Nat) : Int) - ((0 : Nat) : Int)) s
          = (p : Int) - ((0 : Nat) : Int) := by
        unfold srcDiag; rw [hg]; push_cast; simp
      have hv := (hprev p 0 (by omega) (by omega)).1
      have hx : startX ((p + 1 + 0 : Nat) : Int) (((p + 1 : Nat) : Int) - ((0 : Nat) : Int)) s
          = n + (p + 1) := by
        unfold startX; rw [hg, hi]
        simp only [Bool.false_eq_true, if_false]
        rw [hv]; unfold u32; unfold UINT_MAX at hm; omega
      refine ⟨hx, ?_, ?_⟩
      · unfold startY; rw [hx]; exact hy _ rfl
      · rw [hi]; exact (hprev p 0 (by omega) (by omega)).2
    | succ q =>
      have hvL := hprev p (q + 1) (by omega) (by omega)
      have hvU := hprev (p + 1) q (by omega) (by omega)
      have hg : goesDown ((p + 1 + (q + 1) : Nat) : Int)
          (((p + 1 : Nat) : Int) - ((q + 1 : Nat) : Int)) s = true := by
        rw [goesDown_mid, hvL.1, hvU.1]; simp
      have ek2 : (((p + 1 : Nat) : Int) - ((q + 1 : Nat) : Int)) + 1
          = ((p + 1 : Nat) : Int) - (q : Int) := by push_cast; ring
      have hi : srcDiag ((p + 1 + (q + 1) : Nat) : Int)
          (((p + 1 : Nat) : Int) - ((q + 1 : Nat) : Int)) s = ((p + 1 : Nat) : Int) - (q : Int) := by
        unfold srcDiag; rw [hg, if_pos rfl, ek2]
      have hx : startX ((p + 1 + (q + 1) : Nat) : Int)
          (((p + 1 : Nat) : Int) - ((q + 1 : Nat) : Int)) s = n + (p + 1) := by
        unfold startX; rw [hg, hi]; simp only [if_true]; exact hvU.1
      refine ⟨hx, ?_, ?_⟩
      · unfold startY; rw [hx]; exact hy _ rfl
      · rw [hi]; exact hvU.2

/-- One round of the `k` loop in the traversal of a proper prefix. -/
theorem pref_cell {α : Type} (eq : α → α → Bool) {A B : List α} {s : Scratch} {p q : Nat}
    (hI : PrefInv A.length (p + q) p s) (hd : 1 ≤ p + q) (hp : p ≤ A.length)
    (hdm : A.length + (p + q) ≤ B.length) (hm : B.length ≤ UINT_MAX) :
    (A.length + q < B.length →
      ∃ s1, diagonal eq A B ((p + q : Nat) : Int) ((p : Int) - (q : Int)) s = (none, s1) ∧
        PrefInv A.length (p + q) (p + 1) s1) ∧
    (B.length ≤ A.length + q →
      PrefFinal A.length (diagonal eq A B ((p + q : Nat) : Int) ((p : Int) - (q : Int)) s)) := by
  obtain ⟨hx, hy, hw⟩ := pref_start hI hd hp hdm hm
  obtain ⟨hj, hc1, hc0, hprev, hcur⟩ := hI
  have hlen : matchLen eq A B A.length
      (startX ((p + q : Nat) : Int) ((p : Int) - (q : Int)) s)
      (startY ((p + q : Nat) : Int) ((p : Int) - (q : Int)) s) = 0 := by
    rw [hx]; exact matchLen_of_le eq A B _ _ (by omega)
  rw [diagonal_eq, hlen, if_pos rfl, hx, hy, hw]
  constructor
  · intro hlt
    have hne : ¬ (A.length + p ≥ A.length ∧ A.length + q ≥ B.length) := by omega
    rw [if_neg hne]
    refine ⟨_, rfl, hj, hc1, hc0, fun p1 q1 h1 h2 => ?_, fun p1 q1 h1 h2 h3 => ?_⟩
    · have hk : (p1 : Int) - (q1 : Int) ≠ (p : Int) - (q : Int) := by omega
      show setVec s.v _ _ _ = _ ∧ setVec s.w _ _ _ = _
      rw [setVec_ne _ _ hk, setVec_ne _ _ hk]
      exact hprev p1 q1 h1 h2
    · show setVec s.v _ _ _ = _ ∧ setVec s.w _ _ _ = _
      by_cases hp1 : p1 = p
      · subst hp1
        have : q1 = q := by omega
        subst this
        rw [setVec_same, setVec_same]
        exact ⟨rfl, rfl⟩
      · have hk : (p1 : Int) - (q1 : Int) ≠ (p : Int) - (q : Int) := by omega
        rw [setVec_ne _ _ hk, setVec_ne _ _ hk]
        exact hcur p1 q1 h1 h2 (by omega)
  · intro hge
    have hyes : A.length + p ≥ A.length ∧ A.length + q ≥ B.length := by omega
    rw [if_pos hyes]
    exact ⟨rfl, rfl, hc1, hc0⟩

theorem pref_kLoop {α : Type} (eq : α → α → Bool) {A B : List α} {d : Nat} (hd : 1 ≤ d)
    (hdm : A.length + d < B.length) (hm : B.length ≤ UINT_MAX) (fuel pc : Nat) (s : Scratch)
    (hI : PrefInv A.length d pc s) (hpc : pc ≤ min d A.length + 1)
    (hf : min d A.length + 1 ≤ pc + fuel) :
    ∃ s1, kLoop eq A B (d : Int) (bandHi (A.length : Int) (d : Int)) fuel
        (2 * (pc : Int) - (d : Int)) s = (none, s1) ∧
      PrefInv A.length d (min d A.length + 1) s1 := by
  induction fuel generalizing pc s with
  | zero =>
    have : pc = min d A.length + 1 := by omega
    subst this
    exact ⟨s, rfl, hI⟩
  | succ fuel ih =>
    unfold kLoop
    rw [bandHi_eq]
    by_cases hle : pc ≤ min d A.length
    · have hk : (2 * (pc : Int) - (d : Int)) ≤ 2 * ((min d A.length : Nat) : Int) - (d : Int) := by
        omega
      rw [if_pos hk]
      obtain ⟨q, rfl⟩ : ∃ q, d = pc + q := ⟨d - pc, by omega⟩
      have ek : (2 * (pc : Int) - ((pc + q : Nat) : Int)) = (pc : Int) - (q : Int) := by
        push_cast; ring
      rw [ek]
      obtain ⟨s1, h1, h2⟩ := (pref_cell eq hI hd (by omega) (by omega) hm).1 (by omega)
      rw [h1]
      simp only
      obtain ⟨s2, h3, h4⟩ := ih (pc + 1) s1 h2 (by omega) (by omega)
      rw [bandHi_eq] at h3
      have ek2 : (2 * ((pc + 1 : Nat) : Int) - ((pc + q : Nat) : Int))
          = (pc : Int) - (q : Int) + 2 := by push_cast; ring
      rw [ek2] at h3
      exact ⟨s2, h3, h4⟩
    · have hk : ¬ ((2 * (pc : Int) - (d : Int)) ≤ 2 * ((min d A.length : Nat) : Int) - (d : Int)) := by
        omega
      rw [if_neg hk]
      have : pc = min d A.length + 1 := by omega
      subst this
      exact ⟨s, rfl, hI⟩

theorem pref_dLoop {α : Type} (eq : α → α → Bool) {A B : List α}
    (hm : B.length ≤ UINT_MAX) (fuel d : Nat) (s : Scratch) (hd : 1 ≤ d)
    (hdm : A.length + d ≤ B.length) (hf : B.length < A.length + d + fuel)
    (hI : PrefInv A.length d 0 s) :
    ∃ s1, dLoop eq A B fuel (d : Int) s = (Exit.found, s1) ∧ s1.j = 1 ∧
      s1.c 1 = ⟨A.length, A.length, A.length, 1⟩ ∧ s1.c 0 = ⟨0, 0, 0, 0⟩ := by
  induction fuel generalizing d s with
  | zero => omega
  | succ fuel ih =>
    unfold dLoop
    have hle : (d : Int) ≤ (A.length : Int) + (B.length : Int) := by omega
    rw [if_pos hle, bandLo_eq, show ((d : Int)).toNat + 1 = d + 1 by simp]
    have e0 : d - min d B.length = 0 := by omega
    rw [e0]
    by_cases hlt : A.length + d < B.length
    · obtain ⟨s1, h1, h2⟩ := pref_kLoop eq hd hlt hm (d + 1) 0 s hI (by omega) (by omega)
      rw [h1]
      simp only
      obtain ⟨hj, hc1, hc0, _, hcur⟩ := h2
      have := ih (d + 1) s1 (by omega) (by omega) (by omega)
        ⟨hj, hc1, hc0, fun p q h1 h2 => hcur p q (by omega) h2 (by omega),
          fun p q _ _ h3 => by omega⟩
      simpa using this
    · unfold kLoop
      rw [bandHi_eq]
      have hk : (2 * ((0 : Nat) : Int) - (d : Int)) ≤ 2 * ((min d A.length : Nat) : Int) - (d : Int) := by
        omega
      rw [if_pos hk]
      have ek : (2 * ((0 : Nat) : Int) - (d : Int)) = ((0 : Nat) : Int) - (d : Int) := by
        push_cast; ring
      rw [ek]
      have hI0 : PrefInv A.length (0 + d) 0 s := by simpa using hI
      have hfin := (pref_cell eq (A := A) (B := B) (p := 0) (q := d) hI0 (by omega)
        (by omega) (by omega) hm).2 (by omega)
      rw [show ((0 + d : Nat) : Int) = (d : Int) by simp] at hfin
      rcases hdiag : diagonal eq A B (d : Int) (((0 : Nat) : Int) - (d : Int)) s with ⟨res, s1⟩
      rw [hdiag] at hfin
      obtain ⟨f1, f2, f3, f4⟩ := hfin
      simp only at f1 f2 f3 f4
      subst f1
      exact ⟨s1, rfl, f2, f3, f4⟩

theorem traverse_pref {α : Type} {eq : α → α → Bool} {A B : List α} (hA : A ≠ [])
    (hlt : A.length < B.length) (hm : B.length ≤ UINT_MAX)
    (h : ∀ i, i < A.length → itemEq eq A B i i = true) :
    ∃ s1, traverse eq A B = (Exit.found, s1) ∧ s1.j = 1 ∧
      s1.c 1 = ⟨A.length, A.length, A.length, 1⟩ ∧ s1.c 0 = ⟨0, 0, 0, 0⟩ := by
  have hA' : 0 < A.length := List.length_pos.2 hA
  have hx : startX 0 0 Scratch.init = 0 := by
    simp [startX, goesDown, srcDiag, Scratch.init]
  have hy : startY 0 0 Scratch.init = 0 := by
    simp [startY, hx, u32]
  have hl : matchLen eq A B A.length (startX 0 0 Scratch.init) (startY 0 0 Scratch.init)
      = A.length := by
    rw [hx, hy, matchLen_diag h]; simp
  have hd : diagonal eq A B 0 0 Scratch.init =
      (none,
        { v := setVec (fun _ => 0) 0 A.length
          w := setVec (fun _ => 0) 0 1
          c := setNode (fun _ => ⟨0, 0, 0, 0⟩) 1 ⟨A.length, A.length, A.length, 1⟩
          j := 1 }) := by
    rw [diagonal_eq, hl]
    have h0 : A.length ≠ 0 := by omega
    have h1 : ¬ (Scratch.init.j + 1 = UINT_MAX) := by simp [Scratch.init, UINT_MAX]
    have h2 : ¬ (0 + A.length ≥ A.length ∧ 0 + A.length ≥ B.length) := by omega
    simp only [h0, if_false, h1, hx, hy, h2, afterSnake, hl]
    simp [Scratch.init, srcDiag, goesDown, u32]
  unfold traverse dLoop
  have h2 : (0 : Int) ≤ (A.length : Int) + (B.length : Int) := by omega
  rw [if_pos h2, bandLo_zero, bandHi_zero]
  simp only [Int.toNat_zero, Nat.zero_add, kLoop, le_refl, if_true, hd]
  have := pref_dLoop eq (A := A) (B := B) hm (A.length + B.length) 1
    { v := setVec (fun _ => 0) 0 A.length
      w := setVec (fun _ => 0) 0 1
      c := setNode (fun _ => ⟨0, 0, 0, 0⟩) 1 ⟨A.length, A.length, A.length, 1⟩
      j := 1 } le_rfl (by omega) (by omega)
    ⟨rfl, by simp, by simp [setNode], fun p q h1 _ => by
      have hp : p = 0 := by omega
      have hq : q = 0 := by omega
      subst hp hq
      simp, fun p q _ _ h3 => by omega⟩
  simpa using this

/-- C9. When `A` is non-empty, `B` is longer than `A` and the first `n` items of `B` are
`eq` to the items of `A` one by one, `lcs(A, B)` is the single tuple `(0, 0, n)` and
`ses(A, B)` is the single insertion `(n, n, m - n, +1)`. -/
theorem lcs_ses_initial_segment {α : Type} (eq : α → α → Bool) (A B : List α)
    (hA : A ≠ []) (hlt : A.length < B.length) (hm : B.length ≤ UINT_MAX)
    (h : ∀ i, i < A.length → itemEq eq A B i i = true) :
    lcs eq A B = Except.ok ⟨false, [record.run 0 0 A.length]⟩ ∧
    ses eq A B = Except.ok ⟨false, [record.edit A.length A.length (B.length - A.length) 1]⟩ := by
  have hA' : 0 < A.length := List.length_pos.2 hA
  have hB : B ≠ [] := by
    intro hb; rw [hb] at hlt; simp at hlt
  have h0 : A.length ≠ 0 := by omega
  obtain ⟨s1, ht, hj, hc1, hc0⟩ := traverse_pref hA hlt hm h
  constructor
  · unfold lcs
    rw [ab_ok eq A B false hA hB (by omega) hm, ht]
    simp [backtrack, hj, hc1, hc0, h0, u32]
  · unfold ses
    rw [ab_ok eq A B true hA hB (by omega) hm, ht]
    simp [backtrack, hj, hc1, hc0, h0, u32, sesEmit, hlt]

/-- Instance of `lcs_ses_initial_segment`: `A = [x]`, `B = [x, y, z]`. -/
theorem lcs_ses_initial_segment_witness :
    lcs (fun a b : Nat => a == b) [1] [1, 2, 3] = Except.ok ⟨false, [record.run 0 0 1]⟩ ∧
    ses (fun a b : Nat => a == b) [1] [1, 2, 3] = Except.ok ⟨false, [record.edit 1 1 2 1]⟩ :=
  lcs_ses_initial_segment (fun a b : Nat => a == b) [1] [1, 2, 3] (by decide) (by decide)
    (by decide) (by decide)

/-! ### Every recorded node is a run of matching cells -/

theorem nodesOK_afterSnake {α : Type} {eq : α → α → Bool} {A B : List α} {s : Scratch}
    (hs : WfStore eq A B s) (d k : Int) {len : Nat} (h1 : 1 ≤ len)
    (h2 : len ≤ matchLen eq A B A.length (startX d k s) (startY d k s)) :
    NodesOK eq A B (afterSnake d k s len) ∧ ∀ k1, (afterSnake d k s len).w k1 ≤ s.j + 1 := by
  obtain ⟨⟨hj, hc0, hnodes⟩, hlt, hw⟩ := hs
  refine ⟨⟨?_, ?_, ?_⟩, ?_⟩
  · show s.j + 1 ≤ UINT_MAX
    omega
  · have hc : (afterSnake d k s len).c 0 = s.c 0 := by
      simp [afterSnake, setNode]
    rw [hc]
    exact hc0
  · intro i hi1 hi2
    have hi2 : i ≤ s.j + 1 := hi2
    have hc : (afterSnake d k s len).c = setNode s.c (s.j + 1)
        ⟨startX d k s + len, startY d k s + len, len,
          u32 (((s.j + 1 : Nat) : Int) - (s.w (srcDiag d k s) : Int))⟩ := rfl
    rw [hc]
    by_cases hi : i = s.j + 1
    · subst hi
      rw [setNode_same]
      have hwi := hw (srcDiag d k s)
      have hb : u32 (((s.j + 1 : Nat) : Int) - (s.w (srcDiag d k s) : Int))
          = s.j + 1 - s.w (srcDiag d k s) := u32_sub (by omega) (by omega)
      refine ⟨⟨h1, by simp, by simp, fun e he => ?_⟩, ?_, ?_⟩
      · have he : e < len := he
        have := matchLen_match eq A B A.length (startX d k s) (startY d k s) e (by omega)
        simpa using this
      · show 1 ≤ u32 _
        rw [hb]; omega
      · show u32 _ ≤ _
        rw [hb]; omega
    · rw [setNode_ne _ _ hi]
      exact hnodes i hi1 (by omega)
  · intro k1
    show setVec s.w k (s.j + 1) k1 ≤ s.j + 1
    by_cases hk : k1 = k
    · subst hk; rw [setVec_same]
    · rw [setVec_ne _ _ hk]
      exact Nat.le_succ_of_le (hw k1)

theorem diagonal_wf {α : Type} {eq : α → α → Bool} {A B : List α} (d k : Int) {s : Scratch}
    (hs : WfStore eq A B s) : WfPost eq A B (diagonal eq A B d k s) := by
  have hs0 := hs
  obtain ⟨⟨hj, hc0, hnodes⟩, hlt, hw⟩ := hs
  rw [diagonal_eq]
  by_cases h0 : matchLen eq A B A.length (startX d k s) (startY d k s) = 0
  · rw [if_pos h0]
    split
    · have hwi := hw (srcDiag d k s)
      exact ⟨by show s.w _ ≤ UINT_MAX; omega, hc0, fun i hi1 hi2 =>
        hnodes i hi1 (le_trans hi2 hwi)⟩
    · refine ⟨⟨hj, hc0, hnodes⟩, hlt, fun k1 => ?_⟩
      show setVec s.w k _ k1 ≤ s.j
      by_cases hk : k1 = k
      · subst hk; rw [setVec_same]; exact hw _
      · rw [setVec_ne _ _ hk]; exact hw k1
  · rw [if_neg h0]
    have hpos : 1 ≤ matchLen eq A B A.length (startX d k s) (startY d k s) := by omega
    split
    · exact (nodesOK_afterSnake hs0 d k le_rfl hpos).1
    · rename_i hcap
      obtain ⟨hN, hW⟩ := nodesOK_afterSnake hs0 d k hpos le_rfl
      split
      · exact hN
      · exact ⟨⟨hN.1, hN.2.1, hN.2.2⟩, by show s.j + 1 < UINT_MAX; omega, hW⟩

theorem kLoop_wf {α : Type} {eq : α → α → Bool} {A B : List α} (d hi : Int) (fuel : Nat)
    (k : Int) (s : Scratch) (hs : WfStore eq A B s) :
    WfPost eq A B (kLoop eq A B d hi fuel k s) := by
  induction fuel generalizing k s with
  | zero => exact hs
  | succ fuel ih =>
    unfold kLoop
    split
    · have hd := diagonal_wf d k hs
      split
      · rename_i e s1 he
        rw [he] at hd
        exact hd
      · rename_i s1 he
        rw [he] at hd
        exact ih _ _ hd
    · exact hs

theorem dLoop_wf {α : Type} {eq : α → α → Bool} {A B : List α} (fuel : Nat) (d : Int)
    (s : Scratch) (hs : WfStore eq A B s) : NodesOK eq A B (dLoop eq A B fuel d s).2 := by
  induction fuel generalizing d s with
  | zero => exact hs.1
  | succ fuel ih =>
    unfold dLoop
    split
    · have hk := kLoop_wf d (bandHi A.length d) (d.toNat + 1) (bandLo B.length d) s hs
      split
      · rename_i e s1 he
        rw [he] at hk
        exact hk
      · rename_i s1 he
        rw [he] at hk
        exact ih _ _ hk
    · exact hs.1

theorem traverse_wf {α : Type} (eq : α → α → Bool) (A B : List α) :
    NodesOK eq A B (traverse eq A B).2 := by
  apply dLoop_wf
  refine ⟨⟨by simp [Scratch.init], rfl, fun i h1 h2 => ?_⟩, by simp [Scratch.init, UINT_MAX],
    fun k => le_rfl⟩
  have : i ≤ 0 := h2
  omega

theorem nodesOK_chain {α : Type} {eq : α → α → Bool} {A B : List α} {s : Scratch}
    (hs : NodesOK eq A B s) (j : Nat) (hj : j ≤ s.j) :
    ∃ l, Chain s.c j l ∧ ∀ nd ∈ l, RunOK eq A B nd := by
  induction j using Nat.strong_induction_on with
  | _ j ih =>
    by_cases h0 : j = 0
    · subst h0
      refine ⟨[], Chain.stop ?_ ?_ ?_, by simp⟩ <;> rw [hs.2.1]
    · obtain ⟨hr, hb1, hb2⟩ := hs.2.2 j (by omega) hj
      obtain ⟨l, hl, hall⟩ := ih (j - (s.c j).back) (by omega) (by omega)
      refine ⟨s.c j :: l, Chain.link (by have := hr.1; omega) hb1 hb2 hl, ?_⟩
      intro nd hnd
      rcases List.mem_cons.1 hnd with h | h
      · rw [h]; exact hr
      · exact hall nd h

theorem runsOf_match {α : Type} {eq : α → α → Bool} {A B : List α} {l : List node}
    (h : ∀ nd ∈ l, RunOK eq A B nd) : ∀ r ∈ runsOf l, r.IsMatch eq A B := by
  induction l with
  | nil => simp [runsOf]
  | cons nd l ih =>
    intro r hr
    simp only [runsOf, List.mem_append, List.mem_singleton] at hr
    rcases hr with hr | hr
    · exact ih (fun nd1 h1 => h nd1 (List.mem_cons_of_mem _ h1)) r hr
    · subst hr
      have hn := h nd (List.mem_cons_self _ _)
      have hb := hn.bounds
      obtain ⟨h1, h2, h3, h4⟩ := hn
      exact ⟨h1, by omega, by omega, h4⟩

/-- C2. Every tuple `(a_start, b_start, length)` returned by `lcs(A, B)` has `length ≥ 1`,
`a_start + length ≤ n`, `b_start + length ≤ m`, and `eq(A[a_start + i], B[b_start + i])`
for every `i < length`; this holds for every call that returns a list, with or without the
capacity warning. -/
theorem lcs_records_match {α : Type} (eq : α → α → Bool) (A B : List α) (out : Output)
    (h : lcs eq A B = Except.ok out) : ∀ r ∈ out.records, r.IsMatch eq A B := by
  unfold lcs ab at h
  split at h
  · cases h
  · rename_i hc
    simp only [Bool.or_eq_true, decide_eq_true_eq, not_or, not_lt] at hc
    obtain ⟨⟨⟨_, _⟩, hn⟩, hm⟩ := hc
    have hwf := traverse_wf eq A B
    rcases ht : traverse eq A B with ⟨e, s⟩
    rw [ht] at hwf h
    simp only at h hwf
    cases h
    obtain ⟨l, hch, hall⟩ := nodesOK_chain hwf s.j le_rfl
    have hl : ∀ nd ∈ l, nd.z ≤ nd.x ∧ nd.z ≤ nd.y ∧ nd.x ≤ UINT_MAX ∧ nd.y ≤ UINT_MAX := by
      intro nd hnd
      have hr := hall nd hnd
      have hbd := hr.bounds
      exact ⟨hr.2.1, hr.2.2.1, by omega, by omega⟩
    have hlen := hch.length_le
    show ∀ r ∈ backtrack false s.c (s.j + 1) s.j A.length B.length [], r.IsMatch eq A B
    rw [backtrack_lcs hch hwf.1 hl _ _ _ _ (by omega), List.append_nil]
    exact runsOf_match hall

/-- Instance of `lcs_records_match` on Myers's example. -/
theorem lcs_records_match_witness :
    lcs (fun a b : Nat => a == b) [1, 2, 3, 1, 2, 2, 1] [3, 2, 1, 2, 1, 3] =
        Except.ok ⟨false, [record.run 2 0 1, record.run 3 2 2, record.run 6 4 1]⟩ ∧
    ∀ r ∈ [record.run 2 0 1, record.run 3 2 2, record.run 6 4 1],
      r.IsMatch (fun a b : Nat => a == b) [1, 2, 3, 1, 2, 2, 1] [3, 2, 1, 2, 1, 3] :=
  ⟨rfl,
   lcs_records_match (fun a b : Nat => a == b) [1, 2, 3, 1, 2, 2, 1] [3, 2, 1, 2, 1, 3]
     ⟨false, [record.run 2 0 1, record.run 3 2 2, record.run 6 4 1]⟩ rfl⟩

/-! ### Regular traversals: one node per cell -/

theorem tri_succ (d : Nat) : tri (d + 1) = tri d + (d + 1) := rfl

theorem two_tri (d : Nat) : 2 * tri d = d * (d + 1) := by
  induction d with
  | zero => rfl
  | succ d ih => rw [tri_succ]; ring_nf; ring_nf at ih; omega

theorem cellIdx_down (p q : Nat) : cellIdx p (q + 1) = cellIdx p q + (p + q + 1) := by
  unfold cellIdx
  rw [show p + (q + 1) = (p + q) + 1 by omega, tri_succ]
  omega

theorem cellIdx_right (p : Nat) : cellIdx (p + 1) 0 = cellIdx p 0 + (p + 2) := by
  simp only [cellIdx, Nat.add_zero, tri_succ]
  omega

theorem zsum_regRow (P p : Nat) : zsum (regRow P p) = P + p := by
  induction p with
  | zero => simp [regRow, zsum]
  | succ p ih => simp only [regRow, zsum_cons, ih]; omega

theorem zsum_regChain (P p q : Nat) : zsum (regChain P p q) = P + p + q := by
  induction q with
  | zero => simp [regChain, zsum_regRow]
  | succ q ih => simp only [regChain, zsum_cons, ih]; omega

/-- Where the snake of a regular cell starts, and where it comes from: the cell above when
there is one, the cell to the left otherwise. -/
theorem reg_start {P : Nat} {s : Scratch} {p q : Nat}
    (hprev : ∀ p1 q1, p1 + q1 + 1 = p + q → RegCell P s p1 q1)
    (hd : 1 ≤ p + q) (hP : 1 ≤ P) (hwx : P + 2 * p + q ≤ UINT_MAX)
    (hw : P + p + 2 * q ≤ UINT_MAX) :
    startX ((p + q : Nat) : Int) ((p : Int) - (q : Int)) s = P + 2 * p + q - 1 ∧
    startY ((p + q : Nat) : Int) ((p : Int) - (q : Int)) s = P + p + 2 * q - 1 ∧
    ∃ ps qs, ps + qs + 1 = p + q ∧ RegCell P s ps qs ∧
      s.w (srcDiag ((p + q : Nat) : Int) ((p : Int) - (q : Int)) s) = cellIdx ps qs ∧
      cellIdx ps qs < cellIdx p q ∧
      regChain P p q = ⟨P + 2 * p + q, P + p + 2 * q, 1, cellIdx p q - cellIdx ps qs⟩ ::
        regChain P ps qs := by
  have hy : ∀ x0 : Nat, x0 = P + 2 * p + q - 1 →
      u32 ((x0 : Int) - ((p : Int) - (q : Int))) = P + p + 2 * q - 1 := by
    intro x0 hx0
    unfold u32; unfold UINT_MAX at hw; omega
  cases p with
  | zero =>
    cases q with
    | zero => omega
    | succ q =>
      have hg := goesDown_top q s
      have hi : srcDiag ((0 + (q + 1) : Nat) : Int) (((0 : Nat) : Int) - ((q + 1 : Nat) : Int)) s
          = ((0 : Nat) : Int) - (q : Int) := by
        unfold srcDiag; rw [hg]; push_cast; simp only [if_true]; ring
      have hc := hprev 0 q (by omega)
      have hx : startX ((0 + (q + 1) : Nat) : Int) (((0 : Nat) : Int) - ((q + 1 : Nat) : Int)) s
          = P + 2 * 0 + (q + 1) - 1 := by
        unfold startX; rw [hg, hi]; simp only [if_true]
        rw [hc.1]; omega
      refine ⟨hx, ?_, 0, q, by omega, hc, ?_, ?_, rfl⟩
      · unfold startY; rw [hx]; exact hy _ rfl
      · rw [hi]; exact hc.2.1
      · rw [cellIdx_down]; omega
  | succ p =>
    cases q with
    | zero =>
      have hg := goesDown_left p s
      have hi : srcDiag ((p + 1 + 0 : Nat) : Int) (((p + 1 : Nat) : Int) - ((0 : Nat) : Int)) s
          = (p : Int) - ((0 : Nat) : Int) := by
        unfold srcDiag; rw [hg]; push_cast; simp
      have hc := hprev p 0 (by omega)
      have hx : startX ((p + 1 + 0 : Nat) : Int) (((p + 1 : Nat) : Int) - ((0 : Nat) : Int)) s
          = P + 2 * (p + 1) + 0 - 1 := by
        unfold startX; rw [hg, hi]
        simp only [Bool.false_eq_true, if_false]
        rw [hc.1]; unfold u32; unfold UINT_MAX at hwx; omega
      refine ⟨hx, ?_, p, 0, by omega, hc, ?_, ?_, rfl⟩
      · unfold startY; rw [hx]; exact hy _ rfl
      · rw [hi]; exact hc.2.1
      · rw [cellIdx_right]; omega
    | succ q =>
      have hvL := hprev p (q + 1) (by omega)
      have hvU := hprev (p + 1) q (by omega)
      have hg : goesDown ((p + 1 + (q + 1) : Nat) : Int)
          (((p + 1 : Nat) : Int) - ((q + 1 : Nat) : Int)) s = true := by
        rw [goesDown_mid, hvL.1, hvU.1]; simp; omega
      have ek2 : (((p + 1 : Nat) : Int) - ((q + 1 : Nat) : Int)) + 1
          = ((p + 1 : Nat) : Int) - (q : Int) := by push_cast; ring
      have hi : srcDiag ((p + 1 + (q + 1) : Nat) : Int)
          (((p + 1 : Nat) : Int) - ((q + 1 : Nat) : Int)) s = ((p + 1 : Nat) : Int) - (q : Int) := by
        unfold srcDiag; rw [hg, if_pos rfl, ek2]
      have hx : startX ((p + 1 + (q + 1) : Nat) : Int)
          (((p + 1 : Nat) : Int) - ((q + 1 : Nat) : Int)) s = P + 2 * (p + 1) + (q + 1) - 1 := by
        unfold startX; rw [hg, hi]; simp only [if_true]; rw [hvU.1]; omega
      refine ⟨hx, ?_, p + 1, q, by omega, hvU, ?_, ?_, rfl⟩
      · unfold startY; rw [hx]; exact hy _ rfl
      · rw [hi]; exact hvU.2.1
      · rw [cellIdx_down]; omega

/-- The scratch after the one-cell snake of a regular cell. -/
theorem reg_after {P : Nat} {s : Scratch} {p q : Nat} (hI : RegInv P (p + q) p s)
    (hd : 1 ≤ p + q) (hP : 1 ≤ P) (hwx : P + 2 * p + q ≤ UINT_MAX)
    (hw : P + p + 2 * q ≤ UINT_MAX) (hcap : s.j + 1 ≤ UINT_MAX) :
    afterSnake ((p + q : Nat) : Int) ((p : Int) - (q : Int)) s 1 =
      { v := s.v
        w := setVec s.w ((p : Int) - (q : Int)) (cellIdx p q)
        c := setNode s.c (cellIdx p q) ((regChain P p q).headD ⟨0, 0, 0, 0⟩)
        j := cellIdx p q } ∧
    Chain (setNode s.c (cellIdx p q) ((regChain P p q).headD ⟨0, 0, 0, 0⟩)) (cellIdx p q)
      (regChain P p q) := by
  obtain ⟨hx, hy, ps, qs, hsum, hsrc, hwsrc, hlt, hchain⟩ := reg_start hI.2.1 hd hP hwx hw
  have hj : s.j + 1 = cellIdx p q := by
    have := hI.1
    unfold cellIdx; omega
  have hback : u32 (((s.j + 1 : Nat) : Int) -
      (s.w (srcDiag ((p + q : Nat) : Int) ((p : Int) - (q : Int)) s) : Int)) =
      cellIdx p q - cellIdx ps qs := by
    rw [hwsrc, hj]
    exact u32_sub (by omega) (by omega)
  have hhead : (regChain P p q).headD ⟨0, 0, 0, 0⟩ =
      ⟨P + 2 * p + q, P + p + 2 * q, 1, cellIdx p q - cellIdx ps qs⟩ := by
    rw [hchain]; rfl
  constructor
  · unfold afterSnake
    rw [hx, hy, hback, hj, hhead]
    rw [show P + 2 * p + q - 1 + 1 = P + 2 * p + q by omega,
      show P + p + 2 * q - 1 + 1 = P + p + 2 * q by omega]
  · rw [hhead, hchain]
    have hold : Chain (setNode s.c (cellIdx p q)
        ⟨P + 2 * p + q, P + p + 2 * q, 1, cellIdx p q - cellIdx ps qs⟩) (cellIdx ps qs)
        (regChain P ps qs) :=
      hsrc.2.2.congr_store (fun i hi => setNode_ne _ _ (by omega))
    have hlink := Chain.link (c := setNode s.c (cellIdx p q)
        ⟨P + 2 * p + q, P + p + 2 * q, 1, cellIdx p q - cellIdx ps qs⟩)
        (j := cellIdx p q) (l := regChain P ps qs)
        (by rw [setNode_same]; show (1 : Nat) ≠ 0; omega)
        (by rw [setNode_same]; show 1 ≤ cellIdx p q - cellIdx ps qs; omega)
        (by rw [setNode_same]; show cellIdx p q - cellIdx ps qs ≤ cellIdx p q; omega)
        (by
          rw [setNode_same]
          show Chain _ (cellIdx p q - (cellIdx p q - cellIdx ps qs)) _
          rw [show cellIdx p q - (cellIdx p q - cellIdx ps qs) = cellIdx ps qs by omega]
          exact hold)
    rw [setNode_same] at hlink
    exact hlink

theorem cellIdx_prev_le {p q p1 q1 : Nat} (h : p1 + q1 + 1 = p + q) :
    cellIdx p1 q1 ≤ tri (p + q) := by
  unfold cellIdx
  rw [← h, tri_succ]
  omega

/-- A regular cell records one node and leaves the traversal regular. -/
theorem reg_cell {α : Type} (eq : α → α → Bool) {A B : List α} {P : Nat} {s : Scratch}
    {p q : Nat} (hI : RegInv P (p + q) p s) (hd : 1 ≤ p + q) (hP : 1 ≤ P)
    (hwx : P + 2 * p + q ≤ UINT_MAX) (hw : P + p + 2 * q ≤ UINT_MAX)
    (hstep : RegStep eq A B P p q) (hcap : s.j + 1 < UINT_MAX) :
    ∃ s1, diagonal eq A B ((p + q : Nat) : Int) ((p : Int) - (q : Int)) s = (none, s1) ∧
      RegInv P (p + q) (p + 1) s1 := by
  obtain ⟨hx, hy, _⟩ := reg_start hI.2.1 hd hP hwx hw
  obtain ⟨haft, hch⟩ := reg_after hI hd hP hwx hw (by omega)
  obtain ⟨hj, hprev, hcur⟩ := hI
  rw [diagonal_eq, hx, hy, hstep.1, if_neg (by omega), if_neg (by omega)]
  have hne : ¬ (P + 2 * p + q - 1 + 1 ≥ A.length ∧ P + p + 2 * q - 1 + 1 ≥ B.length) := by
    have := hstep.2
    rw [show P + 2 * p + q - 1 + 1 = P + 2 * p + q by omega,
      show P + p + 2 * q - 1 + 1 = P + p + 2 * q by omega]
    exact this
  rw [if_neg hne, haft]
  refine ⟨_, rfl, ?_, fun p1 q1 h1 => ?_, fun p1 q1 h1 h2 => ?_⟩
  · show cellIdx p q = tri (p + q) + (p + 1)
    unfold cellIdx; omega
  · have hk : (p1 : Int) - (q1 : Int) ≠ (p : Int) - (q : Int) := by omega
    obtain ⟨c1, c2, c3⟩ := hprev p1 q1 h1
    have hle := cellIdx_prev_le h1
    refine ⟨?_, ?_, ?_⟩
    · show setVec s.v _ _ _ = _
      rw [setVec_ne _ _ hk]; exact c1
    · show setVec s.w _ _ _ = _
      rw [setVec_ne _ _ hk]; exact c2
    · have e0 : cellIdx p q = tri (p + q) + p + 1 := rfl
      exact c3.congr_store (fun i hi => setNode_ne _ _ (by omega))
  · by_cases hp1 : p1 = p
    · subst hp1
      have : q1 = q := by omega
      subst this
      refine ⟨?_, ?_, hch⟩
      · show setVec s.v _ _ _ = _
        rw [setVec_same]; omega
      · show setVec s.w _ _ _ = _
        rw [setVec_same]
    · have hk : (p1 : Int) - (q1 : Int) ≠ (p : Int) - (q : Int) := by omega
      obtain ⟨c1, c2, c3⟩ := hcur p1 q1 h1 (by omega)
      refine ⟨?_, ?_, ?_⟩
      · show setVec s.v _ _ _ = _
        rw [setVec_ne _ _ hk]; exact c1
      · show setVec s.w _ _ _ = _
        rw [setVec_ne _ _ hk]; exact c2
      · have e0 : cellIdx p q = tri (p + q) + p + 1 := rfl
        have e1 : cellIdx p1 q1 = tri (p + q) + p1 + 1 := by unfold cellIdx; rw [h1]
        exact c3.congr_store (fun i hi => setNode_ne _ _ (by omega))

theorem kLoop_succ_none {α : Type} (eq : α → α → Bool) (A B : List α) {d hi k : Int}
    {s s1 : Scratch} (fuel : Nat) (hk : k ≤ hi) (h : diagonal eq A B d k s = (none, s1)) :
    kLoop eq A B d hi (fuel + 1) k s = kLoop eq A B d hi fuel (k + 2) s1 := by
  rw [kLoop.eq_2, if_pos hk, h]

theorem kLoop_succ_some {α : Type} (eq : α → α → Bool) (A B : List α) {d hi k : Int}
    {s s1 : Scratch} {e : Exit} (fuel : Nat) (hk : k ≤ hi)
    (h : diagonal eq A B d k s = (some e, s1)) :
    kLoop eq A B d hi (fuel + 1) k s = (some e, s1) := by
  rw [kLoop.eq_2, if_pos hk, h]

theorem dLoop_succ_none {α : Type} (eq : α → α → Bool) (A B : List α) {d : Int}
    {s s1 : Scratch} (fuel : Nat) (hd : d ≤ (A.length : Int) + (B.length : Int))
    (h : kLoop eq A B d (bandHi A.length d) (d.toNat + 1) (bandLo B.length d) s = (none, s1)) :
    dLoop eq A B (fuel + 1) d s = dLoop eq A B fuel (d + 1) s1 := by
  rw [dLoop.eq_2, if_pos hd, h]

theorem dLoop_succ_some {α : Type} (eq : α → α → Bool) (A B : List α) {d : Int}
    {s s1 : Scratch} {e : Exit} (fuel : Nat) (hd : d ≤ (A.length : Int) + (B.length : Int))
    (h : kLoop eq A B d (bandHi A.length d) (d.toNat + 1) (bandLo B.length d) s = (some e, s1)) :
    dLoop eq A B (fuel + 1) d s = (e, s1) := by
  rw [dLoop.eq_2, if_pos hd, h]

/-- The `k` loop over `g` regular cells in a row. -/
theorem reg_kLoop {α : Type} (eq : α → α → Bool) {A B : List α} {P d : Nat} (hd : 1 ≤ d)
    (hP : 1 ≤ P) (hdn : d ≤ A.length) (hw : P + 2 * d ≤ UINT_MAX) (fuel g : Nat) :
    ∀ (pc : Nat) (s : Scratch), RegInv P d pc s → pc + g ≤ d + 1 →
      (∀ p q, p + q = d → pc ≤ p → p < pc + g → RegStep eq A B P p q) →
      tri d + pc + g < UINT_MAX →
      ∃ s1, kLoop eq A B (d : Int) (bandHi (A.length : Int) (d : Int)) (fuel + g)
          (2 * (pc : Int) - (d : Int)) s =
          kLoop eq A B (d : Int) (bandHi (A.length : Int) (d : Int)) fuel
            (2 * ((pc + g : Nat) : Int) - (d : Int)) s1 ∧
        RegInv P d (pc + g) s1 := by
  induction g with
  | zero =>
    intro pc s hI _ _ _
    exact ⟨s, rfl, hI⟩
  | succ g ih =>
    intro pc s hI hle hreg hcap
    have hk : (2 * (pc : Int) - (d : Int)) ≤ bandHi (A.length : Int) (d : Int) := by
      rw [bandHi_eq]; omega
    obtain ⟨q, hq⟩ : ∃ q, d = pc + q := ⟨d - pc, by omega⟩
    have ek : (2 * (pc : Int) - (d : Int)) = (pc : Int) - (q : Int) := by
      rw [hq]; push_cast; ring
    have hI' : RegInv P (pc + q) pc s := by rw [← hq]; exact hI
    obtain ⟨s1, h1, h2⟩ := reg_cell eq hI' (by omega) hP (by omega) (by omega)
      (hreg pc q hq.symm le_rfl (by omega)) (by have := hI.1; omega)
    rw [← hq, ← ek] at h1
    rw [← hq] at h2
    obtain ⟨s2, h3, h4⟩ := ih (pc + 1) s1 h2 (by omega)
      (fun p q1 e1 e2 e3 => hreg p q1 e1 (by omega) (by omega)) (by omega)
    have ek2 : (2 * ((pc + 1 : Nat) : Int) - (d : Int))
        = 2 * (pc : Int) - (d : Int) + 2 := by push_cast; ring
    rw [ek2] at h3
    refine ⟨s2, ?_, by rw [show pc + (g + 1) = pc + 1 + g by omega]; exact h4⟩
    rw [show fuel + (g + 1) = (fuel + g) + 1 by omega, kLoop_succ_none eq A B _ hk h1, h3,
      show pc + (g + 1) = pc + 1 + g by omega]

/-- After a whole regular step the traversal is regular at the start of the next step. -/
theorem regInv_next {P d : Nat} {s : Scratch} (h : RegInv P d (d + 1) s) :
    RegInv P (d + 1) 0 s := by
  obtain ⟨hj, _, hcur⟩ := h
  refine ⟨by rw [tri_succ]; omega, fun p q h1 => hcur p q (by omega) (by omega),
    fun p q _ h2 => by omega⟩

theorem tri_mono {a b : Nat} (h : a ≤ b) : tri a ≤ tri b := by
  induction b with
  | zero =>
    have : a = 0 := by omega
    rw [this]
  | succ b ih =>
    by_cases hab : a = b + 1
    · rw [hab]
    · have := ih (by omega)
      rw [tri_succ]; omega

/-- The `k` loop over a whole regular step. -/
theorem reg_kLoop_all {α : Type} (eq : α → α → Bool) {A B : List α} {P d : Nat} (hd : 1 ≤ d)
    (hP : 1 ≤ P) (hdn : d ≤ A.length) (hdm : d ≤ B.length) (hw : P + 2 * d ≤ UINT_MAX)
    {s : Scratch} (hI : RegInv P d 0 s) (hreg : ∀ p q, p + q = d → RegStep eq A B P p q)
    (hcap : tri (d + 1) < UINT_MAX) :
    ∃ s1, kLoop eq A B (d : Int) (bandHi (A.length : Int) (d : Int)) ((d : Int).toNat + 1)
        (bandLo (B.length : Int) (d : Int)) s = (none, s1) ∧ RegInv P (d + 1) 0 s1 := by
  obtain ⟨s1, h1, h2⟩ := reg_kLoop eq (A := A) (B := B) hd hP hdn hw 0 (d + 1)
    0 s hI (by omega) (fun p q e1 _ _ => hreg p q e1) (by rw [tri_succ] at hcap; omega)
  refine ⟨s1, ?_, regInv_next (by simpa using h2)⟩
  rw [bandLo_eq, show d - min d B.length = 0 by omega,
    show ((d : Int)).toNat + 1 = 0 + (d + 1) by simp, h1]
  rfl

/-- The `d` loop over `g` regular steps in a row. -/
theorem reg_dLoop {α : Type} (eq : α → α → Bool) {A B : List α} {P : Nat} (hP : 1 ≤ P)
    (fuel g : Nat) :
    ∀ (d : Nat) (s : Scratch), RegInv P d 0 s → 1 ≤ d → d + g ≤ A.length + 1 →
      d + g ≤ B.length + 1 → P + 2 * (d + g) ≤ UINT_MAX + 2 → tri (d + g) < UINT_MAX →
      (∀ p q, d ≤ p + q → p + q < d + g → RegStep eq A B P p q) →
      ∃ s1, dLoop eq A B (fuel + g) (d : Int) s = dLoop eq A B fuel ((d + g : Nat) : Int) s1 ∧
        RegInv P (d + g) 0 s1 := by
  induction g with
  | zero =>
    intro d s hI _ _ _ _ _ _
    exact ⟨s, rfl, hI⟩
  | succ g ih =>
    intro d s hI hd hn hm hw hcap hreg
    have hle : (d : Int) ≤ (A.length : Int) + (B.length : Int) := by omega
    have hmono : tri (d + 1) ≤ tri (d + (g + 1)) := tri_mono (by omega)
    obtain ⟨s1, h1, h2⟩ := reg_kLoop_all eq (A := A) (B := B) hd hP (by omega) (by omega)
      (by omega) hI (fun p q e1 => hreg p q (by omega) (by omega)) (by omega)
    obtain ⟨s2, h4, h5⟩ := ih (d + 1) s1 h2 (by omega) (by omega) (by omega) (by omega)
      (by rw [show d + 1 + g = d + (g + 1) by omega]; exact hcap)
      (fun p q e1 e2 => hreg p q (by omega) (by omega))
    have ed : ((d : Int) + 1) = ((d + 1 : Nat) : Int) := by push_cast; ring
    refine ⟨s2, ?_, by rw [show d + (g + 1) = d + 1 + g by omega]; exact h5⟩
    rw [show fuel + (g + 1) = (fuel + g) + 1 by omega, dLoop_succ_none eq A B _ hle h1, ed, h4,
      show d + 1 + g = d + (g + 1) by omega]

/-- The first round of a regular traversal: a snake of `P` cells from the origin. -/
theorem reg_first {α : Type} (eq : α → α → Bool) {A B : List α} {P : Nat} (hP : 1 ≤ P)
    (hfirst : matchLen eq A B A.length 0 0 = P) (hend : ¬ (P ≥ A.length ∧ P ≥ B.length))
    (fuel : Nat) :
    ∃ s1, dLoop eq A B (fuel + 1) 0 Scratch.init = dLoop eq A B fuel 1 s1 ∧
      RegInv P 1 0 s1 := by
  have hx : startX 0 0 Scratch.init = 0 := by
    simp [startX, goesDown, srcDiag, Scratch.init]
  have hy : startY 0 0 Scratch.init = 0 := by
    simp [startY, hx, u32]
  have hd : diagonal eq A B 0 0 Scratch.init =
      (none,
        { v := setVec (fun _ => 0) 0 P
          w := setVec (fun _ => 0) 0 1
          c := setNode (fun _ => ⟨0, 0, 0, 0⟩) 1 ⟨P, P, P, 1⟩
          j := 1 }) := by
    rw [diagonal_eq, hx, hy, hfirst]
    have h0 : P ≠ 0 := by omega
    have h1 : ¬ (Scratch.init.j + 1 = UINT_MAX) := by simp [Scratch.init, UINT_MAX]
    have h2 : ¬ (0 + P ≥ A.length ∧ 0 + P ≥ B.length) := by simpa using hend
    simp only [h0, if_false, h1, h2, afterSnake, hx, hy]
    simp [Scratch.init, srcDiag, goesDown, u32]
  have hk : kLoop eq A B (0 : Int) (bandHi (A.length : Int) 0) ((0 : Int).toNat + 1)
      (bandLo (B.length : Int) 0) Scratch.init =
      (none,
        { v := setVec (fun _ => 0) 0 P
          w := setVec (fun _ => 0) 0 1
          c := setNode (fun _ => ⟨0, 0, 0, 0⟩) 1 ⟨P, P, P, 1⟩
          j := 1 }) := by
    rw [bandLo_zero, bandHi_zero]
    simp only [Int.toNat_zero, Nat.zero_add]
    rw [kLoop_succ_none eq A B 0 (le_refl (0 : Int)) hd]
    rfl
  refine ⟨_, dLoop_succ_none eq A B fuel (by omega) hk, rfl, fun p q h => ?_, fun p q _ h => by omega⟩
  have hp : p = 0 := by omega
  have hq : q = 0 := by omega
  subst hp hq
  refine ⟨by simp, by simp [cellIdx, tri], ?_⟩
  show Chain (setNode (fun _ => ⟨0, 0, 0, 0⟩) 1 ⟨P, P, P, 1⟩) (cellIdx 0 0) [⟨P, P, P, 1⟩]
  have e : cellIdx 0 0 = 1 := by simp [cellIdx, tri]
  rw [e]
  have hlink := Chain.link (c := setNode (fun _ => ⟨0, 0, 0, 0⟩) 1 ⟨P, P, P, 1⟩) (j := 1)
    (l := []) (by rw [setNode_same]; show P ≠ 0; omega) (by rw [setNode_same])
    (by rw [setNode_same])
    (by
      rw [setNode_same]
      exact Chain.stop (by simp [setNode]) (by simp [setNode]) (by simp [setNode]))
  rw [setNode_same] at hlink
  exact hlink

/-- A regular cell whose node would be the `UINT_MAX`-th one stops the traversal on the
capacity test, with the chain of the cell. -/
theorem reg_abort {α : Type} (eq : α → α → Bool) {A B : List α} {P : Nat} {s : Scratch}
    {p q : Nat} (hI : RegInv P (p + q) p s) (hd : 1 ≤ p + q) (hP : 1 ≤ P)
    (hwx : P + 2 * p + q ≤ UINT_MAX) (hw : P + p + 2 * q ≤ UINT_MAX)
    (hm : matchLen eq A B A.length (P + 2 * p + q - 1) (P + p + 2 * q - 1) ≠ 0)
    (hcap : s.j + 1 = UINT_MAX) :
    ∃ s1, diagonal eq A B ((p + q : Nat) : Int) ((p : Int) - (q : Int)) s =
        (some Exit.capacity, s1) ∧ s1.j = UINT_MAX ∧ Chain s1.c UINT_MAX (regChain P p q) := by
  obtain ⟨hx, hy, _⟩ := reg_start hI.2.1 hd hP hwx hw
  obtain ⟨haft, hch⟩ := reg_after hI hd hP hwx hw (by omega)
  have hj : cellIdx p q = UINT_MAX := by
    have := hI.1
    unfold cellIdx; omega
  rw [diagonal_eq, hx, hy, if_neg hm, if_pos hcap, haft]
  refine ⟨_, rfl, hj, ?_⟩
  rw [← hj]
  exact hch

/-- A traversal that is regular up to the cell whose node is the `UINT_MAX`-th one ends on
the capacity test with the chain of that cell. -/
theorem reg_traverse_abort {α : Type} (eq : α → α → Bool) {A B : List α} {P D pc : Nat}
    (hP : 1 ≤ P) (hfirst : matchLen eq A B A.length 0 0 = P)
    (hend : ¬ (P ≥ A.length ∧ P ≥ B.length))
    (hreg : ∀ p q, 1 ≤ p + q → p + q ≤ D → RegStep eq A B P p q)
    (hlast : ∀ p q, p + q = D + 1 → p < pc → RegStep eq A B P p q)
    (hpc : pc ≤ D + 1)
    (hm : matchLen eq A B A.length (P + 2 * pc + (D + 1 - pc) - 1)
      (P + pc + 2 * (D + 1 - pc) - 1) ≠ 0)
    (hcap : tri (D + 1) + pc + 1 = UINT_MAX)
    (hn : D + 1 ≤ A.length) (hmB : D + 1 ≤ B.length) (hw : P + 2 * (D + 1) ≤ UINT_MAX) :
    ∃ s1, traverse eq A B = (Exit.capacity, s1) ∧ s1.j = UINT_MAX ∧
      Chain s1.c UINT_MAX (regChain P pc (D + 1 - pc)) := by
  unfold traverse
  obtain ⟨s1, h1, i1⟩ := reg_first eq hP hfirst hend (A.length + B.length)
  rw [h1]
  obtain ⟨s2, h2, i2⟩ := reg_dLoop eq (A := A) (B := B) hP (A.length + B.length - D) D 1 s1 i1
    le_rfl (by omega) (by omega) (by omega) (by rw [show 1 + D = D + 1 by omega]; omega)
    (fun p q e1 e2 => hreg p q e1 (by omega))
  rw [Nat.cast_one] at h2
  rw [show A.length + B.length = A.length + B.length - D + D by omega, h2]
  rw [show 1 + D = D + 1 by omega] at i2 ⊢
  obtain ⟨s3, h3, i3⟩ := reg_kLoop eq (A := A) (B := B) (d := D + 1) (by omega) hP hn hw
    (D + 1 - pc + 1) pc 0 s2 i2 (by omega) (fun p q e1 _ e3 => hlast p q e1 (by omega))
    (by omega)
  rw [Nat.zero_add] at h3 i3
  obtain ⟨q, hq⟩ : ∃ q, D + 1 = pc + q := ⟨D + 1 - pc, by omega⟩
  have hqq : D + 1 - pc = q := by omega
  rw [hqq] at hm ⊢
  have i3' : RegInv P (pc + q) pc s3 := by rw [← hq]; exact i3
  obtain ⟨s4, h4, j4, c4⟩ := reg_abort eq i3' (by omega) hP (by omega) (by omega) hm
    (by have := i3.1; omega)
  have ek : (2 * (pc : Int) - ((D + 1 : Nat) : Int)) = (pc : Int) - (q : Int) := by
    rw [hq]; push_cast; ring
  rw [← hq, ← ek] at h4
  have hk : (2 * (pc : Int) - ((D + 1 : Nat) : Int)) ≤
      bandHi (A.length : Int) ((D + 1 : Nat) : Int) := by
    rw [bandHi_eq]; omega
  have hkl : kLoop eq A B ((D + 1 : Nat) : Int) (bandHi (A.length : Int) ((D + 1 : Nat) : Int))
      (((D + 1 : Nat) : Int).toNat + 1) (bandLo (B.length : Int) ((D + 1 : Nat) : Int)) s2 =
      (some Exit.capacity, s4) := by
    rw [bandLo_eq, show D + 1 - min (D + 1) B.length = 0 by omega,
      show (((D + 1 : Nat) : Int)).toNat + 1 = (D + 1 - pc + 1) + pc by
        rw [Int.toNat_ofNat]; omega, h3, hqq,
      kLoop_succ_some eq A B q hk h4]
  refine ⟨s4, ?_, j4, c4⟩
  rw [show A.length + B.length - D = (A.length + B.length - D - 1) + 1 by omega]
  exact dLoop_succ_some eq A B _ (by omega) hkl

/-! ### The pathological example: `ABC...` against `CBA...` -/

theorem matchLen_eq_zero {α : Type} {eq : α → α → Bool} {A B : List α} {x y : Nat}
    (h : itemEq eq A B x y = false) (fuel : Nat) : matchLen eq A B fuel x y = 0 := by
  cases fuel with
  | zero => rfl
  | succ fuel => simp [matchLen, h]

theorem matchLen_eq_one {α : Type} {eq : α → α → Bool} {A B : List α} {x y : Nat}
    (h : itemEq eq A B x y = true) (h1 : itemEq eq A B (x + 1) (y + 1) = false) (fuel : Nat) :
    matchLen eq A B (fuel + 1) x y = 1 := by
  have hlt := itemEq_lt h
  simp [matchLen, h, hlt.1, hlt.2, matchLen_eq_zero h1]

theorem abcA_length : abcA.length = abcLen := by simp [abcA]

theorem abcB_length : abcB.length = abcLen := by simp [abcB]

theorem abcA_get {x : Nat} (hx : x < abcLen) : abcA[x]? = some (x % 3) := by
  unfold abcA
  rw [List.getElem?_map, List.getElem?_range hx]
  rfl

theorem abcB_get {y : Nat} (hy : y < abcLen) : abcB[y]? = some (2 * y % 3) := by
  unfold abcB
  rw [List.getElem?_map, List.getElem?_range hy]
  rfl

theorem abcA_none {x : Nat} (hx : abcLen ≤ x) : abcA[x]? = none := by
  rw [List.getElem?_eq_none_iff, abcA_length]; exact hx

theorem abcB_none {y : Nat} (hy : abcLen ≤ y) : abcB[y]? = none := by
  rw [List.getElem?_eq_none_iff, abcB_length]; exact hy

theorem itemEq_of_get {α : Type} (eq : α → α → Bool) {A B : List α} {x y : Nat} {a b : α}
    (ha : A[x]? = some a) (hb : B[y]? = some b) : itemEq eq A B x y = eq a b := by
  unfold itemEq
  rw [ha, hb]

theorem abc_itemEq (x y : Nat) :
    itemEq (fun a b : Nat => a == b) abcA abcB x y = true ↔
      x < abcLen ∧ y < abcLen ∧ x % 3 = 2 * y % 3 := by
  constructor
  · intro h
    have hlt := itemEq_lt h
    rw [abcA_length, abcB_length] at hlt
    rw [itemEq_of_get _ (abcA_get hlt.1) (abcB_get hlt.2)] at h
    exact ⟨hlt.1, hlt.2, eq_of_beq h⟩
  · rintro ⟨hx, hy, e⟩
    rw [itemEq_of_get _ (abcA_get hx) (abcB_get hy)]
    show (x % 3 == 2 * y % 3) = true
    rw [e]
    exact beq_self_eq_true _

theorem abcLen_eq : abcLen = 300000 := rfl

theorem abc_regStep {p q : Nat} (h : p + q ≤ 92681) :
    RegStep (fun a b : Nat => a == b) abcA abcB 1 p q := by
  have hlen := abcLen_eq
  constructor
  · rw [abcA_length, show abcLen = 299999 + 1 from rfl]
    apply matchLen_eq_one
    · rw [abc_itemEq]; omega
    · rw [Bool.eq_false_iff]
      intro hc
      rw [abc_itemEq] at hc
      omega
  · rw [abcA_length]; omega

theorem chain_unique {c : Nat → node} {j : Nat} {l l1 : List node} (h : Chain c j l)
    (h1 : Chain c j l1) : l = l1 := by
  induction h generalizing l1 with
  | stop _ _ hz =>
    cases h1 with
    | stop _ _ _ => rfl
    | link hz1 _ _ _ => exact absurd hz hz1
  | link hz _ _ _ ih =>
    cases h1 with
    | stop _ _ hz1 => exact absurd hz1 hz
    | link _ _ _ h2 => rw [ih h2]

/-- On the pathological example the traversal stops on the capacity test at distance
`92681`, on the chain of the cell `(37073, 55608)`. -/
theorem abc_traverse :
    ∃ s1, traverse (fun a b : Nat => a == b) abcA abcB = (Exit.capacity, s1) ∧
      s1.j = UINT_MAX ∧ Chain s1.c UINT_MAX (regChain 1 37073 55608) := by
  have hlen := abcLen_eq
  have ht : tri (92680 + 1) + 37073 + 1 = UINT_MAX := by
    have := two_tri (92680 + 1)
    unfold UINT_MAX
    omega
  have hfirst : matchLen (fun a b : Nat => a == b) abcA abcB abcA.length 0 0 = 1 :=
    (abc_regStep (p := 0) (q := 0) (by omega)).1
  have hm := (abc_regStep (p := 37073) (q := 55608) (by omega)).1
  have := reg_traverse_abort (fun a b : Nat => a == b) (A := abcA) (B := abcB) (P := 1)
    (D := 92680) le_rfl hfirst (by rw [abcA_length]; omega)
    (fun p q _ h2 => abc_regStep (by omega)) (fun p q h1 _ => abc_regStep (by omega))
    (by omega) (by rw [show 92680 + 1 - 37073 = 55608 by omega, hm]; omega) ht
    (by rw [abcA_length]; omega) (by rw [abcB_length]; omega) (by unfold UINT_MAX; omega)
  rw [show 92680 + 1 - 37073 = 55608 by omega] at this
  exact this

/-- A traversal that stops on the capacity test, on inputs with `n + m ≤ UINT_MAX`:
the result carries the warning and consists of the runs, respectively the gaps, of the
chain of the last node, which is a chain of runs of matching cells. -/
theorem ab_of_capacity {α : Type} {eq : α → α → Bool} {A B : List α} {s1 : Scratch}
    {l : List node} (u : Bool) (hA : A ≠ []) (hB : B ≠ []) (hn : A.length ≤ UINT_MAX)
    (hm : B.length ≤ UINT_MAX) (ht : traverse eq A B = (Exit.capacity, s1))
    (hch : Chain s1.c s1.j l) (hnw : A.length + B.length ≤ UINT_MAX) :
    ValidRuns eq A B l ∧ Below l A.length B.length ∧
      ab eq A B u = Except.ok ⟨true, if u then editsOf l A.length B.length else runsOf l⟩ := by
  have hspec := traverse_spec eq A B hn hm
  rw [ht] at hspec
  obtain ⟨hj1, l1, hcl, hv, hb⟩ := hspec hnw
  have hl := chain_unique hch hcl
  rw [← hl] at hv hb
  have hbounds : ∀ nd ∈ l, nd.z ≤ nd.x ∧ nd.z ≤ nd.y ∧ nd.x ≤ UINT_MAX ∧ nd.y ≤ UINT_MAX := by
    intro nd hnd
    have hr := validRuns_mem hv nd hnd
    have hbd := hr.bounds
    exact ⟨hr.2.1, hr.2.2.1, by omega, by omega⟩
  have hlen2 := hch.length_le
  refine ⟨hv, hb, ?_⟩
  rw [ab_ok eq A B u hA hB hn hm, ht]
  cases u with
  | false =>
    simp only
    rw [backtrack_lcs hch hj1 hbounds _ _ _ _ (by omega)]
    simp
  | true =>
    simp only
    rw [backtrack_ses hch hj1 hbounds _ _ _ _ (by omega)]
    simp

/-- What `lcs` and `ses` return on the pathological example: the capacity warning and the
runs, respectively the gaps, of a chain of total length `92682`. -/
theorem abc_result (u : Bool) :
    ValidRuns (fun a b : Nat => a == b) abcA abcB (regChain 1 37073 55608) ∧
      Below (regChain 1 37073 55608) abcLen abcLen ∧
      ab (fun a b : Nat => a == b) abcA abcB u =
        Except.ok ⟨true, if u then editsOf (regChain 1 37073 55608) abcLen abcLen
          else runsOf (regChain 1 37073 55608)⟩ := by
  have hlen := abcLen_eq
  have hn : abcA.length ≤ UINT_MAX := by rw [abcA_length]; unfold UINT_MAX; omega
  have hm : abcB.length ≤ UINT_MAX := by rw [abcB_length]; unfold UINT_MAX; omega
  have hA : abcA ≠ [] := by
    intro h
    have := abcA_length
    rw [h, List.length_nil] at this
    omega
  have hB : abcB ≠ [] := by
    intro h
    have := abcB_length
    rw [h, List.length_nil] at this
    omega
  obtain ⟨s1, ht, hj, hch⟩ := abc_traverse
  rw [← hj] at hch
  have := ab_of_capacity u hA hB hn hm ht hch
    (by rw [abcA_length, abcB_length]; unfold UINT_MAX; omega)
  rw [abcA_length, abcB_length] at this
  exact this

/-- A common subsequence of the pathological example: the items at the positions
`0, 3, 6, ...` of both sequences. -/
theorem abc_lcsFrom (i : Nat) (h : i ≤ 100000) :
    i ≤ lcsFrom (fun a b : Nat => a == b) abcA abcB (3 * (100000 - i)) (3 * (100000 - i)) := by
  have hlen := abcLen_eq
  induction i with
  | zero => exact Nat.zero_le _
  | succ i ih =>
    have h1 := ih (by omega)
    have h2 := lcsFrom_diag (fun a b : Nat => a == b) abcA abcB
      (x := 3 * (100000 - (i + 1))) (y := 3 * (100000 - (i + 1)))
      ((abc_itemEq _ _).2 (by omega))
    have h3 : lcsFrom (fun a b : Nat => a == b) abcA abcB (3 * (100000 - i))
        (3 * (100000 - i)) ≤
        lcsFrom (fun a b : Nat => a == b) abcA abcB (3 * (100000 - (i + 1)) + 1)
          (3 * (100000 - (i + 1)) + 1) :=
      lcsFrom_mono (fun a b : Nat => a == b) abcA abcB (by omega) (by omega)
    omega

theorem abc_lcsLength : 100000 ≤ lcsLength (fun a b : Nat => a == b) abcA abcB := by
  have := abc_lcsFrom 100000 le_rfl
  rwa [Nat.sub_self, Nat.mul_zero, lcsFrom_zero] at this

/-- C1, counterexample. On `A = ABCABC...`, `B = CBACBA...` (300000 items each) `lcs` stops
on the capacity test: it returns, with the warning, runs of total length `92682`, while a
longest common subsequence has at least `100000` items. -/
theorem lcs_total_length_counterexample :
    lcs (fun a b : Nat => a == b) abcA abcB =
        Except.ok ⟨true, runsOf (regChain 1 37073 55608)⟩ ∧
    sizeSum (runsOf (regChain 1 37073 55608)) = 92682 ∧
    100000 ≤ lcsLength (fun a b : Nat => a == b) abcA abcB ∧
    sizeSum (runsOf (regChain 1 37073 55608)) ≠
      lcsLength (fun a b : Nat => a == b) abcA abcB := by
  have h := (abc_result false).2.2
  have hs : sizeSum (runsOf (regChain 1 37073 55608)) = 92682 := by
    rw [sizeSum_runsOf, zsum_regChain]
  have hL := abc_lcsLength
  refine ⟨h, hs, hL, ?_⟩
  rw [hs]
  omega

/-- C4, counterexample. On `A = ABCABC...`, `B = CBACBA...` (300000 items each) `ses` stops
on the capacity test: it returns, with the warning, edits of total range `414636`, which is
not `n + m - 2 * L` since `L ≥ 100000`. -/
theorem ses_total_range_counterexample :
    ses (fun a b : Nat => a == b) abcA abcB =
        Except.ok ⟨true, editsOf (regChain 1 37073 55608) abcLen abcLen⟩ ∧
    sizeSum (editsOf (regChain 1 37073 55608) abcLen abcLen) = 414636 ∧
    sizeSum (editsOf (regChain 1 37073 55608) abcLen abcLen) ≠
      abcA.length + abcB.length - 2 * lcsLength (fun a b : Nat => a == b) abcA abcB := by
  obtain ⟨hv, hb, h⟩ := abc_result true
  have hlen := abcLen_eq
  have hs : sizeSum (editsOf (regChain 1 37073 55608) abcLen abcLen) = 414636 := by
    have := sizeSum_editsOf hv hb
    rw [zsum_regChain] at this
    omega
  have hL := abc_lcsLength
  refine ⟨h, hs, ?_⟩
  rw [hs, abcA_length, abcB_length]
  omega

/-! ### A traversal that stops on the capacity test at a wrapped cell -/

theorem thinInv_of_reg {P d pc : Nat} {s : Scratch} (h : RegInv P d pc s) (hpc : 1 ≤ pc) :
    ThinInv P d (tri d + pc) s := by
  obtain ⟨hj, hprev, hcur⟩ := h
  refine ⟨hj, ?_, hprev, hcur 0 d (by omega) (by omega)⟩
  unfold cellIdx
  rw [Nat.zero_add]
  omega

/-- A cell without any matching cell leaves the state unchanged but for its own `v[k]`,
`w[k]`. -/
theorem thin_cell {α : Type} (eq : α → α → Bool) {A B : List α} {P J : Nat} {s : Scratch}
    {p q : Nat} (hI : ThinInv P (p + q) J s) (hp : 1 ≤ p) (hP : 1 ≤ P)
    (hwx : P + 2 * p + q ≤ UINT_MAX) (hw : P + p + 2 * q ≤ UINT_MAX)
    (hstep : ThinStep eq A B P p q) :
    ∃ s1, diagonal eq A B ((p + q : Nat) : Int) ((p : Int) - (q : Int)) s = (none, s1) ∧
      ThinInv P (p + q) J s1 := by
  obtain ⟨hj, hle, hprev, hcur⟩ := hI
  obtain ⟨hx, hy, _⟩ := reg_start hprev (by omega) hP hwx hw
  rw [diagonal_eq, hx, hy, if_pos hstep.1, if_neg hstep.2]
  refine ⟨_, rfl, hj, hle, fun p1 q1 h1 => ?_, ?_⟩
  · have hk : (p1 : Int) - (q1 : Int) ≠ (p : Int) - (q : Int) := by omega
    obtain ⟨c1, c2, c3⟩ := hprev p1 q1 h1
    refine ⟨?_, ?_, c3⟩
    · show setVec s.v _ _ _ = _
      rw [setVec_ne _ _ hk]; exact c1
    · show setVec s.w _ _ _ = _
      rw [setVec_ne _ _ hk]; exact c2
  · have hk : ((0 : Nat) : Int) - ((p + q : Nat) : Int) ≠ (p : Int) - (q : Int) := by
      push_cast; omega
    obtain ⟨c1, c2, c3⟩ := hcur
    refine ⟨?_, ?_, c3⟩
    · show setVec s.v _ _ _ = _
      rw [setVec_ne _ _ hk]; exact c1
    · show setVec s.w _ _ _ = _
      rw [setVec_ne _ _ hk]; exact c2

/-- The `k` loop over `g` cells in a row that record nothing. -/
theorem thin_kLoop {α : Type} (eq : α → α → Bool) {A B : List α} {P d J : Nat} (hP : 1 ≤ P)
    (hdn : d ≤ A.length) (hw : P + 2 * d ≤ UINT_MAX) (fuel g : Nat) :
    ∀ (pc : Nat) (s : Scratch), ThinInv P d J s → 1 ≤ pc → pc + g ≤ d + 1 →
      (∀ p q, p + q = d → pc ≤ p → p < pc + g → ThinStep eq A B P p q) →
      ∃ s1, kLoop eq A B (d : Int) (bandHi (A.length : Int) (d : Int)) (fuel + g)
          (2 * (pc : Int) - (d : Int)) s =
          kLoop eq A B (d : Int) (bandHi (A.length : Int) (d : Int)) fuel
            (2 * ((pc + g : Nat) : Int) - (d : Int)) s1 ∧
        ThinInv P d J s1 := by
  induction g with
  | zero =>
    intro pc s hI _ _ _
    exact ⟨s, rfl, hI⟩
  | succ g ih =>
    intro pc s hI hpc hle hreg
    have hk : (2 * (pc : Int) - (d : Int)) ≤ bandHi (A.length : Int) (d : Int) := by
      rw [bandHi_eq]; omega
    obtain ⟨q, hq⟩ : ∃ q, d = pc + q := ⟨d - pc, by omega⟩
    have ek : (2 * (pc : Int) - (d : Int)) = (pc : Int) - (q : Int) := by
      rw [hq]; push_cast; ring
    have hI' : ThinInv P (pc + q) J s := by rw [← hq]; exact hI
    obtain ⟨s1, h1, h2⟩ := thin_cell eq hI' hpc hP (by omega) (by omega)
      (hreg pc q hq.symm le_rfl (by omega))
    rw [← hq, ← ek] at h1
    rw [← hq] at h2
    obtain ⟨s2, h3, h4⟩ := ih (pc + 1) s1 h2 (by omega) (by omega)
      (fun p q1 e1 e2 e3 => hreg p q1 e1 (by omega) (by omega))
    have ek2 : (2 * ((pc + 1 : Nat) : Int) - (d : Int))
        = 2 * (pc : Int) - (d : Int) + 2 := by push_cast; ring
    rw [ek2] at h3
    refine ⟨s2, ?_, h4⟩
    rw [show fuel + (g + 1) = (fuel + g) + 1 by omega, kLoop_succ_none eq A B _ hk h1, h3,
      show pc + (g + 1) = pc + 1 + g by omega]

/-- The first cell of the next distance when `y` wraps around to `0` and the cell `(x, 0)`
matches: its node is the `UINT_MAX`-th one and the traversal stops on the capacity test. -/
theorem wrap_cell {α : Type} (eq : α → α → Bool) {A B : List α} {P d J : Nat} {s : Scratch}
    (hI : ThinInv P d J s) (hJ : J + 1 = UINT_MAX) (hwrap : P + 2 * d = UINT_MAX)
    (hm : matchLen eq A B A.length (P + d) 0 ≠ 0) :
    ∃ s1, diagonal eq A B ((0 + (d + 1) : Nat) : Int) (((0 : Nat) : Int) - ((d + 1 : Nat) : Int)) s
        = (some Exit.capacity, s1) ∧ s1.j = UINT_MAX ∧
      Chain s1.c UINT_MAX (⟨P + d + 1, 1, 1, UINT_MAX - cellIdx 0 d⟩ :: regChain P 0 d) := by
  obtain ⟨hj, hle, hprev, c1, c2, c3⟩ := hI
  have hg := goesDown_top d s
  have hi : srcDiag ((0 + (d + 1) : Nat) : Int) (((0 : Nat) : Int) - ((d + 1 : Nat) : Int)) s
      = ((0 : Nat) : Int) - (d : Int) := by
    unfold srcDiag; rw [hg]; push_cast; simp only [if_true]; ring
  have hx : startX ((0 + (d + 1) : Nat) : Int) (((0 : Nat) : Int) - ((d + 1 : Nat) : Int)) s
      = P + d := by
    unfold startX; rw [hg, hi]; simp only [if_true]
    rw [c1]; omega
  have hy : startY ((0 + (d + 1) : Nat) : Int) (((0 : Nat) : Int) - ((d + 1 : Nat) : Int)) s
      = 0 := by
    unfold startY; rw [hx]
    unfold u32; unfold UINT_MAX at hwrap; omega
  have hback : u32 (((s.j + 1 : Nat) : Int) -
      (s.w (srcDiag ((0 + (d + 1) : Nat) : Int)
        (((0 : Nat) : Int) - ((d + 1 : Nat) : Int)) s) : Int)) = UINT_MAX - cellIdx 0 d := by
    rw [hi, c2, hj, hJ]
    exact u32_sub (by omega) le_rfl
  have haft : afterSnake ((0 + (d + 1) : Nat) : Int)
      (((0 : Nat) : Int) - ((d + 1 : Nat) : Int)) s 1 =
      { v := s.v
        w := setVec s.w (((0 : Nat) : Int) - ((d + 1 : Nat) : Int)) UINT_MAX
        c := setNode s.c UINT_MAX ⟨P + d + 1, 1, 1, UINT_MAX - cellIdx 0 d⟩
        j := UINT_MAX } := by
    unfold afterSnake
    rw [hx, hy, hback, hj, hJ]
  rw [diagonal_eq, hx, hy, if_neg hm, if_pos (by rw [hj]; exact hJ), haft]
  refine ⟨_, rfl, rfl, ?_⟩
  have hold : Chain (setNode s.c UINT_MAX ⟨P + d + 1, 1, 1, UINT_MAX - cellIdx 0 d⟩)
      (cellIdx 0 d) (regChain P 0 d) :=
    c3.congr_store (fun i hi => setNode_ne _ _ (by omega))
  have hlink := Chain.link (c := setNode s.c UINT_MAX ⟨P + d + 1, 1, 1, UINT_MAX - cellIdx 0 d⟩)
    (j := UINT_MAX) (l := regChain P 0 d)
    (by rw [setNode_same]; show (1 : Nat) ≠ 0; omega)
    (by rw [setNode_same]; show 1 ≤ UINT_MAX - cellIdx 0 d; omega)
    (by rw [setNode_same]; show UINT_MAX - cellIdx 0 d ≤ UINT_MAX; omega)
    (by
      rw [setNode_same]
      show Chain _ (UINT_MAX - (UINT_MAX - cellIdx 0 d)) _
      rw [show UINT_MAX - (UINT_MAX - cellIdx 0 d) = cellIdx 0 d by omega]
      exact hold)
  rw [setNode_same] at hlink
  exact hlink

/-- A traversal that is regular up to `UINT_MAX - 1` nodes, records nothing in the rest of
that distance, and then starts the next distance at a wrapped `y = 0` on a matching cell:
it stops on the capacity test, and the last node `(P + D + 2, 1, 1)` is linked to the
chain of the cell `(0, D + 1)`, which ends in the last row. -/
theorem wrap_traverse_abort {α : Type} (eq : α → α → Bool) {A B : List α} {P D e : Nat}
    (hP : 1 ≤ P) (hfirst : matchLen eq A B A.length 0 0 = P)
    (hend : ¬ (P ≥ A.length ∧ P ≥ B.length))
    (hreg : ∀ p q, 1 ≤ p + q → p + q ≤ D → RegStep eq A B P p q)
    (hlast : ∀ p q, p + q = D + 1 → p < e → RegStep eq A B P p q)
    (hthin : ∀ p q, p + q = D + 1 → e ≤ p → ThinStep eq A B P p q)
    (he1 : 1 ≤ e) (he : e ≤ D + 1)
    (hm : matchLen eq A B A.length (P + (D + 1)) 0 ≠ 0)
    (hcap : tri (D + 1) + e + 1 = UINT_MAX)
    (hn : D + 2 ≤ A.length) (hmB : D + 2 ≤ B.length) (hw : P + 2 * (D + 1) = UINT_MAX) :
    ∃ s1, traverse eq A B = (Exit.capacity, s1) ∧ s1.j = UINT_MAX ∧
      Chain s1.c UINT_MAX
        (⟨P + (D + 1) + 1, 1, 1, UINT_MAX - cellIdx 0 (D + 1)⟩ :: regChain P 0 (D + 1)) := by
  unfold traverse
  obtain ⟨s1, h1, i1⟩ := reg_first eq hP hfirst hend (A.length + B.length)
  rw [h1]
  obtain ⟨s2, h2, i2⟩ := reg_dLoop eq (A := A) (B := B) hP (A.length + B.length - D) D 1 s1 i1
    le_rfl (by omega) (by omega) (by omega) (by rw [show 1 + D = D + 1 by omega]; omega)
    (fun p q e1 e2 => hreg p q e1 (by omega))
  rw [Nat.cast_one] at h2
  rw [show A.length + B.length = A.length + B.length - D + D by omega, h2]
  rw [show 1 + D = D + 1 by omega] at i2 ⊢
  -- distance `D + 1`: `e` regular cells, then cells that record nothing
  obtain ⟨s3, h3, i3⟩ := reg_kLoop eq (A := A) (B := B) (d := D + 1) (by omega) hP (by omega)
    (by omega) (D + 2 - e) e 0 s2 i2 (by omega)
    (fun p q e1 _ e3 => hlast p q e1 (by omega)) (by omega)
  simp only [Nat.zero_add] at h3 i3
  have t3 := thinInv_of_reg i3 he1
  obtain ⟨s4, h4, i4⟩ := thin_kLoop eq (A := A) (B := B) (d := D + 1) hP (by omega) (by omega)
    0 (D + 2 - e) e s3 t3 he1 (by omega) (fun p q e1 e2 _ => hthin p q e1 e2)
  simp only [Nat.zero_add] at h4
  have hkl : kLoop eq A B ((D + 1 : Nat) : Int) (bandHi (A.length : Int) ((D + 1 : Nat) : Int))
      (((D + 1 : Nat) : Int).toNat + 1) (bandLo (B.length : Int) ((D + 1 : Nat) : Int)) s2 =
      (none, s4) := by
    rw [bandLo_eq, show D + 1 - min (D + 1) B.length = 0 by omega,
      show (((D + 1 : Nat) : Int)).toNat + 1 = (D + 2 - e) + e by
        rw [Int.toNat_ofNat]; omega, h3, h4]
    rfl
  rw [show A.length + B.length - D = (A.length + B.length - D - 1) + 1 by omega,
    dLoop_succ_none eq A B _ (by omega) hkl]
  -- distance `D + 2`: the first cell
  obtain ⟨s5, h5, j5, c5⟩ := wrap_cell eq (A := A) (B := B) i4 (by omega) hw hm
  have hk : ((0 : Nat) : Int) - ((D + 1 + 1 : Nat) : Int) ≤
      bandHi (A.length : Int) ((0 + (D + 1 + 1) : Nat) : Int) := by
    rw [bandHi_eq]; omega
  have hkl2 : kLoop eq A B ((0 + (D + 1 + 1) : Nat) : Int)
      (bandHi (A.length : Int) ((0 + (D + 1 + 1) : Nat) : Int))
      (((0 + (D + 1 + 1) : Nat) : Int).toNat + 1)
      (bandLo (B.length : Int) ((0 + (D + 1 + 1) : Nat) : Int)) s4 =
      (some Exit.capacity, s5) := by
    rw [bandLo_eq, show 0 + (D + 1 + 1) - min (0 + (D + 1 + 1)) B.length = 0 by omega]
    have ek : 2 * ((0 : Nat) : Int) - ((0 + (D + 1 + 1) : Nat) : Int) =
        ((0 : Nat) : Int) - ((D + 1 + 1 : Nat) : Int) := by push_cast; ring
    rw [ek]
    exact kLoop_succ_some eq A B _ hk h5
  refine ⟨s5, ?_, j5, c5⟩
  have ed : (((D + 1 : Nat) : Int) + 1) = ((0 + (D + 1 + 1) : Nat) : Int) := by
    push_cast; ring
  rw [ed, show A.length + B.length - D - 1 = (A.length + B.length - D - 2) + 1 by omega]
  exact dLoop_succ_some eq A B _ (by push_cast; omega) hkl2

/-- The result of `ab` in terms of the chain of the last node, however the traversal
ends. -/
theorem ab_of_chain {α : Type} {eq : α → α → Bool} {A B : List α} {s1 : Scratch}
    {l : List node} {e : Exit} (u : Bool) (hA : A ≠ []) (hB : B ≠ [])
    (hn : A.length ≤ UINT_MAX) (hm : B.length ≤ UINT_MAX) (ht : traverse eq A B = (e, s1))
    (hch : Chain s1.c s1.j l) :
    ab eq A B u = Except.ok
      ⟨e == Exit.capacity, if u then editsOf l A.length B.length else runsOf l⟩ := by
  have hwf := traverse_wf eq A B
  rw [ht] at hwf
  obtain ⟨l1, hcl, hall⟩ := nodesOK_chain hwf s1.j le_rfl
  have hl := chain_unique hch hcl
  rw [← hl] at hall
  have hbounds : ∀ nd ∈ l, nd.z ≤ nd.x ∧ nd.z ≤ nd.y ∧ nd.x ≤ UINT_MAX ∧ nd.y ≤ UINT_MAX := by
    intro nd hnd
    have hr := hall nd hnd
    have hbd := hr.bounds
    exact ⟨hr.2.1, hr.2.2.1, by omega, by omega⟩
  have hlen2 := hch.length_le
  rw [ab_ok eq A B u hA hB hn hm, ht]
  cases u with
  | false =>
    simp only
    rw [backtrack_lcs hch hwf.1 hbounds _ _ _ _ (by omega)]
    simp
  | true =>
    simp only
    rw [backtrack_ses hch hwf.1 hbounds _ _ _ _ (by omega)]
    simp

theorem matchLen_run {α : Type} {eq : α → α → Bool} {A B : List α} (r : Nat) :
    ∀ (fuel x y : Nat), (∀ e, e < r → itemEq eq A B (x + e) (y + e) = true) →
      itemEq eq A B (x + r) (y + r) = false → r ≤ fuel → matchLen eq A B fuel x y = r := by
  induction r with
  | zero =>
    intro fuel x y _ h0 _
    exact matchLen_eq_zero h0 fuel
  | succ r ih =>
    intro fuel x y h h0 hf
    obtain ⟨fuel, rfl⟩ : ∃ f, fuel = f + 1 := ⟨fuel - 1, by omega⟩
    have h1 := h 0 (by omega)
    have hlt := itemEq_lt h1
    have := ih fuel (x + 1) (y + 1)
      (fun e he => by
        have := h (e + 1) (by omega)
        rwa [show x + (e + 1) = x + 1 + e by omega, show y + (e + 1) = y + 1 + e by omega]
          at this)
      (by rwa [show x + (r + 1) = x + 1 + r by omega, show y + (r + 1) = y + 1 + r by omega]
        at h0)
      (by omega)
    simp only [Nat.add_zero] at h1 hlt
    simp [matchLen, h1, hlt.1, hlt.2, this]

theorem matchLen_ne_zero {α : Type} {eq : α → α → Bool} {A B : List α} {x y : Nat}
    (h : itemEq eq A B x y = true) (fuel : Nat) : matchLen eq A B (fuel + 1) x y ≠ 0 := by
  have hlt := itemEq_lt h
  simp [matchLen, h, hlt.1, hlt.2]

theorem wrapA_length : wrapA.length = wrapLen := by simp [wrapA]

theorem wrapB_length : wrapB.length = wrapLen := by simp [wrapB]

theorem wrapA_get {x : Nat} (hx : x < wrapLen) : wrapA[x]? = some (2 * x) := by
  unfold wrapA
  rw [List.getElem?_map, List.getElem?_range hx]
  rfl

theorem wrapB_get {y : Nat} (hy : y < wrapLen) : wrapB[y]? = some (2 * y + 1) := by
  unfold wrapB
  rw [List.getElem?_map, List.getElem?_range hy]
  rfl

theorem wrapLen_eq : wrapLen = 4294967295 := rfl

theorem wrap_itemEq (x y : Nat) :
    itemEq wrapEq wrapA wrapB x y = true ↔
      x < wrapLen ∧ y < wrapLen ∧
        ((x = y ∧ x < 4294781933) ∨
          (4294781933 ≤ x ∧ 4294781933 ≤ y ∧ (x - 4294781933 + (y - 4294781933)) % 3 = 1 ∧
            (x - 4294781933 + (y - 4294781933) ≤ 278038 ∨
              (x - 4294781933 + (y - 4294781933) = 278041 ∧ x - 4294781933 + 1 < 129754))) ∨
          (x = 4294874614 ∧ y = 0)) := by
  have e1 : 2 * x / 2 = x := by omega
  have e2 : (2 * y + 1) / 2 = y := by omega
  constructor
  · intro h
    have hlt := itemEq_lt h
    rw [wrapA_length, wrapB_length] at hlt
    rw [itemEq_of_get _ (wrapA_get hlt.1) (wrapB_get hlt.2)] at h
    unfold wrapEq at h
    rw [e1, e2] at h
    exact ⟨hlt.1, hlt.2, of_decide_eq_true h⟩
  · rintro ⟨hx, hy, h⟩
    rw [itemEq_of_get _ (wrapA_get hx) (wrapB_get hy)]
    unfold wrapEq
    rw [e1, e2]
    exact decide_eq_true h

theorem wrap_first : matchLen wrapEq wrapA wrapB wrapA.length 0 0 = 4294781933 := by
  have hlen := wrapLen_eq
  apply matchLen_run
  · intro e he
    rw [wrap_itemEq, Nat.zero_add]
    exact ⟨by omega, by omega, Or.inl ⟨rfl, he⟩⟩
  · rw [Bool.eq_false_iff]
    intro hc
    rw [wrap_itemEq] at hc
    omega
  · rw [wrapA_length]; omega

theorem wrap_regStep {p q : Nat} (h1 : 1 ≤ p + q)
    (h : p + q ≤ 92680 ∨ (p + q = 92681 ∧ p < 37073)) :
    RegStep wrapEq wrapA wrapB 4294781933 p q := by
  have hlen := wrapLen_eq
  constructor
  · rw [wrapA_length, show wrapLen = 4294967294 + 1 from rfl]
    apply matchLen_eq_one
    · rw [wrap_itemEq]; omega
    · rw [Bool.eq_false_iff]
      intro hc
      rw [wrap_itemEq] at hc
      omega
  · rw [wrapA_length]; omega

theorem wrap_thinStep {p q : Nat} (h : p + q = 92681) (hp : 37073 ≤ p) :
    ThinStep wrapEq wrapA wrapB 4294781933 p q := by
  have hlen := wrapLen_eq
  constructor
  · apply matchLen_eq_zero
    rw [Bool.eq_false_iff]
    intro hc
    rw [wrap_itemEq] at hc
    omega
  · rw [wrapA_length]; omega

/-- On the wrap-around example the traversal stops on the capacity test at the first cell
of distance `92682`, where `y` has wrapped around to `0`. -/
theorem wrap_traverse :
    ∃ s1, traverse wrapEq wrapA wrapB = (Exit.capacity, s1) ∧ s1.j = UINT_MAX ∧
      Chain s1.c UINT_MAX wrapChain := by
  have hlen := wrapLen_eq
  have ht : tri (92680 + 1) + 37073 + 1 = UINT_MAX := by
    have := two_tri (92680 + 1)
    unfold UINT_MAX
    omega
  have hm : matchLen wrapEq wrapA wrapB wrapA.length (4294781933 + (92680 + 1)) 0 ≠ 0 := by
    rw [wrapA_length, show wrapLen = 4294967294 + 1 from rfl]
    apply matchLen_ne_zero
    rw [wrap_itemEq]; omega
  have h := wrap_traverse_abort wrapEq (A := wrapA) (B := wrapB) (P := 4294781933)
    (D := 92680) (e := 37073) (by omega) wrap_first (by rw [wrapA_length]; omega)
    (fun p q h1 h2 => wrap_regStep h1 (Or.inl h2))
    (fun p q h1 h2 => wrap_regStep (by omega) (Or.inr ⟨h1, h2⟩))
    (fun p q h1 h2 => wrap_thinStep h1 h2) (by omega) (by omega) hm ht
    (by rw [wrapA_length]; omega) (by rw [wrapB_length]; omega) (by unfold UINT_MAX; omega)
  rw [show 92680 + 1 = 92681 from rfl, show 4294781933 + 92681 + 1 = 4294874615 from rfl] at h
  unfold wrapChain
  exact h

theorem wrapA_ne : wrapA ≠ [] := by
  intro h
  have := wrapA_length
  rw [h, List.length_nil, wrapLen_eq] at this
  omega

theorem wrapB_ne : wrapB ≠ [] := by
  intro h
  have := wrapB_length
  rw [h, List.length_nil, wrapLen_eq] at this
  omega

/-- What `lcs` and `ses` return on the wrap-around example. -/
theorem wrap_result (u : Bool) :
    ab wrapEq wrapA wrapB u =
      Except.ok ⟨true, if u then editsOf wrapChain wrapLen wrapLen else runsOf wrapChain⟩ := by
  have hlen := wrapLen_eq
  obtain ⟨s1, ht, hj, hch⟩ := wrap_traverse
  rw [← hj] at hch
  have := ab_of_chain u wrapA_ne wrapB_ne (by rw [wrapA_length]; exact le_of_eq rfl)
    (by rw [wrapB_length]; exact le_of_eq rfl) ht hch
  rw [wrapA_length, wrapB_length] at this
  exact this

theorem regChain_succ (P p q : Nat) :
    regChain P p (q + 1) =
      ⟨P + 2 * p + (q + 1), P + p + 2 * (q + 1), 1, cellIdx p (q + 1) - cellIdx p q⟩ ::
        regChain P p q := rfl

/-- The runs of a chain whose last node lies at `y = 1` behind a node of the column `p = 0`
are not in forward order. -/
theorem runsOf_wrap_unordered (P q x b : Nat) :
    ¬ List.Chain' record.Before (runsOf (⟨x, 1, 1, b⟩ :: regChain P 0 (q + 1))) := by
  rw [regChain_succ]
  simp only [runsOf]
  intro h
  rw [List.chain'_append] at h
  have h3 := h.2.2
  have := h3 (record.run (P + 2 * 0 + (q + 1) - 1) (P + 0 + 2 * (q + 1) - 1) 1)
    (by simp) (record.run (x - 1) (1 - 1) 1) (by simp)
  simp only [record.Before] at this
  omega

theorem insCount_append (m : Nat) (xs ys : List record) :
    insCount m (xs ++ ys) = insCount m xs + insCount m ys := by
  induction xs with
  | nil => simp [insCount]
  | cons r xs ih =>
    cases r with
    | run a b len => simp [insCount, ih]
    | edit a b r f => simp [insCount, ih]; omega

/-- An edit script puts at least its inserted items into the patched sequence. -/
theorem insCount_le_length {α : Type} (A B : List α) (script : List record) :
    ∀ pos, insCount B.length script ≤ (applyFrom A B pos script).length := by
  induction script with
  | nil => intro pos; simp [insCount]
  | cons r rest ih =>
    intro pos
    cases r with
    | run a b len => simpa [insCount, applyFrom] using ih pos
    | edit a b r f =>
      by_cases hf : f = 1
      · have := ih (max pos a)
        simp only [insCount, applyFrom, hf, if_true, List.length_append, List.length_map,
          List.length_take, List.length_drop]
        omega
      · have := ih (a + r)
        simp only [insCount, applyFrom, hf, if_false, List.length_append, List.length_map,
          List.length_take, List.length_drop]
        omega

/-- The gaps of the chain of the column `p = 0` hold one inserted item per node. -/
theorem insCount_regChain (P m : Nat) :
    ∀ q, P + 2 * q < m →
      q ≤ insCount m (editsOf (regChain P 0 q) (P + q) (P + 2 * q + 1)) := by
  intro q
  induction q with
  | zero => intro _; exact Nat.zero_le _
  | succ q ih =>
    intro h
    have h1 := ih (by omega)
    rw [regChain_succ]
    simp only [editsOf]
    rw [insCount_append, sesEmit_eq]
    have e1 : P + 2 * 0 + (q + 1) - 1 = P + q := by omega
    have e2 : P + 0 + 2 * (q + 1) - 1 = P + 2 * q + 1 := by omega
    rw [e1, e2]
    have c1 : ¬ (P + 2 * 0 + (q + 1) < P + (q + 1)) := by omega
    have c2 : P + 0 + 2 * (q + 1) < P + 2 * (q + 1) + 1 := by omega
    rw [if_neg c1, if_pos c2]
    simp only [List.nil_append, List.append_nil, insCount]
    have : min (P + 2 * (q + 1) + 1 - (P + 0 + 2 * (q + 1))) (m - (P + 0 + 2 * (q + 1))) = 1 := by
      omega
    simp only [if_true, this]
    omega

/-- Applying the gaps of a chain whose last node lies at `y = 1` behind a node of the
column `p = 0` gives more than `m` items. -/
theorem wrap_apply_length {α : Type} (A B : List α) (P q x b n : Nat) (hq : 2 ≤ q)
    (hP : P + 2 * q < B.length) :
    B.length <
      (applySes A B (editsOf (⟨x, 1, 1, b⟩ :: regChain P 0 (q + 1)) n B.length)).length := by
  have h1 := insCount_le_length A B
    (editsOf (⟨x, 1, 1, b⟩ :: regChain P 0 (q + 1)) n B.length) 0
  have h2 := insCount_regChain P B.length q hP
  unfold applySes
  refine lt_of_lt_of_le ?_ h1
  simp only [editsOf]
  have e1 : P + 2 * 0 + (q + 1) - 1 = P + q := by omega
  have e2 : P + 0 + 2 * (q + 1) - 1 = P + 2 * q + 1 := by omega
  rw [e1, e2, insCount_append, insCount_append]
  have h3 : B.length - 1 ≤ insCount B.length (sesEmit x 1 n B.length []) := by
    have c : 1 < B.length := by omega
    rw [sesEmit_eq, insCount_append, if_pos c, if_pos c, List.append_nil]
    show B.length - 1 ≤ _ + ((if (1 : Int) = 1 then min (B.length - 1) (B.length - 1) else 0)
      + insCount B.length [])
    rw [if_pos rfl]
    omega
  omega

theorem runsOf_wrap_tail (P q x b : Nat) :
    runsOf (⟨x, 1, 1, b⟩ :: regChain P 0 (q + 1)) =
      runsOf (regChain P 0 q) ++
        [record.run (P + q) (P + 2 * q + 1) 1, record.run (x - 1) 0 1] := by
  rw [regChain_succ]
  simp only [runsOf, List.append_assoc, List.singleton_append]
  rw [show P + 2 * 0 + (q + 1) - 1 = P + q by omega,
    show P + 0 + 2 * (q + 1) - 1 = P + 2 * q + 1 by omega]

theorem editsOf_wrap_tail (l : List node) (x b n m : Nat) (hx : x < n) (hm : 1 < m) :
    editsOf (⟨x, 1, 1, b⟩ :: l) n m =
      editsOf l (x - 1) 0 ++ [record.edit x 1 (n - x) 0, record.edit x 1 (m - 1) 1] := by
  simp only [editsOf]
  rw [sesEmit_eq, if_pos hx, if_pos hm, if_pos hm, List.append_nil]
  rfl

theorem wrapChain_eq :
    wrapChain = ⟨4294874615, 1, 1, UINT_MAX - cellIdx 0 92681⟩ ::
      regChain 4294781933 0 (92680 + 1) := rfl

/-- C7, on the failing input. On the wrap-around example (two sequences of `UINT_MAX`
items) the value `y = (uint32_t)(x - k)` wraps around to `0` at the first cell of distance
`92682`, a node is recorded there, and the last two runs `lcs` returns are
`(4294874613, 4294967294, 1)` and `(4294874614, 0, 1)`: the result is not in forward
order. -/
theorem lcs_records_ordered_failing :
    lcs wrapEq wrapA wrapB = Except.ok ⟨true, runsOf wrapChain⟩ ∧
    (∃ pre, runsOf wrapChain =
      pre ++ [record.run 4294874613 4294967294 1, record.run 4294874614 0 1]) ∧
    ¬ List.Chain' record.Before (runsOf wrapChain) := by
  refine ⟨wrap_result false, ?_, ?_⟩
  · rw [wrapChain_eq, runsOf_wrap_tail]
    exact ⟨_, rfl⟩
  · rw [wrapChain_eq]
    exact runsOf_wrap_unordered _ _ _ _

/-- C3, on the failing input. On the wrap-around example (two sequences of `UINT_MAX`
items) the value `y = (uint32_t)(x - k)` wraps around to `0` at the first cell of distance
`92682`, a node is recorded there, and the script `ses` returns ends with the insertion of
`B[1 : m]` behind other insertions: applying it to `A` does not yield `B`. -/
theorem ses_applies_failing :
    ses wrapEq wrapA wrapB = Except.ok ⟨true, editsOf wrapChain wrapLen wrapLen⟩ ∧
    (∃ pre, editsOf wrapChain wrapLen wrapLen =
      pre ++ [record.edit 4294874615 1 92680 0, record.edit 4294874615 1 4294967294 1]) ∧
    ¬ List.Forall₂ (Patched.agrees wrapEq)
      (applySes wrapA wrapB (editsOf wrapChain wrapLen wrapLen)) wrapB := by
  have hlen := wrapLen_eq
  refine ⟨wrap_result true, ?_, ?_⟩
  · rw [wrapChain_eq, editsOf_wrap_tail _ _ _ _ _ (by omega) (by omega)]
    exact ⟨_, rfl⟩
  · intro h
    have h1 := h.length_eq
    have h2 := wrap_apply_length wrapA wrapB 4294781933 92680 4294874615
      (UINT_MAX - cellIdx 0 92681) wrapLen (by omega) (by rw [wrapB_length]; omega)
    rw [wrapB_length] at h2 h1
    rw [wrapChain_eq] at h1
    omega

/-! ### Myers's example and the tie-break of the predecessor test -/

/-- C11, counterexample. On Myers's example `lcs` does not return the four runs
`(2,0,1), (3,1,1), (5,3,1), (6,4,1)`; the second of them is not even a match, since
`A[3]` is the item `A` and `B[1]` is the item `B`. -/
theorem lcs_myers_example_counterexample :
    lcs (fun a b : Nat => a == b) [1, 2, 3, 1, 2, 2, 1] [3, 2, 1, 2, 1, 3] ≠
        Except.ok ⟨false, [record.run 2 0 1, record.run 3 1 1, record.run 5 3 1,
          record.run 6 4 1]⟩ ∧
    ¬ (record.run 3 1 1).IsMatch (fun a b : Nat => a == b)
        [1, 2, 3, 1, 2, 2, 1] [3, 2, 1, 2, 1, 3] := by
  constructor
  · intro h
    have e : lcs (fun a b : Nat => a == b) [1, 2, 3, 1, 2, 2, 1] [3, 2, 1, 2, 1, 3] =
        Except.ok ⟨false, [record.run 2 0 1, record.run 3 2 2, record.run 6 4 1]⟩ := rfl
    rw [e] at h
    exact absurd (Except.ok.inj h) (by decide)
  · intro h
    have := h.2.2.2 0 (by decide)
    revert this
    decide

/-- C11. On Myers's example `A = [A,B,C,A,B,B,A]`, `B = [C,B,A,B,A,C]` (the items `A`,
`B`, `C` written `1`, `2`, `3`) `lcs` returns exactly the three runs `(2,0,1)`, `(3,2,2)`,
`(6,4,1)`, without warning. -/
theorem lcs_myers_example :
    lcs (fun a b : Nat => a == b) [1, 2, 3, 1, 2, 2, 1] [3, 2, 1, 2, 1, 3] =
      Except.ok ⟨false, [record.run 2 0 1, record.run 3 2 2, record.run 6 4 1]⟩ := rfl

/-- C12, counterexample. In the call on `A = [1, 2]`, `B = [3, 1]` the step `d = 2`,
`k = 0` is interior and finds `v[-1] = v[1] = 1`; the predecessor taken is the diagonal
`-1` with `x = v[-1] + 1 = 2`, not the diagonal `k + 1 = 1` with `x = v[1]`, and this step
reaches the end point. -/
theorem tie_break_counterexample :
    (0 : Int) ≠ -2 ∧ (0 : Int) ≠ 2 ∧
    tieScratch.v (0 - 1) = 1 ∧ tieScratch.v (0 + 1) = 1 ∧
    srcDiag 2 0 tieScratch ≠ 0 + 1 ∧ startX 2 0 tieScratch ≠ tieScratch.v (0 + 1) ∧
    srcDiag 2 0 tieScratch = 0 - 1 ∧ startX 2 0 tieScratch = 2 ∧
    (diagonal (fun a b : Nat => a == b) [1, 2] [3, 1] 2 0 tieScratch).1 = some Exit.found ∧
    lcs (fun a b : Nat => a == b) [1, 2] [3, 1] = Except.ok ⟨false, [record.run 0 1 1]⟩ := by
  refine ⟨by decide, by decide, rfl, rfl, ?_, ?_, rfl, rfl, rfl, rfl⟩
  · have : srcDiag 2 0 tieScratch = -1 := rfl
    rw [this]; decide
  · have h1 : startX 2 0 tieScratch = 2 := rfl
    have h2 : tieScratch.v (0 + 1) = 1 := rfl
    rw [h1, h2]; decide

/-! ### The band and the size of the store -/

/-- C17. For `n, m ≥ 1` and `0 ≤ d ≤ n + m`, every diagonal `k` between the bounds of the
`k` loop, `-(d - 2 * POS(d - m)) ≤ k ≤ d - 2 * POS(d - n)`, satisfies `-m ≤ k ≤ n`; hence
the indices `k - 1`, `k`, `k + 1`, shifted by the origin `m + 1`, lie in `[0, n + m + 2]`,
inside the vectors of `n + m + 3` entries. -/
theorem band_within (n m d : Nat) (hn : 1 ≤ n) (hm : 1 ≤ m) (hd : d ≤ n + m) (k : Int)
    (hlo : bandLo (m : Int) (d : Int) ≤ k) (hhi : k ≤ bandHi (n : Int) (d : Int)) :
    (-(m : Int) ≤ k ∧ k ≤ (n : Int)) ∧
    (0 ≤ (k - 1) + ((m : Int) + 1) ∧ (k + 1) + ((m : Int) + 1) ≤ (n : Int) + (m : Int) + 2) ∧
    (k - 1) + ((m : Int) + 1) < (n : Int) + (m : Int) + 3 ∧
    0 ≤ k + ((m : Int) + 1) ∧ k + ((m : Int) + 1) < (n : Int) + (m : Int) + 3 := by
  rw [bandLo_eq] at hlo
  rw [bandHi_eq] at hhi
  omega

theorem band_within_witness :
    ((1 ≤ 7 ∧ 1 ≤ 6 ∧ 9 ≤ 7 + 6) ∧ bandLo ((6 : Nat) : Int) ((9 : Nat) : Int) ≤ -3 ∧
      (-3 : Int) ≤ bandHi ((7 : Nat) : Int) ((9 : Nat) : Int)) ∧
    (-((6 : Nat) : Int) ≤ -3 ∧ (-3 : Int) ≤ ((7 : Nat) : Int)) :=
  ⟨⟨⟨by decide, by decide, by decide⟩, by decide, by decide⟩,
    (band_within 7 6 9 (by decide) (by decide) (by decide) (-3) (by decide) (by decide)).1⟩

/-- C18. For every `l` in `[1, UINT_MAX]` the store size computed in `uint32_t`
arithmetic equals `min(UINT_MAX, l^2 + [l = 1] + 1)`, and on the branch `l ≤ USHRT_MAX`
where the product and the sums are evaluated none of them reaches `2^32`. -/
theorem storeSize_eq (l : Nat) (h1 : 1 ≤ l) (h2 : l ≤ UINT_MAX) :
    storeSize l = min UINT_MAX (l ^ 2 + (if l = 1 then 1 else 0) + 1) ∧
    (l ≤ USHRT_MAX → l * l < 2 ^ 32 ∧ l * l + (if l = 1 then 1 else 0) < 2 ^ 32 ∧
      l * l + (if l = 1 then 1 else 0) + 1 < 2 ^ 32) := by
  have hsq : l ^ 2 = l * l := by ring
  unfold storeSize
  by_cases hl : l > USHRT_MAX
  · rw [if_pos hl]
    unfold USHRT_MAX at hl
    unfold UINT_MAX at *
    have : 65536 * 65536 ≤ l * l := Nat.mul_le_mul hl hl
    refine ⟨?_, fun h => by unfold USHRT_MAX at h; omega⟩
    rw [hsq, Nat.min_eq_left (by omega)]
  · rw [if_neg hl]
    unfold USHRT_MAX at hl
    have hl2 : l ≤ 65535 := by omega
    have hb : l * l ≤ 65535 * 65535 := Nat.mul_le_mul hl2 hl2
    have e1 : u32 ((l : Int) * (l : Int)) = l * l := by
      rw [← Nat.cast_mul]; exact u32_natCast (by unfold UINT_MAX; omega)
    have e2 : u32 (((l * l : Nat) : Int) + (if l = 1 then 1 else 0)) =
        l * l + (if l = 1 then 1 else 0) := by
      have : ((l * l : Nat) : Int) + (if l = 1 then 1 else 0) =
          ((l * l + (if l = 1 then 1 else 0) : Nat) : Int) := by
        split <;> simp
      rw [this]; exact u32_natCast (by unfold UINT_MAX; split <;> omega)
    have e3 : u32 (((l * l + (if l = 1 then 1 else 0) : Nat) : Int) + 1) =
        l * l + (if l = 1 then 1 else 0) + 1 := by
      have : ((l * l + (if l = 1 then 1 else 0) : Nat) : Int) + 1 =
          ((l * l + (if l = 1 then 1 else 0) + 1 : Nat) : Int) := by
        push_cast; rfl
      rw [this]; exact u32_natCast (by unfold UINT_MAX; split <;> omega)
    rw [e1, e2, e3, hsq]
    refine ⟨?_, fun _ => ⟨by omega, by split <;> omega, by split <;> omega⟩⟩
    rw [Nat.min_eq_right (by unfold UINT_MAX; split <;> omega)]

theorem storeSize_eq_witness :
    (1 ≤ 6 ∧ 6 ≤ UINT_MAX) ∧ storeSize 6 = min UINT_MAX (6 ^ 2 + (if 6 = 1 then 1 else 0) + 1) :=
  ⟨⟨by decide, by decide⟩, (storeSize_eq 6 (by decide) (by decide)).1⟩

/-! ### The distance at which the traversal ends -/

theorem ghost_final_dist {α : Type} {eq : α → α → Bool} {A B : List α} {c : Nat → node}
    {p q x jw : Nat} {gh : Ghost} (h : GhostInv eq A B c p q x jw gh)
    (hx : A.length ≤ x) (hy : B.length ≤ gh.y)
    (hd : p + q + 2 * lcsLength eq A B ≤ A.length + B.length)
    (hn : A.length ≤ UINT_MAX) (hm : B.length ≤ UINT_MAX) :
    p + q + 2 * lcsLength eq A B = A.length + B.length := by
  have hL := validRuns_zsum_le h.valid
  have b1 := h.xeq
  have b2 := h.yeq
  have b3 := h.gx_eq
  have b4 := h.gy_eq
  have b5 := h.recent_sum
  have b6 := zsum_append gh.recent gh.old
  have b7 := h.gx_le_n
  have b8 := h.gy_le_m
  have b9 := h.bound
  have htu : gh.t + gh.u = 0 := by
    by_contra h0
    have := b9 h0
    unfold UINT_MAX at this hn hm
    omega
  have t0 : gh.t = 0 := by omega
  have u0 : gh.u = 0 := by omega
  have := b3 t0
  have := b4 u0
  simp only [t0, u0, Nat.zero_mul, Nat.add_zero] at b1 b2
  omega

theorem cell_found_dist {α : Type} {eq : α → α → Bool} {A B : List α} {s : Scratch} {p q : Nat}
    (hpre : PreOK eq A B s.c p q (startX ((p + q : Nat) : Int) ((p : Int) - (q : Int)) s)
      (s.w (srcDiag ((p + q : Nat) : Int) ((p : Int) - (q : Int)) s)))
    (hs : StoreOK s) (hopt : p + q + 2 * lcsLength eq A B ≤ A.length + B.length)
    (hn : A.length ≤ UINT_MAX) (hm : B.length ≤ UINT_MAX)
    (hf : (diagonal eq A B ((p + q : Nat) : Int) ((p : Int) - (q : Int)) s).1 =
      some Exit.found) :
    p + q + 2 * lcsLength eq A B = A.length + B.length := by
  obtain ⟨gh, hg, hsb, halive⟩ := hpre
  obtain ⟨hj, hw, hc0x, hc0y, hc0z⟩ := hs
  have hy0 : startY ((p + q : Nat) : Int) ((p : Int) - (q : Int)) s = gh.y := hg.y_eq
  rw [diagonal_eq] at hf
  generalize hx0 : startX ((p + q : Nat) : Int) ((p : Int) - (q : Int)) s = x0 at *
  generalize hjw : s.w (srcDiag ((p + q : Nat) : Int) ((p : Int) - (q : Int)) s) = jw at *
  have hjwle : jw ≤ s.j := by rw [← hjw]; exact hw _
  rw [hy0] at hf
  by_cases h0 : matchLen eq A B A.length x0 gh.y = 0
  · rw [if_pos h0] at hf
    by_cases h1 : x0 ≥ A.length ∧ gh.y ≥ B.length
    · exact ghost_final_dist hg h1.1 h1.2 hopt hn hm
    · rw [if_neg h1] at hf
      simp at hf
  · rw [if_neg h0] at hf
    by_cases h2 : s.j + 1 = UINT_MAX
    · rw [if_pos h2] at hf
      simp at hf
    · rw [if_neg h2] at hf
      have hlen : 1 ≤ matchLen eq A B A.length x0 gh.y := by omega
      have hg2 := ghost_snake hg hsb hlen
        (fun e he => matchLen_match eq A B _ _ _ e he) hjwle hj hn hm
      by_cases h1 : x0 + matchLen eq A B A.length x0 gh.y ≥ A.length ∧
          gh.y + matchLen eq A B A.length x0 gh.y ≥ B.length
      · exact ghost_final_dist hg2 h1.1 h1.2 hopt hn hm
      · rw [if_neg h1] at hf
        simp at hf

theorem kinv_pre {α : Type} {eq : α → α → Bool} {A B : List α} {s : Scratch} {p q : Nat}
    (hK : KInv eq A B (p + q) p s) (hd : 1 ≤ p + q) (hp : p ≤ A.length) (hq : q ≤ B.length)
    (hopt : p + q + 2 * lcsLength eq A B ≤ A.length + B.length)
    (hn : A.length ≤ UINT_MAX) (hm : B.length ≤ UINT_MAX) :
    PreOK eq A B s.c p q (startX ((p + q : Nat) : Int) ((p : Int) - (q : Int)) s)
      (s.w (srcDiag ((p + q : Nat) : Int) ((p : Int) - (q : Int)) s)) := by
  obtain ⟨hs, hprev, _⟩ := hK
  cases p with
  | zero =>
    cases q with
    | zero => omega
    | succ q => exact pre_top (hprev 0 q (by omega) (by omega) (by omega)) hopt hm
  | succ p =>
    cases q with
    | zero => exact pre_left (hprev p 0 (by omega) (by omega) (by omega)) hopt hn
    | succ q =>
      exact pre_mid (hprev p (q + 1) (by omega) (by omega) (by omega))
        (hprev (p + 1) q (by omega) (by omega) (by omega)) hopt hn hm

theorem kLoop_found_dist {α : Type} {eq : α → α → Bool} {A B : List α} {d : Nat} (hd : 1 ≤ d)
    (hopt : d + 2 * lcsLength eq A B ≤ A.length + B.length)
    (hn : A.length ≤ UINT_MAX) (hm : B.length ≤ UINT_MAX) (fuel pc : Nat) (s : Scratch)
    (hK : KInv eq A B d pc s) (hq : d ≤ pc + B.length) (hpc : pc ≤ min d A.length + 1)
    (hf : (kLoop eq A B (d : Int) (bandHi (A.length : Int) (d : Int)) fuel
        (2 * (pc : Int) - (d : Int)) s).1 = some Exit.found) :
    d + 2 * lcsLength eq A B = A.length + B.length := by
  induction fuel generalizing pc s with
  | zero => simp [kLoop] at hf
  | succ fuel ih =>
    by_cases hle : pc ≤ min d A.length
    · have hk : (2 * (pc : Int) - (d : Int)) ≤ bandHi (A.length : Int) (d : Int) := by
        rw [bandHi_eq]; omega
      obtain ⟨q, rfl⟩ : ∃ q, d = pc + q := ⟨d - pc, by omega⟩
      have ek : (2 * (pc : Int) - ((pc + q : Nat) : Int)) = (pc : Int) - (q : Int) := by
        push_cast; ring
      rw [ek] at hf hk
      have hpost := kinv_cell hK hd (by omega) (by omega) hopt hn hm
      have hpre := kinv_pre hK hd (by omega) (by omega) hopt hn hm
      rcases hdiag : diagonal eq A B ((pc + q : Nat) : Int) ((pc : Int) - (q : Int)) s
        with ⟨res, s1⟩
      rw [hdiag] at hpost
      cases res with
      | none =>
        rw [kLoop_succ_none eq A B fuel hk hdiag] at hf
        have hK1 := kinv_next hK hpost
        have ek2 : (2 * ((pc + 1 : Nat) : Int) - ((pc + q : Nat) : Int))
            = (pc : Int) - (q : Int) + 2 := by push_cast; ring
        exact ih (pc + 1) s1 hK1 (by omega) (by omega) (by rw [ek2]; exact hf)
      | some e =>
        rw [kLoop_succ_some eq A B fuel hk hdiag] at hf
        have he : e = Exit.found := by simpa using hf
        subst he
        exact cell_found_dist hpre hK.1 hopt hn hm (by rw [hdiag])
    · have hk : ¬ ((2 * (pc : Int) - (d : Int)) ≤ bandHi (A.length : Int) (d : Int)) := by
        rw [bandHi_eq]; omega
      rw [kLoop.eq_2, if_neg hk] at hf
      simp at hf

theorem dLoop_exit {α : Type} {eq : α → α → Bool} {A B : List α}
    (hn : A.length ≤ UINT_MAX) (hm : B.length ≤ UINT_MAX) (fuel d : Nat) (s : Scratch)
    (hd : 1 ≤ d) (hopt : d + 2 * lcsLength eq A B ≤ A.length + B.length)
    (hf : A.length + B.length < d + 2 * lcsLength eq A B + fuel)
    (hK : KInv eq A B d (d - min d B.length) s)
    (hcap : (dLoop eq A B fuel (d : Int) s).1 ≠ Exit.capacity) :
    ∃ g, d + g + 2 * lcsLength eq A B = A.length + B.length ∧
      (dLoop eq A B g (d : Int) s).1 = Exit.exhausted ∧
      dLoop eq A B (g + 1) (d : Int) s = dLoop eq A B fuel (d : Int) s ∧
      (dLoop eq A B fuel (d : Int) s).1 = Exit.found := by
  induction fuel generalizing d s with
  | zero => omega
  | succ fuel ih =>
    have hle : (d : Int) ≤ (A.length : Int) + (B.length : Int) := by omega
    have hspec := kLoop_spec hd hopt hn hm (d + 1) (d - min d B.length) s hK (by omega)
      (by omega) (by omega)
    have ht : ((d : Int)).toNat + 1 = d + 1 := by simp
    rcases hk : kLoop eq A B (d : Int) (bandHi (A.length : Int) (d : Int)) (d + 1)
        (2 * ((d - min d B.length : Nat) : Int) - (d : Int)) s with ⟨res, s1⟩
    have hk2 : kLoop eq A B (d : Int) (bandHi (A.length : Int) (d : Int))
        ((d : Int).toNat + 1) (bandLo (B.length : Int) (d : Int)) s = (res, s1) := by
      rw [ht, bandLo_eq]; exact hk
    rw [hk] at hspec
    cases res with
    | none =>
      obtain ⟨hs1, hprev, hcur⟩ := hspec
      have hlt := not_optimal_yet (d := d) (c := s1.c) (v := s1.v) (w := s1.w)
        (fun p q h1 h2 h3 => hcur p q h1 h2 h3 (by omega)) hopt hm
      have e1 : ∀ f, dLoop eq A B (f + 1) (d : Int) s = dLoop eq A B f ((d : Int) + 1) s1 :=
        fun f => dLoop_succ_none eq A B f hle hk2
      rw [e1] at hcap
      have hc : ((d : Int) + 1) = ((d + 1 : Nat) : Int) := by push_cast; rfl
      rw [hc] at hcap
      obtain ⟨g, g1, g2, g3, g4⟩ := ih (d + 1) s1 (by omega) (by omega) (by omega)
        ⟨hs1, fun p q h1 h2 h3 => hcur p q (by omega) h2 h3 (by omega),
          fun p q h1 h2 h3 h4 => by omega⟩ hcap
      refine ⟨g + 1, by omega, ?_, ?_, ?_⟩
      · rw [e1, hc]; exact g2
      · rw [e1, e1, hc]; exact g3
      · rw [e1, hc]; exact g4
    | some e =>
      have e1 : ∀ f, dLoop eq A B (f + 1) (d : Int) s = (e, s1) :=
        fun f => dLoop_succ_some eq A B f hle hk2
      rw [e1] at hcap
      cases e with
      | found =>
        have hdist := kLoop_found_dist hd hopt hn hm (d + 1) (d - min d B.length) s hK
          (by omega) (by omega) (by rw [hk])
        exact ⟨0, by omega, rfl, by rw [e1, e1], by rw [e1]⟩
      | capacity => exact absurd rfl hcap
      | exhausted => exact absurd hspec id

/-- C19. For every pair of sequences of at most `UINT_MAX` items on which the forward
traversal does not stop on the capacity test, the `d` loop is left through the end-point
test and never by exhaustion, and the round in which it is left is `d = n + m - 2 * L`
(`L` the length of a longest common subsequence): the rounds `0, ..., n + m - 2 * L - 1`
all run to their end without leaving the loop, and the traversal is the run of the first
`n + m - 2 * L + 1` rounds. -/
theorem traverse_exit_distance {α : Type} (eq : α → α → Bool) (A B : List α)
    (hn : A.length ≤ UINT_MAX) (hm : B.length ≤ UINT_MAX)
    (hcap : (traverse eq A B).1 ≠ Exit.capacity) :
    (traverse eq A B).1 = Exit.found ∧
    2 * lcsLength eq A B ≤ A.length + B.length ∧
    (dLoop eq A B (A.length + B.length - 2 * lcsLength eq A B) 0 Scratch.init).1 =
      Exit.exhausted ∧
    dLoop eq A B (A.length + B.length - 2 * lcsLength eq A B + 1) 0 Scratch.init =
      traverse eq A B := by
  have hL := lcsLength_le eq A B
  have hs0 : StoreOK Scratch.init :=
    ⟨by simp [Scratch.init, UINT_MAX], fun _ => le_rfl, rfl, rfl, rfl⟩
  have hpost := cell_finish (pre_first eq A B) hs0 (by omega) hn hm
  have hfd := cell_found_dist (pre_first eq A B) hs0 (by omega) hn hm
  simp only [Nat.add_zero, Nat.cast_zero, sub_zero] at hpost hfd
  have h0 : ((0 : Int)) ≤ (A.length : Int) + (B.length : Int) := by omega
  rcases hdiag : diagonal eq A B 0 0 Scratch.init with ⟨res, s1⟩
  rw [hdiag] at hpost hfd
  have hk : kLoop eq A B 0 (bandHi (A.length : Int) 0) ((0 : Int).toNat + 1)
      (bandLo (B.length : Int) 0) Scratch.init = (res, s1) := by
    have e1 := bandLo_zero B.length
    have e2 := bandHi_zero A.length
    simp only [Nat.cast_zero] at e1 e2
    rw [e1, e2]
    simp only [Int.toNat_zero, Nat.zero_add]
    rw [kLoop.eq_2, if_pos (le_refl (0 : Int)), hdiag]
    cases res with
    | none => simp only [kLoop]
    | some e => rfl
  unfold traverse at hcap ⊢
  cases res with
  | none =>
    have e1 : ∀ f, dLoop eq A B (f + 1) 0 Scratch.init = dLoop eq A B f ((1 : Nat) : Int) s1 := by
      intro f
      rw [dLoop_succ_none eq A B f h0 hk]
      rfl
    obtain ⟨hs1, hcell, _, _, _⟩ := hpost
    have hcells : ∀ p q, p + q = 0 → p ≤ A.length → q ≤ B.length →
        CellOK eq A B s1.c p q (s1.v ((p : Int) - (q : Int))) (s1.w ((p : Int) - (q : Int))) := by
      intro p q h1 _ _
      have hp : p = 0 := by omega
      have hq : q = 0 := by omega
      subst hp hq
      exact hcell
    have hlt := not_optimal_yet hcells (by omega) hm
    rw [e1] at hcap
    obtain ⟨g, g1, g2, g3, g4⟩ := dLoop_exit hn hm (A.length + B.length) 1 s1 le_rfl (by omega)
      (by omega) ⟨hs1, fun p q h1 h2 h3 => hcells p q (by omega) h2 h3,
        fun p q h1 h2 h3 h4 => by omega⟩ hcap
    have hD : A.length + B.length - 2 * lcsLength eq A B = g + 1 := by omega
    rw [hD, e1, e1, e1]
    exact ⟨g4, by omega, g2, g3⟩
  | some e =>
    have e1 : ∀ f, dLoop eq A B (f + 1) 0 Scratch.init = (e, s1) :=
      fun f => dLoop_succ_some eq A B f h0 hk
    rw [e1] at hcap
    cases e with
    | found =>
      have hdist := hfd rfl
      have hD : A.length + B.length - 2 * lcsLength eq A B = 0 := by omega
      rw [hD, e1, e1]
      exact ⟨rfl, by omega, rfl, rfl⟩
    | capacity => exact absurd rfl hcap
    | exhausted => exact absurd hpost id

theorem traverse_exit_distance_witness :
    ([1, 2, 3, 1, 2, 2, 1].length ≤ UINT_MAX ∧ [3, 2, 1, 2, 1, 3].length ≤ UINT_MAX ∧
      (traverse (fun a b : Nat => a == b) [1, 2, 3, 1, 2, 2, 1] [3, 2, 1, 2, 1, 3]).1 ≠
        Exit.capacity) ∧
    (traverse (fun a b : Nat => a == b) [1, 2, 3, 1, 2, 2, 1] [3, 2, 1, 2, 1, 3]).1 =
      Exit.found ∧
    lcsLength (fun a b : Nat => a == b) [1, 2, 3, 1, 2, 2, 1] [3, 2, 1, 2, 1, 3] = 4 ∧
    (dLoop (fun a b : Nat => a == b) [1, 2, 3, 1, 2, 2, 1] [3, 2, 1, 2, 1, 3] 5 0
      Scratch.init).1 = Exit.exhausted ∧
    (dLoop (fun a b : Nat => a == b) [1, 2, 3, 1, 2, 2, 1] [3, 2, 1, 2, 1, 3] 6 0
      Scratch.init).1 = Exit.found :=
  ⟨⟨by decide, by decide, by decide⟩,
    (traverse_exit_distance (fun a b : Nat => a == b) [1, 2, 3, 1, 2, 2, 1] [3, 2, 1, 2, 1, 3]
      (by decide) (by decide) (by decide)).1, by decide, by decide, by decide⟩

/-! ### `ses` is the list of gaps of `lcs` -/

theorem specGaps_snoc (n m a b len : Nat) (R : List record) :
    ∀ xe ye, specGaps n m xe ye (R ++ [record.run a b len]) =
      specGaps a b xe ye R ++ specGap (a + len) (b + len) n m := by
  induction R with
  | nil => intro xe ye; simp [specGaps]
  | cons r R ih =>
    intro xe ye
    cases r with
    | run a1 b1 l1 =>
      show specGap xe ye a1 b1 ++ specGaps n m (a1 + l1) (b1 + l1) (R ++ [record.run a b len]) =
        specGap xe ye a1 b1 ++ specGaps a b (a1 + l1) (b1 + l1) R ++
          specGap (a + len) (b + len) n m
      rw [ih, List.append_assoc]
    | edit a1 b1 r1 f1 =>
      show specGaps n m xe ye (R ++ [record.run a b len]) = _
      rw [ih]
      rfl

theorem shape_sesEmit (x y n m : Nat) :
    (sesEmit x y n m []).map record.shape = (specGap x y n m).map some := by
  rw [sesEmit_eq]
  unfold specGap
  by_cases hx : x < n <;> by_cases hy : y < m <;> simp [hx, hy, record.shape]

theorem shape_editsOf {l : List node} (hl : ∀ nd ∈ l, nd.z ≤ nd.x ∧ nd.z ≤ nd.y) :
    ∀ n m, (editsOf l n m).map record.shape = (specGaps n m 0 0 (runsOf l)).map some := by
  induction l with
  | nil => intro n m; simp only [editsOf, runsOf, specGaps]; exact shape_sesEmit 0 0 n m
  | cons nd l ih =>
    intro n m
    obtain ⟨h1, h2⟩ := hl nd (List.mem_cons_self _ _)
    simp only [editsOf, runsOf, List.map_append, specGaps_snoc]
    rw [ih (fun nd1 h => hl nd1 (List.mem_cons_of_mem _ h)), shape_sesEmit,
      Nat.sub_add_cancel h1, Nat.sub_add_cancel h2]

/-- C20. `lcs` and `ses` describe the same alignment path: whenever the two calls return
lists, the records of `ses(A, B)`, read as (position in `A`, position in `B`, range,
insertion or deletion), are exactly the gaps between the records of `lcs(A, B)`: for each
consecutive pair of runs (with a virtual run ending at `(0, 0)` in front and a virtual run
starting at `(n, m)` behind), a deletion `(xe, ye, xs - xe)` if `xs > xe`, immediately
followed by an insertion `(xe, ye, ys - ye)` if `ys > ye`, in forward order, and nothing
else. -/
theorem ses_gaps_of_lcs {α : Type} (eq : α → α → Bool) (A B : List α) (o1 o2 : Output)
    (h1 : lcs eq A B = Except.ok o1) (h2 : ses eq A B = Except.ok o2) :
    o2.records.map record.shape =
      (specGaps A.length B.length 0 0 o1.records).map some := by
  unfold lcs ab at h1
  unfold ses ab at h2
  split at h1
  · cases h1
  · rename_i hc
    rw [if_neg hc] at h2
    have hwf := traverse_wf eq A B
    rcases ht : traverse eq A B with ⟨e, s⟩
    rw [ht] at hwf h1 h2
    simp only at h1 h2 hwf
    cases h1
    cases h2
    obtain ⟨l, hch, hall⟩ := nodesOK_chain hwf s.j le_rfl
    have hl : ∀ nd ∈ l, nd.z ≤ nd.x ∧ nd.z ≤ nd.y ∧ nd.x ≤ UINT_MAX ∧ nd.y ≤ UINT_MAX := by
      intro nd hnd
      have hr := hall nd hnd
      have hbd := hr.bounds
      simp only [Bool.or_eq_true, decide_eq_true_eq, not_or, not_lt] at hc
      exact ⟨hr.2.1, hr.2.2.1, by omega, by omega⟩
    have hlen := hch.length_le
    show (backtrack true s.c (s.j + 1) s.j A.length B.length []).map record.shape =
      (specGaps A.length B.length 0 0
        (backtrack false s.c (s.j + 1) s.j A.length B.length [])).map some
    rw [backtrack_lcs hch hwf.1 hl _ _ _ _ (by omega), List.append_nil,
      backtrack_ses hch hwf.1 hl _ _ _ _ (by omega), List.append_nil]
    exact shape_editsOf (fun nd hnd => ⟨(hl nd hnd).1, (hl nd hnd).2.1⟩) _ _

theorem ses_gaps_of_lcs_witness :
    (lcs (fun a b : Nat => a == b) [1, 2, 3, 1, 2, 2, 1] [3, 2, 1, 2, 1, 3] =
        Except.ok ⟨false, [record.run 2 0 1, record.run 3 2 2, record.run 6 4 1]⟩ ∧
      ses (fun a b : Nat => a == b) [1, 2, 3, 1, 2, 2, 1] [3, 2, 1, 2, 1, 3] =
        Except.ok ⟨false, [record.edit 0 0 2 (-1), record.edit 3 1 1 1,
          record.edit 5 4 1 (-1), record.edit 7 5 1 1]⟩) ∧
    [record.edit 0 0 2 (-1), record.edit 3 1 1 1, record.edit 5 4 1 (-1),
        record.edit 7 5 1 1].map record.shape =
      (specGaps 7 6 0 0 [record.run 2 0 1, record.run 3 2 2, record.run 6 4 1]).map some :=
  ⟨⟨rfl, rfl⟩,
    ses_gaps_of_lcs (fun a b : Nat => a == b) [1, 2, 3, 1, 2, 2, 1] [3, 2, 1, 2, 1, 3]
      ⟨false, [record.run 2 0 1, record.run 3 2 2, record.run 6 4 1]⟩
      ⟨false, [record.edit 0 0 2 (-1), record.edit 3 1 1 1, record.edit 5 4 1 (-1),
        record.edit 7 5 1 1]⟩ rfl rfl⟩

/-! ### The store at every moment of the traversal -/

theorem matchLen_ge {α : Type} {eq : α → α → Bool} {A B : List α} (r : Nat) :
    ∀ (fuel x y : Nat), (∀ e, e < r → itemEq eq A B (x + e) (y + e) = true) → r ≤ fuel →
      r ≤ matchLen eq A B fuel x y := by
  induction r with
  | zero => intro fuel x y _ _; exact Nat.zero_le _
  | succ r ih =>
    intro fuel x y h hf
    cases fuel with
    | zero => omega
    | succ fuel =>
      have h0 := h 0 (by omega)
      rw [Nat.add_zero, Nat.add_zero] at h0
      have hlt := itemEq_lt h0
      have hr := ih fuel (x + 1) (y + 1)
        (fun e he => by
          have := h (e + 1) (by omega)
          rwa [show x + (e + 1) = x + 1 + e by omega, show y + (e + 1) = y + 1 + e by omega]
            at this)
        (by omega)
      simp only [matchLen, hlt.1, hlt.2, h0, decide_True, Bool.and_self, if_true]
      omega

theorem matchLen_le_full {α : Type} (eq : α → α → Bool) (A B : List α) (fuel x y : Nat) :
    matchLen eq A B fuel x y ≤ matchLen eq A B A.length x y := by
  by_cases h0 : matchLen eq A B fuel x y = 0
  · omega
  · have hb := matchLen_pos_lt h0
    exact matchLen_ge _ _ _ _ (fun e he => matchLen_match eq A B fuel x y e he) (by omega)

theorem snakeMoment_eq {α : Type} (eq : α → α → Bool) (A B : List α) (d k : Int) (s : Scratch)
    (steps : Nat) :
    snakeMoment eq A B d k s steps =
      if matchLen eq A B steps (startX d k s) (startY d k s) = 0 then
        { s with w := setVec s.w k (s.w (srcDiag d k s)) }
      else if s.j + 1 = UINT_MAX then afterSnake d k s 1
      else afterSnake d k s (matchLen eq A B steps (startX d k s) (startY d k s)) := by
  have hik := srcDiag_ne d k s
  have e : snakeMoment eq A B d k s steps =
      (snake eq A B k (srcDiag d k s) steps (startX d k s) (startY d k s) 0
          { s with w := setVec s.w k (s.w (srcDiag d k s)) }).2.2.2.2 := by
    unfold snakeMoment startY startX srcDiag goesDown
    rfl
  rw [e, snake_eq eq A B k (srcDiag d k s) hik]
  by_cases h0 : matchLen eq A B steps (startX d k s) (startY d k s) = 0
  · simp only [h0, if_true]
  · simp only [h0, if_false]
    by_cases h2 : s.j + 1 = UINT_MAX
    · simp only [h2, if_true, afterSnake, setVec_setVec, setVec_ne _ _ hik]
    · simp only [h2, if_false, afterSnake, setVec_setVec, setVec_ne _ _ hik]

theorem snakeMoment_wf {α : Type} {eq : α → α → Bool} {A B : List α} (d k : Int) {s : Scratch}
    (hs : WfStore eq A B s) (steps : Nat) : NodesOK eq A B (snakeMoment eq A B d k s steps) := by
  rw [snakeMoment_eq]
  have hfull := matchLen_le_full eq A B steps (startX d k s) (startY d k s)
  split
  · exact hs.1
  · rename_i h0
    split
    · exact (nodesOK_afterSnake hs d k le_rfl (by omega)).1
    · exact (nodesOK_afterSnake hs d k (by omega) hfull).1

theorem diagonal_ne_exhausted {α : Type} (eq : α → α → Bool) (A B : List α) (d k : Int)
    (s : Scratch) : (diagonal eq A B d k s).1 ≠ some Exit.exhausted := by
  rw [diagonal_eq]
  split
  · split <;> simp
  · split
    · simp
    · split <;> simp

theorem kLoop_ne_exhausted {α : Type} (eq : α → α → Bool) (A B : List α) (d hi : Int)
    (fuel : Nat) (k : Int) (s : Scratch) :
    (kLoop eq A B d hi fuel k s).1 ≠ some Exit.exhausted := by
  induction fuel generalizing k s with
  | zero => simp [kLoop]
  | succ fuel ih =>
    unfold kLoop
    split
    · have hd := diagonal_ne_exhausted eq A B d k s
      split
      · rename_i e s1 he
        rw [he] at hd
        exact hd
      · exact ih _ _
    · simp

theorem kLoop_running_wf {α : Type} {eq : α → α → Bool} {A B : List α} (d hi : Int)
    (fuel : Nat) (k : Int) (s : Scratch) (hs : WfStore eq A B s)
    (h : (kLoop eq A B d hi fuel k s).1 = none) :
    WfStore eq A B (kLoop eq A B d hi fuel k s).2 := by
  have hw := kLoop_wf d hi fuel k s hs
  rcases hk : kLoop eq A B d hi fuel k s with ⟨res, s1⟩
  rw [hk] at hw h
  simp only at h
  subst h
  exact hw

theorem dLoop_running_wf {α : Type} {eq : α → α → Bool} {A B : List α} (fuel : Nat) (d : Int)
    (s : Scratch) (hs : WfStore eq A B s) (h : (dLoop eq A B fuel d s).1 = Exit.exhausted) :
    WfStore eq A B (dLoop eq A B fuel d s).2 := by
  induction fuel generalizing d s with
  | zero => exact hs
  | succ fuel ih =>
    rw [dLoop.eq_2] at h ⊢
    split at h
    · rename_i hd
      rw [if_pos hd]
      have hk := kLoop_wf d (bandHi A.length d) (d.toNat + 1) (bandLo B.length d) s hs
      have hne := kLoop_ne_exhausted eq A B d (bandHi A.length d) (d.toNat + 1)
        (bandLo B.length d) s
      rcases hr : kLoop eq A B d (bandHi A.length d) (d.toNat + 1) (bandLo B.length d) s
        with ⟨res, s1⟩
      rw [hr] at hk hne h
      cases res with
      | none => exact ih _ _ hk h
      | some e =>
        simp only at h
        subst h
        exact absurd rfl hne
    · rename_i hd
      rw [if_neg hd]
      exact hs

theorem wfStore_init {α : Type} (eq : α → α → Bool) (A B : List α) :
    WfStore eq A B Scratch.init := by
  refine ⟨⟨by simp [Scratch.init], rfl, fun i h1 h2 => ?_⟩, by simp [Scratch.init, UINT_MAX],
    fun k => le_rfl⟩
  have : i ≤ 0 := h2
  omega

/-- C14. At every moment of a running forward traversal (after any number of complete
rounds of the `d` loop and of the `k` loop, and after any number of rounds of the inner
loop of the next cell, also while a node is being extended and overwritten), every node
recorded so far, that is every index `1 .. j`, satisfies `z ≥ 1`, `x ≤ n`, `y ≤ m`,
`x ≥ z` and `y ≥ z`. -/
theorem nodes_wf_at_every_moment {α : Type} (eq : α → α → Bool) (A B : List α)
    (rounds cells steps : Nat)
    (h1 : (dLoop eq A B rounds 0 Scratch.init).1 = Exit.exhausted)
    (h2 : (kLoop eq A B (rounds : Int) (bandHi A.length rounds) cells (bandLo B.length rounds)
      (dLoop eq A B rounds 0 Scratch.init).2).1 = none) :
    ∀ i, 1 ≤ i → i ≤ (moment eq A B rounds cells steps).j →
      1 ≤ ((moment eq A B rounds cells steps).c i).z ∧
      ((moment eq A B rounds cells steps).c i).x ≤ A.length ∧
      ((moment eq A B rounds cells steps).c i).y ≤ B.length ∧
      ((moment eq A B rounds cells steps).c i).z ≤ ((moment eq A B rounds cells steps).c i).x ∧
      ((moment eq A B rounds cells steps).c i).z ≤ ((moment eq A B rounds cells steps).c i).y := by
  have hw1 := dLoop_running_wf rounds 0 Scratch.init (wfStore_init eq A B) h1
  have hw2 := kLoop_running_wf (rounds : Int) (bandHi A.length rounds) cells
    (bandLo B.length rounds) _ hw1 h2
  have hn := snakeMoment_wf (rounds : Int) (bandLo B.length rounds + 2 * (cells : Int)) hw2 steps
  intro i hi1 hi2
  obtain ⟨hr, _, _⟩ := hn.2.2 i hi1 hi2
  have hb := hr.bounds
  exact ⟨hr.1, hb.1, hb.2, hr.2.1, hr.2.2.1⟩

theorem nodes_wf_at_every_moment_witness :
    ((dLoop (fun a b : Nat => a == b) [1, 2, 3, 1, 2, 2, 1] [3, 2, 1, 2, 1, 3] 2 0
        Scratch.init).1 = Exit.exhausted ∧
      (kLoop (fun a b : Nat => a == b) [1, 2, 3, 1, 2, 2, 1] [3, 2, 1, 2, 1, 3] ((2 : Nat) : Int)
        (bandHi ([1, 2, 3, 1, 2, 2, 1] : List Nat).length (2 : Nat)) 0
        (bandLo ([3, 2, 1, 2, 1, 3] : List Nat).length (2 : Nat))
        (dLoop (fun a b : Nat => a == b) [1, 2, 3, 1, 2, 2, 1] [3, 2, 1, 2, 1, 3] 2 0
          Scratch.init).2).1 = none) ∧
    (moment (fun a b : Nat => a == b) [1, 2, 3, 1, 2, 2, 1] [3, 2, 1, 2, 1, 3] 2 0 1).j = 1 ∧
    (moment (fun a b : Nat => a == b) [1, 2, 3, 1, 2, 2, 1] [3, 2, 1, 2, 1, 3] 2 0 1).c 1 =
      ⟨1, 3, 1, 1⟩ ∧
    (moment (fun a b : Nat => a == b) [1, 2, 3, 1, 2, 2, 1] [3, 2, 1, 2, 1, 3] 2 0 2).c 1 =
      ⟨2, 4, 2, 1⟩ ∧
    1 ≤ ((moment (fun a b : Nat => a == b) [1, 2, 3, 1, 2, 2, 1] [3, 2, 1, 2, 1, 3] 2 0 1).c
      1).z :=
  ⟨⟨rfl, rfl⟩, rfl, rfl, rfl,
    (nodes_wf_at_every_moment (fun a b : Nat => a == b) [1, 2, 3, 1, 2, 2, 1]
      [3, 2, 1, 2, 1, 3] 2 0 1 rfl rfl 1 (by decide) (le_of_eq rfl)).1⟩

/-! ### The recorded nodes and the backtrack loop -/

theorem recorded_afterSnake {α : Type} {eq : α → α → Bool} {A B : List α} {s : Scratch}
    (hs : WfStore eq A B s) (hc : ∀ i, s.j < i → s.c i = ⟨0, 0, 0, 0⟩) (d k : Int) {len : Nat}
    (h1 : 1 ≤ len) (h2 : len ≤ matchLen eq A B A.length (startX d k s) (startY d k s)) :
    Recorded eq A B (afterSnake d k s len) (s.j + 1) := by
  obtain ⟨hN, _⟩ := nodesOK_afterSnake hs d k h1 h2
  refine ⟨le_rfl, hN.1, hN.2.1, hN.2.2, fun i hi => ?_⟩
  have hcs : (afterSnake d k s len).c i = s.c i := by
    show setNode s.c (s.j + 1) _ i = s.c i
    exact setNode_ne _ _ (by omega)
  rw [hcs]
  exact hc i (by omega)

theorem diagonal_recorded {α : Type} {eq : α → α → Bool} {A B : List α} (d k : Int)
    {s : Scratch} (hs : WfStore eq A B s) (hc : ∀ i, s.j < i → s.c i = ⟨0, 0, 0, 0⟩) :
    ∃ top, Recorded eq A B (diagonal eq A B d k s).2 top ∧
      ((diagonal eq A B d k s).1 = none → top = (diagonal eq A B d k s).2.j) := by
  have hs0 := hs
  obtain ⟨⟨hj, hc0, hnodes⟩, hlt, hw⟩ := hs
  rw [diagonal_eq]
  by_cases h0 : matchLen eq A B A.length (startX d k s) (startY d k s) = 0
  · rw [if_pos h0]
    split
    · exact ⟨s.j, ⟨hw _, hj, hc0, hnodes, hc⟩, fun h => by simp at h⟩
    · exact ⟨s.j, ⟨le_rfl, hj, hc0, hnodes, hc⟩, fun _ => rfl⟩
  · rw [if_neg h0]
    have hpos : 1 ≤ matchLen eq A B A.length (startX d k s) (startY d k s) := by omega
    split
    · exact ⟨s.j + 1, recorded_afterSnake hs0 hc d k le_rfl hpos, fun h => by simp at h⟩
    · split
      · exact ⟨s.j + 1, recorded_afterSnake hs0 hc d k hpos le_rfl, fun h => by simp at h⟩
      · exact ⟨s.j + 1, recorded_afterSnake hs0 hc d k hpos le_rfl, fun _ => rfl⟩

theorem kLoop_recorded {α : Type} {eq : α → α → Bool} {A B : List α} (d hi : Int) (fuel : Nat)
    (k : Int) (s : Scratch) (hs : WfStore eq A B s) (hc : ∀ i, s.j < i → s.c i = ⟨0, 0, 0, 0⟩) :
    ∃ top, Recorded eq A B (kLoop eq A B d hi fuel k s).2 top ∧
      ((kLoop eq A B d hi fuel k s).1 = none → top = (kLoop eq A B d hi fuel k s).2.j) := by
  induction fuel generalizing k s with
  | zero => exact ⟨s.j, ⟨le_rfl, hs.1.1, hs.1.2.1, hs.1.2.2, hc⟩, fun _ => rfl⟩
  | succ fuel ih =>
    rw [kLoop.eq_2]
    split
    · have hd := diagonal_recorded d k hs hc
      have hwf := diagonal_wf d k hs
      rcases hr : diagonal eq A B d k s with ⟨res, s1⟩
      rw [hr] at hd hwf
      cases res with
      | none =>
        obtain ⟨top, ht, he⟩ := hd
        have := he rfl
        subst this
        exact ih _ _ hwf ht.2.2.2.2
      | some e =>
        obtain ⟨top, ht, _⟩ := hd
        exact ⟨top, ht, fun h => by simp at h⟩
    · exact ⟨s.j, ⟨le_rfl, hs.1.1, hs.1.2.1, hs.1.2.2, hc⟩, fun _ => rfl⟩

theorem dLoop_recorded {α : Type} {eq : α → α → Bool} {A B : List α} (fuel : Nat) (d : Int)
    (s : Scratch) (hs : WfStore eq A B s) (hc : ∀ i, s.j < i → s.c i = ⟨0, 0, 0, 0⟩) :
    ∃ top, Recorded eq A B (dLoop eq A B fuel d s).2 top := by
  induction fuel generalizing d s with
  | zero => exact ⟨s.j, le_rfl, hs.1.1, hs.1.2.1, hs.1.2.2, hc⟩
  | succ fuel ih =>
    rw [dLoop.eq_2]
    split
    · have hk := kLoop_recorded d (bandHi A.length d) (d.toNat + 1) (bandLo B.length d) s hs hc
      have hwf := kLoop_wf d (bandHi A.length d) (d.toNat + 1) (bandLo B.length d) s hs
      rcases hr : kLoop eq A B d (bandHi A.length d) (d.toNat + 1) (bandLo B.length d) s
        with ⟨res, s1⟩
      rw [hr] at hk hwf
      cases res with
      | none =>
        obtain ⟨top, ht, he⟩ := hk
        have := he rfl
        subst this
        exact ih _ _ hwf ht.2.2.2.2
      | some e =>
        obtain ⟨top, ht, _⟩ := hk
        exact ⟨top, ht⟩
    · exact ⟨s.j, le_rfl, hs.1.1, hs.1.2.1, hs.1.2.2, hc⟩

theorem traverse_recorded {α : Type} (eq : α → α → Bool) (A B : List α) :
    ∃ top, Recorded eq A B (traverse eq A B).2 top :=
  dLoop_recorded _ _ _ (wfStore_init eq A B) (fun _ _ => rfl)

theorem visited_spec {α : Type} {eq : α → α → Bool} {A B : List α} {s : Scratch} {top : Nat}
    (h : Recorded eq A B s top) :
    ∀ j, j ≤ top → ∀ fuel, j + 1 ≤ fuel →
      (∃ pre, visited s.c fuel j = j :: pre) ∧
      (∃ pre, visited s.c fuel j = pre ++ [0]) ∧
      (visited s.c fuel j).Pairwise (fun a b => a > b) ∧
      (∀ i ∈ visited s.c fuel j, i ≤ j) ∧
      (visited s.c fuel j).length ≤ j + 1 := by
  obtain ⟨_, htop, hc0, hnodes, _⟩ := h
  intro j
  induction j using Nat.strong_induction_on with
  | _ j ih =>
    intro hj fuel hf
    obtain ⟨f, rfl⟩ : ∃ f, fuel = f + 1 := ⟨fuel - 1, by omega⟩
    by_cases h0 : j = 0
    · subst h0
      have hz : (s.c 0).z = 0 := by rw [hc0]
      simp only [visited, hz, bne_self_eq_false, Bool.false_eq_true, if_false]
      exact ⟨⟨[], rfl⟩, ⟨[], rfl⟩, List.pairwise_singleton _ _, by simp, by simp⟩
    · obtain ⟨hr, hb1, hb2⟩ := hnodes j (by omega) hj
      have hz : ((s.c j).z != 0) = true := by
        have := hr.1
        simp only [bne_iff_ne, ne_eq]
        omega
      have hu : u32 ((j : Int) - ((s.c j).back : Int)) = j - (s.c j).back :=
        u32_sub hb2 (by omega)
      obtain ⟨⟨p1, e1⟩, ⟨p2, e2⟩, e3, e4, e5⟩ :=
        ih (j - (s.c j).back) (by omega) (by omega) f (by omega)
      have hv : visited s.c (f + 1) j = j :: visited s.c f (j - (s.c j).back) := by
        simp only [visited, hz, if_true, hu]
      rw [hv]
      refine ⟨⟨_, rfl⟩, ⟨j :: p2, by rw [e2]; rfl⟩, ?_, ?_, ?_⟩
      · refine List.Pairwise.cons (fun a ha => ?_) e3
        have := e4 a ha
        show j > a
        omega
      · intro i hi
        rcases List.mem_cons.1 hi with hi | hi
        · omega
        · have := e4 i hi
          omega
      · simp only [List.length_cons]
        omega

/-- C16. In the store left by the forward traversal on sequences of at most `UINT_MAX`
items, entry `0` is still zero-filled (`z = 0`), the recorded nodes are the entries
`1 .. top` for some `top ≥ j`, and each of them has `z ≥ 1` and a back-link with
`1 ≤ back ≤ index`; hence the indices read by the backtrack loop, started at the final `j`,
are strictly decreasing, end with `0`, are at most `j + 1` in number, and the loop stops by
its own test: more than `j + 1` rounds of fuel change nothing. -/
theorem backtrack_terminates {α : Type} (eq : α → α → Bool) (A B : List α)
    (hn : A.length ≤ UINT_MAX) (hm : B.length ≤ UINT_MAX) :
    (traverse eq A B).2.c 0 = ⟨0, 0, 0, 0⟩ ∧
    (∃ top, (traverse eq A B).2.j ≤ top ∧
      (∀ i, 1 ≤ i → i ≤ top →
        1 ≤ ((traverse eq A B).2.c i).z ∧ 1 ≤ ((traverse eq A B).2.c i).back ∧
          ((traverse eq A B).2.c i).back ≤ i) ∧
      ∀ i, top < i → (traverse eq A B).2.c i = ⟨0, 0, 0, 0⟩) ∧
    (∃ pre, visited (traverse eq A B).2.c ((traverse eq A B).2.j + 1) (traverse eq A B).2.j =
      pre ++ [0]) ∧
    (visited (traverse eq A B).2.c ((traverse eq A B).2.j + 1)
      (traverse eq A B).2.j).Pairwise (fun a b => a > b) ∧
    (visited (traverse eq A B).2.c ((traverse eq A B).2.j + 1)
      (traverse eq A B).2.j).length ≤ (traverse eq A B).2.j + 1 ∧
    ∀ (u : Bool) (fuel : Nat), (traverse eq A B).2.j + 1 ≤ fuel →
      backtrack u (traverse eq A B).2.c fuel (traverse eq A B).2.j A.length B.length [] =
        backtrack u (traverse eq A B).2.c ((traverse eq A B).2.j + 1) (traverse eq A B).2.j
          A.length B.length [] := by
  obtain ⟨top, hrec⟩ := traverse_recorded eq A B
  have hwf := traverse_wf eq A B
  generalize (traverse eq A B).2 = s at *
  obtain ⟨_, ⟨p2, e2⟩, e3, _, e5⟩ := visited_spec hrec s.j hrec.1 (s.j + 1) le_rfl
  refine ⟨hrec.2.2.1, ⟨top, hrec.1, fun i h1 h2 => ?_, hrec.2.2.2.2⟩, ⟨p2, e2⟩, e3, e5, ?_⟩
  · obtain ⟨hr, hb⟩ := hrec.2.2.2.1 i h1 h2
    exact ⟨hr.1, hb⟩
  · intro u fuel hf
    obtain ⟨l, hch, hall⟩ := nodesOK_chain hwf s.j le_rfl
    have hl : ∀ nd ∈ l, nd.z ≤ nd.x ∧ nd.z ≤ nd.y ∧ nd.x ≤ UINT_MAX ∧ nd.y ≤ UINT_MAX := by
      intro nd hnd
      have hr := hall nd hnd
      have hbd := hr.bounds
      exact ⟨hr.2.1, hr.2.2.1, by omega, by omega⟩
    have hlen := hch.length_le
    cases u with
    | false =>
      rw [backtrack_lcs hch hwf.1 hl _ _ _ _ (by omega),
        backtrack_lcs hch hwf.1 hl _ _ _ _ (by omega)]
    | true =>
      rw [backtrack_ses hch hwf.1 hl _ _ _ _ (by omega),
        backtrack_ses hch hwf.1 hl _ _ _ _ (by omega)]

theorem backtrack_terminates_witness :
    (([1, 2, 3, 1, 2, 2, 1] : List Nat).length ≤ UINT_MAX ∧
      ([3, 2, 1, 2, 1, 3] : List Nat).length ≤ UINT_MAX) ∧
    (traverse (fun a b : Nat => a == b) [1, 2, 3, 1, 2, 2, 1] [3, 2, 1, 2, 1, 3]).2.j = 8 ∧
    visited (traverse (fun a b : Nat => a == b) [1, 2, 3, 1, 2, 2, 1] [3, 2, 1, 2, 1, 3]).2.c
      9 8 = [8, 6, 3, 0] ∧
    (traverse (fun a b : Nat => a == b) [1, 2, 3, 1, 2, 2, 1] [3, 2, 1, 2, 1, 3]).2.c 0 =
      ⟨0, 0, 0, 0⟩ :=
  ⟨⟨by decide, by decide⟩, rfl, rfl,
    (backtrack_terminates (fun a b : Nat => a == b) [1, 2, 3, 1, 2, 2, 1] [3, 2, 1, 2, 1, 3]
      (by decide) (by decide)).1⟩

/-! ### The predecessor of a recorded node -/

theorem chain_cons_inv {c : Nat → node} {j : Nat} {nd : node} {l : List node}
    (h : Chain c j (nd :: l)) : c j = nd ∧ Chain c (j - nd.back) l := by
  cases h with
  | link _ _ _ h => exact ⟨rfl, h⟩

theorem cellIdx_zero (q : Nat) : cellIdx 0 q = tri q + 1 := by
  unfold cellIdx
  rw [Nat.zero_add, Nat.add_zero]

theorem tri_wrap : tri (92680 + 1) = 4294930221 := by
  have := two_tri (92680 + 1)
  omega

theorem cellIdx_wrap : cellIdx 0 92681 = 4294930222 := by
  rw [show (92681 : Nat) = 92680 + 1 from rfl, cellIdx_zero, tri_wrap]

theorem sub_sub_wrap (x : Nat) (h : x = 4294930222) :
    UINT_MAX - (UINT_MAX - x) = 4294930222 := by
  unfold UINT_MAX
  omega

theorem wrap_last_nodes {c : Nat → node} {x b P q i : Nat}
    (h : Chain c UINT_MAX (⟨x, 1, 1, b⟩ :: regChain P 0 (q + 1))) (hi : UINT_MAX - b = i) :
    (c UINT_MAX).x = x ∧ (c UINT_MAX).y = 1 ∧ (c UINT_MAX).z = 1 ∧
    UINT_MAX - (c UINT_MAX).back = i ∧
    (c i).x = P + (q + 1) ∧ (c i).y = P + 2 * (q + 1) ∧ (c i).z = 1 := by
  obtain ⟨h1, h2⟩ := chain_cons_inv h
  rw [regChain_succ] at h2
  have h3 := (chain_cons_inv h2).1
  simp only [hi] at h3
  rw [h1, h3]
  refine ⟨rfl, rfl, rfl, hi, ?_, ?_, rfl⟩
  · show P + 2 * 0 + (q + 1) = P + (q + 1)
    omega
  · show P + 0 + 2 * (q + 1) = P + 2 * (q + 1)
    omega

/-- C15, on the failing input. On the wrap-around example (two sequences of `UINT_MAX`
items) the traversal records, as its last node, the node `(4294874615, 1, 1)` at index
`UINT_MAX`; its back-link leads to the recorded node `(4294874614, 4294967295, 1)` at the
index `4294930222 ≥ 1`, whose `y' = 4294967295` is not at or before the head `y - z = 0`
of the last node. -/
theorem predecessor_order_failing :
    (traverse wrapEq wrapA wrapB).1 = Exit.capacity ∧
    (traverse wrapEq wrapA wrapB).2.j = UINT_MAX ∧
    ((traverse wrapEq wrapA wrapB).2.c UINT_MAX).x = 4294874615 ∧
    ((traverse wrapEq wrapA wrapB).2.c UINT_MAX).y = 1 ∧
    ((traverse wrapEq wrapA wrapB).2.c UINT_MAX).z = 1 ∧
    UINT_MAX - ((traverse wrapEq wrapA wrapB).2.c UINT_MAX).back = 4294930222 ∧
    ((traverse wrapEq wrapA wrapB).2.c 4294930222).x = 4294874614 ∧
    ((traverse wrapEq wrapA wrapB).2.c 4294930222).y = 4294967295 ∧
    ((traverse wrapEq wrapA wrapB).2.c 4294930222).z = 1 ∧
    ¬ (((traverse wrapEq wrapA wrapB).2.c 4294930222).y ≤
      ((traverse wrapEq wrapA wrapB).2.c UINT_MAX).y -
        ((traverse wrapEq wrapA wrapB).2.c UINT_MAX).z) := by
  obtain ⟨s1, ht, hj, hch⟩ := wrap_traverse
  have e1 : (traverse wrapEq wrapA wrapB).1 = Exit.capacity := by rw [ht]
  have e2 : (traverse wrapEq wrapA wrapB).2 = s1 := by rw [ht]
  rw [e2]
  rw [wrapChain_eq] at hch
  obtain ⟨hx1, hy1, hz1, hb1, hx2, hy2, hz2⟩ :=
    wrap_last_nodes hch (sub_sub_wrap _ cellIdx_wrap)
  refine ⟨e1, hj, hx1, hy1, hz1, hb1, by omega, by omega, hz2, ?_⟩
  omega

/-! ### The flags of `ses` -/

theorem flaggedGaps_snoc (n m a b len : Nat) (R : List record) :
    ∀ xe ye, flaggedGaps n m xe ye (R ++ [record.run a b len]) =
      flaggedGaps a b xe ye R ++ flaggedGap (a + len) (b + len) n m := by
  induction R with
  | nil => intro xe ye; simp [flaggedGaps]
  | cons r R ih =>
    intro xe ye
    cases r with
    | run a1 b1 l1 =>
      show flaggedGap xe ye a1 b1 ++
          flaggedGaps n m (a1 + l1) (b1 + l1) (R ++ [record.run a b len]) =
        flaggedGap xe ye a1 b1 ++ flaggedGaps a b (a1 + l1) (b1 + l1) R ++
          flaggedGap (a + len) (b + len) n m
      rw [ih, List.append_assoc]
    | edit a1 b1 r1 f1 =>
      show flaggedGaps n m xe ye (R ++ [record.run a b len]) = _
      rw [ih]
      rfl

theorem sesEmit_flagged (x y n m : Nat) : sesEmit x y n m [] = flaggedGap x y n m := by
  rw [sesEmit_eq]
  unfold flaggedGap
  simp

theorem editsOf_flagged {l : List node} (hl : ∀ nd ∈ l, nd.z ≤ nd.x ∧ nd.z ≤ nd.y) :
    ∀ n m, editsOf l n m = flaggedGaps n m 0 0 (runsOf l) := by
  induction l with
  | nil => intro n m; simp only [editsOf, runsOf, flaggedGaps]; exact sesEmit_flagged 0 0 n m
  | cons nd l ih =>
    intro n m
    obtain ⟨h1, h2⟩ := hl nd (List.mem_cons_self _ _)
    simp only [editsOf, runsOf, flaggedGaps_snoc]
    rw [ih (fun nd1 h => hl nd1 (List.mem_cons_of_mem _ h)), sesEmit_flagged,
      Nat.sub_add_cancel h1, Nat.sub_add_cancel h2]

theorem flaggedGap_flags (xe ye xs ys : Nat) :
    ∀ r ∈ flaggedGap xe ye xs ys,
      ∃ a b g f, r = record.edit a b g f ∧ (f = 1 ∨ f = -1 ∨ f = 0) := by
  intro r hr
  unfold flaggedGap at hr
  by_cases h1 : xs > xe <;> by_cases h2 : ys > ye <;>
    simp only [h1, h2, if_true, if_false, List.append_nil, List.nil_append,
      List.singleton_append, List.mem_cons, List.mem_singleton, List.not_mem_nil,
      or_false] at hr
  · rcases hr with rfl | rfl
    · exact ⟨_, _, _, _, rfl, Or.inr (Or.inr rfl)⟩
    · exact ⟨_, _, _, _, rfl, Or.inl rfl⟩
  · subst hr
    exact ⟨_, _, _, _, rfl, Or.inr (Or.inl rfl)⟩
  · subst hr
    exact ⟨_, _, _, _, rfl, Or.inl rfl⟩

theorem flaggedGaps_flags (n m : Nat) (R : List record) :
    ∀ xe ye, ∀ r ∈ flaggedGaps n m xe ye R,
      ∃ a b g f, r = record.edit a b g f ∧ (f = 1 ∨ f = -1 ∨ f = 0) := by
  induction R with
  | nil => intro xe ye r hr; exact flaggedGap_flags _ _ _ _ r hr
  | cons r0 R ih =>
    intro xe ye r hr
    cases r0 with
    | run a1 b1 l1 =>
      have hr2 : r ∈ flaggedGap xe ye a1 b1 ++ flaggedGaps n m (a1 + l1) (b1 + l1) R := hr
      rcases List.mem_append.1 hr2 with h | h
      · exact flaggedGap_flags _ _ _ _ r h
      · exact ih _ _ r h
    | edit a1 b1 r1 f1 => exact ih _ _ r hr

/-- C5, as the code has it. The tuples of `ses(A, B)` are exactly the flagged records of
the gaps between the runs of `lcs(A, B)`: for each gap a deletion, if any, which carries
`-1` when no insertion is emitted for the same gap and `0` when one is (a substitution),
immediately followed by the insertion, if any, at the same `(a_pos, b_pos)`, which carries
`+1`. In particular every tuple is an edit with flag `+1`, `-1` or `0`. -/
theorem ses_flags {α : Type} (eq : α → α → Bool) (A B : List α) (o1 o2 : Output)
    (h1 : lcs eq A B = Except.ok o1) (h2 : ses eq A B = Except.ok o2) :
    o2.records = flaggedGaps A.length B.length 0 0 o1.records ∧
    ∀ r ∈ o2.records, ∃ a b g f, r = record.edit a b g f ∧ (f = 1 ∨ f = -1 ∨ f = 0) := by
  have key : o2.records = flaggedGaps A.length B.length 0 0 o1.records := by
    unfold lcs ab at h1
    unfold ses ab at h2
    split at h1
    · cases h1
    · rename_i hc
      rw [if_neg hc] at h2
      have hwf := traverse_wf eq A B
      rcases ht : traverse eq A B with ⟨e, s⟩
      rw [ht] at hwf h1 h2
      simp only at h1 h2 hwf
      cases h1
      cases h2
      obtain ⟨l, hch, hall⟩ := nodesOK_chain hwf s.j le_rfl
      have hl : ∀ nd ∈ l, nd.z ≤ nd.x ∧ nd.z ≤ nd.y ∧ nd.x ≤ UINT_MAX ∧ nd.y ≤ UINT_MAX := by
        intro nd hnd
        have hr := hall nd hnd
        have hbd := hr.bounds
        simp only [Bool.or_eq_true, decide_eq_true_eq, not_or, not_lt] at hc
        exact ⟨hr.2.1, hr.2.2.1, by omega, by omega⟩
      have hlen := hch.length_le
      show backtrack true s.c (s.j + 1) s.j A.length B.length [] =
        flaggedGaps A.length B.length 0 0
          (backtrack false s.c (s.j + 1) s.j A.length B.length [])
      rw [backtrack_lcs hch hwf.1 hl _ _ _ _ (by omega), List.append_nil,
        backtrack_ses hch hwf.1 hl _ _ _ _ (by omega), List.append_nil]
      exact editsOf_flagged (fun nd hnd => ⟨(hl nd hnd).1, (hl nd hnd).2.1⟩) _ _
  refine ⟨key, ?_⟩
  rw [key]
  exact flaggedGaps_flags _ _ _ _ _

/-- Instances of `ses_flags`: `ses([a,b,c], [a,x,c]) = [(1,1,1,0), (1,1,1,+1)]` and
`ses([1,2,3], [4,5,6]) = [(0,0,3,0), (0,0,3,+1)]`. -/
theorem ses_flags_witness :
    ((lcs (fun a b : Nat => a == b) [1, 2, 3] [1, 7, 3] =
        Except.ok ⟨false, [record.run 0 0 1, record.run 2 2 1]⟩ ∧
      ses (fun a b : Nat => a == b) [1, 2, 3] [1, 7, 3] =
        Except.ok ⟨false, [record.edit 1 1 1 0, record.edit 1 1 1 1]⟩) ∧
      [record.edit 1 1 1 0, record.edit 1 1 1 1] =
        flaggedGaps 3 3 0 0 [record.run 0 0 1, record.run 2 2 1]) ∧
    ((lcs (fun a b : Nat => a == b) [1, 2, 3] [4, 5, 6] = Except.ok ⟨false, []⟩ ∧
      ses (fun a b : Nat => a == b) [1, 2, 3] [4, 5, 6] =
        Except.ok ⟨false, [record.edit 0 0 3 0, record.edit 0 0 3 1]⟩) ∧
      [record.edit 0 0 3 0, record.edit 0 0 3 1] = flaggedGaps 3 3 0 0 []) :=
  ⟨⟨⟨rfl, rfl⟩,
    (ses_flags (fun a b : Nat => a == b) [1, 2, 3] [1, 7, 3]
      ⟨false, [record.run 0 0 1, record.run 2 2 1]⟩
      ⟨false, [record.edit 1 1 1 0, record.edit 1 1 1 1]⟩ rfl rfl).1⟩,
   ⟨⟨rfl, rfl⟩,
    (ses_flags (fun a b : Nat => a == b) [1, 2, 3] [4, 5, 6] ⟨false, []⟩
      ⟨false, [record.edit 0 0 3 0, record.edit 0 0 3 1]⟩ rfl rfl).1⟩⟩

/-- C12. In the forward traversal ties favour the horizontal step. On an interior diagonal
(`k ≠ -d` and `k ≠ d`) the predecessor test succeeds exactly when `v[k-1] < v[k+1]`; then
the source diagonal is `i = k + 1` and the snake starts at `x = v[k+1]`. Otherwise, in
particular when `v[k-1] = v[k+1]`, the source diagonal is `i = k - 1` and the snake starts
at `x = v[k-1] + 1` (in `uint32_t`). In both cases the body of the `k` loop is the one of
the branch named. -/
theorem tie_break {α : Type} (eq : α → α → Bool) (A B : List α) (d k : Int) (s : Scratch)
    (h1 : k ≠ -d) (h2 : k ≠ d) :
    (s.v (k - 1) = s.v (k + 1) → goesDown d k s = false) ∧
    (goesDown d k s = true ↔ s.v (k - 1) < s.v (k + 1)) ∧
    (goesDown d k s = true →
      srcDiag d k s = k + 1 ∧ startX d k s = s.v (k + 1) ∧
      diagonal eq A B d k s =
        (match snake eq A B k (k + 1) A.length (s.v (k + 1))
            (u32 ((s.v (k + 1) : Int) - k)) 0
            { s with w := setVec s.w k (s.w (k + 1)) } with
          | (true, _, _, _, s2) => (some Exit.capacity, s2)
          | (false, x2, y2, _, s2) =>
            if x2 ≥ A.length && y2 ≥ B.length then (some Exit.found, { s2 with j := s2.w k })
            else (none, { s2 with v := setVec s2.v k x2 }))) ∧
    (goesDown d k s = false →
      srcDiag d k s = k - 1 ∧ startX d k s = u32 ((s.v (k - 1) : Int) + 1) ∧
      diagonal eq A B d k s =
        (match snake eq A B k (k - 1) A.length (u32 ((s.v (k - 1) : Int) + 1))
            (u32 ((u32 ((s.v (k - 1) : Int) + 1) : Int) - k)) 0
            { s with w := setVec s.w k (s.w (k - 1)) } with
          | (true, _, _, _, s2) => (some Exit.capacity, s2)
          | (false, x2, y2, _, s2) =>
            if x2 ≥ A.length && y2 ≥ B.length then (some Exit.found, { s2 with j := s2.w k })
            else (none, { s2 with v := setVec s2.v k x2 }))) := by
  have hiff : goesDown d k s = true ↔ s.v (k - 1) < s.v (k + 1) := by
    simp [goesDown, h1, h2]
  refine ⟨fun h => ?_, hiff, fun hg => ?_, fun hg => ?_⟩
  · cases hgd : goesDown d k s with
    | false => rfl
    | true => have := hiff.1 hgd; omega
  · refine ⟨by simp [srcDiag, hg], by simp [startX, srcDiag, hg], ?_⟩
    have hg2 : (k == -d || (k != d && decide (s.v (k - 1) < s.v (k + 1)))) = true := hg
    unfold diagonal
    simp only [hg2, if_true]
  · refine ⟨by simp [srcDiag, hg], by simp [startX, srcDiag, hg], ?_⟩
    have hg2 : (k == -d || (k != d && decide (s.v (k - 1) < s.v (k + 1)))) = false := hg
    unfold diagonal
    simp only [hg2, Bool.false_eq_true, if_false]

theorem tie_break_witness :
    ((0 : Int) ≠ -2 ∧ (0 : Int) ≠ 2) ∧ tieScratch.v (0 - 1) = tieScratch.v (0 + 1) ∧
    goesDown 2 0 tieScratch = false ∧ srcDiag 2 0 tieScratch = 0 - 1 :=
  ⟨⟨by decide, by decide⟩, rfl,
    (tie_break (fun a b : Nat => a == b) [1, 2] [3, 1] 2 0 tieScratch (by decide)
      (by decide)).1 rfl,
    ((tie_break (fun a b : Nat => a == b) [1, 2] [3, 1] 2 0 tieScratch (by decide)
      (by decide)).2.2.2 rfl).1⟩

/-! ### Counting the recorded nodes -/

theorem sumTo_bump_ge (f : Nat → Nat) (p a N : Nat) (h : N ≤ p) :
    sumTo (bump f p a) N = sumTo f N := by
  induction N with
  | zero => rfl
  | succ N ih =>
    have hne : N ≠ p := by omega
    simp only [sumTo, ih (by omega), bump, hne, if_false]

theorem sumTo_bump (f : Nat → Nat) (p a N : Nat) (h : p < N) :
    sumTo (bump f p a) N = sumTo f N + a := by
  induction N with
  | zero => omega
  | succ N ih =>
    by_cases hp : N = p
    · subst hp
      simp only [sumTo, sumTo_bump_ge f N a N le_rfl, bump, if_true]
      omega
    · simp only [sumTo, ih (by omega), bump, hp, if_false]
      omega

theorem sumTo_le_tri_aux (f : Nat → Nat) (N : Nat) (h : ∀ p, p ≤ N → f p + p ≤ N) (i : Nat)
    (hi : i ≤ N + 1) : sumTo f i + tri (N - i) ≤ tri N := by
  induction i with
  | zero => simp [sumTo]
  | succ i ih =>
    have h1 := ih (by omega)
    have h2 := h i (by omega)
    have e2 : sumTo f (i + 1) = sumTo f i + f i := rfl
    rw [e2]
    by_cases hiN : i = N
    · subst hiN
      have e3 : i - (i + 1) = 0 := by omega
      have e4 : i - i = 0 := by omega
      rw [e3]
      rw [e4] at h1
      omega
    · have e1 : tri (N - i) = tri (N - (i + 1)) + (N - (i + 1) + 1) := by
        have : N - i = (N - (i + 1)) + 1 := by omega
        rw [this]
        exact tri_succ _
      omega

theorem sumTo_le_tri (f : Nat → Nat) (N : Nat) (h : ∀ p, p ≤ N → f p + p ≤ N) :
    sumTo f (N + 1) ≤ tri N := by
  have := sumTo_le_tri_aux f N h (N + 1) le_rfl
  omega

theorem tri_le_sq (l : Nat) : tri l ≤ l * l := by
  have h := two_tri l
  have h2 : l ≤ l * l := Nat.le_mul_self l
  have h3 : l * (l + 1) = l * l + l := by ring
  omega

theorem tri_ushrt {l : Nat} (h : l ≤ USHRT_MAX) : tri l + 1 < UINT_MAX := by
  have h1 := tri_mono h
  have h2 : tri USHRT_MAX = 2147450880 := by
    have := two_tri USHRT_MAX
    have e : USHRT_MAX * (USHRT_MAX + 1) = 4294901760 := by unfold USHRT_MAX; norm_num
    omega
  unfold UINT_MAX
  omega

/-- The start of the snake of cell `(p, q)`. -/
theorem startX_cell (p q : Nat) (s : Scratch) :
    (p = 0 → startX ((p + q : Nat) : Int) ((p : Int) - (q : Int)) s
        = s.v ((p : Int) - (q : Int) + 1)) ∧
    (0 < p → q = 0 → startX ((p + q : Nat) : Int) ((p : Int) - (q : Int)) s
        = u32 ((s.v ((p : Int) - (q : Int) - 1) : Int) + 1)) ∧
    (0 < p → 0 < q → startX ((p + q : Nat) : Int) ((p : Int) - (q : Int)) s
        = if s.v ((p : Int) - (q : Int) - 1) < s.v ((p : Int) - (q : Int) + 1) then
            s.v ((p : Int) - (q : Int) + 1)
          else u32 ((s.v ((p : Int) - (q : Int) - 1) : Int) + 1)) := by
  refine ⟨fun hp => ?_, fun hp hq => ?_, fun hp hq => ?_⟩
  · have hb : (((p : Int) - (q : Int)) == -((p + q : Nat) : Int)) = true := by
      rw [beq_iff_eq]; push_cast; omega
    simp only [startX, srcDiag, goesDown, hb, Bool.true_or, if_true]
  · have hb1 : (((p : Int) - (q : Int)) == -((p + q : Nat) : Int)) = false := by
      rw [beq_eq_false_iff_ne]; push_cast; omega
    have hb2 : (((p : Int) - (q : Int)) != ((p + q : Nat) : Int)) = false := by
      have : ((p : Int) - (q : Int)) = ((p + q : Nat) : Int) := by push_cast; omega
      rw [this]; simp
    simp only [startX, srcDiag, goesDown, hb1, hb2, Bool.false_or, Bool.false_and,
      Bool.false_eq_true, if_false]
  · have hb1 : (((p : Int) - (q : Int)) == -((p + q : Nat) : Int)) = false := by
      rw [beq_eq_false_iff_ne]; push_cast; omega
    have hb2 : (((p : Int) - (q : Int)) != ((p + q : Nat) : Int)) = true := by
      rw [bne_iff_ne]; push_cast; omega
    simp only [startX, srcDiag, goesDown, hb1, hb2, Bool.false_or, Bool.true_and,
      decide_eq_true_eq]
    split <;> rfl

/-- A round of the `k` loop that goes on stores the end of the snake in `v[k]` and has
recorded one node if the snake is not empty; the end of the snake is not the end point. -/
theorem diagonal_none {α : Type} {eq : α → α → Bool} {A B : List α} {d k : Int}
    {s s1 : Scratch} (h : diagonal eq A B d k s = (none, s1)) :
    s1.v = setVec s.v k (startX d k s + matchLen eq A B A.length (startX d k s) (startY d k s)) ∧
    s1.j = s.j +
      (if matchLen eq A B A.length (startX d k s) (startY d k s) = 0 then 0 else 1) ∧
    ¬ (startX d k s + matchLen eq A B A.length (startX d k s) (startY d k s) ≥ A.length ∧
      startY d k s + matchLen eq A B A.length (startX d k s) (startY d k s) ≥ B.length) := by
  rw [diagonal_eq] at h
  by_cases h0 : matchLen eq A B A.length (startX d k s) (startY d k s) = 0
  · rw [if_pos h0] at h
    rw [h0]
    by_cases h1 : startX d k s ≥ A.length ∧ startY d k s ≥ B.length
    · rw [if_pos h1] at h
      simp at h
    · rw [if_neg h1] at h
      have e := (Prod.mk.inj h).2
      subst e
      exact ⟨rfl, rfl, h1⟩
  · rw [if_neg h0] at h
    by_cases h2 : s.j + 1 = UINT_MAX
    · rw [if_pos h2] at h
      simp at h
    · rw [if_neg h2] at h
      by_cases h1 : startX d k s + matchLen eq A B A.length (startX d k s) (startY d k s)
          ≥ A.length ∧
          startY d k s + matchLen eq A B A.length (startX d k s) (startY d k s) ≥ B.length
      · rw [if_pos h1] at h
        simp at h
      · rw [if_neg h1] at h
        have e := (Prod.mk.inj h).2
        subst e
        refine ⟨rfl, ?_, h1⟩
        rw [if_neg h0]
        rfl

/-- A round of the `k` loop that leaves the loops: through the capacity test with the
cursor at `UINT_MAX`, or through the end-point test with a cursor that has grown by at most
one, and by nothing if the snake is empty. -/
theorem diagonal_some {α : Type} {eq : α → α → Bool} {A B : List α} {d k : Int}
    {s s1 : Scratch} {e : Exit} (hw : ∀ k, s.w k ≤ s.j)
    (h : diagonal eq A B d k s = (some e, s1)) :
    (e = Exit.capacity ∧ matchLen eq A B A.length (startX d k s) (startY d k s) ≠ 0 ∧
      s.j + 1 = UINT_MAX) ∨
    (e = Exit.found ∧ s1.j ≤ s.j +
      (if matchLen eq A B A.length (startX d k s) (startY d k s) = 0 then 0 else 1)) := by
  rw [diagonal_eq] at h
  by_cases h0 : matchLen eq A B A.length (startX d k s) (startY d k s) = 0
  · rw [if_pos h0] at h
    by_cases h1 : startX d k s ≥ A.length ∧ startY d k s ≥ B.length
    · rw [if_pos h1] at h
      have e1 := (Prod.mk.inj h).1
      have e2 := (Prod.mk.inj h).2
      subst e2
      right
      refine ⟨(Option.some.inj e1).symm, ?_⟩
      rw [if_pos h0]
      exact hw _
    · rw [if_neg h1] at h
      simp at h
  · rw [if_neg h0] at h
    by_cases h2 : s.j + 1 = UINT_MAX
    · rw [if_pos h2] at h
      left
      exact ⟨(Option.some.inj (Prod.mk.inj h).1).symm, h0, h2⟩
    · rw [if_neg h2] at h
      by_cases h1 : startX d k s + matchLen eq A B A.length (startX d k s) (startY d k s)
          ≥ A.length ∧
          startY d k s + matchLen eq A B A.length (startX d k s) (startY d k s) ≥ B.length
      · rw [if_pos h1] at h
        have e1 := (Prod.mk.inj h).1
        have e2 := (Prod.mk.inj h).2
        subst e2
        right
        refine ⟨(Option.some.inj e1).symm, ?_⟩
        rw [if_neg h0]
        exact le_rfl
      · rw [if_neg h1] at h
        simp at h

/-- The cursor at a moment of the inner loop. -/
theorem snakeMoment_j {α : Type} (eq : α → α → Bool) (A B : List α) (d k : Int) (s : Scratch)
    (steps : Nat) :
    (snakeMoment eq A B d k s steps).j ≤ s.j +
      (if matchLen eq A B A.length (startX d k s) (startY d k s) = 0 then 0 else 1) := by
  rw [snakeMoment_eq]
  have hfull := matchLen_le_full eq A B steps (startX d k s) (startY d k s)
  by_cases h0 : matchLen eq A B steps (startX d k s) (startY d k s) = 0
  · rw [if_pos h0]
    exact Nat.le_add_right _ _
  · rw [if_neg h0]
    have h1 : ¬ matchLen eq A B A.length (startX d k s) (startY d k s) = 0 := by omega
    rw [if_neg h1]
    split <;> exact le_rfl

/-- What is left to show for one round of the `k` loop, in terms of the start and the
length of its snake. -/
theorem cellStep_of {α : Type} {eq : α → α → Bool} {A B : List α}
    {I : Nat → Nat → Scratch → Prop} {T : Nat} (hT : T + 1 < UINT_MAX)
    (h : ∀ p q s, I (p + q) p s → p ≤ A.length → q ≤ B.length →
      s.j + (if matchLen eq A B A.length
          (startX ((p + q : Nat) : Int) ((p : Int) - (q : Int)) s)
          (startY ((p + q : Nat) : Int) ((p : Int) - (q : Int)) s) = 0 then 0 else 1) ≤ T ∧
      ∀ s1, s1.v = setVec s.v ((p : Int) - (q : Int))
          (startX ((p + q : Nat) : Int) ((p : Int) - (q : Int)) s +
            matchLen eq A B A.length
              (startX ((p + q : Nat) : Int) ((p : Int) - (q : Int)) s)
              (startY ((p + q : Nat) : Int) ((p : Int) - (q : Int)) s)) →
        s1.j = s.j + (if matchLen eq A B A.length
          (startX ((p + q : Nat) : Int) ((p : Int) - (q : Int)) s)
          (startY ((p + q : Nat) : Int) ((p : Int) - (q : Int)) s) = 0 then 0 else 1) →
        ¬ (startX ((p + q : Nat) : Int) ((p : Int) - (q : Int)) s +
            matchLen eq A B A.length
              (startX ((p + q : Nat) : Int) ((p : Int) - (q : Int)) s)
              (startY ((p + q : Nat) : Int) ((p : Int) - (q : Int)) s) ≥ A.length ∧
          startY ((p + q : Nat) : Int) ((p : Int) - (q : Int)) s +
            matchLen eq A B A.length
              (startX ((p + q : Nat) : Int) ((p : Int) - (q : Int)) s)
              (startY ((p + q : Nat) : Int) ((p : Int) - (q : Int)) s) ≥ B.length) →
        I (p + q) (p + 1) s1) :
    CellStep eq A B I T := by
  intro p q s hI hw hp hq
  obtain ⟨hj, hnext⟩ := h p q s hI hp hq
  refine ⟨fun steps => le_trans (snakeMoment_j eq A B _ _ s steps) hj, fun e s1 hd => ?_,
    fun s1 hd => ?_⟩
  · rcases diagonal_some hw hd with ⟨_, h0, h2⟩ | ⟨he, hle⟩
    · rw [if_neg h0] at hj
      omega
    · subst he
      exact ⟨by simp, le_trans hle hj⟩
  · obtain ⟨h1, h2, h3⟩ := diagonal_none hd
    exact hnext s1 h1 h2 h3

theorem kLoop_count {α : Type} {eq : α → α → Bool} {A B : List α}
    {I : Nat → Nat → Scratch → Prop} {T : Nat} (hC : CellStep eq A B I T) (d fuel pc : Nat)
    (s : Scratch) (hw : WfStore eq A B s) (hI : I d pc s) (hq : d ≤ pc + B.length)
    (hpc : pc ≤ min d A.length + 1) :
    (∀ e s1, kLoop eq A B (d : Int) (bandHi (A.length : Int) (d : Int)) fuel
        (2 * (pc : Int) - (d : Int)) s = (some e, s1) → e ≠ Exit.capacity ∧ s1.j ≤ T) ∧
    (∀ s1, kLoop eq A B (d : Int) (bandHi (A.length : Int) (d : Int)) fuel
        (2 * (pc : Int) - (d : Int)) s = (none, s1) →
      WfStore eq A B s1 ∧ I d (min (pc + fuel) (min d A.length + 1)) s1) := by
  induction fuel generalizing pc s with
  | zero =>
    refine ⟨fun e s1 h => ?_, fun s1 h => ?_⟩
    · simp [kLoop] at h
    · have e1 : s = s1 := by simpa [kLoop] using h
      subst e1
      have : min (pc + 0) (min d A.length + 1) = pc := by omega
      rw [this]
      exact ⟨hw, hI⟩
  | succ fuel ih =>
    rw [kLoop.eq_2, bandHi_eq]
    by_cases hle : pc ≤ min d A.length
    · have hk : (2 * (pc : Int) - (d : Int)) ≤ 2 * ((min d A.length : Nat) : Int) - (d : Int) := by
        omega
      rw [if_pos hk]
      obtain ⟨q, rfl⟩ : ∃ q, d = pc + q := ⟨d - pc, by omega⟩
      have ek : (2 * (pc : Int) - ((pc + q : Nat) : Int)) = (pc : Int) - (q : Int) := by
        push_cast; ring
      rw [ek]
      obtain ⟨_, hsome, hnone⟩ := hC pc q s hI hw.2.2 (by omega) (by omega)
      have hwf := diagonal_wf ((pc + q : Nat) : Int) ((pc : Int) - (q : Int)) hw
      rcases hdiag : diagonal eq A B ((pc + q : Nat) : Int) ((pc : Int) - (q : Int)) s
        with ⟨res, s1⟩
      rw [hdiag] at hwf
      cases res with
      | none =>
        simp only
        have hI1 := hnone s1 hdiag
        have := ih (pc + 1) s1 hwf hI1 (by omega) (by omega)
        rw [bandHi_eq] at this
        have ek2 : (2 * ((pc + 1 : Nat) : Int) - ((pc + q : Nat) : Int))
            = (pc : Int) - (q : Int) + 2 := by push_cast; ring
        rw [ek2] at this
        have e3 : min (pc + 1 + fuel) (min (pc + q) A.length + 1)
            = min (pc + (fuel + 1)) (min (pc + q) A.length + 1) := by omega
        rw [e3] at this
        exact this
      | some e =>
        simp only
        refine ⟨fun e1 s2 h => ?_, fun s2 h => ?_⟩
        · have h1 := (Prod.mk.inj h).1
          have h2 := (Prod.mk.inj h).2
          subst h2
          have := Option.some.inj h1
          subst this
          exact hsome e s1 hdiag
        · simp at h
    · have hk : ¬ ((2 * (pc : Int) - (d : Int)) ≤ 2 * ((min d A.length : Nat) : Int) - (d : Int)) := by
        omega
      rw [if_neg hk]
      refine ⟨fun e s1 h => ?_, fun s1 h => ?_⟩
      · simp at h
      · have e1 : s = s1 := by simpa using h
        subst e1
        have : min (pc + (fuel + 1)) (min d A.length + 1) = pc := by omega
        rw [this]
        exact ⟨hw, hI⟩

theorem dLoop_count {α : Type} {eq : α → α → Bool} {A B : List α}
    {I : Nat → Nat → Scratch → Prop} {T : Nat} (hC : CellStep eq A B I T)
    (hR : RoundStep A.length B.length I) (hJ : ∀ d pc s, I d pc s → s.j ≤ T) (fuel d : Nat)
    (s : Scratch) (hw : WfStore eq A B s) (hI : I d (d - min d B.length) s) :
    (dLoop eq A B fuel (d : Int) s).1 ≠ Exit.capacity ∧
    (dLoop eq A B fuel (d : Int) s).2.j ≤ T ∧
    ((dLoop eq A B fuel (d : Int) s).1 = Exit.exhausted → d + fuel ≤ A.length + B.length + 1 →
      WfStore eq A B (dLoop eq A B fuel (d : Int) s).2 ∧
      I (d + fuel) (d + fuel - min (d + fuel) B.length) (dLoop eq A B fuel (d : Int) s).2) := by
  induction fuel generalizing d s with
  | zero =>
    refine ⟨by simp [dLoop], hJ _ _ _ hI, fun _ _ => ⟨hw, hI⟩⟩
  | succ fuel ih =>
    rw [dLoop.eq_2]
    by_cases hle : (d : Int) ≤ (A.length : Int) + (B.length : Int)
    · rw [if_pos hle, bandLo_eq]
      rw [show ((d : Int)).toNat + 1 = d + 1 by simp]
      obtain ⟨hsome, hnone⟩ := kLoop_count hC d (d + 1) (d - min d B.length) s hw hI
        (by omega) (by omega)
      rcases hk : kLoop eq A B (d : Int) (bandHi (A.length : Int) (d : Int)) (d + 1)
          (2 * ((d - min d B.length : Nat) : Int) - (d : Int)) s with ⟨res, s1⟩
      cases res with
      | none =>
        simp only
        obtain ⟨hw1, hI1⟩ := hnone s1 hk
        have e1 : min (d - min d B.length + (d + 1)) (min d A.length + 1)
            = min d A.length + 1 := by omega
        rw [e1] at hI1
        have hI2 := hR d s1 hI1
        have := ih (d + 1) s1 hw1 hI2
        have e2 : ((d + 1 : Nat) : Int) = (d : Int) + 1 := by push_cast; rfl
        rw [e2] at this
        have e3 : d + 1 + fuel = d + (fuel + 1) := by omega
        rw [e3] at this
        exact this
      | some e =>
        simp only
        obtain ⟨h1, h2⟩ := hsome e s1 hk
        refine ⟨h1, h2, fun he => ?_⟩
        have hne := kLoop_ne_exhausted eq A B (d : Int) (bandHi (A.length : Int) (d : Int))
          (d + 1) (2 * ((d - min d B.length : Nat) : Int) - (d : Int)) s
        rw [hk] at hne
        subst he
        exact absurd rfl hne
    · rw [if_neg hle]
      refine ⟨by simp, hJ _ _ _ hI, fun _ h => ?_⟩
      omega

/-- With an invariant kept by the rounds of both loops, the cursor is at most `T` at every
moment of the traversal and at its end, and the traversal does not stop on the capacity
test. -/
theorem traverse_count {α : Type} {eq : α → α → Bool} {A B : List α}
    {I : Nat → Nat → Scratch → Prop} {T : Nat} (hC : CellStep eq A B I T)
    (hR : RoundStep A.length B.length I) (hJ : ∀ d pc s, I d pc s → s.j ≤ T)
    (h0 : I 0 0 Scratch.init) :
    (traverse eq A B).1 ≠ Exit.capacity ∧ (traverse eq A B).2.j ≤ T ∧
    ∀ rounds cells steps : Nat, rounds ≤ A.length + B.length →
      bandLo B.length rounds + 2 * (cells : Int) ≤ bandHi A.length rounds →
      (dLoop eq A B rounds 0 Scratch.init).1 = Exit.exhausted →
      (kLoop eq A B (rounds : Int) (bandHi A.length rounds) cells (bandLo B.length rounds)
        (dLoop eq A B rounds 0 Scratch.init).2).1 = none →
      (moment eq A B rounds cells steps).j ≤ T := by
  have h00 : I 0 (0 - min 0 B.length) Scratch.init := by
    rw [Nat.zero_sub]
    exact h0
  have hd := fun fuel => dLoop_count hC hR hJ fuel 0 Scratch.init (wfStore_init eq A B) h00
  simp only [Nat.cast_zero] at hd
  refine ⟨(hd _).1, (hd _).2.1, fun rounds cells steps hr hb h1 h2 => ?_⟩
  obtain ⟨hw1, hI1⟩ := (hd rounds).2.2 h1 (by omega)
  rw [Nat.zero_add] at hI1
  have hk := (kLoop_count hC rounds cells (rounds - min rounds B.length) _ hw1 hI1
    (by omega) (by omega)).2
  rw [bandLo_eq, bandHi_eq] at hb
  unfold moment
  rw [bandLo_eq] at h2 ⊢
  rcases hr2 : kLoop eq A B (rounds : Int) (bandHi (A.length : Int) (rounds : Int)) cells
      (2 * ((rounds - min rounds B.length : Nat) : Int) - (rounds : Int))
      (dLoop eq A B rounds 0 Scratch.init).2 with ⟨res, s2⟩
  rw [hr2] at h2
  have h3 : res = none := h2
  subst h3
  obtain ⟨hw2, hI2⟩ := hk s2 hr2
  have e1 : min (rounds - min rounds B.length + cells) (min rounds A.length + 1)
      = rounds - min rounds B.length + cells := by omega
  rw [e1] at hI2
  obtain ⟨q, hq⟩ : ∃ q, rounds = (rounds - min rounds B.length + cells) + q :=
    ⟨rounds - (rounds - min rounds B.length + cells), by omega⟩
  have hI3 : I ((rounds - min rounds B.length + cells) + q)
      (rounds - min rounds B.length + cells) s2 := by rw [← hq]; exact hI2
  have hm := (hC _ q s2 hI3 hw2.2.2 (by omega) (by omega)).1 steps
  have ek : (2 * ((rounds - min rounds B.length : Nat) : Int) - (rounds : Int)
      + 2 * (cells : Int)) =
      ((rounds - min rounds B.length + cells : Nat) : Int) - (q : Int) := by
    have : (rounds : Int) = ((rounds - min rounds B.length + cells : Nat) : Int) + (q : Int) := by
      exact_mod_cast hq
    push_cast at this ⊢
    omega
  rw [ek]
  rw [← hq] at hm
  exact hm

/-! ### The cursor when the first sequence is the shorter one -/

theorem u32_succ {v : Nat} (h : v < UINT_MAX) : u32 ((v : Int) + 1) = v + 1 := by
  unfold u32
  unfold UINT_MAX at h
  omega

theorem colInv_start {n m p q : Nat} {s : Scratch} {U : Nat → Nat} (hn : n ≤ USHRT_MAX)
    (hp : p ≤ n) (hq : q ≤ m)
    (hun : ∀ p1, p ≤ p1 → p + q ≤ p1 → U p1 = 0) (h0 : p + q = 0 → s.v 1 = 0)
    (hprev : ∀ p1 q1, p1 + q1 + 1 = p + q → p1 ≤ n → q1 ≤ m →
      p1 ≤ s.v ((p1 : Int) - (q1 : Int)) ∧ s.v ((p1 : Int) - (q1 : Int)) ≤ n + p1 ∧
      (p ≤ p1 → U p1 + p1 ≤ s.v ((p1 : Int) - (q1 : Int)))) :
    p ≤ startX ((p + q : Nat) : Int) ((p : Int) - (q : Int)) s ∧
    startX ((p + q : Nat) : Int) ((p : Int) - (q : Int)) s ≤ n + p ∧
    U p + p ≤ startX ((p + q : Nat) : Int) ((p : Int) - (q : Int)) s := by
  obtain ⟨h1, h2, h3⟩ := startX_cell p q s
  have hmax : n + n < UINT_MAX := by
    unfold USHRT_MAX at hn
    unfold UINT_MAX
    omega
  rcases Nat.eq_zero_or_pos p with hp0 | hp0
  · rw [h1 hp0]
    subst hp0
    rcases Nat.eq_zero_or_pos q with hq0 | hq0
    · subst hq0
      have hv := h0 rfl
      have hu := hun 0 le_rfl le_rfl
      have e : ((0 : Nat) : Int) - ((0 : Nat) : Int) + 1 = 1 := by simp
      rw [e, hv]
      omega
    · obtain ⟨a, b, c⟩ := hprev 0 (q - 1) (by omega) (by omega) (by omega)
      have e : ((0 : Nat) : Int) - (q : Int) + 1 = ((0 : Nat) : Int) - ((q - 1 : Nat) : Int) := by
        omega
      rw [e]
      exact ⟨a, b, c le_rfl⟩
  · rcases Nat.eq_zero_or_pos q with hq0 | hq0
    · rw [h2 hp0 hq0]
      subst hq0
      obtain ⟨a, b, _⟩ := hprev (p - 1) 0 (by omega) (by omega) (by omega)
      have e : (p : Int) - ((0 : Nat) : Int) - 1 = ((p - 1 : Nat) : Int) - ((0 : Nat) : Int) := by
        omega
      rw [e]
      have hu := hun p le_rfl (by omega)
      rw [u32_succ (by omega)]
      omega
    · rw [h3 hp0 hq0]
      obtain ⟨a, b, _⟩ := hprev (p - 1) q (by omega) (by omega) (by omega)
      obtain ⟨a1, b1, c1⟩ := hprev p (q - 1) (by omega) (by omega) (by omega)
      have e : (p : Int) - (q : Int) - 1 = ((p - 1 : Nat) : Int) - (q : Int) := by omega
      have e1 : (p : Int) - (q : Int) + 1 = (p : Int) - ((q - 1 : Nat) : Int) := by omega
      rw [e, e1]
      have c2 := c1 le_rfl
      split
      · exact ⟨a1, b1, c2⟩
      · rw [u32_succ (by omega)]
        omega

theorem colInv_cellStep {α : Type} (eq : α → α → Bool) (A B : List α)
    (hn : A.length ≤ USHRT_MAX) :
    CellStep eq A B (ColInv A.length B.length) (tri A.length) := by
  apply cellStep_of (tri_ushrt hn)
  intro p q s hI hp hq
  obtain ⟨U, hsum, hb, hun, h0, hprev, hcur⟩ := hI
  have hX := colInv_start hn hp hq hun h0 hprev
  generalize startX ((p + q : Nat) : Int) ((p : Int) - (q : Int)) s = X at hX ⊢
  have hL := fun h => (@matchLen_pos_lt _ eq A B A.length X
    (startY ((p + q : Nat) : Int) ((p : Int) - (q : Int)) s) h).1
  generalize matchLen eq A B A.length X
    (startY ((p + q : Nat) : Int) ((p : Int) - (q : Int)) s) = L at hL ⊢
  have ha : (if L = 0 then 0 else 1) ≤ L := by split <;> omega
  generalize (if L = 0 then 0 else 1) = a at ha ⊢
  have hbU : ∀ p1, p1 ≤ A.length → bump U p a p1 + p1 ≤ A.length := by
    intro p1 hp1
    unfold bump
    have := hb p1 hp1
    split
    · rename_i he
      subst he
      by_cases hL0 : L = 0
      · omega
      · have := hL hL0
        omega
    · exact this
  have hsum1 : sumTo (bump U p a) (A.length + 1) = s.j + a := by
    rw [sumTo_bump _ _ _ _ (by omega), hsum]
  refine ⟨?_, fun s1 hv hj _ => ⟨bump U p a, ?_, hbU, ?_, ?_, ?_, ?_⟩⟩
  · have := sumTo_le_tri (bump U p a) A.length hbU
    rw [hsum1] at this
    exact this
  · rw [hsum1, hj]
  · intro p1 h1 h2
    have hne : p1 ≠ p := by omega
    simp only [bump, hne, if_false]
    exact hun p1 (by omega) h2
  · intro hd
    have hv1 := h0 hd
    rw [hv, setVec_ne _ _ (by omega)]
    exact hv1
  · intro p1 q1 h1 h2 h3
    have hne : (p1 : Int) - (q1 : Int) ≠ (p : Int) - (q : Int) := by omega
    rw [hv, setVec_ne _ _ hne]
    obtain ⟨a1, b1, c1⟩ := hprev p1 q1 h1 h2 h3
    refine ⟨a1, b1, fun hpc => ?_⟩
    have hne2 : p1 ≠ p := by omega
    simp only [bump, hne2, if_false]
    exact c1 (by omega)
  · intro p1 q1 h1 h2 h3 h4
    by_cases hp1 : p1 = p
    · subst hp1
      have : q1 = q := by omega
      subst this
      rw [hv, setVec_same]
      simp only [bump, if_true]
      by_cases hL0 : L = 0
      · omega
      · have := hL hL0
        omega
    · have hne : (p1 : Int) - (q1 : Int) ≠ (p : Int) - (q : Int) := by omega
      rw [hv, setVec_ne _ _ hne]
      simp only [bump, hp1, if_false]
      exact hcur p1 q1 h1 h2 h3 (by omega)

theorem colInv_roundStep (n m : Nat) : RoundStep n m (ColInv n m) := by
  intro d s hI
  obtain ⟨U, hsum, hb, hun, _, _, hcur⟩ := hI
  refine ⟨U, hsum, hb, fun p h1 h2 => hun p (by omega) (by omega), fun h => by omega,
    fun p q h1 h2 h3 => ?_, fun p q h1 h2 h3 h4 => by omega⟩
  obtain ⟨a, b, c⟩ := hcur p q (by omega) h2 h3 (by omega)
  exact ⟨a, b, fun _ => c⟩

theorem colInv_init (n m : Nat) : ColInv n m 0 0 Scratch.init := by
  refine ⟨fun _ => 0, ?_, fun p hp => by show 0 + p ≤ n; omega, fun _ _ _ => rfl, fun _ => rfl,
    fun p q h => by omega, fun p q _ _ _ h => by omega⟩
  have : ∀ N, sumTo (fun _ => 0) N = 0 := by
    intro N
    induction N with
    | zero => rfl
    | succ N ih => simp [sumTo, ih]
  rw [this]
  rfl

theorem colInv_cursor {n m d pc : Nat} {s : Scratch} (h : ColInv n m d pc s) :
    s.j ≤ tri n := by
  obtain ⟨U, hsum, hb, _⟩ := h
  rw [← hsum]
  exact sumTo_le_tri U n hb

/-! ### The cursor when the second sequence is the shorter one -/

theorem u32_succ_max {v : Nat} (h : v = UINT_MAX) : u32 ((v : Int) + 1) = 0 := by
  subst h
  unfold u32 UINT_MAX
  omega

theorem startY_cell (p q m : Nat) (s : Scratch) (h2m : m + m < UINT_MAX) (hq : q ≤ m)
    (hp : p ≤ UINT_MAX) :
    (p ≤ startX ((p + q : Nat) : Int) ((p : Int) - (q : Int)) s →
      startX ((p + q : Nat) : Int) ((p : Int) - (q : Int)) s ≤ p + m →
      startY ((p + q : Nat) : Int) ((p : Int) - (q : Int)) s + p =
        startX ((p + q : Nat) : Int) ((p : Int) - (q : Int)) s + q) ∧
    (startX ((p + q : Nat) : Int) ((p : Int) - (q : Int)) s < p →
      startX ((p + q : Nat) : Int) ((p : Int) - (q : Int)) s + UINT_MAX + 1 ≤ p + m →
      startY ((p + q : Nat) : Int) ((p : Int) - (q : Int)) s + p =
        startX ((p + q : Nat) : Int) ((p : Int) - (q : Int)) s + UINT_MAX + 1 + q) := by
  unfold startY
  generalize startX ((p + q : Nat) : Int) ((p : Int) - (q : Int)) s = X
  unfold u32
  unfold UINT_MAX at *
  constructor
  · intro h1 h2
    omega
  · intro h1 h2
    omega

theorem rowInv_start {n m p q : Nat} {s : Scratch}
    (hp : p ≤ n) (hq : q ≤ m) (h0 : p + q = 0 → s.v 1 = 0)
    (hR : 1 ≤ p → CellB n m (p - 1) q (s.v (((p - 1 : Nat) : Int) - (q : Int))))
    (hU : 1 ≤ q → CellB n m p (q - 1) (s.v ((p : Int) - ((q - 1 : Nat) : Int)))) :
    startX ((p + q : Nat) : Int) ((p : Int) - (q : Int)) s ≤ UINT_MAX ∧
    ((p ≤ startX ((p + q : Nat) : Int) ((p : Int) - (q : Int)) s ∧
        startX ((p + q : Nat) : Int) ((p : Int) - (q : Int)) s ≤ p + m) ∨
      (startX ((p + q : Nat) : Int) ((p : Int) - (q : Int)) s < p ∧
        startX ((p + q : Nat) : Int) ((p : Int) - (q : Int)) s + UINT_MAX + 1 ≤ p + m)) ∧
    (1 ≤ q → p ≤ s.v ((p : Int) - ((q - 1 : Nat) : Int)) →
      (1 ≤ p ∧ s.v (((p - 1 : Nat) : Int) - (q : Int)) = UINT_MAX) ∨
      (s.v ((p : Int) - ((q - 1 : Nat) : Int))
          ≤ startX ((p + q : Nat) : Int) ((p : Int) - (q : Int)) s ∧
        p ≤ startX ((p + q : Nat) : Int) ((p : Int) - (q : Int)) s)) ∧
    (1 ≤ p → p - 1 ≤ s.v (((p - 1 : Nat) : Int) - (q : Int)) →
      s.v (((p - 1 : Nat) : Int) - (q : Int)) < UINT_MAX →
      s.v (((p - 1 : Nat) : Int) - (q : Int)) + 1
          ≤ startX ((p + q : Nat) : Int) ((p : Int) - (q : Int)) s ∧
        p ≤ startX ((p + q : Nat) : Int) ((p : Int) - (q : Int)) s) := by
  obtain ⟨h1, h2, h3⟩ := startX_cell p q s
  rcases Nat.eq_zero_or_pos p with hp0 | hp0
  · rw [h1 hp0]
    subst hp0
    rcases Nat.eq_zero_or_pos q with hq0 | hq0
    · subst hq0
      have hv := h0 rfl
      have e : ((0 : Nat) : Int) - ((0 : Nat) : Int) + 1 = 1 := by simp
      rw [e, hv]
      refine ⟨Nat.zero_le _, Or.inl ⟨le_rfl, Nat.zero_le _⟩, fun h => by omega, fun h => by omega⟩
    · obtain ⟨a, b, c⟩ := hU hq0
      have e : ((0 : Nat) : Int) - (q : Int) + 1 = ((0 : Nat) : Int) - ((q - 1 : Nat) : Int) := by
        omega
      rw [e]
      generalize s.v (((0 : Nat) : Int) - ((q - 1 : Nat) : Int)) = xU at a b c ⊢
      refine ⟨a, ?_, fun _ _ => Or.inr ⟨le_rfl, Nat.zero_le _⟩, fun h => by omega⟩
      rcases b with b | b
      · exact Or.inl b
      · omega
  · rcases Nat.eq_zero_or_pos q with hq0 | hq0
    · rw [h2 hp0 hq0]
      subst hq0
      obtain ⟨a, b, c⟩ := hR hp0
      have e : (p : Int) - ((0 : Nat) : Int) - 1 = ((p - 1 : Nat) : Int) - ((0 : Nat) : Int) := by
        omega
      rw [e]
      generalize s.v (((p - 1 : Nat) : Int) - ((0 : Nat) : Int)) = xR at a b c ⊢
      by_cases hmax : xR = UINT_MAX
      · rw [u32_succ_max hmax]
        refine ⟨Nat.zero_le _, Or.inr ⟨hp0, ?_⟩, fun h => by omega, fun _ _ h => by omega⟩
        rcases b with b | b
        · omega
        · omega
      · rw [u32_succ (by omega)]
        refine ⟨by omega, ?_, fun h => by omega, fun _ h _ => by omega⟩
        rcases b with b | b
        · left
          omega
        · right
          omega
    · rw [h3 hp0 hq0]
      obtain ⟨a, b, c⟩ := hR hp0
      obtain ⟨a1, b1, c1⟩ := hU hq0
      have e : (p : Int) - (q : Int) - 1 = ((p - 1 : Nat) : Int) - (q : Int) := by omega
      have e1 : (p : Int) - (q : Int) + 1 = (p : Int) - ((q - 1 : Nat) : Int) := by omega
      rw [e, e1]
      generalize s.v (((p - 1 : Nat) : Int) - (q : Int)) = xR at a b c ⊢
      generalize s.v ((p : Int) - ((q - 1 : Nat) : Int)) = xU at a1 b1 c1 ⊢
      by_cases hlt : xR < xU
      · rw [if_pos hlt]
        refine ⟨a1, b1, fun _ h => Or.inr ⟨le_rfl, h⟩, fun _ h _ => by omega⟩
      · rw [if_neg hlt]
        by_cases hmax : xR = UINT_MAX
        · rw [u32_succ_max hmax]
          refine ⟨Nat.zero_le _, Or.inr ⟨hp0, ?_⟩, fun _ _ => Or.inl ⟨hp0, hmax⟩,
            fun _ _ h => by omega⟩
          rcases b with b | b
          · omega
          · omega
        · rw [u32_succ (by omega)]
          refine ⟨by omega, ?_, fun _ h => ?_, fun _ h _ => by omega⟩
          · rcases b with b | b
            · left
              omega
            · right
              omega
          · right
            rcases b with b | b
            · omega
            · omega

theorem rowOK_congr {n m : Nat} {v v1 : Int → Nat} {u q p : Nat}
    (h : ∀ p1 r, p1 + r = p + q → q ≤ r → v1 ((p1 : Int) - (r : Int)) = v ((p1 : Int) - (r : Int)))
    (hr : RowOK n m v u q p) : RowOK n m v1 u q p := by
  rcases hr with hr | ⟨p1, r, e1, e2, e3, e4, e5, e6⟩
  · left
    rw [h p q rfl le_rfl]
    exact hr
  · right
    refine ⟨p1, r, e1, e2, e3, e4, ?_, ?_⟩
    · rw [h p1 r e1 e2]
      exact e5
    · rw [h p1 r e1 e2]
      exact e6

theorem deadNext_congr {n m : Nat} {v v1 : Int → Nat} {p r : Nat}
    (h1 : v1 ((p : Int) - (r : Int)) = v ((p : Int) - (r : Int)))
    (h : ∀ p1 r1, p1 + r1 = p + r + 1 → r < r1 →
      v1 ((p1 : Int) - (r1 : Int)) = v ((p1 : Int) - (r1 : Int)))
    (hd : DeadNext n m v p r) : DeadNext n m v1 p r := by
  obtain ⟨p1, r1, e1, e2, e3, e4, e5, e6⟩ := hd
  refine ⟨p1, r1, e1, e2, e3, e4, ?_, ?_⟩
  · rw [h p1 r1 e1 e2]
    exact e5
  · rw [h p1 r1 e1 e2, h1]
    exact e6

theorem rowInv_cellStep {α : Type} (eq : α → α → Bool) (A B : List α)
    (hn : A.length ≤ UINT_MAX) (hm : B.length ≤ USHRT_MAX) :
    CellStep eq A B (RowInv A.length B.length) (tri B.length) := by
  apply cellStep_of (tri_ushrt hm)
  intro p q s hI hp hq
  obtain ⟨U, hsum, hb, hun, h0, hprev, hcur⟩ := hI
  have h2m : B.length + B.length < UINT_MAX := by
    unfold USHRT_MAX at hm
    unfold UINT_MAX
    omega
  have hR : 1 ≤ p → CellB A.length B.length (p - 1) q (s.v (((p - 1 : Nat) : Int) - (q : Int))) :=
    fun h => (hprev (p - 1) q (by omega) (by omega) hq).1
  have hU : 1 ≤ q →
      CellB A.length B.length p (q - 1) (s.v ((p : Int) - ((q - 1 : Nat) : Int))) :=
    fun h => (hprev p (q - 1) (by omega) hp (by omega)).1
  have hRrow : 1 ≤ p → RowOK A.length B.length s.v (U q) q (p - 1) :=
    fun h => (hprev (p - 1) q (by omega) (by omega) hq).2.1 (by omega)
  obtain ⟨hXu, hcls, hXU, hXR⟩ := rowInv_start hp hq h0 hR hU
  obtain ⟨hYu, hYw⟩ := startY_cell p q B.length s h2m hq (by omega)
  generalize startX ((p + q : Nat) : Int) ((p : Int) - (q : Int)) s = X at hXu hcls hXU hXR hYu hYw ⊢
  have hL := fun h => @matchLen_pos_lt _ eq A B A.length X
    (startY ((p + q : Nat) : Int) ((p : Int) - (q : Int)) s) h
  have hL0 := fun h => @matchLen_of_le _ eq A B A.length X
    (startY ((p + q : Nat) : Int) ((p : Int) - (q : Int)) s) h
  generalize startY ((p + q : Nat) : Int) ((p : Int) - (q : Int)) s = Y at hYu hYw hL hL0 ⊢
  generalize matchLen eq A B A.length X Y = L at hL hL0 ⊢
  have ha : (if L = 0 then 0 else 1) ≤ L ∧ (if L = 0 then 0 else 1) ≤ 1 := by
    split <;> omega
  generalize (if L = 0 then 0 else 1) = a at ha ⊢
  -- the frame: the cells of the previous distance and the earlier cells of this distance
  have hfp : ∀ (x : Nat) p1 q1, p1 + q1 + 1 = p + q →
      setVec s.v ((p : Int) - (q : Int)) x ((p1 : Int) - (q1 : Int))
        = s.v ((p1 : Int) - (q1 : Int)) :=
    fun x p1 q1 h => setVec_ne _ _ (by omega)
  have hfc : ∀ (x : Nat) p1 q1, p1 + q1 = p + q → p1 ≠ p →
      setVec s.v ((p : Int) - (q : Int)) x ((p1 : Int) - (q1 : Int))
        = s.v ((p1 : Int) - (q1 : Int)) :=
    fun x p1 q1 h h1 => setVec_ne _ _ (by omega)
  -- a non-empty snake leaves room in its row
  have hkey : L ≠ 0 → U q + q + 1 ≤ B.length := by
    intro hL1
    obtain ⟨l1, l2⟩ := hL hL1
    rcases Nat.eq_zero_or_pos p with hp0 | hp0
    · have hu := hun q (Or.inr ⟨by omega, hp0⟩)
      rcases hcls with c | c
      · have := hYu c.1 c.2
        omega
      · omega
    · rcases hRrow hp0 with ⟨r1, r2, r3⟩ | ⟨p1, r, e1, e2, e3, e4, e5, e6⟩
      · obtain ⟨x1, x2⟩ := hXR hp0 r1 (by omega)
        rcases hcls with c | c
        · have := hYu c.1 c.2
          omega
        · omega
      · have hc := (hprev p1 r (by omega) e4 e3).1.2.2 e5
        omega
  have hbU : ∀ q1, q1 ≤ B.length → bump U q a q1 + q1 ≤ B.length := by
    intro q1 hq1
    unfold bump
    have := hb q1 hq1
    split
    · rename_i he
      subst he
      by_cases hL1 : L = 0
      · omega
      · have := hkey hL1
        omega
    · exact this
  have hsum1 : sumTo (bump U q a) (B.length + 1) = s.j + a := by
    rw [sumTo_bump _ _ _ _ (by omega), hsum]
  have hbq : bump U q a q = U q + a := by simp [bump]
  -- the row of the new cell
  have hrow : RowOK A.length B.length (setVec s.v ((p : Int) - (q : Int)) (X + L))
      (U q + a) q p := by
    by_cases hlt : X + L < A.length
    · rcases Nat.eq_zero_or_pos p with hp0 | hp0
      · have hu := hun q (Or.inr ⟨by omega, hp0⟩)
        left
        rw [setVec_same]
        omega
      · rcases hRrow hp0 with ⟨r1, r2, r3⟩ | ⟨p1, r, e1, e2, e3, e4, e5, e6⟩
        · obtain ⟨x1, x2⟩ := hXR hp0 r1 (by omega)
          left
          rw [setVec_same]
          omega
        · obtain ⟨p2, r2, f1, f2, f3, f4, f5, f6⟩ :=
            (hprev p1 r (by omega) e4 e3).2.2 e5 (by omega)
          right
          refine ⟨p2, r2, by omega, by omega, f3, f4, ?_, ?_⟩
          · rw [hfc _ p2 r2 (by omega) (by omega)]
            exact f5
          · rw [hfc _ p2 r2 (by omega) (by omega)]
            omega
    · rcases Nat.eq_zero_or_pos p with hp0 | hp0
      · have hu := hun q (Or.inr ⟨by omega, hp0⟩)
        right
        refine ⟨p, q, rfl, le_rfl, hq, hp, ?_, ?_⟩
        · rw [setVec_same]
          omega
        · rw [setVec_same]
          omega
      · rcases hRrow hp0 with ⟨r1, r2, r3⟩ | ⟨p1, r, e1, e2, e3, e4, e5, e6⟩
        · obtain ⟨x1, x2⟩ := hXR hp0 r1 (by omega)
          right
          refine ⟨p, q, rfl, le_rfl, hq, hp, ?_, ?_⟩
          · rw [setVec_same]
            omega
          · rw [setVec_same]
            omega
        · obtain ⟨p2, r2, f1, f2, f3, f4, f5, f6⟩ :=
            (hprev p1 r (by omega) e4 e3).2.2 e5 (by omega)
          right
          refine ⟨p2, r2, by omega, by omega, f3, f4, ?_, ?_⟩
          · rw [hfc _ p2 r2 (by omega) (by omega)]
            exact f5
          · rw [hfc _ p2 r2 (by omega) (by omega)]
            omega
  -- below the cell above the new cell
  have hnext : 1 ≤ q → A.length ≤ s.v ((p : Int) - ((q - 1 : Nat) : Int)) →
      DeadNext A.length B.length (setVec s.v ((p : Int) - (q : Int)) (X + L)) p (q - 1) := by
    intro hq1 hdead
    obtain ⟨u1, u2, u3⟩ := hU hq1
    have hpu : p ≤ s.v ((p : Int) - ((q - 1 : Nat) : Int)) := by omega
    rcases hXU hq1 hpu with ⟨hp0, hmax⟩ | ⟨x1, x2⟩
    · obtain ⟨p2, r2, f1, f2, f3, f4, f5, f6⟩ :=
        (hprev (p - 1) q (by omega) (by omega) hq).2.2 (by omega) (by omega)
      refine ⟨p2, r2, by omega, by omega, f3, f4, ?_, ?_⟩
      · rw [hfc _ p2 r2 (by omega) (by omega)]
        exact f5
      · rw [hfc _ p2 r2 (by omega) (by omega), hfp _ p (q - 1) (by omega)]
        omega
    · have hl := hL0 (by omega)
      refine ⟨p, q, by omega, by omega, hq, hp, ?_, ?_⟩
      · rw [setVec_same]
        omega
      · rw [setVec_same, hfp _ p (q - 1) (by omega)]
        omega
  refine ⟨?_, fun s1 hv hj hend => ⟨bump U q a, ?_, hbU, ?_, ?_, ?_, ?_⟩⟩
  · have := sumTo_le_tri (bump U q a) B.length hbU
    rw [hsum1] at this
    exact this
  · rw [hsum1, hj]
  · intro q1 h
    rcases h with h | ⟨_, h⟩
    · have hne : q1 ≠ q := by omega
      simp only [bump, hne, if_false]
      exact hun q1 (Or.inl h)
    · omega
  · intro hd
    have hv1 := h0 hd
    rw [hv, setVec_ne _ _ (by omega)]
    exact hv1
  · intro p1 q1 h1 h2 h3
    obtain ⟨c1, c2, c3⟩ := hprev p1 q1 h1 h2 h3
    rw [hv]
    refine ⟨?_, fun hpc => ?_, fun hdead hpc => ?_⟩
    · rw [hfp _ p1 q1 h1]
      exact c1
    · have hne : q1 ≠ q := by omega
      have e : bump U q a q1 = U q1 := by simp [bump, hne]
      rw [e]
      exact rowOK_congr (fun p2 r h4 _ => hfp _ p2 r (by omega)) (c2 (by omega))
    · rw [hfp _ p1 q1 h1] at hdead
      by_cases hp1 : p1 = p
      · subst hp1
        have hq1 : q1 = q - 1 := by omega
        subst hq1
        exact hnext (by omega) hdead
      · exact deadNext_congr (hfp _ p1 q1 h1)
          (fun p2 r2 h4 h5 => hfc _ p2 r2 (by omega) (by omega)) (c3 hdead (by omega))
  · intro p1 q1 h1 h2 h3 h4
    rw [hv]
    by_cases hp1 : p1 = p
    · subst hp1
      have hq1 : q1 = q := by omega
      subst hq1
      rw [hbq]
      refine ⟨?_, hrow⟩
      rw [setVec_same]
      refine ⟨?_, ?_, fun hdead => ?_⟩
      · by_cases hL1 : L = 0
        · omega
        · have := hL hL1
          omega
      · rcases hcls with c | c
        · left
          by_cases hL1 : L = 0
          · omega
          · have := hL hL1
            have := hYu c.1 c.2
            omega
        · right
          by_cases hL1 : L = 0
          · omega
          · have := hL hL1
            have := hYw c.1 c.2
            omega
      · have hy : Y + L < B.length := by
          by_contra hc
          exact hend ⟨hdead, Nat.le_of_not_lt hc⟩
        clear hend
        rcases hcls with c | c
        · have := hYu c.1 c.2
          omega
        · by_cases hL1 : L = 0
          · omega
          · have := hL hL1
            have := hYw c.1 c.2
            omega
    · obtain ⟨c1, c2⟩ := hcur p1 q1 h1 h2 h3 (by omega)
      have hne : q1 ≠ q := by omega
      have e : bump U q a q1 = U q1 := by simp [bump, hne]
      rw [e, hfc _ p1 q1 h1 hp1]
      exact ⟨c1, rowOK_congr (fun p2 r h5 h6 => hfc _ p2 r (by omega) (by omega)) c2⟩

theorem rowInv_roundStep (n m : Nat) : RoundStep n m (RowInv n m) := by
  intro d s hI
  obtain ⟨U, hsum, hb, hun, _, _, hcur⟩ := hI
  refine ⟨U, hsum, hb, fun q h => hun q (Or.inl (by omega)), fun h => by omega,
    fun p q h1 h2 h3 => ?_, fun p q h1 h2 h3 h4 => by omega⟩
  obtain ⟨c1, c2⟩ := hcur p q (by omega) h2 h3 (by omega)
  refine ⟨c1, fun _ => c2, fun hdead hpc => ?_⟩
  exfalso
  have := c1.2.2 hdead
  omega

theorem rowInv_init (n m : Nat) : RowInv n m 0 0 Scratch.init := by
  refine ⟨fun _ => 0, ?_, fun q hq => by show 0 + q ≤ m; omega, fun _ _ => rfl, fun _ => rfl,
    fun p q h => by omega, fun p q _ _ _ h => by omega⟩
  have : ∀ N, sumTo (fun _ => 0) N = 0 := by
    intro N
    induction N with
    | zero => rfl
    | succ N ih => simp [sumTo, ih]
  rw [this]
  rfl

theorem rowInv_cursor {n m d pc : Nat} {s : Scratch} (h : RowInv n m d pc s) :
    s.j ≤ tri m := by
  obtain ⟨U, hsum, hb, _⟩ := h
  rw [← hsum]
  exact sumTo_le_tri U m hb

theorem storeSize_small {l : Nat} (hl : l ≤ USHRT_MAX) :
    storeSize l = l * l + (if l = 1 then 1 else 0) + 1 := by
  unfold storeSize
  have hl1 : ¬ l > USHRT_MAX := by omega
  rw [if_neg hl1]
  unfold USHRT_MAX at hl
  have hb : l * l ≤ 65535 * 65535 := Nat.mul_le_mul hl hl
  have e1 : u32 ((l : Int) * (l : Int)) = l * l := by
    rw [← Nat.cast_mul]; exact u32_natCast (by unfold UINT_MAX; omega)
  have e2 : u32 (((l * l : Nat) : Int) + (if l = 1 then 1 else 0)) =
      l * l + (if l = 1 then 1 else 0) := by
    have : ((l * l : Nat) : Int) + (if l = 1 then 1 else 0) =
        ((l * l + (if l = 1 then 1 else 0) : Nat) : Int) := by
      split <;> simp
    rw [this]; exact u32_natCast (by unfold UINT_MAX; split <;> omega)
  have e3 : u32 (((l * l + (if l = 1 then 1 else 0) : Nat) : Int) + 1) =
      l * l + (if l = 1 then 1 else 0) + 1 := by
    have : ((l * l + (if l = 1 then 1 else 0) : Nat) : Int) + 1 =
        ((l * l + (if l = 1 then 1 else 0) + 1 : Nat) : Int) := by
      push_cast; rfl
    rw [this]; exact u32_natCast (by unfold UINT_MAX; split <;> omega)
  rw [e1, e2, e3]

/-- The cursor never exceeds `l (l + 1) / 2` for `l = min(n, m) ≤ USHRT_MAX`. -/
theorem cursor_le_tri {α : Type} (eq : α → α → Bool) (A B : List α)
    (hn : A.length ≤ UINT_MAX) (hl : min A.length B.length ≤ USHRT_MAX) :
    (traverse eq A B).1 ≠ Exit.capacity ∧
    (traverse eq A B).2.j ≤ tri (min A.length B.length) ∧
    ∀ rounds cells steps : Nat, rounds ≤ A.length + B.length →
      bandLo B.length rounds + 2 * (cells : Int) ≤ bandHi A.length rounds →
      (dLoop eq A B rounds 0 Scratch.init).1 = Exit.exhausted →
      (kLoop eq A B (rounds : Int) (bandHi A.length rounds) cells (bandLo B.length rounds)
        (dLoop eq A B rounds 0 Scratch.init).2).1 = none →
      (moment eq A B rounds cells steps).j ≤ tri (min A.length B.length) := by
  by_cases hnm : A.length ≤ B.length
  · rw [Nat.min_eq_left hnm] at hl ⊢
    exact traverse_count (colInv_cellStep eq A B hl) (colInv_roundStep _ _)
      (fun d pc s h => colInv_cursor h) (colInv_init _ _)
  · rw [Nat.min_eq_right (by omega)] at hl ⊢
    exact traverse_count (rowInv_cellStep eq A B hn hl) (rowInv_roundStep _ _)
      (fun d pc s h => rowInv_cursor h) (rowInv_init _ _)

/-- C13. For two sequences with `n ≤ UINT_MAX` and `l = min(n, m) ≤ USHRT_MAX`: the
forward traversal does not stop on the test `j == UINT_MAX`; the cursor `j` it leaves
behind, and the cursor at every moment of the traversal (after `rounds ≤ n + m` complete
rounds of the `d` loop, `cells` complete rounds of the `k` loop of the next distance with
the next cell still in the band, and `steps` rounds of the inner loop of that cell), is at
most `l * l + [l = 1]`; and this bound is `s - 1` for the store size `s` computed by the
code, so every write `c[j]` lands inside the store of `s` entries. -/
theorem cursor_in_store {α : Type} (eq : α → α → Bool) (A B : List α)
    (hn : A.length ≤ UINT_MAX) (hl : min A.length B.length ≤ USHRT_MAX) :
    (traverse eq A B).1 ≠ Exit.capacity ∧
    (traverse eq A B).2.j ≤ min A.length B.length * min A.length B.length +
      (if min A.length B.length = 1 then 1 else 0) ∧
    min A.length B.length * min A.length B.length +
      (if min A.length B.length = 1 then 1 else 0) + 1 = storeSize (min A.length B.length) ∧
    ∀ rounds cells steps : Nat, rounds ≤ A.length + B.length →
      bandLo B.length rounds + 2 * (cells : Int) ≤ bandHi A.length rounds →
      (dLoop eq A B rounds 0 Scratch.init).1 = Exit.exhausted →
      (kLoop eq A B (rounds : Int) (bandHi A.length rounds) cells (bandLo B.length rounds)
        (dLoop eq A B rounds 0 Scratch.init).2).1 = none →
      (moment eq A B rounds cells steps).j ≤ min A.length B.length * min A.length B.length +
        (if min A.length B.length = 1 then 1 else 0) ∧
      (moment eq A B rounds cells steps).j < storeSize (min A.length B.length) := by
  obtain ⟨h1, h2, h3⟩ := cursor_le_tri eq A B hn hl
  have hsq := tri_le_sq (min A.length B.length)
  have hs := storeSize_small hl
  refine ⟨h1, by omega, hs.symm, fun rounds cells steps a b c d => ?_⟩
  have := h3 rounds cells steps a b c d
  constructor
  · omega
  · rw [hs]
    omega

theorem cursor_in_store_witness :
    (([0, 1, 2, 0, 1, 2] : List Nat).length ≤ UINT_MAX ∧
      min ([0, 1, 2, 0, 1, 2] : List Nat).length ([2, 1, 0, 2, 1, 0] : List Nat).length
        ≤ USHRT_MAX) ∧
    storeSize (min ([0, 1, 2, 0, 1, 2] : List Nat).length ([2, 1, 0, 2, 1, 0] : List Nat).length)
      = 37 ∧
    (traverse (fun a b : Nat => a == b) [0, 1, 2, 0, 1, 2] [2, 1, 0, 2, 1, 0]).2.j = 10 ∧
    (moment (fun a b : Nat => a == b) [0, 1, 2, 0, 1, 2] [2, 1, 0, 2, 1, 0] 4 2 1).j = 9 ∧
    (traverse (fun a b : Nat => a == b) [0, 1, 2, 0, 1, 2] [2, 1, 0, 2, 1, 0]).1
      ≠ Exit.capacity ∧
    (traverse (fun a b : Nat => a == b) [0, 1, 2, 0, 1, 2] [2, 1, 0, 2, 1, 0]).2.j ≤
      min ([0, 1, 2, 0, 1, 2] : List Nat).length ([2, 1, 0, 2, 1, 0] : List Nat).length *
        min ([0, 1, 2, 0, 1, 2] : List Nat).length ([2, 1, 0, 2, 1, 0] : List Nat).length +
      (if min ([0, 1, 2, 0, 1, 2] : List Nat).length ([2, 1, 0, 2, 1, 0] : List Nat).length = 1
        then 1 else 0) ∧
    (moment (fun a b : Nat => a == b) [0, 1, 2, 0, 1, 2] [2, 1, 0, 2, 1, 0] 4 2 1).j <
      storeSize
        (min ([0, 1, 2, 0, 1, 2] : List Nat).length ([2, 1, 0, 2, 1, 0] : List Nat).length) :=
  ⟨⟨by decide, by decide⟩, rfl, rfl, rfl,
    (cursor_in_store (fun a b : Nat => a == b) [0, 1, 2, 0, 1, 2] [2, 1, 0, 2, 1, 0]
      (by decide) (by decide)).1,
    (cursor_in_store (fun a b : Nat => a == b) [0, 1, 2, 0, 1, 2] [2, 1, 0, 2, 1, 0]
      (by decide) (by decide)).2.1,
    ((cursor_in_store (fun a b : Nat => a == b) [0, 1, 2, 0, 1, 2] [2, 1, 0, 2, 1, 0]
      (by decide) (by decide)).2.2.2 4 2 1 (by decide) (by decide) rfl rfl).2⟩

end Versus
